import Mathlib

/-!
# Witcher Tracker: a shallow embedding of `src/main.c`

The command interpreter of `main.c` is embedded as pure functions.

* A C string is a `List Char` (`CStr`); the terminating NUL is the end of the list.
* The token array `tokens[MAX_TOKENS][MAX_TOKEN_LENGTH]` filled by `tokenizeInput` is the
  list of the tokens written, in order; its length is the returned `count`.  Reading
  `tokens[k]` with `k >= count` yields the empty string.
* The five global tables are lists holding the slots of the array in index order; every
  slot past the end of the list is a zeroed slot (empty name, quantity 0), as in the
  zero-initialised static arrays.  A list describes an array of `MAX_* = 1024` slots as
  long as every slot it uses has an index below the capacity.  The source looks for a free
  slot among the indices below the capacity and, when there is none, goes on with the
  index `-1` (or, in `executeLootAction`, with the index `num_ingredients` past the array);
  these runs are outside the embedding, and every statement that depends on an insertion
  carries the hypothesis that the table has room.
* `int` quantities are integers (`Int`) kept within the range of `int`: every `+=`, `-=`
  and `++` of the source stores its result reduced to 32 bits (`toInt32`), and `atoi`
  converts its `long` to `int` in the same way.
* `printf` output is returned as the text printed.
-/

namespace Witcher

/-- A C string. -/
abbrev CStr := List Char

def MAX_INPUT_LENGTH : Nat := 1024
def MAX_TOKEN_LENGTH : Nat := 1024
def MAX_TOKENS : Nat := 64
def MAX_NAME_LENGTH : Nat := 1024
def MAX_INGREDIENTS : Nat := 1024
def MAX_TROPHIES : Nat := 1024
def MAX_POTIONS : Nat := 1024
def MAX_POTION_INGREDIENTS : Nat := 1024

/-! ## Character classes of `<ctype.h>` (C locale) -/

/-- C `isspace`: space, `\t`, `\n`, `\v`, `\f`, `\r`. -/
def isspace (c : Char) : Bool :=
  c.toNat == 32 || (9 ≤ c.toNat && c.toNat ≤ 13)

/-- C `isdigit`. -/
def isdigit (c : Char) : Bool :=
  48 ≤ c.toNat && c.toNat ≤ 57

/-- C `isalpha`: `A`-`Z` and `a`-`z`. -/
def isalpha (c : Char) : Bool :=
  (65 ≤ c.toNat && c.toNat ≤ 90) || (97 ≤ c.toNat && c.toNat ≤ 122)

/-- The value of a decimal digit character. -/
def digitVal (c : Char) : Nat := c.toNat - 48

/-- The number denoted by a run of digits, most significant first, starting from `acc`. -/
def digitsValue : Nat → CStr → Nat
  | acc, [] => acc
  | acc, c :: cs => digitsValue (acc * 10 + digitVal c) cs

/-- Reduction to an `int`: the value modulo `2^32`, read as two's complement.  It is the
conversion of a `long` to `int` and the value that an `int` addition or subtraction stores
when the mathematical result leaves the range of `int`. -/
def toInt32 (n : Int) : Int :=
  let m := n % 4294967296
  if m < 2147483648 then m else m - 4294967296

/-- C `atoi` as in glibc (`(int) strtol (s, NULL, 10)` with a 64-bit `long`): leading
white space is skipped, an optional sign is read, then the longest run of digits; the
value saturates at `LONG_MAX` / `LONG_MIN` and is then converted to `int`. -/
def atoi (s : CStr) : Int :=
  let s1 := s.dropWhile isspace
  let neg : Bool := s1.head? == some '-'
  let s2 := if s1.head? == some '-' || s1.head? == some '+' then s1.tail else s1
  let v : Nat := digitsValue 0 (s2.takeWhile isdigit)
  if neg then toInt32 (-(Int.ofNat (min v 9223372036854775808)))
  else toInt32 (Int.ofNat (min v 9223372036854775807))

/-- Source `isPositiveInteger`: non-empty, no leading zero unless the token is `0`,
digits only, and `atoi(token) > 0`. -/
def isPositiveInteger (token : CStr) : Bool :=
  match token with
  | [] => false
  | c :: rest =>
    if c == '0' && !rest.isEmpty then false
    else if !(token.all isdigit) then false
    else decide (atoi token > 0)

/-- Source `isAlphabeticOnly`: non-empty and every character satisfies `isalpha`. -/
def isAlphabeticOnly (token : CStr) : Bool :=
  !token.isEmpty && token.all isalpha

/-! ## The tokenizer `tokenizeInput` -/

/-- Whether `kw` is an initial segment of `s` (`strncmp(s, kw, strlen(kw)) == 0`). -/
def startsWith : CStr → CStr → Bool
  | [], _ => true
  | _ :: _, [] => false
  | k :: ks, c :: cs => k == c && startsWith ks cs

/-- The recurring test
`strncmp(input + i, kw, n) == 0 && (isspace(input[i+n]) || input[i+n] == '\0')`
on the rest `s` of the input from position `i`. -/
def atWord (kw : CStr) (s : CStr) : Bool :=
  startsWith kw s &&
    (match s.drop kw.length with
     | [] => true
     | c :: _ => isspace c)

/-- The loop `while (i < inputLen && isspace(input[i])) i++;`. -/
def skipSpaces (s : CStr) : CStr := s.dropWhile isspace

/-- Removal of trailing white space (`while (end > start && isspace(input[end-1])) end--`). -/
def trimRight (s : CStr) : CStr := (s.reverse.dropWhile isspace).reverse

/-- A character that ends a plain token: white space or a comma. -/
def isSep (c : Char) : Bool := isspace c || c == ','

/-- The generic token loop, which the source repeats verbatim after `Geralt trades`, after
every `?` and as the final fallback:
```
while (i < inputLen && count < MAX_TOKENS) {
    skip spaces; if (i >= inputLen) break;
    if (input[i] == ',') { token ","; i++; continue; }
    read the run of characters that are neither ',' nor space;
    if (0 < len && len < MAX_TOKEN_LENGTH) store it as a token;
}
```
`s` is the input from position `i`, `count` the tokens stored so far; the result is the
list of tokens the loop stores.  Every iteration consumes a character, so `fuel` equal
to the length of `s` is enough. -/
def lexLoop : Nat → CStr → Nat → List CStr
  | 0, _, _ => []
  | fuel + 1, s, count =>
    if s.isEmpty || count ≥ MAX_TOKENS then []
    else
      match skipSpaces s with
      | [] => []
      | c :: rest =>
        if c == ',' then [','] :: lexLoop fuel rest (count + 1)
        else
          let tok := (c :: rest).takeWhile (fun x => !isSep x)
          let s2 := (c :: rest).dropWhile (fun x => !isSep x)
          if 0 < tok.length && tok.length < MAX_TOKEN_LENGTH then
            tok :: lexLoop fuel s2 (count + 1)
          else lexLoop fuel s2 count

/-- The tokens `toks` followed by what the generic loop reads from `s`. -/
def lexRest (toks : List CStr) (s : CStr) : List CStr :=
  toks ++ lexLoop s.length s toks.length

/-- The tail shared by the three places of the `What` branch that read a name up to the
`?`: the span from the current position to the first `?` (or the end of the input), with
trailing spaces removed, is one token (possibly empty); a span of `MAX_TOKEN_LENGTH` or
more characters makes the tokenizer return 0.  If a `?` is present it becomes a token and
the generic loop reads what follows it. -/
def lexNameThenQuestion (toks : List CStr) (s : CStr) : List CStr :=
  let name := trimRight (s.takeWhile (fun c => c != '?'))
  if name.length ≥ MAX_TOKEN_LENGTH then []
  else
    match s.dropWhile (fun c => c != '?') with
    | [] => toks ++ [name]
    | _ :: after => lexRest (toks ++ [name, ['?']]) after

/-- The fallback of the `What` branch: the loop over `expected[] = { "is", "in" }`, entered
with the tokens stored so far and the current position, followed by the name and `?`. -/
def lexWhatExpected (toks : List CStr) (s : CStr) : List CStr :=
  -- j = 0 : "is"   (the loop guard `count < MAX_TOKENS` always holds here: count <= 3)
  if atWord "is".toList s then
    let s1 := skipSpaces (s.drop 2)
    if atWord "in".toList s1 then
      lexNameThenQuestion (toks ++ ["is".toList, "in".toList]) (skipSpaces (s1.drop 2))
    else []
  else []

/-- The branch of `tokenizeInput` for input starting with the word `What`; `s` is the input
after `What`. -/
def lexWhat (s : CStr) : List CStr :=
  let s1 := skipSpaces s
  if atWord "is".toList s1 then
    let s2 := skipSpaces (s1.drop 2)
    if atWord "in".toList s2 then
      lexNameThenQuestion ["What".toList, "is".toList, "in".toList] (skipSpaces (s2.drop 2))
    else if atWord "effective".toList s2 then
      let s3 := skipSpaces (s2.drop 9)
      if atWord "against".toList s3 then
        lexNameThenQuestion
          ["What".toList, "is".toList, "effective".toList, "against".toList]
          (skipSpaces (s3.drop 7))
      else lexWhatExpected ["What".toList, "is".toList, "effective".toList] s3
    else lexWhatExpected ["What".toList, "is".toList] s2
  else lexWhatExpected ["What".toList] s1

/-- The branch of `tokenizeInput` for input starting with the word `Total`; `s` is the input
after `Total`. -/
def lexTotal (s : CStr) : List CStr :=
  let s1 := skipSpaces s
  let category := s1.takeWhile (fun c => !isspace c && c != '?')
  let s2 := s1.dropWhile (fun c => !isspace c && c != '?')
  if category.length ≥ MAX_TOKEN_LENGTH then []
  else
    let toks := ["Total".toList, category]
    let s3 := skipSpaces s2
    match s3 with
    | [] => toks
    | c :: after =>
      if c == '?' then lexRest (toks ++ [['?']]) after
      else
        -- here `i < inputLen` and `input[i] != '?'`, so the second test
        -- `if (i >= inputLen || input[i] == '?')` of the source is not taken;
        -- item name: up to the first '?' or the end, trailing spaces removed
        let item := trimRight (s3.takeWhile (fun x => x != '?'))
        if item.getLast? == some '?' && item.length < MAX_TOKEN_LENGTH then
          lexRest (toks ++ [item.dropLast, ['?']]) (s3.drop item.length)
        else
          match s3.dropWhile (fun x => x != '?') with
          | [] => toks ++ [item]
          | _ :: rest => lexRest (toks ++ [item, ['?']]) rest

/-- The ingredient-list loop of the `learns ... potion consists of` branch:
```
while (i < inputLen && count < MAX_TOKENS) {
    skip spaces; if (i >= inputLen) break;
    if (isdigit(input[i])) { digit run; skip spaces; name run; skip spaces; optional ','; }
    else                   { word run; skip spaces; optional ','; }
}
```
An iteration stores up to three tokens and tests `count` only at its start. -/
def lexFormulaLoop : Nat → CStr → Nat → List CStr
  | 0, _, _ => []
  | fuel + 1, s, count =>
    if s.isEmpty || count ≥ MAX_TOKENS then []
    else
      match skipSpaces s with
      | [] => []
      | c :: rest =>
        if isdigit c then
          let num := (c :: rest).takeWhile isdigit
          let r1 := (c :: rest).dropWhile isdigit
          let numTok : List CStr :=
            if 0 < num.length && num.length < MAX_TOKEN_LENGTH then [num] else []
          let r2 := skipSpaces r1
          let name := r2.takeWhile (fun x => !isSep x)
          let r3 := r2.dropWhile (fun x => !isSep x)
          let nameTok : List CStr :=
            if 0 < name.length && name.length < MAX_TOKEN_LENGTH then [name] else []
          match skipSpaces r3 with
          | [] => numTok ++ nameTok
          | d :: r5 =>
            if d == ',' then
              numTok ++ nameTok ++ [[',']] ++
                lexFormulaLoop fuel r5 (count + numTok.length + nameTok.length + 1)
            else
              numTok ++ nameTok ++
                lexFormulaLoop fuel (d :: r5) (count + numTok.length + nameTok.length)
        else
          let word := (c :: rest).takeWhile (fun x => !isSep x)
          let r1 := (c :: rest).dropWhile (fun x => !isSep x)
          let wordTok : List CStr :=
            if 0 < word.length && word.length < MAX_TOKEN_LENGTH then [word] else []
          match skipSpaces r1 with
          | [] => wordTok
          | d :: r3 =>
            if d == ',' then
              wordTok ++ [[',']] ++ lexFormulaLoop fuel r3 (count + wordTok.length + 1)
            else
              wordTok ++ lexFormulaLoop fuel (d :: r3) (count + wordTok.length)

/-- The `consists of` part of the `learns` branch.  `toks` are the tokens stored so far
and `after` is the input from `wordEnd`, the end of the word `sign` / `potion`. -/
def lexConsists (toks : List CStr) (after : CStr) : List CStr :=
  let q := skipSpaces after
  if atWord "consists".toList q then
    let q2 := skipSpaces (q.drop 8)
    if atWord "of".toList q2 then
      let toks2 := toks ++ ["consists".toList, "of".toList]
      toks2 ++ lexFormulaLoop (q2.drop 2).length (q2.drop 2) toks2.length
    else []
  else []

/-- What the `learns` branch does once the word `sign` / `potion` has been found and the
name stored: first the attempt at `is effective against <monster>`, whose keywords are
stored as they match, then the `consists of` attempt from `wordEnd`. -/
def lexLearnsTail (toks : List CStr) (after : CStr) : List CStr :=
  let p := skipSpaces after
  if atWord "is".toList p then
    let toksA := toks ++ ["is".toList]
    let p2 := skipSpaces (p.drop 2)
    if atWord "effective".toList p2 then
      let toksB := toksA ++ ["effective".toList]
      let p3 := skipSpaces (p2.drop 9)
      if atWord "against".toList p3 then
        let toksC := toksB ++ ["against".toList]
        let monster := skipSpaces (p3.drop 7)
        if 0 < monster.length && monster.length < MAX_TOKEN_LENGTH then toksC ++ [monster]
        else toksC
      else lexConsists toksB after
    else lexConsists toksA after
  else lexConsists toks after

/-- The word loop of the `learns` branch.  `start` is the input from `learnsStartPos`,
`off` the offset of `i` from it and `tempCount` the number of words read so far.  The
first word equal to `sign` or `potion` ends the loop: if it is the first word at all the
tokenizer returns 0, otherwise the text between `learnsStartPos` and that word, with
surrounding white space removed, is the name token. -/
def lexLearnsLoop : Nat → CStr → Nat → Nat → List CStr
  | 0, _, _, _ => []
  | fuel + 1, start, off, tempCount =>
    let s := start.drop off
    if s.isEmpty || tempCount ≥ MAX_NAME_LENGTH then []
    else
      let ws := (s.takeWhile isspace).length
      let s1 := s.drop ws
      if s1.isEmpty then []
      else
        let word := s1.takeWhile (fun c => !isspace c)
        let wordStart := off + ws
        let wordEnd := wordStart + word.length
        if word.length == 0 then []
        else if word == "sign".toList || word == "potion".toList then
          if tempCount + 1 ≥ 2 then
            let name := trimRight (skipSpaces (start.take wordStart))
            if name.length == 0 || name.length ≥ MAX_TOKEN_LENGTH then []
            else
              lexLearnsTail ["Geralt".toList, "learns".toList, name, word]
                (start.drop wordEnd)
          else []
        else lexLearnsLoop fuel start wordEnd (tempCount + 1)

/-- Source `tokenizeInput`: the tokens written to `tokens[0 .. count-1]`.  A `return 0`
of the source is the empty list. -/
def tokenizeInput (input : CStr) : List CStr :=
  let s0 := skipSpaces input
  if atWord "What".toList s0 then lexWhat (s0.drop 4)
  else if atWord "Total".toList s0 then lexTotal (s0.drop 5)
  else if atWord "Geralt".toList s0 then
    let s1 := skipSpaces (s0.drop 6)
    if atWord "brews".toList s1 then
      -- the rest of the line, at most MAX_TOKEN_LENGTH - 1 characters, is the potion name
      let name := (skipSpaces (s1.drop 5)).take (MAX_TOKEN_LENGTH - 1)
      if 0 < name.length then ["Geralt".toList, "brews".toList, name]
      else ["Geralt".toList, "brews".toList]
    else if atWord "learns".toList s1 then
      let start := skipSpaces (s1.drop 6)
      lexLearnsLoop (start.length + 1) start 0 0
    else if atWord "trades".toList s1 then
      lexRest ["Geralt".toList, "trades".toList] (s1.drop 6)
    else lexRest [] input
  else lexRest [] input

/-! ## The grammar validators -/

/-- Command types. -/
inductive CommandType where
  | INVALID_COMMAND
  | ACTION_LOOT
  | ACTION_TRADE
  | ACTION_BREW
  | KNOWLEDGE_EFFECTIVENESS
  | KNOWLEDGE_POTION_FORMULA
  | ENCOUNTER
  | QUERY_SPECIFIC_INVENTORY
  | QUERY_ALL_INVENTORY
  | QUERY_BESTIARY
  | QUERY_ALCHEMY
  | EXIT_COMMAND
  deriving DecidableEq, Repr

/-- The token `tokens[i]`; the empty string when `i` is not below the token count. -/
def tokAt (tokens : List CStr) (i : Nat) : CStr := tokens.getD i []

/-- Source `hasCommaSpacingError`: some token is the marker `ERROR_NO_SPACE_AFTER_COMMA`. -/
def hasCommaSpacingError (tokens : List CStr) : Bool :=
  tokens.any (fun t => t == "ERROR_NO_SPACE_AFTER_COMMA".toList)

/-- Whether the last token is a comma (`count > 0 && strcmp(tokens[count-1], ",") == 0`). -/
def lastIsComma (tokens : List CStr) : Bool := tokens.getLast? == some [',']

/-- The index of the first token equal to `kw` in `ts`, whose first element has index `i`. -/
def findTokenFrom (kw : CStr) : List CStr → Nat → Option Nat
  | [], _ => none
  | t :: ts, i => if t == kw then some i else findTokenFrom kw ts (i + 1)

/-- The item loop of `isLootAction` (`for (i = 2; i < count; i += 3)`) on the tokens from
index `i`: a quantity, a name, and a comma if more tokens follow. -/
def lootItemsOk : List CStr → Bool
  | [] => true
  | q :: rest =>
    isPositiveInteger q &&
      (match rest with
       | [] => false
       | n :: rest2 =>
         isAlphabeticOnly n &&
           (match rest2 with
            | [] => true
            | c :: rest3 => c == [','] && lootItemsOk rest3))

/-- Source `isLootAction`. -/
def isLootAction (input : CStr) : Bool :=
  let tokens := tokenizeInput input
  if hasCommaSpacingError tokens then false
  else if tokens.length < 4 then false
  else if tokAt tokens 0 != "Geralt".toList || tokAt tokens 1 != "loots".toList then false
  else if !lootItemsOk (tokens.drop 2) then false
  else if lastIsComma tokens then false
  else true

/-- The trophy loop of `isTradeAction` on the tokens `tokens[i .. forIndex-1]`, entered
expecting a quantity: quantity, name, then either the keyword `trophy` as the very last
token before `for`, or a comma and a further entry. -/
def tradeTrophiesOk : List CStr → Bool
  | [] => false
  | q :: rest =>
    isPositiveInteger q &&
      (match rest with
       | [] => false
       | n :: rest2 =>
         isAlphabeticOnly n &&
           (match rest2 with
            | [] => false
            | k :: rest3 =>
              if k == "trophy".toList && rest3.isEmpty then true
              else if k == [','] then tradeTrophiesOk rest3
              else false))

/-- The ingredient loop of `isTradeAction` on the tokens after `for`, entered expecting a
quantity: quantity, name, and then either the end or a comma followed by a further
entry. -/
def tradeItemsOk : List CStr → Bool
  | [] => false
  | q :: rest =>
    isPositiveInteger q &&
      (match rest with
       | [] => false
       | n :: rest2 =>
         isAlphabeticOnly n &&
           (match rest2 with
            | [] => true
            | k :: rest3 => k == [','] && !rest3.isEmpty && tradeItemsOk rest3))

/-- Source `isTradeAction`. -/
def isTradeAction (input : CStr) : Bool :=
  let tokens := tokenizeInput input
  if tokAt tokens 0 != "Geralt".toList || tokAt tokens 1 != "trades".toList then false
  else
    match findTokenFrom "for".toList (tokens.drop 2) 2 with
    | none => false
    | some forIndex =>
      if forIndex ≤ 4 || forIndex + 2 ≥ tokens.length then false
      else if !tradeTrophiesOk ((tokens.take forIndex).drop 2) then false
      else tradeItemsOk (tokens.drop (forIndex + 1))

/-- The scan shared by `isBrewAction` and `isValidPotionNameToken`: letters and single
spaces only, never two spaces in a row. -/
def potionNameScan : CStr → Bool → Bool
  | [], _ => true
  | c :: cs, lastWasSpace =>
    if c == ' ' then
      if lastWasSpace then false else potionNameScan cs true
    else if !isalpha c then false
    else potionNameScan cs false

/-- Source `isBrewAction`. -/
def isBrewAction (input : CStr) : Bool :=
  let tokens := tokenizeInput input
  if tokens.length < 3 then false
  else if tokAt tokens 0 != "Geralt".toList || tokAt tokens 1 != "brews".toList then false
  else potionNameScan (tokAt tokens 2) false

/-- Source `isValidPotionNameToken`. -/
def isValidPotionNameToken (token : CStr) : Bool :=
  if token.isEmpty then false else potionNameScan token false

/-- Source `isEffectivenessKnowledge`. -/
def isEffectivenessKnowledge (input : CStr) : Bool :=
  let tokens := tokenizeInput input
  if tokens.length < 5 || tokAt tokens 0 != "Geralt".toList
      || tokAt tokens 1 != "learns".toList then false
  else
    let type := tokAt tokens 3
    let itemName := tokAt tokens 2
    if !(type == "potion".toList || type == "sign".toList) then false
    else if tokAt tokens 4 != "is".toList || tokAt tokens 5 != "effective".toList
        || tokAt tokens 6 != "against".toList then false
    else if tokens.length != 8 || !isAlphabeticOnly (tokAt tokens 7) then false
    else if type == "sign".toList then isAlphabeticOnly itemName
    else isValidPotionNameToken itemName

/-- The ingredient loop of `isPotionFormulaKnowledge` on the tokens after `of`. -/
def formulaItemsOk : List CStr → Bool
  | [] => true
  | q :: rest =>
    isPositiveInteger q &&
      (match rest with
       | [] => false
       | n :: rest2 =>
         isAlphabeticOnly n &&
           (match rest2 with
            | [] => true
            | k :: rest3 => k == [','] && !rest3.isEmpty && formulaItemsOk rest3))

/-- Source `isPotionFormulaKnowledge`.  The three indices are the first occurrences of
`potion`, `consists` and `of` from index 2 on (the `else if` chain of the source finds
exactly these, the three keywords being different strings). -/
def isPotionFormulaKnowledge (input : CStr) : Bool :=
  let tokens := tokenizeInput input
  if tokens.length < 7 then false
  else if hasCommaSpacingError tokens then false
  else if lastIsComma tokens then false
  else if tokAt tokens 0 != "Geralt".toList || tokAt tokens 1 != "learns".toList then false
  else
    match findTokenFrom "potion".toList (tokens.drop 2) 2,
          findTokenFrom "consists".toList (tokens.drop 2) 2,
          findTokenFrom "of".toList (tokens.drop 2) 2 with
    | some potionIndex, some consistsIndex, some ofIndex =>
      if !(1 < potionIndex && potionIndex < consistsIndex && consistsIndex < ofIndex) then
        false
      else if !(((tokens.take potionIndex).drop 2).all isValidPotionNameToken) then false
      else if !(potionIndex + 1 == consistsIndex && consistsIndex + 1 == ofIndex) then false
      else formulaItemsOk (tokens.drop (ofIndex + 1))
    | _, _, _ => false

/-- Source `isEncounterSentence`. -/
def isEncounterSentence (input : CStr) : Bool :=
  let tokens := tokenizeInput input
  if tokens.length != 4 then false
  else if tokAt tokens 0 != "Geralt".toList || tokAt tokens 1 != "encounters".toList
      || tokAt tokens 2 != "a".toList then false
  else isAlphabeticOnly (tokAt tokens 3)

/-- Source `isInventoryQuery`: the returned flag and the value stored in `*isSpecific`
(`false` when the function returns before the store). -/
def isInventoryQuery (input : CStr) : Bool × Bool :=
  let tokens := tokenizeInput input
  if tokens.length < 3 || tokens.length > 4 then (false, false)
  else if tokAt tokens (tokens.length - 1) != ['?'] then (false, false)
  else if tokAt tokens 0 != "Total".toList then (false, false)
  else if tokAt tokens 1 != "ingredient".toList && tokAt tokens 1 != "potion".toList
      && tokAt tokens 1 != "trophy".toList then (false, false)
  else
    let isSpecific := tokens.length == 4
    if isSpecific then
      if tokAt tokens 1 == "ingredient".toList || tokAt tokens 1 == "trophy".toList then
        if !isAlphabeticOnly (tokAt tokens 2) then (false, isSpecific) else (true, isSpecific)
      else if tokAt tokens 1 == "potion".toList then
        if !isValidPotionNameToken (tokAt tokens 2) then (false, isSpecific)
        else (true, isSpecific)
      else (true, isSpecific)
    else (true, isSpecific)

/-- Source `isBestiaryQuery`. -/
def isBestiaryQuery (input : CStr) : Bool :=
  let tokens := tokenizeInput input
  if tokens.length != 6 then false
  else if tokAt tokens 0 != "What".toList || tokAt tokens 1 != "is".toList
      || tokAt tokens 2 != "effective".toList || tokAt tokens 3 != "against".toList then false
  else if !isAlphabeticOnly (tokAt tokens 4) then false
  else if tokAt tokens 5 != ['?'] then false
  else true

/-- Source `isAlchemyQuery`. -/
def isAlchemyQuery (input : CStr) : Bool :=
  let tokens := tokenizeInput input
  if tokens.length < 5 then false
  else if tokAt tokens 0 != "What".toList || tokAt tokens 1 != "is".toList
      || tokAt tokens 2 != "in".toList then false
  else if tokAt tokens (tokens.length - 1) != ['?'] then false
  else ((tokens.take (tokens.length - 1)).drop 3).all isValidPotionNameToken

/-- Source `isExitCommand`. -/
def isExitCommand (input : CStr) : Bool :=
  let tokens := tokenizeInput input
  tokens.length == 1 && tokAt tokens 0 == "Exit".toList

/-- Source `isValidCommand`: the command type stored in `*cmdType`; the function returns
`false` exactly when this is `INVALID_COMMAND`. -/
def isValidCommand (input : CStr) : CommandType :=
  if isLootAction input then .ACTION_LOOT
  else if isTradeAction input then .ACTION_TRADE
  else if isBrewAction input then .ACTION_BREW
  else if isEffectivenessKnowledge input then .KNOWLEDGE_EFFECTIVENESS
  else if isPotionFormulaKnowledge input then .KNOWLEDGE_POTION_FORMULA
  else if isEncounterSentence input then .ENCOUNTER
  else if (isInventoryQuery input).1 then
    if (isInventoryQuery input).2 then .QUERY_SPECIFIC_INVENTORY else .QUERY_ALL_INVENTORY
  else if isBestiaryQuery input then .QUERY_BESTIARY
  else if isAlchemyQuery input then .QUERY_ALCHEMY
  else if isExitCommand input then .EXIT_COMMAND
  else .INVALID_COMMAND

/-! ## The world model -/

/-- Source `Ingredient`. -/
structure Ingredient where
  name : CStr
  quantity : Int
  deriving DecidableEq, Repr

/-- Source `Trophy`. -/
structure Trophy where
  name : CStr
  quantity : Int
  deriving DecidableEq, Repr

/-- Source `Potion`.  `requirements` holds, for `k < ingredients_count`, the pair
`(ingredient_indices[k], ingredient_quantities[k])`; `quantity` is the stock. -/
structure Potion where
  name : CStr
  requirements : List (Nat × Int)
  quantity : Int
  deriving DecidableEq, Repr

/-- Source `Sign`. -/
structure Sign where
  name : CStr
  deriving DecidableEq, Repr

/-- Source `Beast`.  The two lists hold the first `effective_signs_count` entries of
`effective_sign_indices` and the first `effective_potions_count` entries of
`effective_potion_indices`; a potion entry below `MAX_POTIONS` is an index into
`potions`, an entry `MAX_POTIONS + i` refers to the name stored in `signs[i]`. -/
structure Beast where
  name : CStr
  effective_sign_indices : List Nat
  effective_potion_indices : List Nat
  deriving DecidableEq, Repr

instance : Inhabited Ingredient := ⟨⟨[], 0⟩⟩
instance : Inhabited Trophy := ⟨⟨[], 0⟩⟩
instance : Inhabited Potion := ⟨⟨[], [], 0⟩⟩
instance : Inhabited Sign := ⟨⟨[]⟩⟩
instance : Inhabited Beast := ⟨⟨[], [], []⟩⟩

/-- The global state of `main.c`: the five tables and the two counters. -/
structure World where
  ingredients : List Ingredient
  num_ingredients : Nat
  trophies : List Trophy
  potions : List Potion
  potionsCount : Nat
  signs : List Sign
  beasts : List Beast
  deriving DecidableEq, Repr

/-- The state at program start: all tables zeroed. -/
def World.init : World :=
  { ingredients := [], num_ingredients := 0, trophies := [], potions := [],
    potionsCount := 0, signs := [], beasts := [] }

/-- The slot `arr[i]`: a zeroed slot when `i` is past the end of the list. -/
def slotAt {α : Type} [Inhabited α] (arr : List α) (i : Nat) : α := arr.getD i default

/-- The assignment `arr[i] = f(arr[i])`; slots between the end of the list and `i` are
materialised as zeroed slots. -/
def updSlot {α : Type} [Inhabited α] (f : α → α) : List α → Nat → List α
  | [], 0 => [f default]
  | [], n + 1 => default :: updSlot f [] n
  | x :: xs, 0 => f x :: xs
  | x :: xs, n + 1 => x :: updSlot f xs n

/-- The index of the first slot of `arr` satisfying `p`, the first element of `arr` having
index `i` (a `for` loop over the array that stops at the first hit). -/
def findSlot {α : Type} (p : α → Bool) : List α → Nat → Option Nat
  | [], _ => none
  | x :: xs, i => if p x then some i else findSlot p xs (i + 1)

/-- The first `n` slots of the array. -/
def prefixSlots {α : Type} [Inhabited α] (arr : List α) (n : Nat) : List α :=
  (arr ++ List.replicate (n - arr.length) default).take n

/-- The index of the first slot whose name is empty: a slot of the list if one qualifies,
else the first slot past the end of the list, which is a zeroed slot.  The loops of the
source that look for an empty slot run over the indices below the capacity `MAX_*` and
find this slot when it lies below the capacity; when the table is full they leave their
index at `-1`, a run that the embedding does not describe.  Statements about an insertion
assume `firstFree ... < MAX_*`, or that the list is short enough for it. -/
def firstFree {α : Type} (isFree : α → Bool) (arr : List α) : Nat :=
  (findSlot isFree arr 0).getD arr.length

/-- What one call of an executor yields: the value returned, the text printed and the
state afterwards. -/
structure Outcome where
  ret : Int
  out : CStr
  world : World
  deriving DecidableEq, Repr

/-! ## `executeLootAction` -/

/-- One iteration of the loop of `executeLootAction` on the pair `(quantity, name)`:
the search over `i < num_ingredients`, the insertion at index `num_ingredients` when the
name is not found, and the `int` addition `+=`.  The source inserts without comparing
`num_ingredients` with `MAX_INGREDIENTS`; the definition describes it while
`num_ingredients < MAX_INGREDIENTS`, where the slot written is a slot of the array. -/
def lootItem (w : World) (quantity : Int) (name : CStr) : World :=
  match findSlot (fun (x : Ingredient) => x.name == name)
      (prefixSlots w.ingredients w.num_ingredients) 0 with
  | some idx =>
    { w with
      ingredients :=
        updSlot (fun x => { x with quantity := toInt32 (x.quantity + quantity) })
          w.ingredients idx }
  | none =>
    let named := updSlot (fun x => { x with name := name }) w.ingredients w.num_ingredients
    { w with
      ingredients :=
        updSlot (fun x => { x with quantity := toInt32 (x.quantity + quantity) }) named
          w.num_ingredients
      num_ingredients := w.num_ingredients + 1 }

/-- The loop `while (token_index < count)` of `executeLootAction` on the tokens from
`token_index` on: a quantity token, a name token (the empty string if the tokens end
there), and a comma that is skipped if present. -/
def lootLoop : List CStr → World → World
  | [], w => w
  | [q], w => lootItem w (atoi q) []
  | [q, n], w => lootItem w (atoi q) n
  | q :: n :: c :: rest, w =>
    if c == [','] then lootLoop rest (lootItem w (atoi q) n)
    else lootLoop (c :: rest) (lootItem w (atoi q) n)

/-- Source `executeLootAction`. -/
def executeLootAction (w : World) (input : CStr) : Outcome :=
  let tokens := tokenizeInput input
  { ret := 0, out := "Alchemy ingredients obtained\n".toList,
    world := lootLoop (tokens.drop 2) w }

/-! ## `executeTradeAction` -/

/-- The name buffer built by `strcat`: the tokens joined by single spaces. -/
def joinWords (toks : List CStr) : CStr :=
  toks.foldl (fun acc t => if acc.length > 0 then acc ++ [' '] ++ t else acc ++ t) []

/-- A token that ends a trophy name in `executeTradeAction`. -/
def isTrophyStop (t : CStr) : Bool :=
  t == "trophy".toList || t == [','] || t == "for".toList

/-- The parsing loop of `executeTradeAction` on the tokens from `token_index` on:
the lists `required_trophies` and `gained_ingredients` as `(name, quantity)` pairs.
`parsing` is the flag `parsing_trophies`.  Every iteration consumes a token. -/
def tradeParse : Nat → List CStr → Bool → List (CStr × Int) × List (CStr × Int)
  | 0, _, _ => ([], [])
  | _ + 1, [], _ => ([], [])
  | fuel + 1, t :: rest, parsing =>
    if t == "for".toList then tradeParse fuel rest false
    else
      let quantity := atoi t
      if parsing then
        let item_name := joinWords (rest.takeWhile (fun x => !isTrophyStop x))
        let rest1 := rest.dropWhile (fun x => !isTrophyStop x)
        let rest2 := if rest1.head? == some "trophy".toList then rest1.tail else rest1
        let rest3 := if rest2.head? == some [','] then rest2.tail else rest2
        let r := tradeParse fuel rest3 true
        ((item_name, quantity) :: r.1, r.2)
      else
        let item_name := rest.headD []
        let rest1 := rest.tail
        let rest2 := if rest1.head? == some [','] then rest1.tail else rest1
        let r := tradeParse fuel rest2 false
        (r.1, (item_name, quantity) :: r.2)

/-- The loop that looks the required trophies up (`trophies[j].quantity > 0` and equal
name) and stops at the first one that is missing or short: the indices found if all are
there (`has_enough_trophies`), `none` otherwise. -/
def tradeCheck (trophies : List Trophy) : List (CStr × Int) → Option (List (Nat × Int))
  | [] => some []
  | (name, quantity) :: rest =>
    match findSlot (fun (t : Trophy) => decide (t.quantity > 0) && t.name == name)
        trophies 0 with
    | none => none
    | some j =>
      if (slotAt trophies j).quantity < quantity then none
      else (tradeCheck trophies rest).map (fun l => (j, quantity) :: l)

/-- The loop that resolves the gained ingredients to slots of `ingredients`, run
whether or not the trophies suffice: a name not found among the non-empty names takes the
first slot with an empty name, whose quantity is set to 0.  In the source the slot is
looked for below `MAX_INGREDIENTS`; on a table without such a slot the source makes no
record and keeps the index `-1`, which the definition does not describe. -/
def tradeResolve : List Ingredient → List (CStr × Int) → List Ingredient × List (Nat × Int)
  | ings, [] => (ings, [])
  | ings, (name, quantity) :: rest =>
    match findSlot (fun (x : Ingredient) => !x.name.isEmpty && x.name == name) ings 0 with
    | some j =>
      let r := tradeResolve ings rest
      (r.1, (j, quantity) :: r.2)
    | none =>
      let j := firstFree (fun (x : Ingredient) => x.name.isEmpty) ings
      let ings1 := updSlot (fun _ => ({ name := name, quantity := 0 } : Ingredient)) ings j
      let r := tradeResolve ings1 rest
      (r.1, (j, quantity) :: r.2)

/-- The loop `trophies[index].quantity -= quantity`, an `int` subtraction. -/
def reduceTrophies : List Trophy → List (Nat × Int) → List Trophy
  | ts, [] => ts
  | ts, (j, quantity) :: rest =>
    reduceTrophies
      (updSlot (fun t => { t with quantity := toInt32 (t.quantity - quantity) }) ts j) rest

/-- The loop `ingredients[index].quantity += quantity`, an `int` addition. -/
def increaseIngredients : List Ingredient → List (Nat × Int) → List Ingredient
  | ings, [] => ings
  | ings, (j, quantity) :: rest =>
    increaseIngredients
      (updSlot (fun x => { x with quantity := toInt32 (x.quantity + quantity) }) ings j) rest

/-- The parsing loop of `executeTradeAction` run on the tokens after `Geralt trades`
(`token_index = 2`, `parsing_trophies = 1`): the pair `(required_trophies,
gained_ingredients)`. -/
def tradeParsed (tokens : List CStr) : List (CStr × Int) × List (CStr × Int) :=
  tradeParse (tokens.drop 2).length (tokens.drop 2) true

/-- Source `executeTradeAction`. -/
def executeTradeAction (w : World) (input : CStr) : Outcome :=
  let tokens := tokenizeInput input
  let parsed := tradeParsed tokens
  let resolved := tradeResolve w.ingredients parsed.2
  match tradeCheck w.trophies parsed.1 with
  | some required =>
    { ret := 0, out := "Trade successful\n".toList,
      world := { w with
        trophies := reduceTrophies w.trophies required
        ingredients := increaseIngredients resolved.1 resolved.2 } }
  | none =>
    { ret := 0, out := "Not enough trophies\n".toList,
      world := { w with ingredients := resolved.1 } }

/-! ## `executeBrewAction` -/

/-- The potion search `potions[i].name[0] != '\0' && strcmp(potions[i].name, name) == 0`. -/
def findPotion (potions : List Potion) (name : CStr) : Option Nat :=
  findSlot (fun (p : Potion) => !p.name.isEmpty && p.name == name) potions 0

/-- The check loop of `executeBrewAction`: no requirement exceeds the quantity of the
ingredient slot it points to. -/
def hasEnoughIngredients (ings : List Ingredient) (reqs : List (Nat × Int)) : Bool :=
  reqs.all (fun r => !decide ((slotAt ings r.1).quantity < r.2))

/-- The loop `ingredients[ingredientIndex].quantity -= requiredQuantity`, an `int`
subtraction. -/
def reduceIngredients : List Ingredient → List (Nat × Int) → List Ingredient
  | ings, [] => ings
  | ings, (j, quantity) :: rest =>
    reduceIngredients
      (updSlot (fun x => { x with quantity := toInt32 (x.quantity - quantity) }) ings j) rest

/-- Source `executeBrewAction`; `potion->quantity++` is an `int` increment. -/
def executeBrewAction (w : World) (input : CStr) : Outcome :=
  let tokens := tokenizeInput input
  if tokens.length < 3 || tokAt tokens 0 != "Geralt".toList
      || tokAt tokens 1 != "brews".toList then
    { ret := -1, out := "Invalid command format\n".toList, world := w }
  else
    let potionName := tokAt tokens 2
    match findPotion w.potions potionName with
    | none =>
      { ret := 0, out := "No formula for ".toList ++ potionName ++ "\n".toList, world := w }
    | some potionIndex =>
      let potion := slotAt w.potions potionIndex
      if !hasEnoughIngredients w.ingredients potion.requirements then
        { ret := 0, out := "Not enough ingredients\n".toList, world := w }
      else
        { ret := 0, out := "Alchemy item created: ".toList ++ potionName ++ "\n".toList,
          world := { w with
            ingredients := reduceIngredients w.ingredients potion.requirements
            potions :=
              updSlot (fun p => { p with quantity := toInt32 (p.quantity + 1) }) w.potions
                potionIndex } }

/-! ## `executeEffectivenessKnowledge` -/

/-- The beast search `beasts[i].name[0] != '\0' && strcmp(beasts[i].name, name) == 0`. -/
def findBeast (beasts : List Beast) (name : CStr) : Option Nat :=
  findSlot (fun (b : Beast) => !b.name.isEmpty && b.name == name) beasts 0

/-- The sign search `signs[i].name[0] != '\0' && strcmp(signs[i].name, name) == 0`. -/
def findSign (signs : List Sign) (name : CStr) : Option Nat :=
  findSlot (fun (x : Sign) => !x.name.isEmpty && x.name == name) signs 0

/-- The first slot of `signs` with an empty name receives `name`: the table afterwards
and the index of the slot.  In the source the slot is looked for below `MAX_SIGNS`; on a
table without such a slot the source writes no name and keeps the index `-1`, which the
definition does not describe. -/
def addSign (signs : List Sign) (name : CStr) : List Sign × Nat :=
  let i := firstFree (fun (x : Sign) => x.name.isEmpty) signs
  (updSlot (fun _ => ({ name := name } : Sign)) signs i, i)

/-- The search for a sign followed by `addSign` when it is not found. -/
def findOrAddSign (signs : List Sign) (name : CStr) : List Sign × Nat :=
  match findSign signs name with
  | some i => (signs, i)
  | none => addSign signs name

/-- The test of `executeEffectivenessKnowledge` whether the entry `existing_index` of a
beast denotes the potion `potion_index`: the same index, or one direct index and one
offset index whose names agree. -/
def samePotionRef (w : World) (potion_index existing_index : Nat) : Bool :=
  if existing_index == potion_index then true
  else if existing_index < MAX_POTIONS && potion_index ≥ MAX_POTIONS then
    (slotAt w.potions existing_index).name == (slotAt w.signs (potion_index - MAX_POTIONS)).name
  else if existing_index ≥ MAX_POTIONS && potion_index < MAX_POTIONS then
    (slotAt w.signs (existing_index - MAX_POTIONS)).name == (slotAt w.potions potion_index).name
  else false

/-- Source `executeEffectivenessKnowledge`.  A new monster takes the first slot of `beasts`
with an empty name, looked for below `MAX_BEASTS` in the source; a new counter is appended
to a list that the source keeps in an array of `MAX_EFFECTIVENESS` entries. -/
def executeEffectivenessKnowledge (w : World) (input : CStr) : Outcome :=
  let tokens := tokenizeInput input
  let counter_name := tokAt tokens 2
  let counter_type := tokAt tokens 3
  let monster_name := tokAt tokens (tokens.length - 1)
  match findBeast w.beasts monster_name with
  | none =>
    -- the monster is added in the first empty slot, with both counts 0
    let monster_index := firstFree (fun (b : Beast) => b.name.isEmpty) w.beasts
    let beasts1 :=
      updSlot (fun _ => ({ name := monster_name, effective_sign_indices := [],
                           effective_potion_indices := [] } : Beast)) w.beasts monster_index
    let out := "New bestiary entry added: ".toList ++ monster_name ++ "\n".toList
    if counter_type == "sign".toList then
      let r := findOrAddSign w.signs counter_name
      { ret := 0, out := out,
        world := { w with
          signs := r.1
          beasts := updSlot (fun b => { b with effective_sign_indices := [r.2] })
            beasts1 monster_index } }
    else if counter_type == "potion".toList then
      match findPotion w.potions counter_name with
      | some potion_index =>
        { ret := 0, out := out,
          world := { w with
            beasts := updSlot (fun b => { b with effective_potion_indices := [potion_index] })
              beasts1 monster_index } }
      | none =>
        -- formula unknown: a new entry of `signs` keeps the name
        let r := addSign w.signs counter_name
        { ret := 0, out := out,
          world := { w with
            signs := r.1
            beasts :=
              updSlot (fun b => { b with effective_potion_indices := [r.2 + MAX_POTIONS] })
                beasts1 monster_index } }
    else { ret := 0, out := out, world := { w with beasts := beasts1 } }
  | some monster_index =>
    let beast := slotAt w.beasts monster_index
    if counter_type == "sign".toList then
      let r := findOrAddSign w.signs counter_name
      if beast.effective_sign_indices.any (fun i => i == r.2) then
        { ret := 0, out := "Already known effectiveness\n".toList,
          world := { w with signs := r.1 } }
      else
        { ret := 0, out := "Bestiary entry updated: ".toList ++ monster_name ++ "\n".toList,
          world := { w with
            signs := r.1
            beasts :=
              updSlot (fun b =>
                { b with effective_sign_indices := b.effective_sign_indices ++ [r.2] })
                w.beasts monster_index } }
    else if counter_type == "potion".toList then
      let r : List Sign × Nat :=
        match findPotion w.potions counter_name with
        | some potion_index => (w.signs, potion_index)
        | none =>
          match findSign w.signs counter_name with
          | some i => (w.signs, i + MAX_POTIONS)
          | none =>
            let a := addSign w.signs counter_name
            (a.1, a.2 + MAX_POTIONS)
      let w1 := { w with signs := r.1 }
      if beast.effective_potion_indices.any (fun e => samePotionRef w1 r.2 e) then
        { ret := 0, out := "Already known effectiveness\n".toList, world := w1 }
      else
        { ret := 0, out := "Bestiary entry updated: ".toList ++ monster_name ++ "\n".toList,
          world := { w1 with
            beasts :=
              updSlot (fun b =>
                { b with effective_potion_indices := b.effective_potion_indices ++ [r.2] })
                w.beasts monster_index } }
    else { ret := 0, out := [], world := w }

/-! ## `executeFormulaKnowledge` -/

/-- The removal of a trailing comma from the ingredient name. -/
def stripTrailingComma (name : CStr) : CStr :=
  if name.getLast? == some ',' then name.dropLast else name

/-- One iteration of the ingredient loop of `executeFormulaKnowledge`: the ingredient is
searched among the non-empty names; when it is missing it takes the first slot with an
empty name, with quantity 0, and `num_ingredients` is incremented.  The result is the
state afterwards and the index of the ingredient.  In the source the slot is looked for
below `MAX_INGREDIENTS`; on a table without such a slot the source makes no record and
stores the index `-1`, which the definition does not describe. -/
def formulaIngredient (w : World) (name : CStr) : World × Nat :=
  match findSlot (fun (x : Ingredient) => !x.name.isEmpty && x.name == name)
      w.ingredients 0 with
  | some j => (w, j)
  | none =>
    let j := firstFree (fun (x : Ingredient) => x.name.isEmpty) w.ingredients
    ({ w with
       ingredients :=
         updSlot (fun _ => ({ name := name, quantity := 0 } : Ingredient)) w.ingredients j
       num_ingredients := w.num_ingredients + 1 }, j)

/-- The loop `for (i = ingredients_start; i < count; i++)` of `executeFormulaKnowledge` on
the tokens from index `i` on: the state afterwards and the requirements appended to the
potion, in order. -/
def formulaLoop : List CStr → World → World × List (Nat × Int)
  | [], w => (w, [])
  | [q], w =>
    let r := formulaIngredient w (stripTrailingComma [])
    (r.1, [(r.2, atoi q)])
  | [q, n], w =>
    let r := formulaIngredient w (stripTrailingComma n)
    (r.1, [(r.2, atoi q)])
  | q :: n :: c :: rest, w =>
    let r := formulaIngredient w (stripTrailingComma n)
    let t := if c == [','] then formulaLoop rest r.1 else formulaLoop (c :: rest) r.1
    (t.1, (r.2, atoi q) :: t.2)

/-- Source `executeFormulaKnowledge`.  The new potion takes the first slot of `potions`
with an empty name, looked for below `MAX_POTIONS` in the source. -/
def executeFormulaKnowledge (w : World) (input : CStr) : Outcome :=
  let tokens := tokenizeInput input
  let potion_name :=
    if tokAt tokens 3 != "potion".toList then tokAt tokens 2 ++ [' '] ++ tokAt tokens 3
    else tokAt tokens 2
  match findPotion w.potions potion_name with
  | some _ => { ret := 0, out := "Already known formula\n".toList, world := w }
  | none =>
    let potion_index := firstFree (fun (p : Potion) => p.name.isEmpty) w.potions
    let ingredients_start := if tokAt tokens 3 != "potion".toList then 7 else 6
    let r := formulaLoop (tokens.drop ingredients_start) w
    { ret := 0, out := "New alchemy formula obtained: ".toList ++ potion_name ++ "\n".toList,
      world := { r.1 with
        potions :=
          updSlot (fun _ => ({ name := potion_name, requirements := r.2, quantity := 0 } : Potion))
            w.potions potion_index
        potionsCount := w.potionsCount + 1 } }

/-! ## `executeEncounter` -/

/-- The potion an effective-potion entry consumes, if any: for a direct index the potion
itself when its stock is positive; for an offset index the first named potion with the
name stored in `signs` and positive stock. -/
def usablePotion (w : World) (potionIndex : Nat) : Option Nat :=
  if potionIndex < MAX_POTIONS then
    if (slotAt w.potions potionIndex).quantity > 0 then some potionIndex else none
  else
    let potionName := (slotAt w.signs (potionIndex - MAX_POTIONS)).name
    findSlot (fun (p : Potion) =>
      !p.name.isEmpty && p.name == potionName && decide (p.quantity > 0)) w.potions 0

/-- The consumption loop of `executeEncounter`: every entry, in order, takes one unit
from the potion it can use in the state reached so far (`quantity--` on a positive
quantity, which stays within `int`). -/
def consumePotions : World → List Nat → World
  | w, [] => w
  | w, potionIndex :: rest =>
    match usablePotion w potionIndex with
    | some j =>
      consumePotions
        { w with potions := updSlot (fun p => { p with quantity := p.quantity - 1 }) w.potions j }
        rest
    | none => consumePotions w rest

/-- The trophy search `trophies[i].name[0] != '\0' && strcmp(trophies[i].name, name) == 0`. -/
def findTrophy (trophies : List Trophy) (name : CStr) : Option Nat :=
  findSlot (fun (t : Trophy) => !t.name.isEmpty && t.name == name) trophies 0

/-- The end of `executeEncounter`: the trophy of the monster is found, or created with
quantity 0 in the first slot with an empty name (looked for below `MAX_TROPHIES` in the
source), and incremented with the `int` increment `quantity++`. -/
def addTrophy (trophies : List Trophy) (name : CStr) : List Trophy :=
  match findTrophy trophies name with
  | some i => updSlot (fun t => { t with quantity := toInt32 (t.quantity + 1) }) trophies i
  | none =>
    let i := firstFree (fun (t : Trophy) => t.name.isEmpty) trophies
    updSlot (fun t => { t with quantity := toInt32 (t.quantity + 1) })
      (updSlot (fun _ => ({ name := name, quantity := 0 } : Trophy)) trophies i) i

/-- Source `executeEncounter`. -/
def executeEncounter (w : World) (input : CStr) : Outcome :=
  let tokens := tokenizeInput input
  if tokens.length < 4 then
    { ret := -1, out := "Invalid encounter format\n".toList, world := w }
  else
    let monsterName := tokAt tokens 3
    let unprepared : Outcome :=
      { ret := 0, out := "Geralt is unprepared and barely escapes with his life\n".toList,
        world := w }
    match findBeast w.beasts monsterName with
    | none => unprepared
    | some monsterIndex =>
      let monster := slotAt w.beasts monsterIndex
      let hasEffectivePotions :=
        monster.effective_potion_indices.any (fun k => (usablePotion w k).isSome)
      let hasEffectiveSigns := !hasEffectivePotions && monster.effective_sign_indices.length > 0
      if !(hasEffectivePotions || hasEffectiveSigns) then unprepared
      else
        let w1 := if hasEffectivePotions then consumePotions w monster.effective_potion_indices
                  else w
        { ret := 0, out := "Geralt defeats ".toList ++ monsterName ++ "\n".toList,
          world := { w1 with trophies := addTrophy w.trophies monsterName } }

/-! ## The queries -/

/-- The text `printf("%d", n)` prints. -/
def fmtInt (n : Int) : CStr :=
  if n < 0 then '-' :: Nat.toDigits 10 n.natAbs else Nat.toDigits 10 n.toNat

/-- C `strcmp` on unsigned bytes: negative, zero or positive. -/
def strcmp : CStr → CStr → Int
  | [], [] => 0
  | [], _ :: _ => -1
  | _ :: _, [] => 1
  | a :: as, b :: bs => if a == b then strcmp as bs else (a.toNat : Int) - (b.toNat : Int)

/-- The loop of `executeSpecificInventoryQuery` for the category `ingredient`: the quantity
of the first slot with that non-empty name, 0 if there is none. -/
def ingredientQuantity (w : World) (itemName : CStr) : Int :=
  match findSlot (fun (x : Ingredient) => !x.name.isEmpty && x.name == itemName)
      w.ingredients 0 with
  | some i => (slotAt w.ingredients i).quantity
  | none => 0

/-- The loop of `executeSpecificInventoryQuery` for the category `potion`. -/
def potionQuantity (w : World) (itemName : CStr) : Int :=
  match findPotion w.potions itemName with
  | some i => (slotAt w.potions i).quantity
  | none => 0

/-- The loop of `executeSpecificInventoryQuery` for the category `trophy`. -/
def trophyQuantity (w : World) (itemName : CStr) : Int :=
  match findTrophy w.trophies itemName with
  | some i => (slotAt w.trophies i).quantity
  | none => 0

/-- Source `executeSpecificInventoryQuery`. -/
def executeSpecificInventoryQuery (w : World) (input : CStr) : Outcome :=
  let tokens := tokenizeInput input
  let category := tokAt tokens 1
  let itemName := tokAt tokens 2
  if category == "ingredient".toList then
    { ret := 0, out := fmtInt (ingredientQuantity w itemName) ++ "\n".toList, world := w }
  else if category == "potion".toList then
    { ret := 0, out := fmtInt (potionQuantity w itemName) ++ "\n".toList, world := w }
  else if category == "trophy".toList then
    { ret := 0, out := fmtInt (trophyQuantity w itemName) ++ "\n".toList, world := w }
  else { ret := 0, out := [], world := w }

/-- One run of the inner loop of the bubble sorts, `for (j = 0; j < k; j++)`: neighbours
`j`, `j+1` are swapped when `swap items[j] items[j+1]` holds. -/
def bubblePass {α : Type} (swap : α → α → Bool) : Nat → List α → List α
  | 0, l => l
  | _ + 1, [] => []
  | _ + 1, [x] => [x]
  | k + 1, x :: y :: rest =>
    if swap x y then y :: bubblePass swap k (x :: rest)
    else x :: bubblePass swap k (y :: rest)

/-- The outer loop of the bubble sorts: passes of `k`, `k-1`, ..., 1 comparisons. -/
def bubbleFrom {α : Type} (swap : α → α → Bool) : Nat → List α → List α
  | 0, l => l
  | k + 1, l => bubbleFrom swap k (bubblePass swap (k + 1) l)

/-- The bubble sort `for (i = 0; i < n - 1; i++) for (j = 0; j < n - i - 1; j++)`. -/
def bubbleSort {α : Type} (swap : α → α → Bool) (l : List α) : List α :=
  bubbleFrom swap (l.length - 1) l

/-- The printing loop: the items separated by `", "`. -/
def joinItems : List CStr → CStr
  | [] => []
  | [x] => x
  | x :: y :: rest => x ++ ", ".toList ++ joinItems (y :: rest)

/-- The item `"%d %s"`. -/
def fmtItem (quantity : Int) (name : CStr) : CStr := fmtInt quantity ++ [' '] ++ name

/-- Source `executeAllInventoryQuery`. -/
def executeAllInventoryQuery (w : World) (input : CStr) : Outcome :=
  let tokens := tokenizeInput input
  let category := tokAt tokens 1
  let collected : Option (List (CStr × Int)) :=
    if category == "ingredient".toList then
      some ((w.ingredients.filter
        (fun x => !x.name.isEmpty && decide (x.quantity > 0))).map
          (fun x => (x.name, x.quantity)))
    else if category == "potion".toList then
      some ((w.potions.filter
        (fun x => !x.name.isEmpty && decide (x.quantity > 0))).map
          (fun x => (x.name, x.quantity)))
    else if category == "trophy".toList then
      some ((w.trophies.filter
        (fun x => !x.name.isEmpty && decide (x.quantity > 0))).map
          (fun x => (x.name, x.quantity)))
    else none
  match collected with
  | none => { ret := -1, out := "Invalid category\n".toList, world := w }
  | some items =>
    if items.length == 0 then { ret := 0, out := "None\n".toList, world := w }
    else
      let sorted := bubbleSort (fun a b => decide (strcmp a.1 b.1 > 0)) items
      { ret := 0,
        out := joinItems (sorted.map (fun it => fmtItem it.2 it.1)) ++ "\n".toList,
        world := w }

/-- Source `executeBestiaryQuery`. -/
def executeBestiaryQuery (w : World) (input : CStr) : Outcome :=
  let tokens := tokenizeInput input
  let monsterName := tokAt tokens 4
  match findBeast w.beasts monsterName with
  | none =>
    { ret := 0, out := "No knowledge of ".toList ++ monsterName ++ "\n".toList, world := w }
  | some monsterIndex =>
    let monster := slotAt w.beasts monsterIndex
    let potionNames := monster.effective_potion_indices.map (fun potionIndex =>
      if potionIndex < MAX_POTIONS then (slotAt w.potions potionIndex).name
      else (slotAt w.signs (potionIndex - MAX_POTIONS)).name)
    let signNames := monster.effective_sign_indices.map (fun signIndex =>
      (slotAt w.signs signIndex).name)
    let sorted := bubbleSort (fun a b => decide (strcmp a b > 0)) (potionNames ++ signNames)
    { ret := 0, out := joinItems sorted ++ "\n".toList, world := w }

/-- The comparison of the sort in `executeAlchemyQuery`: swap when the left quantity is
smaller, or the quantities are equal and the left name is greater. -/
def alchemySwap (a b : CStr × Int) : Bool :=
  if a.2 < b.2 then true
  else if a.2 == b.2 && decide (strcmp a.1 b.1 > 0) then true
  else false

/-- Source `executeAlchemyQuery`.  The bound `ingredientIndex < MAX_INGREDIENTS` of the
collecting loop holds for every index of a table that is not full and is not
represented. -/
def executeAlchemyQuery (w : World) (input : CStr) : Outcome :=
  let tokens := tokenizeInput input
  let potionName := tokAt tokens 3
  match findPotion w.potions potionName with
  | none =>
    { ret := 0, out := "No formula for ".toList ++ potionName ++ "\n".toList, world := w }
  | some potionIndex =>
    let potion := slotAt w.potions potionIndex
    let collected := (potion.requirements.filter
      (fun r => !(slotAt w.ingredients r.1).name.isEmpty)).map
        (fun r => ((slotAt w.ingredients r.1).name, r.2))
    let sorted := bubbleSort alchemySwap collected
    { ret := 0,
      out := joinItems (sorted.map (fun it => fmtItem it.2 it.1)) ++ "\n".toList,
      world := w }

/-! ## `executeCommand` and `execute_line` -/

/-- Source `executeCommand`. -/
def executeCommand (w : World) (input : CStr) (cmdType : CommandType) : Outcome :=
  match cmdType with
  | .ACTION_LOOT => executeLootAction w input
  | .ACTION_TRADE => executeTradeAction w input
  | .ACTION_BREW => executeBrewAction w input
  | .KNOWLEDGE_EFFECTIVENESS => executeEffectivenessKnowledge w input
  | .KNOWLEDGE_POTION_FORMULA => executeFormulaKnowledge w input
  | .ENCOUNTER => executeEncounter w input
  | .QUERY_SPECIFIC_INVENTORY => executeSpecificInventoryQuery w input
  | .QUERY_ALL_INVENTORY => executeAllInventoryQuery w input
  | .QUERY_BESTIARY => executeBestiaryQuery w input
  | .QUERY_ALCHEMY => executeAlchemyQuery w input
  | .EXIT_COMMAND => { ret := 0, out := [], world := w }
  | .INVALID_COMMAND => { ret := -1, out := [], world := w }

/-- Source `cleanInputLine`: one trailing newline is removed, then leading and trailing
white space. -/
def cleanInputLine (input : CStr) : CStr :=
  let s1 := if input.getLast? == some (Char.ofNat 10) then input.dropLast else input
  trimRight (s1.dropWhile isspace)

/-- The buffer `inputCopy` of `execute_line` after `strncpy` and `cleanInputLine`: the line
is cut at the first NUL and at `MAX_INPUT_LENGTH - 1` characters, then cleaned. -/
def inputCopy (line : CStr) : CStr :=
  cleanInputLine ((line.takeWhile (fun c => c.toNat != 0)).take (MAX_INPUT_LENGTH - 1))

/-- Source `execute_line`. -/
def execute_line (w : World) (line : CStr) : Outcome :=
  if (inputCopy line).length == 0 then { ret := -1, out := [], world := w }
  else
    match isValidCommand (inputCopy line) with
    | .INVALID_COMMAND => { ret := -1, out := [], world := w }
    | cmdType => executeCommand w (inputCopy line) cmdType

/-- The state after the lines `lines` have been given to `execute_line` one after the
other, starting in `w`. -/
def runLines (w : World) (lines : List CStr) : World :=
  lines.foldl (fun v l => (execute_line v l).world) w

/-- The states the program can be in: the initial state and every state `execute_line`
leads to from such a state. -/
inductive Reachable : World → Prop
  | init : Reachable World.init
  | step (w : World) (line : CStr) : Reachable w → Reachable (execute_line w line).world

/-! ## Auxiliary definitions used in the proofs -/

/-- The effect of `updSlot f l (firstFree isFree l)`, by recursion on the table. -/
def placeFree {α : Type} [Inhabited α] (f : α → α) (isFree : α → Bool) : List α → List α
  | [] => [f default]
  | x :: xs => if isFree x then f x :: xs else x :: placeFree f isFree xs

/-- The test of the ingredient searches that go over the whole table. -/
def ingNamed (n : CStr) (x : Ingredient) : Bool := !x.name.isEmpty && x.name == n

/-- The quantity of the first record of `l` named `n`, 0 if there is none. -/
def qtyIn (l : List Ingredient) (n : CStr) : Int :=
  match l.find? (ingNamed n) with
  | some x => x.quantity
  | none => 0

/-- The items of a token sequence `q1 n1 , q2 n2 , ... , qk nk`, as pairs
`(quantity token, name)`; the token between two items is skipped. -/
def listedItems : List CStr → List (CStr × CStr)
  | [] => []
  | [_] => []
  | [q, n] => [(q, n)]
  | q :: n :: _ :: rest => (q, n) :: listedItems rest

/-- The items that a Loot line lists: those of its tokens after `Geralt loots`. -/
def lootItemsOf (line : CStr) : List (CStr × CStr) :=
  listedItems ((tokenizeInput (inputCopy line)).drop 2)

/-- The sum of the quantities, read as decimal numbers, that the items `items` list for
the name `n`. -/
def listedTotal (items : List (CStr × CStr)) (n : CStr) : Int :=
  ((items.filter (fun it => it.2 == n)).map (fun it => (digitsValue 0 it.1 : Int))).sum

/-- The effect of one Loot item on a table in which `num_ingredients` is the number of
records: the first record named `n` gains `q`; if there is none, `(n, q)` is appended. -/
def addFirst (n : CStr) (q : Int) : List Ingredient → List Ingredient
  | [] => [{ name := n, quantity := q }]
  | x :: xs =>
    if x.name == n then { x with quantity := x.quantity + q } :: xs
    else x :: addFirst n q xs

/-- The first element of the table that satisfies `p` is replaced by its image under `f`;
a table without such an element is left as it is. -/
def bumpFirst {α : Type} (p : α → Bool) (f : α → α) : List α → List α
  | [] => []
  | x :: xs => if p x then f x :: xs else x :: bumpFirst p f xs

/-- The test of the trophy searches by name. -/
def trophyNamed (n : CStr) (t : Trophy) : Bool := !t.name.isEmpty && t.name == n

/-- The quantity of the first trophy record of `l` named `n`, 0 if there is none. -/
def trophyQtyIn (l : List Trophy) (n : CStr) : Int :=
  match l.find? (trophyNamed n) with
  | some t => t.quantity
  | none => 0

/-- The entries `(name, atoi(quantity token))` of listed items, as the parsing loops of
the executors store them. -/
def toEntries (items : List (CStr × CStr)) : List (CStr × Int) :=
  items.map (fun it => (it.2, atoi it.1))

/-- The trophies that a Trade line lists: the items of its tokens between `Geralt trades`
and the first `for`. -/
def tradeTrophiesOf (line : CStr) : List (CStr × CStr) :=
  match findTokenFrom "for".toList ((tokenizeInput (inputCopy line)).drop 2) 2 with
  | some forIndex => listedItems (((tokenizeInput (inputCopy line)).take forIndex).drop 2)
  | none => []

/-- The ingredients that a Trade line lists: the items of its tokens after the first
`for`. -/
def tradeGainsOf (line : CStr) : List (CStr × CStr) :=
  match findTokenFrom "for".toList ((tokenizeInput (inputCopy line)).drop 2) 2 with
  | some forIndex => listedItems ((tokenizeInput (inputCopy line)).drop (forIndex + 1))
  | none => []


/-- The test of the potion searches by name. -/
def potionNamed (n : CStr) (p : Potion) : Bool := !p.name.isEmpty && p.name == n

/-- The stock of the first potion record of `l` named `n`, 0 if there is none. -/
def potionQtyIn (l : List Potion) (n : CStr) : Int :=
  match l.find? (potionNamed n) with
  | some p => p.quantity
  | none => 0

/-- The records of a category that `Total <category> ?` has to list: name and quantity of
every record with a name and a quantity above 0, in table order. -/
def positiveRecords (w : World) (category : CStr) : List (CStr × Int) :=
  if category = "ingredient".toList then
    (w.ingredients.filter (fun x => x.name ≠ [] ∧ x.quantity > 0)).map
      (fun x => (x.name, x.quantity))
  else if category = "potion".toList then
    (w.potions.filter (fun x => x.name ≠ [] ∧ x.quantity > 0)).map
      (fun x => (x.name, x.quantity))
  else if category = "trophy".toList then
    (w.trophies.filter (fun x => x.name ≠ [] ∧ x.quantity > 0)).map
      (fun x => (x.name, x.quantity))
  else []

/-- The name an effective-potion entry of a beast stands for: a direct index names the
potion of that slot, an offset index the entry of `signs` that keeps the name. -/
def counterName (w : World) (e : Nat) : CStr :=
  if e < MAX_POTIONS then (slotAt w.potions e).name
  else (slotAt w.signs (e - MAX_POTIONS)).name

/-- The names of the potions recorded as effective against the beast `b`, one per entry. -/
def potionCounters (w : World) (b : Beast) : List CStr :=
  b.effective_potion_indices.map (counterName w)

/-- The names of the signs recorded as effective against the beast `b`, one per entry. -/
def signCounters (w : World) (b : Beast) : List CStr :=
  b.effective_sign_indices.map (fun i => (slotAt w.signs i).name)

/-- Whether the effective-potion entry `e` of a beast stands for a potion in stock: for a
direct index the stock of that potion is above 0; for an offset index some named potion
carries the name kept in `signs` and has stock above 0. -/
def counterInStock (w : World) (e : Nat) : Bool :=
  if e < MAX_POTIONS then decide ((slotAt w.potions e).quantity > 0)
  else w.potions.any (fun p =>
    decide (p.name ≠ []) && decide (p.name = (slotAt w.signs (e - MAX_POTIONS)).name)
      && decide (p.quantity > 0))

/-- The items that a formula line `Geralt learns X potion consists of ...` lists: those of
its tokens from index 6 on, as pairs `(quantity token, name)`. -/
def formulaItemsOf (line : CStr) : List (CStr × CStr) :=
  listedItems ((tokenizeInput (inputCopy line)).drop 6)

/-- The states reached from the initial state through `execute_line` by lines none of which
is answered `Alchemy item created: ...`. -/
inductive ReachableNoBrew : World → Prop
  | init : ReachableNoBrew World.init
  | step (w : World) (line : CStr) : ReachableNoBrew w →
      startsWith "Alchemy item created: ".toList (execute_line w line).out = false →
      ReachableNoBrew (execute_line w line).world

/-- The tokens of a list of items `q1 n1 , q2 n2 , ... , qk nk`. -/
def itemTokens : List (CStr × CStr) → List CStr
  | [] => []
  | [(q, n)] => [q, n]
  | (q, n) :: it :: rest => q :: n :: [','] :: itemTokens (it :: rest)

/-- The line `Geralt learns <name> K is effective against <beast>`, its parts separated by
single spaces. -/
def effectivenessSentence (name K beast : CStr) : CStr :=
  "Geralt learns ".toList ++ (name ++ ' ' :: (K ++ (" is effective against ".toList ++ beast)))

/-- Two texts that differ only by one space before a final `?`; the two may also be the
same text, which is what becomes of such a pair once leading white space is skipped and
nothing but the `?` is left. -/
def spacedPair (p1 p0 : CStr) : Prop :=
  p1 = p0 ∨ ∃ r : CStr, p1 = r ++ [' ', '?'] ∧ p0 = r ++ ['?']

/-- The token lists that `isInventoryQuery`, `isAlchemyQuery` and `isBestiaryQuery` can
accept: the checks of the three validators that concern the keywords, the number of
tokens and the name tokens. -/
def queryTokens (T : List CStr) : Bool :=
  (tokAt T 0 == "Total".toList
      && (tokAt T 1 == "ingredient".toList || tokAt T 1 == "potion".toList
          || tokAt T 1 == "trophy".toList)
      && (T.length == 3
          || (T.length == 4
              && (isAlphabeticOnly (tokAt T 2) || isValidPotionNameToken (tokAt T 2)))))
  || (tokAt T 0 == "What".toList && tokAt T 1 == "is".toList && tokAt T 2 == "in".toList
      && decide (5 ≤ T.length)
      && ((T.take (T.length - 1)).drop 3).all isValidPotionNameToken)
  || (tokAt T 0 == "What".toList && tokAt T 1 == "is".toList
      && tokAt T 2 == "effective".toList && tokAt T 3 == "against".toList
      && T.length == 6 && isAlphabeticOnly (tokAt T 4))

/-- The token sequence in the words of the specification: in order, every comma of the
text and every maximal run of characters that are neither white space nor comma.  `cur`
is the run read so far. -/
def lexicalTokensFrom : CStr → CStr → List CStr
  | cur, [] => if cur.isEmpty then [] else [cur]
  | cur, c :: rest =>
    if c == ',' then
      (if cur.isEmpty then [] else [cur]) ++ [','] :: lexicalTokensFrom [] rest
    else if isspace c then
      (if cur.isEmpty then [] else [cur]) ++ lexicalTokensFrom [] rest
    else lexicalTokensFrom (cur ++ [c]) rest

/-- The commas and maximal comma-free, space-free runs of `s`, in order. -/
def lexicalTokens (s : CStr) : List CStr := lexicalTokensFrom [] s

/-- Whether `tokenizeInput` handles `input` in its final generic loop: the input does not
start with the word `What` or `Total`, nor with `Geralt` followed by the word `brews`,
`learns` or `trades`. -/
def genericPath (input : CStr) : Bool :=
  let s0 := skipSpaces input
  if atWord "What".toList s0 then false
  else if atWord "Total".toList s0 then false
  else if atWord "Geralt".toList s0 then
    let s1 := skipSpaces (s0.drop 6)
    if atWord "brews".toList s1 then false
    else if atWord "learns".toList s1 then false
    else if atWord "trades".toList s1 then false
    else true
  else true
/-! ## General lemmas on tables -/

theorem findSlot_succ {α : Type} (p : α → Bool) (l : List α) (i : Nat) :
    findSlot p l (i + 1) = (findSlot p l i).map (· + 1) := by
  induction l generalizing i with
  | nil => rfl
  | cons x xs ih =>
    simp only [findSlot]
    split
    · rfl
    · exact ih (i + 1)

theorem findSlot_none_iff {α : Type} (p : α → Bool) (l : List α) (i : Nat) :
    findSlot p l i = none ↔ l.find? p = none := by
  induction l generalizing i with
  | nil => simp [findSlot]
  | cons x xs ih =>
    simp only [findSlot, List.find?]
    cases hp : p x
    · simpa using ih (i + 1)
    · simp

theorem findSlot_some {α : Type} [Inhabited α] (p : α → Bool) (l : List α) (i j : Nat)
    (h : findSlot p l i = some j) :
    i ≤ j ∧ l.find? p = some (slotAt l (j - i)) := by
  induction l generalizing i with
  | nil => simp [findSlot] at h
  | cons x xs ih =>
    simp only [findSlot] at h
    cases hp : p x
    · simp only [hp, Bool.false_eq_true, ↓reduceIte] at h
      obtain ⟨h1, h2⟩ := ih (i + 1) h
      refine ⟨by omega, ?_⟩
      have : j - i = (j - (i + 1)) + 1 := by omega
      simp only [List.find?, hp, h2, this, slotAt, List.getD_cons_succ]
    · simp only [hp, ↓reduceIte, Option.some.injEq] at h
      subst h
      simp [List.find?, hp, slotAt]

theorem slotAt_updSlot {α : Type} [Inhabited α] (f : α → α) (l : List α) (i j : Nat) :
    slotAt (updSlot f l i) j = if j = i then f (slotAt l i) else slotAt l j := by
  induction l generalizing i j with
  | nil =>
    induction i generalizing j with
    | zero =>
      cases j <;> simp [updSlot, slotAt]
    | succ n ih =>
      cases j with
      | zero => simp [updSlot, slotAt]
      | succ m =>
        have := ih m
        simp only [slotAt, updSlot, List.getD_cons_succ] at this ⊢
        simp only [this, Nat.add_right_cancel_iff]
        simp
  | cons x xs ih =>
    cases i with
    | zero => cases j <;> simp [updSlot, slotAt]
    | succ n =>
      cases j with
      | zero => simp [updSlot, slotAt]
      | succ m =>
        have := ih n m
        simp only [slotAt, updSlot, List.getD_cons_succ] at this ⊢
        simp only [this, Nat.add_right_cancel_iff]

theorem firstFree_cons {α : Type} (isFree : α → Bool) (x : α) (xs : List α) :
    firstFree isFree (x :: xs) = if isFree x then 0 else firstFree isFree xs + 1 := by
  unfold firstFree
  simp only [findSlot]
  split
  · rfl
  · have := findSlot_succ isFree xs 0
    simp only [Nat.zero_add] at this
    rw [this]
    cases findSlot isFree xs 0 <;> simp

theorem updSlot_firstFree {α : Type} [Inhabited α] (f : α → α) (isFree : α → Bool)
    (l : List α) : updSlot f l (firstFree isFree l) = placeFree f isFree l := by
  induction l with
  | nil => rfl
  | cons x xs ih =>
    rw [firstFree_cons]
    by_cases hx : isFree x
    · simp [hx, updSlot, placeFree]
    · simp [hx, updSlot, placeFree, ih]

theorem ingredientQuantity_eq (w : World) (n : CStr) :
    ingredientQuantity w n = qtyIn w.ingredients n := by
  unfold ingredientQuantity qtyIn
  cases h : findSlot (fun (x : Ingredient) => !x.name.isEmpty && x.name == n) w.ingredients 0 with
  | none =>
    have h2 : w.ingredients.find? (ingNamed n) = none := (findSlot_none_iff _ _ _).1 h
    rw [h2]
  | some j =>
    have h2 : w.ingredients.find? (ingNamed n) = some (slotAt w.ingredients (j - 0)) :=
      (findSlot_some _ _ _ _ h).2
    rw [h2]
    simp

theorem qtyIn_placeFree (nm : CStr) (l : List Ingredient) (n : CStr)
    (h : l.find? (ingNamed nm) = none) :
    qtyIn (placeFree (fun _ => ({ name := nm, quantity := 0 } : Ingredient))
      (fun x => x.name.isEmpty) l) n = qtyIn l n := by
  induction l with
  | nil =>
    simp only [placeFree, qtyIn, List.find?]
    cases ingNamed n { name := nm, quantity := 0 } <;> rfl
  | cons x xs ih =>
    simp only [List.find?] at h
    cases hx : ingNamed nm x
    · rw [hx] at h
      simp only at h
      have ih2 := ih h
      simp only [placeFree]
      by_cases hfree : x.name.isEmpty = true
      · simp only [hfree, ↓reduceIte]
        have hxn : ingNamed n x = false := by simp [ingNamed, hfree]
        simp only [qtyIn, List.find?, hxn]
        cases hnew : ingNamed n { name := nm, quantity := 0 }
        · rfl
        · simp only
          have : n = nm := by
            simp only [ingNamed, Bool.and_eq_true, beq_iff_eq] at hnew
            exact hnew.2.symm
          subst this
          rw [h]
      · simp only [hfree, Bool.false_eq_true, ↓reduceIte]
        simp only [qtyIn, List.find?] at ih2 ⊢
        cases hxn : ingNamed n x
        · simpa using ih2
        · rfl
    · rw [hx] at h
      simp at h

theorem qtyIn_tradeResolve (gained : List (CStr × Int)) (ings : List Ingredient) (n : CStr) :
    qtyIn (tradeResolve ings gained).1 n = qtyIn ings n := by
  induction gained generalizing ings with
  | nil => rfl
  | cons g rest ih =>
    obtain ⟨name, quantity⟩ := g
    simp only [tradeResolve]
    cases h : findSlot (fun (x : Ingredient) => !x.name.isEmpty && x.name == name) ings 0 with
    | some j => simpa using ih ings
    | none =>
      have h2 : ings.find? (ingNamed name) = none := (findSlot_none_iff _ _ _).1 h
      simp only
      rw [ih, updSlot_firstFree, qtyIn_placeFree name ings n h2]

theorem execute_line_eq (w : World) (line : CStr) (c : CommandType)
    (hc : isValidCommand (inputCopy line) = c) (hv : c ≠ .INVALID_COMMAND) :
    execute_line w line = executeCommand w (inputCopy line) c := by
  unfold execute_line
  have hne : ((inputCopy line).length == 0) = false := by
    cases hl : inputCopy line with
    | nil =>
      rw [hl] at hc
      have : isValidCommand [] = .INVALID_COMMAND := by decide
      rw [this] at hc
      exact absurd hc.symm hv
    | cons a as => rfl
  rw [hne, hc]
  cases c <;> rfl

theorem reachable_runLines (w : World) (lines : List CStr) (hw : Reachable w) :
    Reachable (runLines w lines) := by
  induction lines generalizing w with
  | nil => exact hw
  | cons l ls ih => exact ih _ (Reachable.step w l hw)

theorem findSlot_lt {α : Type} (p : α → Bool) (l : List α) (i j : Nat)
    (h : findSlot p l i = some j) : j < i + l.length := by
  induction l generalizing i with
  | nil => simp [findSlot] at h
  | cons x xs ih =>
    simp only [findSlot] at h
    split at h
    · simp only [Option.some.injEq] at h
      subst h
      simp
    · have := ih (i + 1) h
      simp only [List.length_cons]
      omega

/-- An integer within the range of `int` is left as it is by the conversion to `int`. -/
theorem toInt32_of_range (x : Int) (h0 : -2147483648 ≤ x) (h1 : x ≤ 2147483647) :
    toInt32 x = x := by
  unfold toInt32
  simp only
  split <;> omega

/-- The conversion to `int` yields a value in the range of `int`. -/
theorem toInt32_range (x : Int) : -2147483648 ≤ toInt32 x ∧ toInt32 x ≤ 2147483647 := by
  unfold toInt32
  simp only
  split <;> omega

theorem toInt32_add_toInt32 (a b : Int) : toInt32 (toInt32 a + b) = toInt32 (a + b) := by
  unfold toInt32
  simp only
  split_ifs <;> omega

/-- The `if` chain of `isValidCommand` on arbitrary flags: the flag of the chosen command
type is set. -/
theorem commandChain (a b c d e f g1 g2 h i j : Bool) (t : CommandType)
    (ht : (if a then CommandType.ACTION_LOOT
      else if b then .ACTION_TRADE
      else if c then .ACTION_BREW
      else if d then .KNOWLEDGE_EFFECTIVENESS
      else if e then .KNOWLEDGE_POTION_FORMULA
      else if f then .ENCOUNTER
      else if g1 then
        if g2 then .QUERY_SPECIFIC_INVENTORY else .QUERY_ALL_INVENTORY
      else if h then .QUERY_BESTIARY
      else if i then .QUERY_ALCHEMY
      else if j then .EXIT_COMMAND
      else .INVALID_COMMAND) = t) :
    (t = .ACTION_LOOT → a = true) ∧ (t = .ACTION_TRADE → b = true) ∧
    (t = .ACTION_BREW → c = true) ∧ (t = .KNOWLEDGE_EFFECTIVENESS → d = true) ∧
    (t = .KNOWLEDGE_POTION_FORMULA → e = true) ∧ (t = .ENCOUNTER → f = true) ∧
    (t = .QUERY_SPECIFIC_INVENTORY → g1 = true ∧ g2 = true) ∧
    (t = .QUERY_ALL_INVENTORY → g1 = true ∧ g2 = false) ∧
    (t = .QUERY_BESTIARY → h = true) ∧ (t = .QUERY_ALCHEMY → i = true) := by
  subst ht
  cases a <;> cases b <;> cases c <;> cases d <;> cases e <;> cases f <;> simp
  cases g1 <;> cases g2 <;> simp <;> cases h <;> simp <;> cases i <;> simp <;>
    cases j <;> simp

theorem isValidCommand_brew (input : CStr) (h : isValidCommand input = .ACTION_BREW) :
    isBrewAction input = true :=
  (commandChain _ _ _ _ _ _ _ _ _ _ _ _ h).2.2.1 rfl

theorem updSlot_length_eq {α : Type} [Inhabited α] (f : α → α) (l : List α) :
    updSlot f l l.length = l ++ [f default] := by
  induction l with
  | nil => rfl
  | cons x xs ih => simp [updSlot, ih]

theorem prefixSlots_length {α : Type} [Inhabited α] (l : List α) :
    prefixSlots l l.length = l := by
  simp [prefixSlots]

theorem updSlot_findSlot_addFirst (n : CStr) (q : Int) (l : List Ingredient) (i j : Nat)
    (h : findSlot (fun (x : Ingredient) => x.name == n) l i = some j) :
    updSlot (fun x => { x with quantity := x.quantity + q }) l (j - i) = addFirst n q l := by
  induction l generalizing i with
  | nil => simp [findSlot] at h
  | cons x xs ih =>
    simp only [findSlot] at h
    by_cases hx : (x.name == n) = true
    · simp only [hx, ↓reduceIte, Option.some.injEq] at h
      subst h
      simp [updSlot, addFirst, hx]
    · simp only [hx, Bool.false_eq_true, ↓reduceIte] at h
      have hle := (findSlot_some _ _ _ _ h).1
      have : j - i = (j - (i + 1)) + 1 := by omega
      rw [this]
      simp only [updSlot, addFirst, hx, Bool.false_eq_true, ↓reduceIte]
      rw [ih (i + 1) h]

theorem addFirst_of_not_found (n : CStr) (q : Int) (l : List Ingredient)
    (h : l.find? (fun (x : Ingredient) => x.name == n) = none) :
    addFirst n q l = l ++ [{ name := n, quantity := q }] := by
  induction l with
  | nil => rfl
  | cons x xs ih =>
    simp only [List.find?] at h
    cases hx : (x.name == n)
    · rw [hx] at h
      simp only [addFirst, hx, Bool.false_eq_true, ↓reduceIte, List.cons_append]
      rw [ih h]
    · rw [hx] at h
      simp at h

theorem addFirst_length_pos (n : CStr) (q : Int) (l : List Ingredient) :
    l.length ≤ (addFirst n q l).length := by
  induction l with
  | nil => simp [addFirst]
  | cons x xs ih =>
    simp only [addFirst]
    split <;> simp [ih]

theorem updSlot_congr_at {α : Type} [Inhabited α] (f g : α → α) :
    ∀ (l : List α) (i : Nat), f (slotAt l i) = g (slotAt l i) → updSlot f l i = updSlot g l i
  | [], 0, h => by
    simp only [updSlot]
    exact congrArg (fun x => [x]) h
  | [], n + 1, h => by
    simp only [updSlot]
    rw [updSlot_congr_at f g [] n h]
  | x :: xs, 0, h => by
    simp only [updSlot]
    exact congrArg (fun y => y :: xs) h
  | x :: xs, n + 1, h => by
    simp only [updSlot]
    rw [updSlot_congr_at f g xs n h]

theorem ingNamed_eq_name (n : CStr) (hn : n ≠ []) :
    ingNamed n = fun (x : Ingredient) => x.name == n := by
  funext x
  unfold ingNamed
  cases hx : x.name == n
  · simp
  · have : x.name = n := by simpa using hx
    have hne : x.name.isEmpty = false := by
      rw [this]
      cases n with
      | nil => exact absurd rfl hn
      | cons a as => rfl
    simp [hne]

/-- In a state where `num_ingredients` is the number of records, one Loot item whose sum
with the quantity recorded for the name fits in an `int` acts as `addFirst`, and
`num_ingredients` is again the number of records. -/
theorem lootItem_eq (w : World) (q : Int) (n : CStr)
    (hnum : w.num_ingredients = w.ingredients.length) (hn : n ≠ [])
    (hlo : -2147483648 ≤ qtyIn w.ingredients n + q)
    (hhi : qtyIn w.ingredients n + q ≤ 2147483647) :
    lootItem w q n =
      { w with ingredients := addFirst n q w.ingredients
               num_ingredients := (addFirst n q w.ingredients).length } := by
  unfold lootItem
  rw [hnum, prefixSlots_length]
  cases h : findSlot (fun (x : Ingredient) => x.name == n) w.ingredients 0 with
  | some idx =>
    simp only
    have hq : qtyIn w.ingredients n = (slotAt w.ingredients idx).quantity := by
      unfold qtyIn
      rw [ingNamed_eq_name n hn, (findSlot_some _ _ _ _ h).2]
      rfl
    rw [hq] at hlo hhi
    have hw : updSlot (fun (x : Ingredient) => { x with quantity := toInt32 (x.quantity + q) })
        w.ingredients idx
        = updSlot (fun (x : Ingredient) => { x with quantity := x.quantity + q })
            w.ingredients idx := by
      apply updSlot_congr_at
      beta_reduce
      rw [toInt32_of_range _ hlo hhi]
    rw [hw]
    have h1 := updSlot_findSlot_addFirst n q w.ingredients 0 idx h
    simp only [Nat.sub_zero] at h1
    rw [h1]
    have hlt := findSlot_lt _ _ _ _ h
    have hlen : (addFirst n q w.ingredients).length = w.ingredients.length := by
      rw [← h1]
      clear h1 h hw hq hlo hhi
      simp only [Nat.zero_add] at hlt
      generalize w.ingredients = l at hlt
      induction l generalizing idx with
      | nil => simp at hlt
      | cons x xs ih =>
        cases idx with
        | zero => simp [updSlot]
        | succ m =>
          simp only [updSlot, List.length_cons, Nat.add_right_cancel_iff]
          exact ih m (by simpa using hlt)
    rw [hlen, ← hnum]
  | none =>
    have h2 := (findSlot_none_iff _ _ _).1 h
    have hq : qtyIn w.ingredients n = 0 := by
      unfold qtyIn
      rw [ingNamed_eq_name n hn, h2]
    rw [hq, zero_add] at hlo hhi
    simp only
    rw [updSlot_length_eq]
    have : updSlot (fun (x : Ingredient) => { x with quantity := toInt32 (x.quantity + q) })
        (w.ingredients ++ [({ name := n, quantity := (default : Ingredient).quantity } : Ingredient)])
        w.ingredients.length
        = w.ingredients ++ [{ name := n, quantity := q }] := by
      generalize w.ingredients = l
      induction l with
      | nil =>
        simp only [List.nil_append, List.length_nil, updSlot]
        show [({ name := n, quantity := toInt32 (0 + q) } : Ingredient)] = _
        rw [zero_add, toInt32_of_range _ hlo hhi]
      | cons x xs ih => simp [updSlot, ih]
    rw [this, addFirst_of_not_found n q _ h2]
    simp

theorem qtyIn_addFirst (n : CStr) (q : Int) (l : List Ingredient) (m : CStr)
    (hn : n ≠ []) :
    qtyIn (addFirst n q l) m = qtyIn l m + (if m = n then q else 0) := by
  induction l with
  | nil =>
    simp only [addFirst, qtyIn, List.find?, ingNamed]
    by_cases hmn : m = n
    · subst hmn
      have : (m.isEmpty) = false := by
        cases m with
        | nil => exact absurd rfl hn
        | cons a as => rfl
      simp [this]
    · have : (n == m) = false := by simpa using fun h => hmn h.symm
      simp [this, hmn]
  | cons x xs ih =>
    simp only [addFirst]
    by_cases hx : (x.name == n) = true
    · have hxn : x.name = n := by simpa using hx
      simp only [hx, ↓reduceIte]
      have hne : x.name.isEmpty = false := by
        rw [hxn]
        cases n with
        | nil => exact absurd rfl hn
        | cons a as => rfl
      by_cases hmn : m = n
      · subst hmn
        have hm : m.isEmpty = false := hxn ▸ hne
        simp [qtyIn, List.find?, ingNamed, hxn, hm]
      · have h1 : (x.name == m) = false := by
          rw [hxn]
          simpa using fun h => hmn h.symm
        simp [qtyIn, List.find?, ingNamed, h1, hmn]
    · simp only [hx, Bool.false_eq_true, ↓reduceIte]
      simp only [qtyIn, List.find?] at ih ⊢
      cases hxm : ingNamed m x
      · simpa using ih
      · have : m ≠ n := by
          intro hmn
          subst hmn
          simp only [ingNamed, Bool.and_eq_true] at hxm
          exact hx hxm.2
        simp [this]

theorem isdigit_not_isspace (c : Char) (h : isdigit c = true) : isspace c = false := by
  simp only [isdigit, Bool.and_eq_true, decide_eq_true_eq] at h
  simp only [isspace, Bool.or_eq_false_iff, beq_eq_false_iff_ne, ne_eq, Bool.and_eq_false_imp,
    decide_eq_true_eq, decide_eq_false_iff_not, not_le]
  omega

theorem isdigit_not_sign (c : Char) (h : isdigit c = true) : c ≠ '-' ∧ c ≠ '+' := by
  simp only [isdigit, Bool.and_eq_true, decide_eq_true_eq] at h
  constructor
  · rintro rfl
    revert h
    decide
  · rintro rfl
    revert h
    decide

theorem toInt32_small (v : Nat) (h : v ≤ 2147483647) : toInt32 (Int.ofNat v) = (v : Int) := by
  unfold toInt32
  simp only [Int.ofNat_eq_coe]
  have h1 : (v : Int) % 4294967296 = (v : Int) := by omega
  rw [h1]
  have h2 : (v : Int) < 2147483648 := by omega
  simp [h2]

/-- On a token accepted by `isPositiveInteger` whose decimal value fits in an `int`,
`atoi` is the decimal value. -/
theorem atoi_eq_digitsValue (q : CStr) (hq : isPositiveInteger q = true)
    (hr : digitsValue 0 q ≤ 2147483647) : atoi q = (digitsValue 0 q : Int) := by
  cases q with
  | nil => simp [isPositiveInteger] at hq
  | cons c rest =>
    unfold isPositiveInteger at hq
    simp only at hq
    split_ifs at hq with h1 h2
    have hall : (c :: rest).all isdigit = true := by simpa using h2
    have hc : isdigit c = true := by
      simp only [List.all_cons, Bool.and_eq_true] at hall
      exact hall.1
    have hsp := isdigit_not_isspace c hc
    have hsg := isdigit_not_sign c hc
    have htake : (c :: rest).takeWhile isdigit = c :: rest := by
      rw [List.takeWhile_eq_self_iff]
      intro x hx
      exact List.all_eq_true.1 hall x hx
    unfold atoi
    have hdrop : (c :: rest).dropWhile isspace = c :: rest := by
      simp [List.dropWhile, hsp]
    simp only [hdrop, List.head?_cons]
    have hm : (some c == some '-') = false := by simpa using hsg.1
    have hp : (some c == some '+') = false := by simpa using hsg.2
    simp only [hm, hp, Bool.or_self, Bool.false_eq_true, ↓reduceIte, htake]
    have hmin : min (digitsValue 0 (c :: rest)) 9223372036854775807 = digitsValue 0 (c :: rest) := by
      omega
    rw [hmin]
    exact toInt32_small _ hr

theorem isAlphabeticOnly_ne_nil (n : CStr) (h : isAlphabeticOnly n = true) : n ≠ [] := by
  rintro rfl
  simp [isAlphabeticOnly] at h

/-- On a token sequence accepted by the item loop of `isLootAction`, the loop of
`executeLootAction` applies `lootItem` to the listed items in order, and every listed
item has a positive integer and an alphabetic name. -/
theorem lootLoop_eq : ∀ (ts : List CStr) (w : World), lootItemsOk ts = true →
    lootLoop ts w = (listedItems ts).foldl (fun v it => lootItem v (atoi it.1) it.2) w ∧
    ∀ it ∈ listedItems ts, isPositiveInteger it.1 = true ∧ isAlphabeticOnly it.2 = true
  | [], w, _ => by simp [lootLoop, listedItems]
  | [q], w, h => by simp [lootItemsOk] at h
  | [q, n], w, h => by
    simp only [lootItemsOk, Bool.and_true, Bool.and_eq_true] at h
    simp [lootLoop, listedItems, h.1, h.2]
  | q :: n :: c :: rest, w, h => by
    simp only [lootItemsOk, Bool.and_eq_true, beq_iff_eq] at h
    obtain ⟨hq, hn, hc, hrest⟩ := h
    subst hc
    have ih := lootLoop_eq rest (lootItem w (atoi q) n) hrest
    simp only [lootLoop, beq_self_eq_true, ↓reduceIte, listedItems, List.foldl_cons,
      List.mem_cons, forall_eq_or_imp, hq, hn, and_self, true_and]
    exact ih

theorem isValidCommand_loot (input : CStr) (h : isValidCommand input = .ACTION_LOOT) :
    isLootAction input = true :=
  (commandChain _ _ _ _ _ _ _ _ _ _ _ _ h).1 rfl

theorem isLootAction_items (input : CStr) (h : isLootAction input = true) :
    lootItemsOk ((tokenizeInput input).drop 2) = true := by
  unfold isLootAction at h
  simp only at h
  split_ifs at h with h1 h2 h3 h4 h5
  simpa using h4

theorem sum_filter_map_nonneg {α : Type} (f : α → Int) (p : α → Bool) (items : List α)
    (hpos : ∀ it ∈ items, 0 ≤ f it) : 0 ≤ ((items.filter p).map f).sum := by
  apply List.sum_nonneg
  intro x hx
  obtain ⟨it, hit, rfl⟩ := List.mem_map.1 hx
  exact hpos it (List.mem_filter.1 hit).1

theorem listedTotal_nonneg (items : List (CStr × CStr)) (m : CStr) :
    0 ≤ listedTotal items m := by
  unfold listedTotal
  exact sum_filter_map_nonneg _ _ _ (fun it _ => Int.natCast_nonneg _)

theorem addFirst_names_mem (n : CStr) (q : Int) : ∀ (l : List Ingredient),
    ∀ x ∈ addFirst n q l, x.name = n ∨ x.name ∈ l.map (fun y => y.name)
  | [], x, hx => by
    simp only [addFirst, List.mem_singleton] at hx
    subst hx
    exact Or.inl rfl
  | y :: ys, x, hx => by
    simp only [addFirst] at hx
    split at hx
    · rename_i hy
      rcases List.mem_cons.1 hx with rfl | h
      · exact Or.inr (by simp)
      · exact Or.inr (by
          simp only [List.map_cons, List.mem_cons]
          exact Or.inr (List.mem_map.2 ⟨x, h, rfl⟩))
    · rcases List.mem_cons.1 hx with rfl | h
      · exact Or.inr (by simp)
      · rcases addFirst_names_mem n q ys x h with h1 | h1
        · exact Or.inl h1
        · exact Or.inr (by
            simp only [List.map_cons, List.mem_cons]
            exact Or.inr h1)

theorem addFirst_names_nodup (n : CStr) (q : Int) : ∀ (l : List Ingredient),
    (l.map (fun y => y.name)).Nodup → ((addFirst n q l).map (fun y => y.name)).Nodup
  | [], _ => by simp [addFirst]
  | y :: ys, h => by
    simp only [List.map_cons, List.nodup_cons] at h
    simp only [addFirst]
    split
    · simpa using h
    · rename_i hy
      simp only [List.map_cons, List.nodup_cons]
      refine ⟨fun hmem => ?_, addFirst_names_nodup n q ys h.2⟩
      obtain ⟨x, hx, hxn⟩ := List.mem_map.1 hmem
      rcases addFirst_names_mem n q ys x hx with h1 | h1
      · apply hy
        simp only [beq_iff_eq]
        rw [← hxn]
        exact h1
      · apply h.1
        rw [← hxn]
        exact h1

/-- The Loot items `items` applied in order to a state where `num_ingredients` is the
number of records, when no item is negative and every recorded quantity, increased by the
total listed for its name, stays within the range of `int`: every reported quantity rises
by the total listed for the name, a record carries a name that was recorded or is listed,
and no name gets a second record. -/
theorem foldl_lootItem (f : CStr × CStr → Int) :
    ∀ (items : List (CStr × CStr)) (w : World),
    w.num_ingredients = w.ingredients.length →
    (∀ it ∈ items, it.2 ≠ []) →
    (∀ it ∈ items, 0 ≤ f it) →
    (∀ m, -2147483648 ≤ qtyIn w.ingredients m) →
    (∀ m, qtyIn w.ingredients m + ((items.filter (fun it => it.2 == m)).map f).sum
      ≤ 2147483647) →
    ((items.foldl (fun v it => lootItem v (f it) it.2) w).num_ingredients
      = (items.foldl (fun v it => lootItem v (f it) it.2) w).ingredients.length) ∧
    (∀ m, qtyIn (items.foldl (fun v it => lootItem v (f it) it.2) w).ingredients m
      = qtyIn w.ingredients m + ((items.filter (fun it => it.2 == m)).map f).sum) ∧
    (∀ x ∈ (items.foldl (fun v it => lootItem v (f it) it.2) w).ingredients,
      x.name ∈ w.ingredients.map (fun y => y.name) ∨ x.name ∈ items.map (fun it => it.2)) ∧
    ((w.ingredients.map (fun y => y.name)).Nodup →
      ((items.foldl (fun v it => lootItem v (f it) it.2) w).ingredients.map
        (fun y => y.name)).Nodup)
  | [], w, hnum, _, _, _, _ => by
    simp only [List.foldl_nil, hnum, List.filter_nil, List.map_nil, List.sum_nil, add_zero,
      implies_true, List.not_mem_nil, or_false, true_and, imp_self, and_true]
    intro x hx
    exact List.mem_map.2 ⟨x, hx, rfl⟩
  | it :: rest, w, hnum, hne, hpos, hlo, hhi => by
    have hrest : ∀ m, 0 ≤ ((rest.filter (fun x => x.2 == m)).map f).sum :=
      fun m => sum_filter_map_nonneg f _ rest (fun x hx => hpos x (List.mem_cons_of_mem _ hx))
    have hit : 0 ≤ f it := hpos it (List.mem_cons_self _ _)
    have hsplit : ∀ m, (((it :: rest).filter (fun x => x.2 == m)).map f).sum
        = (if m = it.2 then f it else 0) + ((rest.filter (fun x => x.2 == m)).map f).sum := by
      intro m
      by_cases hm : m = it.2
      · subst hm
        simp [List.filter_cons]
      · have : (it.2 == m) = false := by simpa using fun h => hm h.symm
        simp [List.filter_cons, this, hm]
    have hfit_hi : qtyIn w.ingredients it.2 + f it ≤ 2147483647 := by
      have h1 := hhi it.2
      rw [hsplit it.2, if_pos rfl] at h1
      have h2 := hrest it.2
      omega
    have hfit_lo : -2147483648 ≤ qtyIn w.ingredients it.2 + f it := by
      have h1 := hlo it.2
      omega
    have hstep := lootItem_eq w (f it) it.2 hnum (hne it (List.mem_cons_self _ _))
      hfit_lo hfit_hi
    have hing : (lootItem w (f it) it.2).ingredients = addFirst it.2 (f it) w.ingredients := by
      rw [hstep]
    have hnum' : (lootItem w (f it) it.2).num_ingredients
        = (lootItem w (f it) it.2).ingredients.length := by rw [hstep]
    have hq : ∀ m, qtyIn (lootItem w (f it) it.2).ingredients m
        = qtyIn w.ingredients m + (if m = it.2 then f it else 0) := by
      intro m
      rw [hing]
      exact qtyIn_addFirst it.2 (f it) w.ingredients m (hne it (List.mem_cons_self _ _))
    have ih := foldl_lootItem f rest (lootItem w (f it) it.2) hnum'
      (fun x hx => hne x (List.mem_cons_of_mem _ hx))
      (fun x hx => hpos x (List.mem_cons_of_mem _ hx))
      (fun m => by
        rw [hq m]
        have h1 := hlo m
        split <;> omega)
      (fun m => by
        rw [hq m]
        have h1 := hhi m
        rw [hsplit m] at h1
        omega)
    simp only [List.foldl_cons]
    refine ⟨ih.1, fun m => ?_, fun x hx => ?_, fun hnd => ?_⟩
    · rw [ih.2.1 m, hq m, hsplit m]
      omega
    · rcases ih.2.2.1 x hx with h1 | h1
      · rw [hing] at h1
        obtain ⟨y, hy, hyx⟩ := List.mem_map.1 h1
        rcases addFirst_names_mem it.2 (f it) w.ingredients y hy with h2 | h2
        · right
          simp only [List.map_cons, List.mem_cons]
          left
          rw [← hyx]
          exact h2
        · left
          rw [← hyx]
          exact h2
      · right
        simp only [List.map_cons, List.mem_cons]
        exact Or.inr h1
    · apply ih.2.2.2
      rw [hing]
      exact addFirst_names_nodup _ _ _ hnd

/-- One accepted Loot line whose quantities fit in an `int`, executed in a state where
`num_ingredients` is the number of records and where every reported quantity, increased
by the total the line lists for the name, stays within the range of `int`: the reported
quantity of every name rises by the total the line lists for it, `num_ingredients`
is again the number of records, every record carries a name that was recorded or that the
line lists, and no name gets a second record. -/
theorem execute_line_loot (w : World) (line : CStr)
    (hnum : w.num_ingredients = w.ingredients.length)
    (hacc : isValidCommand (inputCopy line) = .ACTION_LOOT)
    (hrange : ∀ it ∈ lootItemsOf line, digitsValue 0 it.1 ≤ 2147483647)
    (hlo : ∀ m, -2147483648 ≤ ingredientQuantity w m)
    (hhi : ∀ m, ingredientQuantity w m + listedTotal (lootItemsOf line) m ≤ 2147483647) :
    (execute_line w line).out = "Alchemy ingredients obtained\n".toList ∧
    (execute_line w line).world.num_ingredients
      = (execute_line w line).world.ingredients.length ∧
    (∀ m, ingredientQuantity (execute_line w line).world m
      = ingredientQuantity w m + listedTotal (lootItemsOf line) m) ∧
    (∀ x ∈ (execute_line w line).world.ingredients,
      x.name ∈ w.ingredients.map (fun y => y.name)
        ∨ x.name ∈ (lootItemsOf line).map (fun it => it.2)) ∧
    ((w.ingredients.map (fun y => y.name)).Nodup →
      ((execute_line w line).world.ingredients.map (fun y => y.name)).Nodup) := by
  rw [execute_line_eq w line _ hacc (by decide)]
  simp only [executeCommand, executeLootAction]
  have hok := isLootAction_items _ (isValidCommand_loot _ hacc)
  obtain ⟨hloop, hitems⟩ := lootLoop_eq _ w hok
  rw [hloop]
  have hne : ∀ it ∈ listedItems ((tokenizeInput (inputCopy line)).drop 2), it.2 ≠ [] :=
    fun it hit => isAlphabeticOnly_ne_nil _ (hitems it hit).2
  have hval : ∀ it ∈ listedItems ((tokenizeInput (inputCopy line)).drop 2),
      atoi it.1 = (digitsValue 0 it.1 : Int) :=
    fun it hit => atoi_eq_digitsValue _ (hitems it hit).1 (hrange it hit)
  have hsum : ∀ m,
      (((listedItems ((tokenizeInput (inputCopy line)).drop 2)).filter
        (fun it => it.2 == m)).map (fun it => atoi it.1)).sum
      = listedTotal (lootItemsOf line) m := by
    intro m
    unfold listedTotal lootItemsOf
    have hcongr : ((listedItems ((tokenizeInput (inputCopy line)).drop 2)).filter
        (fun it => it.2 == m)).map (fun it => atoi it.1)
        = ((listedItems ((tokenizeInput (inputCopy line)).drop 2)).filter
        (fun it => it.2 == m)).map (fun it => (digitsValue 0 it.1 : Int)) := by
      apply List.map_congr_left
      intro it hit
      exact hval it (List.mem_filter.1 hit).1
    rw [hcongr]
  obtain ⟨h1, h2, h3, h4⟩ := foldl_lootItem (fun it => atoi it.1) _ w hnum hne
    (fun it hit => by
      show 0 ≤ atoi it.1
      rw [hval it hit]
      exact Int.natCast_nonneg _)
    (fun m => by
      rw [← ingredientQuantity_eq]
      exact hlo m)
    (fun m => by
      rw [← ingredientQuantity_eq, hsum m]
      exact hhi m)
  refine ⟨trivial, h1, fun m => ?_, h3, h4⟩
  rw [ingredientQuantity_eq, ingredientQuantity_eq, h2 m, hsum m]

/-- A sequence of accepted Loot lines, given in a state where `num_ingredients` is the
number of records, when every reported quantity, increased by the total the lines list
for the name, stays within the range of `int`. -/
theorem runLines_loot : ∀ (lines : List CStr) (w : World),
    w.num_ingredients = w.ingredients.length →
    (∀ l ∈ lines, isValidCommand (inputCopy l) = .ACTION_LOOT) →
    (∀ l ∈ lines, ∀ it ∈ lootItemsOf l, digitsValue 0 it.1 ≤ 2147483647) →
    (∀ m, -2147483648 ≤ ingredientQuantity w m) →
    (∀ m, ingredientQuantity w m + (lines.map (fun l => listedTotal (lootItemsOf l) m)).sum
      ≤ 2147483647) →
    (runLines w lines).num_ingredients = (runLines w lines).ingredients.length ∧
    (∀ m, ingredientQuantity (runLines w lines) m
      = ingredientQuantity w m + (lines.map (fun l => listedTotal (lootItemsOf l) m)).sum) ∧
    (∀ x ∈ (runLines w lines).ingredients,
      x.name ∈ w.ingredients.map (fun y => y.name)
        ∨ x.name ∈ ((lines.map lootItemsOf).flatten).map (fun it => it.2)) ∧
    ((w.ingredients.map (fun y => y.name)).Nodup →
      ((runLines w lines).ingredients.map (fun y => y.name)).Nodup)
  | [], w, hnum, _, _, _, _ => by
    simp only [runLines, List.foldl_nil, hnum, List.map_nil, List.sum_nil, add_zero,
      implies_true, List.flatten_nil, List.not_mem_nil, or_false, true_and, imp_self,
      and_true]
    intro x hx
    exact List.mem_map.2 ⟨x, hx, rfl⟩
  | l :: rest, w, hnum, hacc, hrange, hlo, hhi => by
    have hrest : ∀ m, 0 ≤ (rest.map (fun l => listedTotal (lootItemsOf l) m)).sum := by
      intro m
      apply List.sum_nonneg
      intro x hx
      obtain ⟨l', _, rfl⟩ := List.mem_map.1 hx
      exact listedTotal_nonneg _ _
    obtain ⟨_, h1, h2, h3, h4⟩ := execute_line_loot w l hnum (hacc l (List.mem_cons_self _ _))
      (hrange l (List.mem_cons_self _ _)) hlo
      (fun m => by
        have h3 := hhi m
        simp only [List.map_cons, List.sum_cons] at h3
        have h4 := hrest m
        omega)
    have ih := runLines_loot rest (execute_line w l).world h1
      (fun x hx => hacc x (List.mem_cons_of_mem _ hx))
      (fun x hx => hrange x (List.mem_cons_of_mem _ hx))
      (fun m => by
        rw [h2 m]
        have h3 := hlo m
        have h4 := listedTotal_nonneg (lootItemsOf l) m
        omega)
      (fun m => by
        rw [h2 m]
        have h3 := hhi m
        simp only [List.map_cons, List.sum_cons] at h3
        omega)
    have hrun : runLines w (l :: rest) = runLines (execute_line w l).world rest := rfl
    rw [hrun]
    refine ⟨ih.1, fun m => ?_, fun x hx => ?_, fun hnd => ih.2.2.2 (h4 hnd)⟩
    · rw [ih.2.1 m, h2 m]
      simp only [List.map_cons, List.sum_cons]
      omega
    · simp only [List.map_cons, List.flatten_cons, List.map_append, List.mem_append]
      rcases ih.2.2.1 x hx with h5 | h5
      · obtain ⟨y, hy, hyx⟩ := List.mem_map.1 h5
        rcases h3 y hy with h6 | h6
        · left
          rw [← hyx]
          exact h6
        · right
          left
          rw [← hyx]
          exact h6
      · right
        right
        exact h5

theorem mem_le_listedTotal (items : List (CStr × CStr)) (it : CStr × CStr) (h : it ∈ items) :
    (digitsValue 0 it.1 : Int) ≤ listedTotal items it.2 := by
  unfold listedTotal
  apply List.single_le_sum
  · intro x hx
    obtain ⟨y, _, rfl⟩ := List.mem_map.1 hx
    exact Int.natCast_nonneg _
  · exact List.mem_map.2 ⟨it, List.mem_filter.2 ⟨h, by simp⟩, rfl⟩

theorem listedTotal_le_lines (lines : List CStr) (l : CStr) (h : l ∈ lines) (m : CStr) :
    listedTotal (lootItemsOf l) m
      ≤ (lines.map (fun l => listedTotal (lootItemsOf l) m)).sum := by
  apply List.single_le_sum
  · intro x hx
    obtain ⟨y, _, rfl⟩ := List.mem_map.1 hx
    exact listedTotal_nonneg _ _
  · exact List.mem_map.2 ⟨l, h, rfl⟩

theorem listedTotal_of_not_listed (items : List (CStr × CStr)) (m : CStr)
    (h : ∀ it ∈ items, it.2 ≠ m) : listedTotal items m = 0 := by
  unfold listedTotal
  have : items.filter (fun it => it.2 == m) = [] := by
    rw [List.filter_eq_nil_iff]
    intro it hit
    simpa using h it hit
  rw [this]
  rfl

/-- The total that the lines list for a name is bounded as soon as it is bounded for the
names that occur in the lines. -/
theorem lines_total_bounded (lines : List CStr)
    (hsum : ∀ l ∈ lines, ∀ it ∈ lootItemsOf l,
      (lines.map (fun l => listedTotal (lootItemsOf l) it.2)).sum ≤ 2147483647) (m : CStr) :
    (lines.map (fun l => listedTotal (lootItemsOf l) m)).sum ≤ 2147483647 := by
  by_cases hex : ∃ l ∈ lines, ∃ it ∈ lootItemsOf l, it.2 = m
  · obtain ⟨l, hl, it, hit, rfl⟩ := hex
    exact hsum l hl it hit
  · have hz : ∀ x ∈ lines.map (fun l => listedTotal (lootItemsOf l) m), x = 0 := by
      intro x hx
      obtain ⟨l, hl, rfl⟩ := List.mem_map.1 hx
      apply listedTotal_of_not_listed
      intro it hit hm
      exact hex ⟨l, hl, it, hit, hm⟩
    have : (lines.map (fun l => listedTotal (lootItemsOf l) m)).sum = 0 :=
      List.sum_eq_zero hz
    rw [this]
    decide

theorem updSlot_eq_bumpFirst {α : Type} [Inhabited α] (p : α → Bool) (f : α → α)
    (l : List α) (i j : Nat) (h : findSlot p l i = some j) :
    updSlot f l (j - i) = bumpFirst p f l := by
  induction l generalizing i with
  | nil => simp [findSlot] at h
  | cons x xs ih =>
    simp only [findSlot] at h
    by_cases hx : p x = true
    · simp only [hx, ↓reduceIte, Option.some.injEq] at h
      subst h
      simp [updSlot, bumpFirst, hx]
    · simp only [hx, Bool.false_eq_true, ↓reduceIte] at h
      have hle := (findSlot_some _ _ _ _ h).1
      have : j - i = (j - (i + 1)) + 1 := by omega
      rw [this]
      simp only [updSlot, bumpFirst, hx, Bool.false_eq_true, ↓reduceIte]
      rw [ih (i + 1) h]

theorem findSlot_bumpFirst {α : Type} (q p : α → Bool) (f : α → α)
    (hf : ∀ x, q (f x) = q x) (l : List α) (i : Nat) :
    findSlot q (bumpFirst p f l) i = findSlot q l i := by
  induction l generalizing i with
  | nil => rfl
  | cons x xs ih =>
    simp only [bumpFirst]
    split
    · simp [findSlot, hf]
    · simp only [findSlot]
      rw [ih]

theorem find?_bumpFirst_same {α : Type} (p : α → Bool) (f : α → α)
    (hf : ∀ x, p (f x) = p x) (l : List α) :
    (bumpFirst p f l).find? p = (l.find? p).map f := by
  induction l with
  | nil => rfl
  | cons x xs ih =>
    simp only [bumpFirst]
    by_cases hx : p x = true
    · simp [hx, List.find?, hf]
    · simp only [hx, Bool.false_eq_true, ↓reduceIte, List.find?]
      simpa [hx] using ih

theorem find?_bumpFirst_other {α : Type} (q p : α → Bool) (f : α → α)
    (hf : ∀ x, q (f x) = q x) (hd : ∀ x, p x = true → q x = false) (l : List α) :
    (bumpFirst p f l).find? q = l.find? q := by
  induction l with
  | nil => rfl
  | cons x xs ih =>
    simp only [bumpFirst]
    by_cases hx : p x = true
    · have h1 := hd x hx
      have h2 : q (f x) = false := by rw [hf]; exact h1
      simp [hx, List.find?, h1, h2]
    · simp only [hx, Bool.false_eq_true, ↓reduceIte, List.find?]
      rw [ih]

/-- Updates at slots that were resolved by name in the table before the updates, applied
one after the other, act as `bumpFirst` on the names, provided the updates leave every
name test unchanged. -/
theorem foldl_updSlot_resolved {α κ δ : Type} [Inhabited α] (pOf : κ → α → Bool)
    (fOf : δ → α → α) (hstable : ∀ k d x, pOf k (fOf d x) = pOf k x) :
    ∀ (items : List (κ × δ)) (idxs : List (Nat × δ)) (l : List α),
    List.Forall₂ (fun it ix => ix.2 = it.2 ∧ findSlot (pOf it.1) l 0 = some ix.1) items idxs →
    idxs.foldl (fun t ix => updSlot (fOf ix.2) t ix.1) l
      = items.foldl (fun t it => bumpFirst (pOf it.1) (fOf it.2) t) l := by
  intro items
  induction items with
  | nil =>
    intro idxs l h
    cases h
    rfl
  | cons it rest ih =>
    intro idxs l h
    cases h with
    | cons hhead htail =>
      rename_i ix ixs
      obtain ⟨h2, hfind⟩ := hhead
      simp only [List.foldl_cons]
      have hupd := updSlot_eq_bumpFirst (pOf it.1) (fOf ix.2) l 0 ix.1 hfind
      simp only [Nat.sub_zero] at hupd
      rw [hupd, h2]
      apply ih
      refine List.Forall₂.imp ?_ htail
      intro a b hab
      refine ⟨hab.1, ?_⟩
      rw [findSlot_bumpFirst _ _ _ (fun x => hstable _ _ x)]
      exact hab.2

theorem reduceTrophies_eq_foldl (idxs : List (Nat × Int)) (ts : List Trophy) :
    reduceTrophies ts idxs
      = idxs.foldl (fun t ix =>
          updSlot (fun (x : Trophy) => { x with quantity := toInt32 (x.quantity - ix.2) })
            t ix.1) ts := by
  induction idxs generalizing ts with
  | nil => rfl
  | cons ix rest ih =>
    obtain ⟨j, q⟩ := ix
    simp only [reduceTrophies, List.foldl_cons]
    exact ih _

theorem increaseIngredients_eq_foldl (idxs : List (Nat × Int)) (ings : List Ingredient) :
    increaseIngredients ings idxs
      = idxs.foldl (fun t ix =>
          updSlot (fun (x : Ingredient) => { x with quantity := toInt32 (x.quantity + ix.2) })
            t ix.1) ings := by
  induction idxs generalizing ings with
  | nil => rfl
  | cons ix rest ih =>
    obtain ⟨j, q⟩ := ix
    simp only [increaseIngredients, List.foldl_cons]
    exact ih _

theorem find?_bumpFirst_none_iff {α : Type} (q p : α → Bool) (f : α → α)
    (hf : ∀ x, q (f x) = q x) (l : List α) :
    (bumpFirst p f l).find? q = none ↔ l.find? q = none := by
  rw [← findSlot_none_iff q _ 0, ← findSlot_none_iff q _ 0, findSlot_bumpFirst q p f hf]

theorem trophyQuantity_eq (w : World) (n : CStr) :
    trophyQuantity w n = trophyQtyIn w.trophies n := by
  unfold trophyQuantity trophyQtyIn findTrophy
  cases h : findSlot (fun (t : Trophy) => !t.name.isEmpty && t.name == n) w.trophies 0 with
  | none =>
    have h2 : w.trophies.find? (trophyNamed n) = none := (findSlot_none_iff _ _ _).1 h
    rw [h2]
  | some j =>
    have h2 : w.trophies.find? (trophyNamed n) = some (slotAt w.trophies (j - 0)) :=
      (findSlot_some _ _ _ _ h).2
    rw [h2]
    simp

theorem trophyNamed_disjoint (n m : CStr) (hnm : m ≠ n) (x : Trophy)
    (h : trophyNamed n x = true) : trophyNamed m x = false := by
  simp only [trophyNamed, Bool.and_eq_true, beq_iff_eq] at h
  simp only [trophyNamed, Bool.and_eq_false_imp]
  intro _
  rw [h.2]
  simpa using fun h' => hnm h'.symm

theorem ingNamed_disjoint (n m : CStr) (hnm : m ≠ n) (x : Ingredient)
    (h : ingNamed n x = true) : ingNamed m x = false := by
  simp only [ingNamed, Bool.and_eq_true, beq_iff_eq] at h
  simp only [ingNamed, Bool.and_eq_false_imp]
  intro _
  rw [h.2]
  simpa using fun h' => hnm h'.symm

theorem findSlot_stocked (n : CStr) (hn : n ≠ []) (l : List Trophy) (i : Nat)
    (hq : 1 ≤ trophyQtyIn l n) :
    findSlot (fun (t : Trophy) => decide (t.quantity > 0) && t.name == n) l i
      = findSlot (trophyNamed n) l i := by
  induction l generalizing i with
  | nil => rfl
  | cons x xs ih =>
    by_cases hx : x.name = n
    · have hne : x.name.isEmpty = false := by
        rw [hx]
        cases n with
        | nil => exact absurd rfl hn
        | cons a as => rfl
      have hnamed : trophyNamed n x = true := by
        simp only [trophyNamed, hne, Bool.not_false, Bool.true_and, beq_iff_eq]
        exact hx
      have hqx : x.quantity > 0 := by
        simp only [trophyQtyIn, List.find?, hnamed] at hq
        omega
      simp [findSlot, hnamed, hqx, hx]
    · have hnamed : trophyNamed n x = false := by simp [trophyNamed, hx]
      have hq' : 1 ≤ trophyQtyIn xs n := by
        simpa only [trophyQtyIn, List.find?, hnamed] using hq
      simp only [findSlot, hnamed, Bool.false_eq_true, ↓reduceIte]
      have : (decide (x.quantity > 0) && x.name == n) = false := by simp [hx]
      simp only [this, Bool.false_eq_true, ↓reduceIte]
      exact ih (i + 1) hq'

/-- When every required trophy has a record whose stock is at least the positive
quantity required, the check loop of `executeTradeAction` succeeds and resolves every
entry to the first record with its name. -/
theorem tradeCheck_ok (l : List Trophy) : ∀ (req : List (CStr × Int)),
    (∀ it ∈ req, it.1 ≠ [] ∧ 1 ≤ it.2 ∧ it.2 ≤ trophyQtyIn l it.1) →
    ∃ idxs, tradeCheck l req = some idxs ∧
      List.Forall₂ (fun it ix => ix.2 = it.2 ∧ findSlot (trophyNamed it.1) l 0 = some ix.1)
        req idxs
  | [], _ => ⟨[], rfl, List.Forall₂.nil⟩
  | (n, q) :: rest, h => by
    obtain ⟨hn, hq1, hq2⟩ := h (n, q) (List.mem_cons_self _ _)
    obtain ⟨idxs, hidx, hall⟩ := tradeCheck_ok l rest
      (fun it hit => h it (List.mem_cons_of_mem _ hit))
    simp only at hn hq1 hq2
    have hstock : 1 ≤ trophyQtyIn l n := le_trans hq1 hq2
    have hfs := findSlot_stocked n hn l 0 hstock
    cases hj : findSlot (trophyNamed n) l 0 with
    | none =>
      have := (findSlot_none_iff _ _ _).1 hj
      simp only [trophyQtyIn, this] at hstock
      omega
    | some j =>
      have hval := (findSlot_some _ _ _ _ hj).2
      simp only [Nat.sub_zero] at hval
      have hqj : (slotAt l j).quantity = trophyQtyIn l n := by
        simp only [trophyQtyIn, hval]
      refine ⟨(j, q) :: idxs, ?_, List.Forall₂.cons ⟨rfl, hj⟩ hall⟩
      simp only [tradeCheck]
      rw [hfs, hj]
      simp only
      have : ¬ (slotAt l j).quantity < q := by rw [hqj]; omega
      simp [this, hidx]

theorem findSlot_placeFree_keep (n n' : CStr) (hnn : n' ≠ n) (l : List Ingredient)
    (i j : Nat) (h : findSlot (ingNamed n) l i = some j) :
    findSlot (ingNamed n)
      (placeFree (fun _ => ({ name := n', quantity := 0 } : Ingredient))
        (fun x => x.name.isEmpty) l) i = some j := by
  induction l generalizing i with
  | nil => simp [findSlot] at h
  | cons x xs ih =>
    simp only [findSlot] at h
    by_cases hx : ingNamed n x = true
    · have hfree : x.name.isEmpty = false := by
        simp only [ingNamed, Bool.and_eq_true, Bool.not_eq_true'] at hx
        exact hx.1
      simp only [hx, ↓reduceIte] at h
      simp [placeFree, hfree, findSlot, hx, h]
    · simp only [hx, Bool.false_eq_true, ↓reduceIte] at h
      simp only [placeFree]
      by_cases hfree : x.name.isEmpty = true
      · have hnew : ingNamed n ({ name := n', quantity := 0 } : Ingredient) = false := by
          simp [ingNamed, hnn]
        simp [hfree, findSlot, hnew, h]
      · simp only [hfree, Bool.false_eq_true, ↓reduceIte, findSlot, hx]
        exact ih (i + 1) h

theorem findSlot_placeFree_new (n : CStr) (hn : n ≠ []) (l : List Ingredient) (i : Nat)
    (h : l.find? (ingNamed n) = none) :
    findSlot (ingNamed n)
      (placeFree (fun _ => ({ name := n, quantity := 0 } : Ingredient))
        (fun x => x.name.isEmpty) l) i
      = some (i + firstFree (fun (x : Ingredient) => x.name.isEmpty) l) := by
  have hne : n.isEmpty = false := by
    cases n with
    | nil => exact absurd rfl hn
    | cons a as => rfl
  have hnew : ingNamed n ({ name := n, quantity := 0 } : Ingredient) = true := by
    simp [ingNamed, hne]
  induction l generalizing i with
  | nil => simp [placeFree, findSlot, hnew, firstFree]
  | cons x xs ih =>
    simp only [List.find?] at h
    cases hx : ingNamed n x
    · rw [hx] at h
      simp only at h
      rw [firstFree_cons]
      simp only [placeFree]
      by_cases hfree : x.name.isEmpty = true
      · simp [hfree, findSlot, hnew]
      · simp only [hfree, Bool.false_eq_true, ↓reduceIte, findSlot, hx]
        rw [ih (i + 1) h]
        congr 1
        omega
    · rw [hx] at h
      simp at h

theorem findSlot_tradeResolve_keep (n : CStr) : ∀ (rest : List (CStr × Int))
    (ings : List Ingredient) (j : Nat), findSlot (ingNamed n) ings 0 = some j →
    findSlot (ingNamed n) (tradeResolve ings rest).1 0 = some j
  | [], _, _, h => h
  | (n', q) :: rest, ings, j, h => by
    simp only [tradeResolve]
    cases hf : findSlot (fun (x : Ingredient) => !x.name.isEmpty && x.name == n') ings 0 with
    | some k => exact findSlot_tradeResolve_keep n rest ings j h
    | none =>
      simp only
      apply findSlot_tradeResolve_keep n rest
      rw [updSlot_firstFree]
      apply findSlot_placeFree_keep n n' _ ings 0 j h
      rintro rfl
      have : findSlot (ingNamed n') ings 0 = none := hf
      rw [this] at h
      cases h

/-- The loop that resolves the gained ingredients resolves every entry with a non-empty
name to the first record with that name in the table it leaves. -/
theorem tradeResolve_resolved : ∀ (gained : List (CStr × Int)) (ings : List Ingredient),
    (∀ it ∈ gained, it.1 ≠ []) →
    List.Forall₂ (fun it ix => ix.2 = it.2 ∧
        findSlot (ingNamed it.1) (tradeResolve ings gained).1 0 = some ix.1)
      gained (tradeResolve ings gained).2
  | [], _, _ => List.Forall₂.nil
  | (n, q) :: rest, ings, hne => by
    have hn : n ≠ [] := hne (n, q) (List.mem_cons_self _ _)
    have hrest : ∀ it ∈ rest, it.1 ≠ [] := fun it hit => hne it (List.mem_cons_of_mem _ hit)
    simp only [tradeResolve]
    cases hf : findSlot (fun (x : Ingredient) => !x.name.isEmpty && x.name == n) ings 0 with
    | some j =>
      simp only
      refine List.Forall₂.cons ⟨rfl, ?_⟩ (tradeResolve_resolved rest ings hrest)
      exact findSlot_tradeResolve_keep n rest ings j hf
    | none =>
      simp only
      refine List.Forall₂.cons ⟨rfl, ?_⟩ (tradeResolve_resolved rest _ hrest)
      apply findSlot_tradeResolve_keep n rest
      rw [updSlot_firstFree]
      have h2 : ings.find? (ingNamed n) = none := (findSlot_none_iff _ _ _).1 hf
      have := findSlot_placeFree_new n hn ings 0 h2
      simpa using this

theorem findTokenFrom_split (kw : CStr) : ∀ (l : List CStr) (i j : Nat),
    findTokenFrom kw l i = some j →
    i ≤ j ∧ l = l.take (j - i) ++ kw :: l.drop (j - i + 1) ∧ kw ∉ l.take (j - i)
  | [], _, _, h => by simp [findTokenFrom] at h
  | t :: ts, i, j, h => by
    simp only [findTokenFrom] at h
    by_cases ht : (t == kw) = true
    · simp only [ht, ↓reduceIte, Option.some.injEq] at h
      subst h
      have : t = kw := by simpa using ht
      simp [this]
    · simp only [ht, Bool.false_eq_true, ↓reduceIte] at h
      obtain ⟨h1, h2, h3⟩ := findTokenFrom_split kw ts (i + 1) j h
      have hji : j - i = (j - (i + 1)) + 1 := by omega
      refine ⟨by omega, ?_, ?_⟩
      · rw [hji]
        simp only [List.take_succ_cons, List.drop_succ_cons, List.cons_append, List.cons.injEq,
          true_and]
        exact h2
      · rw [hji]
        simp only [List.take_succ_cons, List.mem_cons, not_or]
        refine ⟨?_, h3⟩
        intro hk
        exact ht (by simp [hk])

theorem isPositiveInteger_ne_for (q : CStr) (h : isPositiveInteger q = true) :
    (q == "for".toList) = false := by
  rw [beq_eq_false_iff_ne]
  rintro rfl
  revert h
  decide

theorem isAlphabeticOnly_ne_comma (n : CStr) (h : isAlphabeticOnly n = true) :
    (n == [',']) = false := by
  rw [beq_eq_false_iff_ne]
  rintro rfl
  revert h
  decide

theorem tradeParse_nil (fuel : Nat) (b : Bool) : tradeParse fuel [] b = ([], []) := by
  cases fuel <;> rfl

/-- On the tokens after `for` that `isTradeAction` accepts, the parsing loop of
`executeTradeAction` stores the listed items, in order. -/
theorem tradeParse_items : ∀ (items : List CStr) (fuel : Nat),
    tradeItemsOk items = true → items.length ≤ fuel →
    tradeParse fuel items false = ([], toEntries (listedItems items))
  | [], _, h, _ => by simp [tradeItemsOk] at h
  | [q], _, h, _ => by simp [tradeItemsOk] at h
  | [q, n], fuel, h, hlen => by
    simp only [tradeItemsOk, Bool.and_true, Bool.and_eq_true] at h
    cases fuel with
    | zero => simp at hlen
    | succ f =>
      simp only [tradeParse, isPositiveInteger_ne_for q h.1, Bool.false_eq_true, ↓reduceIte,
        List.headD_cons, List.tail_cons, List.head?_nil, tradeParse_nil, listedItems,
        toEntries, List.map_cons, List.map_nil]
      simp [tradeParse_nil]
  | q :: n :: k :: rest, fuel, h, hlen => by
    simp only [tradeItemsOk, Bool.and_eq_true, beq_iff_eq] at h
    obtain ⟨hq, hn, ⟨hk, hne⟩, hrest⟩ := h
    subst hk
    cases fuel with
    | zero => simp at hlen
    | succ f =>
      have ih := tradeParse_items rest f hrest (by simp at hlen; omega)
      simp only [tradeParse, isPositiveInteger_ne_for q hq, Bool.false_eq_true, ↓reduceIte,
        List.headD_cons, List.tail_cons, List.head?_cons, beq_self_eq_true, ih, listedItems,
        toEntries, List.map_cons]

theorem takeWhile_name (n k : CStr) (r : List CStr) (hn : isTrophyStop n = false)
    (hk : isTrophyStop k = true) :
    (n :: k :: r).takeWhile (fun x => !isTrophyStop x) = [n] ∧
    (n :: k :: r).dropWhile (fun x => !isTrophyStop x) = k :: r := by
  simp [List.takeWhile, List.dropWhile, hn, hk]

theorem joinWords_single (n : CStr) : joinWords [n] = n := by
  simp [joinWords]

/-- On tokens `seg ++ for :: items` that `isTradeAction` accepts, none of the listed
trophy names being the keyword `trophy`, the parsing loop of `executeTradeAction` stores
the listed trophies and the listed ingredients, in order. -/
theorem tradeParse_trophies : ∀ (seg items : List CStr) (fuel : Nat),
    tradeTrophiesOk seg = true → "for".toList ∉ seg →
    (∀ it ∈ listedItems seg, it.2 ≠ "trophy".toList) →
    tradeItemsOk items = true → (seg ++ "for".toList :: items).length ≤ fuel →
    tradeParse fuel (seg ++ "for".toList :: items) true
      = (toEntries (listedItems seg), toEntries (listedItems items))
  | [], _, _, h, _, _, _, _ => by simp [tradeTrophiesOk] at h
  | [q], _, _, h, _, _, _, _ => by simp [tradeTrophiesOk] at h
  | [q, n], _, _, h, _, _, _, _ => by simp [tradeTrophiesOk] at h
  | q :: n :: k :: rest, items, fuel, h, hfor, hkw, hitems, hlen => by
    have h0 : isPositiveInteger q = true ∧ isAlphabeticOnly n = true ∧
        (if (k == "trophy".toList && rest.isEmpty) = true then true
         else if (k == [',']) = true then tradeTrophiesOk rest else false) = true := by
      have h' := h
      unfold tradeTrophiesOk at h'
      rw [Bool.and_eq_true, Bool.and_eq_true] at h'
      exact h'
    obtain ⟨hq, hn, hk⟩ := h0
    have hqf := isPositiveInteger_ne_for q hq
    have hnfor : n ≠ "for".toList := by
      intro hx
      exact hfor (by simp [hx])
    have hncomma := isAlphabeticOnly_ne_comma n hn
    cases fuel with
    | zero => simp at hlen
    | succ f =>
      by_cases hkt : (k == "trophy".toList && rest.isEmpty) = true
      · -- the last entry: `n trophy for ...`
        simp only [Bool.and_eq_true, beq_iff_eq, List.isEmpty_iff] at hkt
        obtain ⟨hk1, hk2⟩ := hkt
        subst hk1 hk2
        have hntro : n ≠ "trophy".toList := hkw (q, n) (by simp [listedItems])
        have hstopn : isTrophyStop n = false := by
          simp only [isTrophyStop, Bool.or_eq_false_iff, beq_eq_false_iff_ne, ne_eq]
          exact ⟨⟨hntro, by simpa using hncomma⟩, hnfor⟩
        have hstopk : isTrophyStop "trophy".toList = true := by decide
        obtain ⟨htw, hdw⟩ := takeWhile_name n "trophy".toList ("for".toList :: items)
          hstopn hstopk
        cases f with
        | zero => simp at hlen
        | succ f' =>
          have hit := tradeParse_items items f' hitems (by simp at hlen; omega)
          have e1 : ([q, n, "trophy".toList] ++ "for".toList :: items)
              = q :: n :: "trophy".toList :: "for".toList :: items := rfl
          rw [e1]
          simp only [tradeParse, hqf, Bool.false_eq_true, ↓reduceIte, htw, hdw,
            joinWords_single, List.head?_cons, beq_self_eq_true, List.tail_cons]
          have e2 : (some "for".toList == some [',']) = false := by decide
          simp only [e2, Bool.false_eq_true, ↓reduceIte, tradeParse, beq_self_eq_true, hit,
            listedItems, toEntries, List.map_cons, List.map_nil]
      · -- an entry followed by a comma
        rw [if_neg hkt] at hk
        have hkc : k = [','] := by
          by_cases hkc : (k == [',']) = true
          · simpa using hkc
          · rw [if_neg hkc] at hk
            cases hk
        subst hkc
        rw [if_pos (by simp)] at hk
        have hstopn : isTrophyStop n = false := by
          have hntro : n ≠ "trophy".toList := hkw (q, n) (by simp [listedItems])
          simp only [isTrophyStop, Bool.or_eq_false_iff, beq_eq_false_iff_ne, ne_eq]
          exact ⟨⟨hntro, by simpa using hncomma⟩, hnfor⟩
        have hstopk : isTrophyStop [','] = true := by decide
        obtain ⟨htw, hdw⟩ := takeWhile_name n [','] (rest ++ "for".toList :: items)
          hstopn hstopk
        have ih := tradeParse_trophies rest items f hk
          (fun hx => hfor (List.mem_cons_of_mem _ (List.mem_cons_of_mem _
            (List.mem_cons_of_mem _ hx))))
          (fun it hit => hkw it (by
            simp only [listedItems]
            exact List.mem_cons_of_mem _ hit))
          hitems (by simp at hlen ⊢; omega)
        have e1 : (q :: n :: [','] :: rest ++ "for".toList :: items)
            = q :: n :: [','] :: (rest ++ "for".toList :: items) := rfl
        rw [e1]
        have e2 : (some [','] == some "trophy".toList) = false := by decide
        simp only [tradeParse, hqf, Bool.false_eq_true, ↓reduceIte, htw, hdw,
          joinWords_single, List.head?_cons, e2, beq_self_eq_true, List.tail_cons, ih,
          listedItems, toEntries, List.map_cons]

theorem isValidCommand_trade (input : CStr) (h : isValidCommand input = .ACTION_TRADE) :
    isTradeAction input = true :=
  (commandChain _ _ _ _ _ _ _ _ _ _ _ _ h).2.1 rfl

theorem isTradeAction_shape (input : CStr) (h : isTradeAction input = true) :
    ∃ forIndex, findTokenFrom "for".toList ((tokenizeInput input).drop 2) 2 = some forIndex ∧
      tradeTrophiesOk (((tokenizeInput input).take forIndex).drop 2) = true ∧
      tradeItemsOk ((tokenizeInput input).drop (forIndex + 1)) = true := by
  unfold isTradeAction at h
  simp only at h
  split_ifs at h with h1
  cases hf : findTokenFrom "for".toList ((tokenizeInput input).drop 2) 2 with
  | none =>
    rw [hf] at h
    cases h
  | some forIndex =>
    rw [hf] at h
    simp only at h
    split_ifs at h with h2 h3
    exact ⟨forIndex, rfl, by simpa using h3, h⟩

theorem tradeTrophiesOk_items : ∀ (seg : List CStr), tradeTrophiesOk seg = true →
    ∀ it ∈ listedItems seg, isPositiveInteger it.1 = true ∧ isAlphabeticOnly it.2 = true
  | [], h => by simp [tradeTrophiesOk] at h
  | [q], h => by simp [tradeTrophiesOk] at h
  | [q, n], h => by simp [tradeTrophiesOk] at h
  | q :: n :: k :: rest, h => by
    have h0 : isPositiveInteger q = true ∧ isAlphabeticOnly n = true ∧
        (if (k == "trophy".toList && rest.isEmpty) = true then true
         else if (k == [',']) = true then tradeTrophiesOk rest else false) = true := by
      have h' := h
      unfold tradeTrophiesOk at h'
      rw [Bool.and_eq_true, Bool.and_eq_true] at h'
      exact h'
    obtain ⟨hq, hn, hk⟩ := h0
    intro it hit
    simp only [listedItems, List.mem_cons] at hit
    rcases hit with rfl | hit
    · exact ⟨hq, hn⟩
    · by_cases hkt : (k == "trophy".toList && rest.isEmpty) = true
      · simp only [Bool.and_eq_true, List.isEmpty_iff] at hkt
        rw [hkt.2] at hit
        simp [listedItems] at hit
      · rw [if_neg hkt] at hk
        by_cases hkc : (k == [',']) = true
        · rw [if_pos hkc] at hk
          exact tradeTrophiesOk_items rest hk it hit
        · rw [if_neg hkc] at hk
          cases hk

theorem tradeItemsOk_items : ∀ (items : List CStr), tradeItemsOk items = true →
    ∀ it ∈ listedItems items, isPositiveInteger it.1 = true ∧ isAlphabeticOnly it.2 = true
  | [], h => by simp [tradeItemsOk] at h
  | [q], h => by simp [tradeItemsOk] at h
  | [q, n], h => by
    simp only [tradeItemsOk, Bool.and_true, Bool.and_eq_true] at h
    simp [listedItems, h.1, h.2]
  | q :: n :: k :: rest, h => by
    simp only [tradeItemsOk, Bool.and_eq_true, beq_iff_eq] at h
    obtain ⟨hq, hn, _, hrest⟩ := h
    intro it hit
    simp only [listedItems, List.mem_cons] at hit
    rcases hit with rfl | hit
    · exact ⟨hq, hn⟩
    · exact tradeItemsOk_items rest hrest it hit

theorem isPositiveInteger_atoi_pos (q : CStr) (h : isPositiveInteger q = true) :
    1 ≤ atoi q := by
  cases q with
  | nil => simp [isPositiveInteger] at h
  | cons c rest =>
    unfold isPositiveInteger at h
    simp only at h
    split_ifs at h with h1 h2
    have : atoi (c :: rest) > 0 := by simpa using h
    omega

theorem entries_sum (m : CStr) : ∀ (items : List (CStr × CStr)),
    (∀ it ∈ items, atoi it.1 = (digitsValue 0 it.1 : Int)) →
    (((toEntries items).filter (fun e => e.1 == m)).map (fun e => e.2)).sum
      = listedTotal items m
  | [], _ => rfl
  | it :: rest, hval => by
    have ih := entries_sum m rest (fun x hx => hval x (List.mem_cons_of_mem _ hx))
    have hit := hval it (List.mem_cons_self _ _)
    unfold listedTotal toEntries at ih ⊢
    simp only [List.map_cons, List.filter_cons]
    by_cases hm : (it.2 == m) = true
    · simp only [hm, ↓reduceIte, List.map_cons, List.sum_cons, ih, hit]
    · simp only [hm, Bool.false_eq_true, ↓reduceIte, ih]

theorem forall₂_left {α β : Type} (R : α → β → Prop) :
    ∀ (l1 : List α) (l2 : List β), List.Forall₂ R l1 l2 → ∀ a ∈ l1, ∃ b, R a b
  | _, _, List.Forall₂.nil, a, ha => by cases ha
  | _, _, List.Forall₂.cons hhead htail, a, ha => by
    rcases List.mem_cons.1 ha with rfl | ha'
    · exact ⟨_, hhead⟩
    · exact forall₂_left R _ _ htail a ha'

theorem trade_tokens_split (input : CStr) (forIndex : Nat)
    (hf : findTokenFrom "for".toList ((tokenizeInput input).drop 2) 2 = some forIndex) :
    (tokenizeInput input).drop 2
      = ((tokenizeInput input).take forIndex).drop 2
          ++ "for".toList :: (tokenizeInput input).drop (forIndex + 1) ∧
    "for".toList ∉ ((tokenizeInput input).take forIndex).drop 2 := by
  obtain ⟨h1, h2, h3⟩ := findTokenFrom_split _ _ _ _ hf
  have e1 : ((tokenizeInput input).take forIndex).drop 2
      = ((tokenizeInput input).drop 2).take (forIndex - 2) := List.drop_take _ _ _
  have e2 : (tokenizeInput input).drop (forIndex + 1)
      = ((tokenizeInput input).drop 2).drop (forIndex - 2 + 1) := by
    rw [List.drop_drop]
    congr 1
    omega
  rw [e1, e2]
  exact ⟨h2, h3⟩

/-! ## The bubble sorts -/

theorem bubblePass_perm {α : Type} (swap : α → α → Bool) :
    ∀ (k : Nat) (l : List α), (bubblePass swap k l).Perm l
  | 0, l => by simp [bubblePass]
  | _ + 1, [] => by simp [bubblePass]
  | _ + 1, [x] => by simp [bubblePass]
  | k + 1, x :: y :: rest => by
    simp only [bubblePass]
    split
    · exact ((bubblePass_perm swap k (x :: rest)).cons y).trans (List.Perm.swap x y rest)
    · exact (bubblePass_perm swap k (y :: rest)).cons x

theorem bubbleFrom_perm {α : Type} (swap : α → α → Bool) :
    ∀ (k : Nat) (l : List α), (bubbleFrom swap k l).Perm l
  | 0, l => by simp [bubbleFrom]
  | k + 1, l => by
    simp only [bubbleFrom]
    exact (bubbleFrom_perm swap k _).trans (bubblePass_perm swap (k + 1) l)

theorem bubbleSort_perm {α : Type} (swap : α → α → Bool) (l : List α) :
    (bubbleSort swap l).Perm l := bubbleFrom_perm swap _ l

/-- One pass of `k` comparisons over a table of more than `k` elements moves a greatest
element of the first `k + 1` to position `k` and leaves the elements after it alone. -/
theorem bubblePass_spec {α : Type} (swap : α → α → Bool)
    (htotal : ∀ a b, swap a b = true → swap b a = false)
    (htrans : ∀ a b c, swap a b = false → swap b c = false → swap a c = false) :
    ∀ (k : Nat) (l : List α), k + 1 ≤ l.length →
    ∃ init m, bubblePass swap k l = init ++ m :: l.drop (k + 1) ∧ init.length = k ∧
      (init ++ [m]).Perm (l.take (k + 1)) ∧ ∀ x ∈ init, swap x m = false
  | 0, [], h => by simp at h
  | 0, x :: t, _ => ⟨[], x, by simp [bubblePass], rfl, by simp, by simp⟩
  | _ + 1, [], h => by simp at h
  | _ + 1, [x], h => by simp at h
  | k + 1, x :: y :: rest, h => by
    have hrefl : ∀ a, swap a a = false := by
      intro a
      cases hs : swap a a
      · rfl
      · exact (htotal a a hs).symm.trans hs |> fun h' => by simp at h'
    simp only [bubblePass]
    by_cases hxy : swap x y = true
    · obtain ⟨init, m, h1, h2, h3, h4⟩ :=
        bubblePass_spec swap htotal htrans k (x :: rest) (by simp at h ⊢; omega)
      have hxm : swap x m = false := by
        have hx : x ∈ init ++ [m] := h3.symm.subset (by simp)
        rcases List.mem_append.1 hx with hx | hx
        · exact h4 x hx
        · simp only [List.mem_singleton] at hx
          rw [hx]
          exact hrefl m
      refine ⟨y :: init, m, ?_, by simp [h2], ?_, ?_⟩
      · simp only [hxy, ↓reduceIte, h1, List.cons_append, List.drop_succ_cons]
      · simp only [List.cons_append, List.take_succ_cons]
        have h3' : (init ++ [m]).Perm (x :: rest.take k) := by simpa using h3
        exact (h3'.cons y).trans (List.Perm.swap x y _)
      · intro z hz
        rcases List.mem_cons.1 hz with rfl | hz
        · exact htrans _ _ _ (htotal _ _ hxy) hxm
        · exact h4 z hz
    · have hxy' : swap x y = false := by simpa using hxy
      obtain ⟨init, m, h1, h2, h3, h4⟩ :=
        bubblePass_spec swap htotal htrans k (y :: rest) (by simp at h ⊢; omega)
      have hym : swap y m = false := by
        have hy : y ∈ init ++ [m] := h3.symm.subset (by simp)
        rcases List.mem_append.1 hy with hy | hy
        · exact h4 y hy
        · simp only [List.mem_singleton] at hy
          rw [hy]
          exact hrefl m
      refine ⟨x :: init, m, ?_, by simp [h2], ?_, ?_⟩
      · simp only [hxy', Bool.false_eq_true, ↓reduceIte, h1, List.cons_append,
          List.drop_succ_cons]
      · simp only [List.cons_append, List.take_succ_cons]
        have h3' : (init ++ [m]).Perm (y :: rest.take k) := by simpa using h3
        exact h3'.cons x
      · intro z hz
        rcases List.mem_cons.1 hz with rfl | hz
        · exact htrans _ _ _ hxy' hym
        · exact h4 z hz

/-- The outer loop, entered with the elements after position `k` in order and not below
any of the first `k + 1`, leaves the whole table in order. -/
theorem bubbleFrom_sorted {α : Type} (swap : α → α → Bool)
    (htotal : ∀ a b, swap a b = true → swap b a = false)
    (htrans : ∀ a b c, swap a b = false → swap b c = false → swap a c = false) :
    ∀ (k : Nat) (l : List α), k + 1 ≤ l.length →
    (l.drop (k + 1)).Pairwise (fun a b => swap a b = false) →
    (∀ a ∈ l.take (k + 1), ∀ b ∈ l.drop (k + 1), swap a b = false) →
    (bubbleFrom swap k l).Pairwise (fun a b => swap a b = false)
  | 0, l, hlen, hs, hle => by
    simp only [bubbleFrom]
    cases l with
    | nil => simp at hlen
    | cons x t =>
      simp only [Nat.zero_add, List.drop_succ_cons, List.drop_zero, List.take_succ_cons,
        List.take_zero, List.mem_singleton, forall_eq] at hs hle
      exact List.Pairwise.cons hle hs
  | k + 1, l, hlen, hs, hle => by
    simp only [bubbleFrom]
    obtain ⟨init, m, h1, h2, h3, h4⟩ := bubblePass_spec swap htotal htrans (k + 1) l hlen
    have hmem : m ∈ l.take (k + 1 + 1) := h3.subset (by simp)
    have htake : (init ++ m :: l.drop (k + 1 + 1)).take (k + 1) = init := by
      rw [List.take_append_of_le_length (by omega)]
      rw [List.take_of_length_le (by omega)]
    have hdrop : (init ++ m :: l.drop (k + 1 + 1)).drop (k + 1) = m :: l.drop (k + 1 + 1) := by
      rw [List.drop_append_of_le_length (by omega)]
      rw [List.drop_of_length_le (by omega)]
      rfl
    rw [h1]
    apply bubbleFrom_sorted swap htotal htrans k
    · simp only [List.length_append, List.length_cons]
      omega
    · rw [hdrop]
      exact List.Pairwise.cons (fun b hb => hle m hmem b hb) hs
    · rw [htake, hdrop]
      intro a ha b hb
      rcases List.mem_cons.1 hb with rfl | hb
      · exact h4 a ha
      · exact hle a (h3.subset (List.mem_append_left _ ha)) b hb

/-- A bubble sort whose comparison is total and transitive returns the elements of its
input in an order in which no element should be swapped with a later one. -/
theorem bubbleSort_sorted {α : Type} (swap : α → α → Bool)
    (htotal : ∀ a b, swap a b = true → swap b a = false)
    (htrans : ∀ a b c, swap a b = false → swap b c = false → swap a c = false)
    (l : List α) : (bubbleSort swap l).Pairwise (fun a b => swap a b = false) := by
  unfold bubbleSort
  cases l with
  | nil => simp [bubbleFrom]
  | cons x t =>
    apply bubbleFrom_sorted swap htotal htrans
    · simp
    · simp
    · simp
theorem strcmp_neg : ∀ (a b : CStr), strcmp b a = - strcmp a b
  | [], [] => rfl
  | [], _ :: _ => rfl
  | _ :: _, [] => rfl
  | x :: xs, y :: ys => by
    simp only [strcmp]
    by_cases hxy : x = y
    · subst hxy
      simp only [beq_self_eq_true, ↓reduceIte]
      exact strcmp_neg xs ys
    · have h1 : (x == y) = false := by simpa using hxy
      have h2 : (y == x) = false := by simpa using fun h => hxy h.symm
      simp only [h1, h2, Bool.false_eq_true, ↓reduceIte]
      omega

theorem char_toNat_ne (x y : Char) (h : x ≠ y) : x.toNat ≠ y.toNat := by
  intro hn
  apply h
  have hx := Char.ofNat_toNat x
  have hy := Char.ofNat_toNat y
  rw [← hx, ← hy, hn]

theorem strcmp_trans : ∀ (a b c : CStr), strcmp a b ≤ 0 → strcmp b c ≤ 0 → strcmp a c ≤ 0
  | [], [], _, _, h => h
  | [], _ :: _, [], _, h => by simp [strcmp] at h
  | [], _ :: _, _ :: _, _, _ => by simp [strcmp]
  | _ :: _, [], _, h, _ => by simp [strcmp] at h
  | _ :: _, _ :: _, [], _, h => by simp [strcmp] at h
  | x :: xs, y :: ys, z :: zs, h1, h2 => by
    simp only [strcmp] at h1 h2 ⊢
    by_cases hxy : x = y
    · subst hxy
      simp only [beq_self_eq_true, ↓reduceIte] at h1
      by_cases hxz : x = z
      · subst hxz
        simp only [beq_self_eq_true, ↓reduceIte] at h2 ⊢
        exact strcmp_trans xs ys zs h1 h2
      · have e : (x == z) = false := by simpa using hxz
        simp only [e, Bool.false_eq_true, ↓reduceIte] at h2 ⊢
        exact h2
    · have e1 : (x == y) = false := by simpa using hxy
      simp only [e1, Bool.false_eq_true, ↓reduceIte] at h1
      have n1 := char_toNat_ne x y hxy
      by_cases hyz : y = z
      · subst hyz
        simp only [e1, Bool.false_eq_true, ↓reduceIte]
        exact h1
      · have e2 : (y == z) = false := by simpa using hyz
        simp only [e2, Bool.false_eq_true, ↓reduceIte] at h2
        have n2 := char_toNat_ne y z hyz
        have hxz : x ≠ z := by
          intro hxz
          subst hxz
          omega
        have e3 : (x == z) = false := by simpa using hxz
        simp only [e3, Bool.false_eq_true, ↓reduceIte]
        omega

theorem nameSwap_total (a b : CStr) (h : decide (strcmp a b > 0) = true) :
    decide (strcmp b a > 0) = false := by
  have := strcmp_neg a b
  simp only [gt_iff_lt, decide_eq_true_eq, decide_eq_false_iff_not, not_lt] at h ⊢
  omega

theorem nameSwap_trans (a b c : CStr) (h1 : decide (strcmp a b > 0) = false)
    (h2 : decide (strcmp b c > 0) = false) : decide (strcmp a c > 0) = false := by
  simp only [gt_iff_lt, decide_eq_false_iff_not, not_lt] at h1 h2 ⊢
  exact strcmp_trans a b c h1 h2

theorem alchemySwap_false_iff (a b : CStr × Int) :
    alchemySwap a b = false ↔ (a.2 > b.2 ∨ (a.2 = b.2 ∧ strcmp a.1 b.1 ≤ 0)) := by
  unfold alchemySwap
  by_cases h1 : a.2 < b.2
  · simp only [h1, ↓reduceIte]
    constructor
    · intro h; cases h
    · intro h; omega
  · by_cases h2 : a.2 = b.2
    · by_cases h3 : strcmp a.1 b.1 > 0
      · simp [h1, h2, h3]
      · simp only [h1, ↓reduceIte, h2, beq_self_eq_true, h3, decide_False, Bool.and_false,
          Bool.false_eq_true, true_and]
        simp only [gt_iff_lt, not_lt] at h3
        simp [h3]
    · have e : (a.2 == b.2) = false := by simpa using h2
      simp only [h1, ↓reduceIte, e, Bool.false_and, Bool.false_eq_true, true_iff]
      left
      omega

theorem alchemySwap_total (a b : CStr × Int) (h : alchemySwap a b = true) :
    alchemySwap b a = false := by
  rw [alchemySwap_false_iff]
  have hn : ¬ (alchemySwap a b = false) := by simp [h]
  rw [alchemySwap_false_iff] at hn
  have hneg := strcmp_neg a.1 b.1
  have h1 : ¬ a.2 > b.2 := fun hh => hn (Or.inl hh)
  by_cases h2 : a.2 = b.2
  · right
    refine ⟨h2.symm, ?_⟩
    have h3 : ¬ strcmp a.1 b.1 ≤ 0 := fun hh => hn (Or.inr ⟨h2, hh⟩)
    omega
  · left
    omega

theorem alchemySwap_trans (a b c : CStr × Int) (h1 : alchemySwap a b = false)
    (h2 : alchemySwap b c = false) : alchemySwap a c = false := by
  rw [alchemySwap_false_iff] at h1 h2 ⊢
  rcases h1 with h1 | ⟨h1, s1⟩
  · rcases h2 with h2 | ⟨h2, _⟩
    · left; omega
    · left; omega
  · rcases h2 with h2 | ⟨h2, s2⟩
    · left; omega
    · right
      exact ⟨by omega, strcmp_trans _ _ _ s1 s2⟩
theorem isValidCommand_alchemy (input : CStr) (h : isValidCommand input = .QUERY_ALCHEMY) :
    isAlchemyQuery input = true :=
  (commandChain _ _ _ _ _ _ _ _ _ _ _ _ h).2.2.2.2.2.2.2.2.2 rfl

theorem isValidCommand_bestiary (input : CStr) (h : isValidCommand input = .QUERY_BESTIARY) :
    isBestiaryQuery input = true :=
  (commandChain _ _ _ _ _ _ _ _ _ _ _ _ h).2.2.2.2.2.2.2.2.1 rfl

theorem isValidCommand_encounter (input : CStr) (h : isValidCommand input = .ENCOUNTER) :
    isEncounterSentence input = true :=
  (commandChain _ _ _ _ _ _ _ _ _ _ _ _ h).2.2.2.2.2.1 rfl

theorem isValidCommand_formula (input : CStr)
    (h : isValidCommand input = .KNOWLEDGE_POTION_FORMULA) :
    isPotionFormulaKnowledge input = true :=
  (commandChain _ _ _ _ _ _ _ _ _ _ _ _ h).2.2.2.2.1 rfl

theorem isValidCommand_effectiveness (input : CStr)
    (h : isValidCommand input = .KNOWLEDGE_EFFECTIVENESS) :
    isEffectivenessKnowledge input = true :=
  (commandChain _ _ _ _ _ _ _ _ _ _ _ _ h).2.2.2.1 rfl

theorem isValidCommand_specific (input : CStr)
    (h : isValidCommand input = .QUERY_SPECIFIC_INVENTORY) :
    (isInventoryQuery input).1 = true ∧ (isInventoryQuery input).2 = true :=
  (commandChain _ _ _ _ _ _ _ _ _ _ _ _ h).2.2.2.2.2.2.1 rfl

theorem isValidCommand_all (input : CStr)
    (h : isValidCommand input = .QUERY_ALL_INVENTORY) :
    (isInventoryQuery input).1 = true ∧ (isInventoryQuery input).2 = false :=
  (commandChain _ _ _ _ _ _ _ _ _ _ _ _ h).2.2.2.2.2.2.2.1 rfl

/-- What `isInventoryQuery` has checked when it returns true. -/
theorem isInventoryQuery_shape (input : CStr) (h : (isInventoryQuery input).1 = true) :
    (tokAt (tokenizeInput input) 1 = "ingredient".toList
      ∨ tokAt (tokenizeInput input) 1 = "potion".toList
      ∨ tokAt (tokenizeInput input) 1 = "trophy".toList) ∧
    ((isInventoryQuery input).2 = ((tokenizeInput input).length == 4)) ∧
    ((isInventoryQuery input).2 = true →
      (tokAt (tokenizeInput input) 1 = "potion".toList →
        isValidPotionNameToken (tokAt (tokenizeInput input) 2) = true) ∧
      (tokAt (tokenizeInput input) 1 ≠ "potion".toList →
        isAlphabeticOnly (tokAt (tokenizeInput input) 2) = true)) := by
  unfold isInventoryQuery at h ⊢
  simp only at h ⊢
  generalize tokAt (tokenizeInput input) 1 = cat at h ⊢
  generalize isAlphabeticOnly (tokAt (tokenizeInput input) 2) = a at h ⊢
  generalize isValidPotionNameToken (tokAt (tokenizeInput input) 2) = v at h ⊢
  generalize (tokAt (tokenizeInput input) ((tokenizeInput input).length - 1) != ['?']) = b1 at h ⊢
  generalize (tokAt (tokenizeInput input) 0 != "Total".toList) = b2 at h ⊢
  generalize (tokenizeInput input).length = n at h ⊢
  have hcat : cat = "ingredient".toList ∨ cat = "potion".toList ∨ cat = "trophy".toList := by
    by_contra hno
    simp only [not_or] at hno
    obtain ⟨h1, h2, h3⟩ := hno
    have e1 : (cat != "ingredient".toList) = true := by simpa using h1
    have e2 : (cat != "potion".toList) = true := by simpa using h2
    have e3 : (cat != "trophy".toList) = true := by simpa using h3
    rw [e1, e2, e3] at h
    simp only [Bool.and_self, ↓reduceIte] at h
    split_ifs at h
  refine ⟨hcat, ?_, ?_⟩
  · split_ifs at h ⊢ <;> rfl
  · intro hs
    rcases hcat with hcat | hcat | hcat <;> subst hcat <;>
      cases a <;> cases v <;> cases b1 <;> cases b2 <;>
      simp at h hs ⊢ <;> split_ifs at h hs <;> simp_all

theorem potionQuantity_eq (w : World) (n : CStr) :
    potionQuantity w n = potionQtyIn w.potions n := by
  unfold potionQuantity potionQtyIn findPotion
  cases h : findSlot (fun (p : Potion) => !p.name.isEmpty && p.name == n) w.potions 0 with
  | none =>
    have h2 : w.potions.find? (potionNamed n) = none := (findSlot_none_iff _ _ _).1 h
    rw [h2]
  | some j =>
    have h2 : w.potions.find? (potionNamed n) = some (slotAt w.potions (j - 0)) :=
      (findSlot_some _ _ _ _ h).2
    rw [h2]
    simp

theorem nameSorted_of_bubbleSort {α : Type} (key : α → CStr) (l : List α) :
    (bubbleSort (fun a b => decide (strcmp (key a) (key b) > 0)) l).Pairwise
      (fun a b => strcmp (key a) (key b) ≤ 0) := by
  have h := bubbleSort_sorted (fun a b => decide (strcmp (key a) (key b) > 0))
    (fun a b => nameSwap_total (key a) (key b))
    (fun a b c => nameSwap_trans (key a) (key b) (key c)) l
  exact h.imp (fun {a b} hab => by simpa using hab)
theorem filter_named_positive {α : Type} (name : α → CStr) (quantity : α → Int) (l : List α) :
    l.filter (fun x => !(name x).isEmpty && decide (quantity x > 0))
      = l.filter (fun x => name x ≠ [] ∧ quantity x > 0) := by
  congr 1
  funext x
  cases hx : name x <;> simp

theorem executeAllInventoryQuery_eq (w : World) (input : CStr)
    (hcat : tokAt (tokenizeInput input) 1 = "ingredient".toList
      ∨ tokAt (tokenizeInput input) 1 = "potion".toList
      ∨ tokAt (tokenizeInput input) 1 = "trophy".toList) :
    executeAllInventoryQuery w input =
      if positiveRecords w (tokAt (tokenizeInput input) 1) = [] then
        { ret := 0, out := "None\n".toList, world := w }
      else
        { ret := 0,
          out := joinItems ((bubbleSort (fun a b => decide (strcmp a.1 b.1 > 0))
              (positiveRecords w (tokAt (tokenizeInput input) 1))).map
                (fun it => fmtItem it.2 it.1)) ++ "\n".toList,
          world := w } := by
  unfold executeAllInventoryQuery
  simp only
  generalize tokAt (tokenizeInput input) 1 = cat at hcat ⊢
  have hi := filter_named_positive Ingredient.name Ingredient.quantity w.ingredients
  have hp := filter_named_positive Potion.name Potion.quantity w.potions
  have ht := filter_named_positive Trophy.name Trophy.quantity w.trophies
  rcases hcat with hc | hc | hc <;> subst hc
  · have e : positiveRecords w "ingredient".toList =
        (w.ingredients.filter (fun x => !x.name.isEmpty && decide (x.quantity > 0))).map
          (fun x => (x.name, x.quantity)) := by
      rw [hi]; rfl
    rw [e]
    generalize (w.ingredients.filter (fun x => !x.name.isEmpty && decide (x.quantity > 0))).map
          (fun x => (x.name, x.quantity)) = items
    cases items <;> simp
  · have e : positiveRecords w "potion".toList =
        (w.potions.filter (fun x => !x.name.isEmpty && decide (x.quantity > 0))).map
          (fun x => (x.name, x.quantity)) := by
      rw [hp]; rfl
    rw [e]
    generalize (w.potions.filter (fun x => !x.name.isEmpty && decide (x.quantity > 0))).map
          (fun x => (x.name, x.quantity)) = items
    cases items <;> simp
  · have e : positiveRecords w "trophy".toList =
        (w.trophies.filter (fun x => !x.name.isEmpty && decide (x.quantity > 0))).map
          (fun x => (x.name, x.quantity)) := by
      rw [ht]; rfl
    rw [e]
    generalize (w.trophies.filter (fun x => !x.name.isEmpty && decide (x.quantity > 0))).map
          (fun x => (x.name, x.quantity)) = items
    cases items <;> simp

theorem findSlot_isSome_iff_any {α : Type} (p : α → Bool) (l : List α) (i : Nat) :
    (findSlot p l i).isSome = l.any p := by
  induction l generalizing i with
  | nil => rfl
  | cons x xs ih =>
    unfold findSlot
    cases hx : p x
    · simp [hx, ih]
    · simp [hx]

theorem usablePotion_isSome (w : World) (e : Nat) :
    (usablePotion w e).isSome = counterInStock w e := by
  unfold usablePotion counterInStock
  by_cases he : e < MAX_POTIONS
  · rw [if_pos he, if_pos he]
    by_cases hq : (slotAt w.potions e).quantity > 0
    · rw [if_pos hq]; simp [hq]
    · rw [if_neg hq]; simp [hq]
  · rw [if_neg he, if_neg he]
    simp only
    rw [findSlot_isSome_iff_any]
    congr 1
    funext p
    generalize (slotAt w.signs (e - MAX_POTIONS)).name = n
    by_cases h1 : p.name = []
    · simp [h1]
    · by_cases h2 : p.name = n
      · subst h2
        have h4 : p.name.isEmpty = false := by simpa using h1
        simp [h1, h4]
      · have h3 : (p.name == n) = false := by simpa using h2
        simp [h2, h3]

/-- What `isEncounterSentence` has checked when it returns true. -/
theorem isEncounterSentence_shape (input : CStr) (h : isEncounterSentence input = true) :
    (tokenizeInput input).length = 4 ∧ isAlphabeticOnly (tokAt (tokenizeInput input) 3) = true := by
  unfold isEncounterSentence at h
  simp only at h
  split_ifs at h with h1 h2
  exact ⟨by simpa using h1, h⟩

theorem defeats_ne_unprepared (name : CStr) :
    "Geralt defeats ".toList ++ name ++ "\n".toList
      ≠ "Geralt is unprepared and barely escapes with his life\n".toList := by
  intro h
  have h2 := congrArg (fun l => l.getD 7 'x') h
  simp at h2

theorem slotAt_of_le {α : Type} [Inhabited α] (l : List α) (i : Nat) (h : l.length ≤ i) :
    slotAt l i = default := by
  unfold slotAt
  simp [List.getD, List.getElem?_eq_none h]

theorem slotAt_mem {α : Type} [Inhabited α] (l : List α) (i : Nat) (h : i < l.length) :
    slotAt l i ∈ l := by
  unfold slotAt
  rw [List.getD_eq_getElem _ _ h]
  exact List.getElem_mem h

theorem mem_iff_slotAt {α : Type} [Inhabited α] (l : List α) (x : α) (h : x ∈ l) :
    ∃ i, i < l.length ∧ slotAt l i = x := by
  obtain ⟨i, hi, hx⟩ := List.getElem_of_mem h
  refine ⟨i, hi, ?_⟩
  unfold slotAt
  rw [List.getD_eq_getElem _ _ hi]
  exact hx

theorem findSlot_zero_some_iff {α : Type} [Inhabited α] (p : α → Bool) (l : List α) (j : Nat) :
    findSlot p l 0 = some j ↔
      (j < l.length ∧ p (slotAt l j) = true ∧ ∀ i, i < j → p (slotAt l i) = false) := by
  induction l generalizing j with
  | nil => simp [findSlot]
  | cons x xs ih =>
    simp only [findSlot]
    cases hp : p x
    · simp only [Bool.false_eq_true, ↓reduceIte]
      have hs := findSlot_succ p xs 0
      simp only [Nat.zero_add] at hs
      rw [hs]
      cases j with
      | zero =>
        simp only [Option.map_eq_some', Nat.add_eq_zero, one_ne_zero, and_false, exists_const,
          List.length_cons, Nat.zero_lt_succ, true_and, false_iff, not_and]
        intro h
        simp [slotAt, hp] at h
      | succ m =>
        simp only [Option.map_eq_some', Nat.add_right_cancel_iff, exists_eq_right,
          List.length_cons, Nat.add_lt_add_iff_right]
        rw [ih m]
        constructor
        · rintro ⟨h1, h2, h3⟩
          refine ⟨h1, by simpa [slotAt] using h2, ?_⟩
          intro i hi
          cases i with
          | zero => simpa [slotAt] using hp
          | succ i' =>
            have := h3 i' (by omega)
            simpa [slotAt] using this
        · rintro ⟨h1, h2, h3⟩
          refine ⟨h1, by simpa [slotAt] using h2, ?_⟩
          intro i hi
          have := h3 (i + 1) (by omega)
          simpa [slotAt] using this
    · simp only [↓reduceIte, Option.some.injEq]
      constructor
      · intro h
        subst h
        exact ⟨by simp, by simpa [slotAt] using hp, fun i hi => absurd hi (by omega)⟩
      · rintro ⟨_, _, h3⟩
        cases j with
        | zero => rfl
        | succ m =>
          have := h3 0 (by omega)
          simp [slotAt, hp] at this

theorem findSlot_zero_none_iff {α : Type} [Inhabited α] (p : α → Bool) (l : List α) :
    findSlot p l 0 = none ↔ ∀ i, i < l.length → p (slotAt l i) = false := by
  rw [findSlot_none_iff, List.find?_eq_none]
  constructor
  · intro h i hi
    have := h _ (slotAt_mem l i hi)
    simpa using this
  · intro h x hx
    obtain ⟨i, hi, hxi⟩ := mem_iff_slotAt l x hx
    have := h i hi
    rw [hxi] at this
    simp [this]

theorem firstFree_le {α : Type} (isFree : α → Bool) (l : List α) :
    firstFree isFree l ≤ l.length := by
  unfold firstFree
  cases h : findSlot isFree l 0 with
  | none => simp
  | some j =>
    have := findSlot_lt isFree l 0 j h
    simp only [Option.getD_some]
    omega

theorem firstFree_free {α : Type} [Inhabited α] (isFree : α → Bool)
    (hd : isFree default = true) (l : List α) :
    isFree (slotAt l (firstFree isFree l)) = true := by
  unfold firstFree
  cases h : findSlot isFree l 0 with
  | none =>
    simp only [Option.getD_none]
    rw [slotAt_of_le l _ (le_refl _)]
    exact hd
  | some j =>
    simp only [Option.getD_some]
    exact ((findSlot_zero_some_iff isFree l j).1 h).2.1

theorem firstFree_before {α : Type} [Inhabited α] (isFree : α → Bool) (l : List α) (i : Nat)
    (hi : i < firstFree isFree l) : isFree (slotAt l i) = false := by
  unfold firstFree at hi
  cases h : findSlot isFree l 0 with
  | none =>
    rw [h] at hi
    simp only [Option.getD_none] at hi
    exact (findSlot_zero_none_iff isFree l).1 h i hi
  | some j =>
    rw [h] at hi
    simp only [Option.getD_some] at hi
    exact ((findSlot_zero_some_iff isFree l j).1 h).2.2 i hi

theorem updSlot_length {α : Type} [Inhabited α] (f : α → α) (l : List α) (i : Nat) :
    (updSlot f l i).length = max l.length (i + 1) := by
  induction l generalizing i with
  | nil =>
    induction i with
    | zero => simp [updSlot]
    | succ n ih => simp [updSlot, ih]
  | cons x xs ih =>
    cases i with
    | zero => simp [updSlot]
    | succ n =>
      simp only [updSlot, List.length_cons, ih]
      omega

theorem updSlot_length_ge {α : Type} [Inhabited α] (f : α → α) (l : List α) (i : Nat) :
    l.length ≤ (updSlot f l i).length := by
  rw [updSlot_length]
  exact le_max_left _ _

theorem updSlot_updSlot_same {α : Type} [Inhabited α] (f g : α → α) (l : List α) (i : Nat) :
    updSlot g (updSlot f l i) i = updSlot (fun x => g (f x)) l i := by
  induction l generalizing i with
  | nil =>
    induction i with
    | zero => simp [updSlot]
    | succ n ih => simp [updSlot, ih]
  | cons x xs ih =>
    cases i with
    | zero => simp [updSlot]
    | succ n => simp [updSlot, ih]

/-- A slot of the table after `updSlot` at an index inside the table or right at its end is
the updated slot or a slot of the table before. -/
theorem mem_updSlot {α : Type} [Inhabited α] (f : α → α) (l : List α) (i : Nat)
    (hi : i ≤ l.length) (x : α) (hx : x ∈ updSlot f l i) :
    x ∈ l ∨ x = f (slotAt l i) := by
  obtain ⟨j, hj, hxj⟩ := mem_iff_slotAt _ x hx
  rw [slotAt_updSlot] at hxj
  by_cases hji : j = i
  · rw [if_pos hji] at hxj
    exact Or.inr hxj.symm
  · rw [if_neg hji] at hxj
    rw [updSlot_length] at hj
    have : j < l.length := by
      rcases Nat.lt_or_ge j l.length with h | h
      · exact h
      · exfalso
        have : max l.length (i + 1) ≤ l.length + 1 := by
          apply max_le <;> omega
        omega
    left
    rw [← hxj]
    exact slotAt_mem l j this

theorem lootItem_frame (w : World) (q : Int) (n : CStr) :
    (lootItem w q n).signs = w.signs ∧ (lootItem w q n).beasts = w.beasts ∧
    (lootItem w q n).potions = w.potions := by
  unfold lootItem
  cases findSlot (fun (x : Ingredient) => x.name == n)
      (prefixSlots w.ingredients w.num_ingredients) 0 <;> exact ⟨rfl, rfl, rfl⟩

theorem lootLoop_frame : ∀ (toks : List CStr) (w : World),
    (lootLoop toks w).signs = w.signs ∧ (lootLoop toks w).beasts = w.beasts ∧
    (lootLoop toks w).potions = w.potions
  | [], w => ⟨rfl, rfl, rfl⟩
  | [q], w => lootItem_frame w (atoi q) []
  | [q, n], w => lootItem_frame w (atoi q) n
  | q :: n :: c :: rest, w => by
    have h1 := lootItem_frame w (atoi q) n
    unfold lootLoop
    split_ifs
    · have h2 := lootLoop_frame rest (lootItem w (atoi q) n)
      exact ⟨h2.1.trans h1.1, h2.2.1.trans h1.2.1, h2.2.2.trans h1.2.2⟩
    · have h2 := lootLoop_frame (c :: rest) (lootItem w (atoi q) n)
      exact ⟨h2.1.trans h1.1, h2.2.1.trans h1.2.1, h2.2.2.trans h1.2.2⟩

theorem formulaIngredient_frame (w : World) (n : CStr) :
    (formulaIngredient w n).1.signs = w.signs ∧ (formulaIngredient w n).1.beasts = w.beasts ∧
    (formulaIngredient w n).1.potions = w.potions ∧
    (formulaIngredient w n).1.trophies = w.trophies := by
  unfold formulaIngredient
  cases findSlot (fun (x : Ingredient) => !x.name.isEmpty && x.name == n) w.ingredients 0 <;>
    exact ⟨rfl, rfl, rfl, rfl⟩

theorem formulaLoop_frame : ∀ (toks : List CStr) (w : World),
    (formulaLoop toks w).1.signs = w.signs ∧ (formulaLoop toks w).1.beasts = w.beasts ∧
    (formulaLoop toks w).1.potions = w.potions ∧ (formulaLoop toks w).1.trophies = w.trophies
  | [], w => ⟨rfl, rfl, rfl, rfl⟩
  | [q], w => formulaIngredient_frame w (stripTrailingComma [])
  | [q, n], w => formulaIngredient_frame w (stripTrailingComma n)
  | q :: n :: c :: rest, w => by
    have h1 := formulaIngredient_frame w (stripTrailingComma n)
    unfold formulaLoop
    simp only
    split_ifs
    · have h2 := formulaLoop_frame rest (formulaIngredient w (stripTrailingComma n)).1
      exact ⟨h2.1.trans h1.1, h2.2.1.trans h1.2.1, h2.2.2.1.trans h1.2.2.1,
        h2.2.2.2.trans h1.2.2.2⟩
    · have h2 := formulaLoop_frame (c :: rest) (formulaIngredient w (stripTrailingComma n)).1
      exact ⟨h2.1.trans h1.1, h2.2.1.trans h1.2.1, h2.2.2.1.trans h1.2.2.1,
        h2.2.2.2.trans h1.2.2.2⟩

theorem consumePotions_frame : ∀ (l : List Nat) (w : World),
    (consumePotions w l).signs = w.signs ∧ (consumePotions w l).beasts = w.beasts ∧
    w.potions.length ≤ (consumePotions w l).potions.length
  | [], w => ⟨rfl, rfl, le_refl _⟩
  | e :: rest, w => by
    unfold consumePotions
    cases h : usablePotion w e with
    | none => exact consumePotions_frame rest w
    | some j =>
      have h2 := consumePotions_frame rest
        { w with potions := updSlot (fun p => { p with quantity := p.quantity - 1 }) w.potions j }
      exact ⟨h2.1, h2.2.1, le_trans (updSlot_length_ge _ _ _) h2.2.2⟩

/-- Every command but `KNOWLEDGE_EFFECTIVENESS` leaves `signs` and the bestiary as they
are and removes no slot of the potion table. -/
theorem executeCommand_frame (w : World) (input : CStr) (c : CommandType)
    (hc : c ≠ .KNOWLEDGE_EFFECTIVENESS) :
    (executeCommand w input c).world.signs = w.signs ∧
    (executeCommand w input c).world.beasts = w.beasts ∧
    w.potions.length ≤ (executeCommand w input c).world.potions.length := by
  cases c with
  | KNOWLEDGE_EFFECTIVENESS => exact absurd rfl hc
  | INVALID_COMMAND => exact ⟨rfl, rfl, le_refl _⟩
  | EXIT_COMMAND => exact ⟨rfl, rfl, le_refl _⟩
  | ACTION_LOOT =>
    have h := lootLoop_frame ((tokenizeInput input).drop 2) w
    exact ⟨h.1, h.2.1, le_of_eq (congrArg List.length h.2.2.symm)⟩
  | ACTION_TRADE =>
    simp only [executeCommand, executeTradeAction]
    cases tradeCheck w.trophies (tradeParsed (tokenizeInput input)).1 <;>
      exact ⟨rfl, rfl, le_refl _⟩
  | ACTION_BREW =>
    simp only [executeCommand, executeBrewAction]
    split_ifs
    · exact ⟨rfl, rfl, le_refl _⟩
    · cases findPotion w.potions (tokAt (tokenizeInput input) 2) with
      | none => exact ⟨rfl, rfl, le_refl _⟩
      | some k =>
        simp only
        split_ifs
        · exact ⟨rfl, rfl, le_refl _⟩
        · exact ⟨rfl, rfl, updSlot_length_ge _ _ _⟩
  | KNOWLEDGE_POTION_FORMULA =>
    simp only [executeCommand, executeFormulaKnowledge]
    cases findPotion w.potions (if (tokAt (tokenizeInput input) 3 != "potion".toList) = true
        then tokAt (tokenizeInput input) 2 ++ [' '] ++ tokAt (tokenizeInput input) 3
        else tokAt (tokenizeInput input) 2) with
    | some k => exact ⟨rfl, rfl, le_refl _⟩
    | none =>
      simp only
      have h := formulaLoop_frame ((tokenizeInput input).drop
        (if (tokAt (tokenizeInput input) 3 != "potion".toList) = true then 7 else 6)) w
      exact ⟨h.1, h.2.1, updSlot_length_ge _ _ _⟩
  | ENCOUNTER =>
    simp only [executeCommand, executeEncounter]
    split_ifs
    · exact ⟨rfl, rfl, le_refl _⟩
    · cases findBeast w.beasts (tokAt (tokenizeInput input) 3) with
      | none => exact ⟨rfl, rfl, le_refl _⟩
      | some k =>
        simp only
        split_ifs
        · exact ⟨rfl, rfl, le_refl _⟩
        · have h := consumePotions_frame (slotAt w.beasts k).effective_potion_indices w
          exact ⟨h.1, h.2.1, h.2.2⟩
        · exact ⟨rfl, rfl, le_refl _⟩
  | QUERY_SPECIFIC_INVENTORY =>
    simp only [executeCommand, executeSpecificInventoryQuery]
    split_ifs <;> exact ⟨rfl, rfl, le_refl _⟩
  | QUERY_ALL_INVENTORY =>
    simp only [executeCommand, executeAllInventoryQuery]
    split_ifs <;> simp only <;> (try split_ifs) <;> simp
  | QUERY_BESTIARY =>
    simp only [executeCommand, executeBestiaryQuery]
    cases findBeast w.beasts (tokAt (tokenizeInput input) 4) <;> exact ⟨rfl, rfl, le_refl _⟩
  | QUERY_ALCHEMY =>
    simp only [executeCommand, executeAlchemyQuery]
    cases findPotion w.potions (tokAt (tokenizeInput input) 3) <;> exact ⟨rfl, rfl, le_refl _⟩

/-- What `isEffectivenessKnowledge` has checked when it returns true. -/
theorem isEffectivenessKnowledge_shape (input : CStr)
    (h : isEffectivenessKnowledge input = true) :
    (tokenizeInput input).length = 8 ∧
    (tokAt (tokenizeInput input) 3 = "sign".toList
      ∨ tokAt (tokenizeInput input) 3 = "potion".toList) ∧
    isAlphabeticOnly (tokAt (tokenizeInput input) 7) = true ∧
    (tokAt (tokenizeInput input) 3 = "sign".toList →
      isAlphabeticOnly (tokAt (tokenizeInput input) 2) = true) ∧
    (tokAt (tokenizeInput input) 3 = "potion".toList →
      isValidPotionNameToken (tokAt (tokenizeInput input) 2) = true) := by
  unfold isEffectivenessKnowledge at h
  simp only at h
  generalize tokAt (tokenizeInput input) 3 = T at h ⊢
  generalize isAlphabeticOnly (tokAt (tokenizeInput input) 7) = a7 at h ⊢
  generalize isAlphabeticOnly (tokAt (tokenizeInput input) 2) = a2 at h ⊢
  generalize isValidPotionNameToken (tokAt (tokenizeInput input) 2) = v2 at h ⊢
  generalize (tokAt (tokenizeInput input) 4 != "is".toList
    || tokAt (tokenizeInput input) 5 != "effective".toList
    || tokAt (tokenizeInput input) 6 != "against".toList) = b at h
  generalize (tokAt (tokenizeInput input) 0 != "Geralt".toList) = b0 at h
  generalize (tokAt (tokenizeInput input) 1 != "learns".toList) = b1 at h
  generalize (tokenizeInput input).length = n at h ⊢
  split_ifs at h with h1 h2 h3 h4 h5
  · -- type is sign
    have hT : T = "sign".toList := by simpa using h5
    subst hT
    have hn : n = 8 := by
      by_contra hne
      apply h4
      simp [hne]
    have ha7 : a7 = true := by
      cases a7
      · exact absurd (by simp) h4
      · rfl
    exact ⟨hn, Or.inl rfl, ha7, fun _ => h, fun hp => absurd hp (by decide)⟩
  · have hT : T = "potion".toList := by
      have : ¬ (T == "sign".toList) = true := h5
      simp only [Bool.not_eq_true', Bool.not_eq_false, Bool.or_eq_true] at h2
      rcases h2 with h2 | h2
      · simpa using h2
      · exact absurd h2 this
    subst hT
    have hn : n = 8 := by
      by_contra hne
      apply h4
      simp [hne]
    have ha7 : a7 = true := by
      cases a7
      · exact absurd (by simp) h4
      · rfl
    exact ⟨hn, Or.inr rfl, ha7, fun hs => absurd hs (by decide), fun _ => h⟩

theorem isValidPotionNameToken_ne_nil (t : CStr) (h : isValidPotionNameToken t = true) :
    t ≠ [] := by
  intro ht
  subst ht
  simp [isValidPotionNameToken] at h

theorem eff_new_sign (w : World) (input : CStr)
    (hT : tokAt (tokenizeInput input) 3 = "sign".toList)
    (hb : findBeast w.beasts (tokAt (tokenizeInput input) ((tokenizeInput input).length - 1))
      = none) :
    executeEffectivenessKnowledge w input =
      { ret := 0,
        out := "New bestiary entry added: ".toList
          ++ tokAt (tokenizeInput input) ((tokenizeInput input).length - 1) ++ "\n".toList,
        world := { w with
          signs := (findOrAddSign w.signs (tokAt (tokenizeInput input) 2)).1
          beasts := updSlot (fun _ =>
            ({ name := tokAt (tokenizeInput input) ((tokenizeInput input).length - 1),
               effective_sign_indices := [(findOrAddSign w.signs (tokAt (tokenizeInput input) 2)).2],
               effective_potion_indices := [] } : Beast))
            w.beasts (firstFree (fun (b : Beast) => b.name.isEmpty) w.beasts) } } := by
  unfold executeEffectivenessKnowledge
  simp only [hb, hT, beq_self_eq_true, ↓reduceIte, updSlot_updSlot_same]

theorem eff_new_potion_known (w : World) (input : CStr) (p : Nat)
    (hT : tokAt (tokenizeInput input) 3 = "potion".toList)
    (hb : findBeast w.beasts (tokAt (tokenizeInput input) ((tokenizeInput input).length - 1))
      = none)
    (hp : findPotion w.potions (tokAt (tokenizeInput input) 2) = some p) :
    executeEffectivenessKnowledge w input =
      { ret := 0,
        out := "New bestiary entry added: ".toList
          ++ tokAt (tokenizeInput input) ((tokenizeInput input).length - 1) ++ "\n".toList,
        world := { w with
          beasts := updSlot (fun _ =>
            ({ name := tokAt (tokenizeInput input) ((tokenizeInput input).length - 1),
               effective_sign_indices := [],
               effective_potion_indices := [p] } : Beast))
            w.beasts (firstFree (fun (b : Beast) => b.name.isEmpty) w.beasts) } } := by
  unfold executeEffectivenessKnowledge
  have hne : ("potion".toList == "sign".toList) = false := by decide
  simp only [hb, hT, hp, hne, beq_self_eq_true, Bool.false_eq_true, ↓reduceIte,
    updSlot_updSlot_same]

theorem eff_new_potion_unknown (w : World) (input : CStr)
    (hT : tokAt (tokenizeInput input) 3 = "potion".toList)
    (hb : findBeast w.beasts (tokAt (tokenizeInput input) ((tokenizeInput input).length - 1))
      = none)
    (hp : findPotion w.potions (tokAt (tokenizeInput input) 2) = none) :
    executeEffectivenessKnowledge w input =
      { ret := 0,
        out := "New bestiary entry added: ".toList
          ++ tokAt (tokenizeInput input) ((tokenizeInput input).length - 1) ++ "\n".toList,
        world := { w with
          signs := (addSign w.signs (tokAt (tokenizeInput input) 2)).1
          beasts := updSlot (fun _ =>
            ({ name := tokAt (tokenizeInput input) ((tokenizeInput input).length - 1),
               effective_sign_indices := [],
               effective_potion_indices :=
                 [(addSign w.signs (tokAt (tokenizeInput input) 2)).2 + MAX_POTIONS] } : Beast))
            w.beasts (firstFree (fun (b : Beast) => b.name.isEmpty) w.beasts) } } := by
  unfold executeEffectivenessKnowledge
  have hne : ("potion".toList == "sign".toList) = false := by decide
  simp only [hb, hT, hp, hne, beq_self_eq_true, Bool.false_eq_true, ↓reduceIte,
    updSlot_updSlot_same]

theorem eff_old_sign (w : World) (input : CStr) (k : Nat)
    (hT : tokAt (tokenizeInput input) 3 = "sign".toList)
    (hb : findBeast w.beasts (tokAt (tokenizeInput input) ((tokenizeInput input).length - 1))
      = some k) :
    executeEffectivenessKnowledge w input =
      if (slotAt w.beasts k).effective_sign_indices.any
          (fun i => i == (findOrAddSign w.signs (tokAt (tokenizeInput input) 2)).2) then
        { ret := 0, out := "Already known effectiveness\n".toList,
          world := { w with signs := (findOrAddSign w.signs (tokAt (tokenizeInput input) 2)).1 } }
      else
        { ret := 0,
          out := "Bestiary entry updated: ".toList
            ++ tokAt (tokenizeInput input) ((tokenizeInput input).length - 1) ++ "\n".toList,
          world := { w with
            signs := (findOrAddSign w.signs (tokAt (tokenizeInput input) 2)).1
            beasts := updSlot (fun b =>
              { b with effective_sign_indices := b.effective_sign_indices
                  ++ [(findOrAddSign w.signs (tokAt (tokenizeInput input) 2)).2] })
              w.beasts k } } := by
  unfold executeEffectivenessKnowledge
  simp only [hb, hT, beq_self_eq_true, ↓reduceIte]

/-- The index under which the existing-beast branch of `executeEffectivenessKnowledge`
looks a potion up, with the `signs` table afterwards. -/
theorem eff_old_potion (w : World) (input : CStr) (k : Nat)
    (hT : tokAt (tokenizeInput input) 3 = "potion".toList)
    (hb : findBeast w.beasts (tokAt (tokenizeInput input) ((tokenizeInput input).length - 1))
      = some k) :
    ∃ r : List Sign × Nat,
      ((∃ p, findPotion w.potions (tokAt (tokenizeInput input) 2) = some p ∧ r = (w.signs, p)) ∨
       (findPotion w.potions (tokAt (tokenizeInput input) 2) = none ∧
        ∃ i, findSign w.signs (tokAt (tokenizeInput input) 2) = some i ∧
          r = (w.signs, i + MAX_POTIONS)) ∨
       (findPotion w.potions (tokAt (tokenizeInput input) 2) = none ∧
        findSign w.signs (tokAt (tokenizeInput input) 2) = none ∧
        r = ((addSign w.signs (tokAt (tokenizeInput input) 2)).1,
             (addSign w.signs (tokAt (tokenizeInput input) 2)).2 + MAX_POTIONS))) ∧
      executeEffectivenessKnowledge w input =
        if (slotAt w.beasts k).effective_potion_indices.any
            (fun e => samePotionRef { w with signs := r.1 } r.2 e) then
          { ret := 0, out := "Already known effectiveness\n".toList,
            world := { w with signs := r.1 } }
        else
          { ret := 0,
            out := "Bestiary entry updated: ".toList
              ++ tokAt (tokenizeInput input) ((tokenizeInput input).length - 1) ++ "\n".toList,
            world := { w with
              signs := r.1
              beasts := updSlot (fun b =>
                { b with effective_potion_indices := b.effective_potion_indices ++ [r.2] })
                w.beasts k } } := by
  unfold executeEffectivenessKnowledge
  have hne : ("potion".toList == "sign".toList) = false := by decide
  simp only [hb, hT, hne, beq_self_eq_true, Bool.false_eq_true, ↓reduceIte]
  cases hp : findPotion w.potions (tokAt (tokenizeInput input) 2) with
  | some p => exact ⟨(w.signs, p), Or.inl ⟨p, rfl, rfl⟩, rfl⟩
  | none =>
    cases hs : findSign w.signs (tokAt (tokenizeInput input) 2) with
    | some i => exact ⟨(w.signs, i + MAX_POTIONS), Or.inr (Or.inl ⟨rfl, i, rfl, rfl⟩), rfl⟩
    | none =>
      exact ⟨_, Or.inr (Or.inr ⟨rfl, rfl, rfl⟩), rfl⟩

theorem findBeast_lt (beasts : List Beast) (n : CStr) (k : Nat)
    (h : findBeast beasts n = some k) : k < beasts.length := by
  have := findSlot_lt _ beasts 0 k h
  omega

theorem execute_line_invalid (w : World) (line : CStr)
    (h : isValidCommand (inputCopy line) = .INVALID_COMMAND) :
    (execute_line w line).world = w := by
  unfold execute_line
  rw [h]
  split_ifs <;> rfl

theorem toDigitsCore_fuel : ∀ (f1 f2 n : Nat) (ds : List Char), n < f1 → n < f2 →
    Nat.toDigitsCore 10 f1 n ds = Nat.toDigitsCore 10 f2 n ds := by
  intro f1
  induction f1 with
  | zero => intro f2 n ds h; omega
  | succ a ih =>
    intro f2 n ds h1 h2
    cases f2 with
    | zero => omega
    | succ b =>
      simp only [Nat.toDigitsCore]
      by_cases hz : n / 10 = 0
      · simp [hz]
      · simp only [hz, ↓reduceIte]
        have : n / 10 < n := Nat.div_lt_self (by omega) (by decide)
        exact ih b (n / 10) _ (by omega) (by omega)

theorem toDigitsCore_append : ∀ (f n : Nat) (ds : List Char),
    Nat.toDigitsCore 10 f n ds = Nat.toDigitsCore 10 f n [] ++ ds := by
  intro f
  induction f with
  | zero => intro n ds; simp [Nat.toDigitsCore]
  | succ a ih =>
    intro n ds
    simp only [Nat.toDigitsCore]
    by_cases hz : n / 10 = 0
    · simp [hz]
    · simp only [hz, ↓reduceIte]
      rw [ih (n / 10) (Nat.digitChar (n % 10) :: ds), ih (n / 10) [Nat.digitChar (n % 10)]]
      simp

theorem toDigits_snoc (a d : Nat) (ha : 0 < a) (hd : d < 10) :
    Nat.toDigits 10 (a * 10 + d) = Nat.toDigits 10 a ++ [Nat.digitChar d] := by
  unfold Nat.toDigits
  have h1 : (a * 10 + d) / 10 = a := by omega
  have h2 : (a * 10 + d) % 10 = d := by omega
  have hne : a ≠ 0 := by omega
  have step : Nat.toDigitsCore 10 (a * 10 + d + 1) (a * 10 + d) []
      = Nat.toDigitsCore 10 (a * 10 + d) a [Nat.digitChar d] := by
    rw [Nat.toDigitsCore]
    simp only [h1, h2, hne, ↓reduceIte]
  rw [step, toDigitsCore_fuel (a * 10 + d) (a + 1) a _ (by omega) (by omega),
    toDigitsCore_append]

theorem digitChar_digitVal (c : Char) (h : isdigit c = true) : Nat.digitChar (digitVal c) = c := by
  unfold isdigit at h
  simp only [Bool.and_eq_true, decide_eq_true_eq] at h
  obtain ⟨h1, h2⟩ := h
  have key : ∀ n : Nat, 48 ≤ n → n ≤ 57 → Nat.digitChar (n - 48) = Char.ofNat n := by
    intro n h1 h2
    interval_cases n <;> decide
  unfold digitVal
  rw [key _ h1 h2]
  exact Char.ofNat_toNat c

theorem digitsValue_nil (acc : Nat) : digitsValue acc [] = acc := rfl

theorem digitsValue_cons (acc : Nat) (c : Char) (cs : CStr) :
    digitsValue acc (c :: cs) = digitsValue (acc * 10 + digitVal c) cs := rfl

theorem toDigits_digitsValue (cs : CStr) : ∀ (acc : Nat), 0 < acc → cs.all isdigit = true →
    Nat.toDigits 10 (digitsValue acc cs) = Nat.toDigits 10 acc ++ cs := by
  induction cs with
  | nil =>
    intro acc _ _
    rw [digitsValue_nil]
    exact (List.append_nil _).symm
  | cons c cs ih =>
    intro acc hacc hall
    rw [List.all_cons, Bool.and_eq_true] at hall
    have hd : digitVal c < 10 := by
      have := hall.1
      unfold isdigit at this
      simp only [Bool.and_eq_true, decide_eq_true_eq] at this
      unfold digitVal
      omega
    rw [digitsValue_cons, ih (acc * 10 + digitVal c) (by omega) hall.2,
      toDigits_snoc acc _ hacc hd, digitChar_digitVal c hall.1, List.append_assoc]
    exact congrArg (fun l => Nat.toDigits 10 acc ++ l) (List.singleton_append)

/-- The `printf("%d")` of the `atoi` of a token accepted by `isPositiveInteger` whose value
fits in an `int` is the token itself. -/
theorem fmtInt_atoi (q : CStr) (hq : isPositiveInteger q = true)
    (hr : digitsValue 0 q ≤ 2147483647) : fmtInt (atoi q) = q := by
  rw [atoi_eq_digitsValue q hq hr]
  unfold fmtInt
  have hnn : ¬ ((digitsValue 0 q : Nat) : Int) < 0 := by omega
  rw [if_neg hnn, Int.toNat_ofNat]
  cases q with
  | nil => simp [isPositiveInteger] at hq
  | cons c rest =>
    have hpos := isPositiveInteger_atoi_pos _ hq
    unfold isPositiveInteger at hq
    simp only at hq
    split_ifs at hq with h1 h2
    have hall : (c :: rest).all isdigit = true := by simpa using h2
    simp only [List.all_cons, Bool.and_eq_true] at hall
    have hcd := hall.1
    have hdv : 0 < digitVal c := by
      by_contra hz
      have hz0 : digitVal c = 0 := by omega
      have hc0 : c = '0' := by
        have := digitChar_digitVal c hcd
        rw [hz0] at this
        exact this.symm
      subst hc0
      cases rest with
      | nil =>
        have : atoi ['0'] = 0 := by decide
        rw [this] at hpos
        omega
      | cons r rs => simp at h1
    have hsingle : Nat.toDigits 10 (digitVal c) = [c] := by
      have hlt : digitVal c < 10 := by
        unfold isdigit at hcd
        simp only [Bool.and_eq_true, decide_eq_true_eq] at hcd
        unfold digitVal
        omega
      have hdc := digitChar_digitVal c hcd
      generalize digitVal c = d at hdv hlt hdc
      interval_cases d <;> simp [Nat.toDigits, Nat.toDigitsCore] <;> exact hdc
    rw [digitsValue_cons, Nat.zero_mul, Nat.zero_add,
      toDigits_digitsValue rest _ hdv hall.2, hsingle]
    exact List.singleton_append

theorem bubblePass_map {α β : Type} (f : α → β) (swap : β → β → Bool) :
    ∀ (k : Nat) (l : List α),
      bubblePass swap k (l.map f) = (bubblePass (fun a b => swap (f a) (f b)) k l).map f
  | 0, l => rfl
  | _ + 1, [] => rfl
  | _ + 1, [x] => rfl
  | k + 1, x :: y :: rest => by
    simp only [List.map_cons, bubblePass]
    split_ifs
    · rw [List.map_cons, ← bubblePass_map f swap k (x :: rest)]
      rfl
    · rw [List.map_cons, ← bubblePass_map f swap k (y :: rest)]
      rfl

theorem bubbleFrom_map {α β : Type} (f : α → β) (swap : β → β → Bool) :
    ∀ (k : Nat) (l : List α),
      bubbleFrom swap k (l.map f) = (bubbleFrom (fun a b => swap (f a) (f b)) k l).map f
  | 0, l => rfl
  | k + 1, l => by
    simp only [bubbleFrom]
    rw [bubblePass_map, bubbleFrom_map f swap k]

theorem bubbleSort_map {α β : Type} (f : α → β) (swap : β → β → Bool) (l : List α) :
    bubbleSort swap (l.map f) = (bubbleSort (fun a b => swap (f a) (f b)) l).map f := by
  unfold bubbleSort
  rw [List.length_map, bubbleFrom_map]

theorem findPotion_added (potions : List Potion) (np : Potion) (hne : np.name ≠ [])
    (h : findPotion potions np.name = none) :
    findPotion (updSlot (fun _ => np) potions
        (firstFree (fun (p : Potion) => p.name.isEmpty) potions)) np.name
      = some (firstFree (fun (p : Potion) => p.name.isEmpty) potions) := by
  unfold findPotion at h ⊢
  rw [findSlot_zero_some_iff]
  have hle := firstFree_le (fun (p : Potion) => p.name.isEmpty) potions
  refine ⟨?_, ?_, ?_⟩
  · rw [updSlot_length]
    omega
  · rw [slotAt_updSlot, if_pos rfl]
    cases hn : np.name with
    | nil => exact absurd hn hne
    | cons a as => simp
  · intro i hi
    rw [slotAt_updSlot, if_neg (by omega)]
    exact (findSlot_zero_none_iff _ _).1 h i (by omega)

theorem formulaItemsOk_items : ∀ (toks : List CStr), formulaItemsOk toks = true →
    ∀ it ∈ listedItems toks, isPositiveInteger it.1 = true ∧ isAlphabeticOnly it.2 = true
  | [], _ => by simp [listedItems]
  | [q], h => by simp [formulaItemsOk] at h
  | [q, n], h => by
    simp only [formulaItemsOk, Bool.and_true, Bool.and_eq_true] at h
    intro it hit
    simp only [listedItems, List.mem_singleton] at hit
    subst hit
    exact h
  | q :: n :: c :: rest, h => by
    simp only [formulaItemsOk, Bool.and_eq_true, beq_iff_eq] at h
    obtain ⟨hq, hn, _, hrest⟩ := h
    intro it hit
    simp only [listedItems, List.mem_cons] at hit
    rcases hit with hit | hit
    · subst hit
      exact ⟨hq, hn⟩
    · exact formulaItemsOk_items rest hrest it hit

theorem stripTrailingComma_alpha (n : CStr) (h : isAlphabeticOnly n = true) :
    stripTrailingComma n = n := by
  unfold stripTrailingComma
  have hne : n.getLast? ≠ some ',' := by
    intro hl
    obtain ⟨ys, hys⟩ := List.getLast?_eq_some_iff.1 hl
    have hmem : ',' ∈ n := by rw [hys]; simp
    unfold isAlphabeticOnly at h
    simp only [Bool.and_eq_true, List.all_eq_true] at h
    have := h.2 ',' hmem
    exact absurd this (by decide)
  simp [hne]

theorem findTokenFrom_spec (kw : CStr) : ∀ (l : List CStr) (i j : Nat),
    findTokenFrom kw l i = some j →
    i ≤ j ∧ l.getD (j - i) [] = kw ∧ ∀ m, m < j - i → l.getD m [] ≠ kw
  | [], _, _, h => by simp [findTokenFrom] at h
  | t :: ts, i, j, h => by
    simp only [findTokenFrom] at h
    by_cases ht : (t == kw) = true
    · simp only [ht, ↓reduceIte, Option.some.injEq] at h
      subst h
      refine ⟨le_refl _, ?_, fun m hm => absurd hm (by omega)⟩
      simpa using ht
    · simp only [ht, Bool.false_eq_true, ↓reduceIte] at h
      obtain ⟨h1, h2, h3⟩ := findTokenFrom_spec kw ts (i + 1) j h
      have hji : j - i = (j - (i + 1)) + 1 := by omega
      refine ⟨by omega, ?_, ?_⟩
      · rw [hji]
        simpa using h2
      · intro m hm
        cases m with
        | zero =>
          simp only [List.getD_cons_zero]
          intro hk
          exact ht (by simpa using hk)
        | succ m' =>
          have := h3 m' (by omega)
          simpa using this

theorem tokAt_drop (toks : List CStr) (n m : Nat) :
    (toks.drop n).getD m [] = tokAt toks (n + m) := by
  unfold tokAt
  simp [List.getD, List.getElem?_drop]

/-- What `isPotionFormulaKnowledge` has checked on a line whose fourth token is `potion`:
the third token is a potion name and the tokens from index 6 on are a list of items. -/
theorem isPotionFormulaKnowledge_shape (input : CStr)
    (h : isPotionFormulaKnowledge input = true)
    (h3 : tokAt (tokenizeInput input) 3 = "potion".toList) :
    isValidPotionNameToken (tokAt (tokenizeInput input) 2) = true ∧
    formulaItemsOk ((tokenizeInput input).drop 6) = true := by
  unfold isPotionFormulaKnowledge at h
  simp only at h
  generalize tokenizeInput input = toks at h h3 ⊢
  split_ifs at h with hlen h1 h2 h4
  split at h
  · rename_i pi ci oi hp hc ho
    split_ifs at h with h5 h6 h7
    simp only [Bool.not_eq_true', Bool.not_eq_false, Bool.and_eq_true, decide_eq_true_eq,
      beq_iff_eq] at h5 h6 h7
    obtain ⟨hp1, hp2, hp3⟩ := findTokenFrom_spec _ _ _ _ hp
    obtain ⟨hc1, hc2, hc3⟩ := findTokenFrom_spec _ _ _ _ hc
    rw [tokAt_drop] at hp2 hc2
    have hpi : pi = 3 := by
      by_contra hne
      rcases Nat.lt_or_ge pi 3 with hlt | hge
      · have hpi2 : pi = 2 := by omega
        subst hpi2
        have hci : ci = 3 := by omega
        subst hci
        have : tokAt toks 3 = "consists".toList := by simpa using hc2
        rw [h3] at this
        exact absurd this (by decide)
      · have := hp3 1 (by omega)
        rw [tokAt_drop] at this
        exact this h3
    subst hpi
    have hoi : oi = 5 := by omega
    subst hoi
    refine ⟨?_, h⟩
    have hl : 7 ≤ toks.length := by
      simp only [not_lt] at hlen
      simpa using hlen
    have hnames : (toks.take 3).drop 2 = [tokAt toks 2] := by
      match toks, hl with
      | a :: b :: c :: d :: rest, _ => rfl
    rw [hnames] at h6
    simpa using h6
  · exact absurd h (by simp)

theorem formulaIngredient_keeps (w : World) (n : CStr) (i : Nat)
    (h : (slotAt w.ingredients i).name ≠ []) :
    slotAt (formulaIngredient w n).1.ingredients i = slotAt w.ingredients i := by
  unfold formulaIngredient
  cases hf : findSlot (fun (x : Ingredient) => !x.name.isEmpty && x.name == n)
      w.ingredients 0 with
  | some j => rfl
  | none =>
    simp only
    rw [slotAt_updSlot]
    by_cases hi : i = firstFree (fun (x : Ingredient) => x.name.isEmpty) w.ingredients
    · exfalso
      have := firstFree_free (fun (x : Ingredient) => x.name.isEmpty) (by decide) w.ingredients
      rw [← hi] at this
      simp only [List.isEmpty_iff] at this
      exact h this
    · rw [if_neg hi]

theorem formulaIngredient_name (w : World) (n : CStr) :
    (slotAt (formulaIngredient w n).1.ingredients (formulaIngredient w n).2).name = n := by
  unfold formulaIngredient
  cases hf : findSlot (fun (x : Ingredient) => !x.name.isEmpty && x.name == n)
      w.ingredients 0 with
  | some j =>
    have h2 := ((findSlot_zero_some_iff _ _ _).1 hf).2.1
    simp only [Bool.and_eq_true, Bool.not_eq_true', beq_iff_eq] at h2
    exact h2.2
  | none =>
    simp only
    rw [slotAt_updSlot, if_pos rfl]

theorem formulaLoop_keeps : ∀ (toks : List CStr) (w : World) (i : Nat),
    (slotAt w.ingredients i).name ≠ [] →
    slotAt (formulaLoop toks w).1.ingredients i = slotAt w.ingredients i
  | [], _, _, _ => rfl
  | [q], w, i, h => formulaIngredient_keeps w _ i h
  | [q, n], w, i, h => formulaIngredient_keeps w _ i h
  | q :: n :: c :: rest, w, i, h => by
    have h1 := formulaIngredient_keeps w (stripTrailingComma n) i h
    unfold formulaLoop
    simp only
    split_ifs
    · rw [formulaLoop_keeps rest _ i (by rw [h1]; exact h), h1]
    · rw [formulaLoop_keeps (c :: rest) _ i (by rw [h1]; exact h), h1]

/-- The requirements that the ingredient loop of `executeFormulaKnowledge` stores for a
list of items accepted by the validator, read back through the names of their slots, are
the listed names with the `atoi` of the listed quantities, in order. -/
theorem formulaLoop_spec : ∀ (toks : List CStr) (w : World), formulaItemsOk toks = true →
    (formulaLoop toks w).2.map
        (fun r => ((slotAt (formulaLoop toks w).1.ingredients r.1).name, r.2))
      = toEntries (listedItems toks)
  | [], _, _ => rfl
  | [q], _, h => by simp [formulaItemsOk] at h
  | [q, n], w, h => by
    simp only [formulaItemsOk, Bool.and_true, Bool.and_eq_true] at h
    simp only [formulaLoop, listedItems, toEntries, List.map_cons, List.map_nil,
      stripTrailingComma_alpha n h.2, formulaIngredient_name w n]
  | q :: n :: c :: rest, w, h => by
    simp only [formulaItemsOk, Bool.and_eq_true, beq_iff_eq] at h
    obtain ⟨_, hn, ⟨hc, _⟩, hrest⟩ := h
    have hne := isAlphabeticOnly_ne_nil n hn
    have ih := formulaLoop_spec rest (formulaIngredient w n).1 hrest
    have hname := formulaIngredient_name w n
    have hk := formulaLoop_keeps rest (formulaIngredient w n).1 (formulaIngredient w n).2
      (by rw [hname]; exact hne)
    subst hc
    simp only [formulaLoop, listedItems, toEntries, List.map_cons, stripTrailingComma_alpha n hn,
      beq_self_eq_true, ↓reduceIte, hk, hname]
    rw [← toEntries, ← ih]

/-- On a non-empty run of digits whose decimal value fits in an `int`, `atoi` is the
decimal value. -/
theorem atoi_of_digits (c : Char) (rest : CStr) (hall : (c :: rest).all isdigit = true)
    (hr : digitsValue 0 (c :: rest) ≤ 2147483647) :
    atoi (c :: rest) = (digitsValue 0 (c :: rest) : Int) := by
  have hc : isdigit c = true := by
    simp only [List.all_cons, Bool.and_eq_true] at hall
    exact hall.1
  have hsp := isdigit_not_isspace c hc
  have hsg := isdigit_not_sign c hc
  have htake : (c :: rest).takeWhile isdigit = c :: rest := by
    rw [List.takeWhile_eq_self_iff]
    intro x hx
    exact List.all_eq_true.1 hall x hx
  unfold atoi
  have hdrop : (c :: rest).dropWhile isspace = c :: rest := by
    simp [List.dropWhile, hsp]
  simp only [hdrop, List.head?_cons]
  have hm : (some c == some '-') = false := by simpa using hsg.1
  have hp : (some c == some '+') = false := by simpa using hsg.2
  simp only [hm, hp, Bool.or_self, Bool.false_eq_true, ↓reduceIte, htake]
  have hmin : min (digitsValue 0 (c :: rest)) 9223372036854775807 = digitsValue 0 (c :: rest) := by
    omega
  rw [hmin]
  exact toInt32_small _ hr

theorem digitsValue_ge (cs : CStr) : ∀ acc : Nat, acc ≤ digitsValue acc cs := by
  induction cs with
  | nil => intro acc; exact le_of_eq (digitsValue_nil acc).symm
  | cons c cs ih =>
    intro acc
    rw [digitsValue_cons]
    have := ih (acc * 10 + digitVal c)
    omega

theorem digitVal_pos (c : Char) (hd : isdigit c = true) (h0 : c ≠ '0') : 0 < digitVal c := by
  by_contra hz
  have hz0 : digitVal c = 0 := by omega
  have := digitChar_digitVal c hd
  rw [hz0] at this
  exact h0 this.symm

/-- What `isBrewAction` has checked when it returns true. -/
theorem isBrewAction_shape (input : CStr) (h : isBrewAction input = true) :
    (decide ((tokenizeInput input).length < 3) || tokAt (tokenizeInput input) 0 != "Geralt".toList
      || tokAt (tokenizeInput input) 1 != "brews".toList) = false ∧
    potionNameScan (tokAt (tokenizeInput input) 2) false = true := by
  unfold isBrewAction at h
  simp only at h
  split_ifs at h with h1 h2
  refine ⟨?_, h⟩
  have e1 : decide ((tokenizeInput input).length < 3) = false := by simpa using h1
  have e2 : (tokAt (tokenizeInput input) 0 != "Geralt".toList
      || tokAt (tokenizeInput input) 1 != "brews".toList) = false := by simpa using h2
  rw [Bool.or_assoc, e1, e2]
  rfl

/-- The executors of the query commands and `EXIT_COMMAND` return the state they are
given. -/
theorem executeCommand_query_world (w : World) (input : CStr) (c : CommandType)
    (hc : c = .QUERY_SPECIFIC_INVENTORY ∨ c = .QUERY_ALL_INVENTORY ∨ c = .QUERY_BESTIARY
      ∨ c = .QUERY_ALCHEMY ∨ c = .EXIT_COMMAND) :
    (executeCommand w input c).world = w := by
  rcases hc with rfl | rfl | rfl | rfl | rfl
  · simp only [executeCommand, executeSpecificInventoryQuery]
    split_ifs <;> rfl
  · simp only [executeCommand, executeAllInventoryQuery]
    split_ifs <;> simp only <;> (try split_ifs) <;> rfl
  · simp only [executeCommand, executeBestiaryQuery]
    cases findBeast w.beasts (tokAt (tokenizeInput input) 4) <;> rfl
  · simp only [executeCommand, executeAlchemyQuery]
    cases findPotion w.potions (tokAt (tokenizeInput input) 3) <;> rfl
  · rfl

theorem executeEffectivenessKnowledge_potions (w : World) (input : CStr) :
    (executeEffectivenessKnowledge w input).world.potions = w.potions := by
  unfold executeEffectivenessKnowledge
  simp only
  cases findBeast w.beasts (tokAt (tokenizeInput input) ((tokenizeInput input).length - 1)) with
  | none =>
    simp only
    split_ifs
    · rfl
    · cases findPotion w.potions (tokAt (tokenizeInput input) 2) <;> rfl
    · rfl
  | some k =>
    simp only
    split_ifs <;> rfl

theorem usablePotion_none_of_no_stock (w : World) (h : ∀ p ∈ w.potions, p.quantity = 0)
    (e : Nat) : usablePotion w e = none := by
  have hslot : ∀ i, (slotAt w.potions i).quantity = 0 := by
    intro i
    rcases Nat.lt_or_ge i w.potions.length with hi | hi
    · exact h _ (slotAt_mem w.potions i hi)
    · rw [slotAt_of_le w.potions i hi]
      rfl
  unfold usablePotion
  split_ifs with h1 h2
  · rw [hslot e] at h2
    exact absurd h2 (by decide)
  · rfl
  · simp only
    rw [findSlot_none_iff, List.find?_eq_none]
    intro p hp
    simp [h p hp]

theorem startsWith_append (kw s : CStr) : startsWith kw (kw ++ s) = true := by
  induction kw with
  | nil => cases s <;> rfl
  | cons k ks ih => simp [startsWith, ih]

/-- A command that is not answered `Alchemy item created: ...` leaves every potion stock
at 0 when all stocks were 0. -/
theorem no_stock_step (w : World) (line : CStr) (h : ∀ p ∈ w.potions, p.quantity = 0)
    (hout : startsWith "Alchemy item created: ".toList (execute_line w line).out = false) :
    ∀ p ∈ (execute_line w line).world.potions, p.quantity = 0 := by
  by_cases hv : isValidCommand (inputCopy line) = .INVALID_COMMAND
  · rw [execute_line_invalid w line hv]
    exact h
  · rw [execute_line_eq w line _ rfl hv] at hout ⊢
    cases hc : isValidCommand (inputCopy line) with
    | INVALID_COMMAND => exact absurd hc hv
    | EXIT_COMMAND => exact h
    | ACTION_LOOT =>
      have hf := lootLoop_frame ((tokenizeInput (inputCopy line)).drop 2) w
      show ∀ p ∈ (lootLoop ((tokenizeInput (inputCopy line)).drop 2) w).potions, p.quantity = 0
      rw [hf.2.2]
      exact h
    | ACTION_TRADE =>
      simp only [executeCommand, executeTradeAction]
      cases tradeCheck w.trophies (tradeParsed (tokenizeInput (inputCopy line))).1 <;> exact h
    | ACTION_BREW =>
      rw [hc] at hout
      have hs := (isBrewAction_shape _ (isValidCommand_brew _ hc)).1
      simp only [executeCommand, executeBrewAction, hs, Bool.false_eq_true, ↓reduceIte]
        at hout ⊢
      cases hp : findPotion w.potions (tokAt (tokenizeInput (inputCopy line)) 2) with
      | none => exact h
      | some k =>
        rw [hp] at hout
        simp only at hout ⊢
        split_ifs at hout ⊢ with hen
        · exact h
        · exfalso
          simp only [List.append_assoc] at hout
          rw [startsWith_append] at hout
          exact absurd hout (by decide)
    | KNOWLEDGE_EFFECTIVENESS =>
      simp only [executeCommand]
      rw [executeEffectivenessKnowledge_potions]
      exact h
    | KNOWLEDGE_POTION_FORMULA =>
      simp only [executeCommand, executeFormulaKnowledge]
      cases findPotion w.potions
        (if (tokAt (tokenizeInput (inputCopy line)) 3 != "potion".toList) = true
          then tokAt (tokenizeInput (inputCopy line)) 2 ++ [' ']
            ++ tokAt (tokenizeInput (inputCopy line)) 3
          else tokAt (tokenizeInput (inputCopy line)) 2) with
      | some k => exact h
      | none =>
        simp only
        intro p hp
        rcases mem_updSlot _ _ _ (firstFree_le _ _) p hp with hm | hm
        · exact h p hm
        · rw [hm]
    | ENCOUNTER =>
      simp only [executeCommand, executeEncounter]
      split_ifs
      · exact h
      · cases findBeast w.beasts (tokAt (tokenizeInput (inputCopy line)) 3) with
        | none => exact h
        | some k =>
          simp only
          have hany : (slotAt w.beasts k).effective_potion_indices.any
              (fun e => (usablePotion w e).isSome) = false := by
            rw [List.any_eq_false]
            intro e _
            rw [usablePotion_none_of_no_stock w h e]
            simp
          simp only [hany, Bool.false_eq_true, ↓reduceIte]
          split_ifs <;> exact h
    | QUERY_SPECIFIC_INVENTORY =>
      rw [executeCommand_query_world w _ _ (Or.inl rfl)]
      exact h
    | QUERY_ALL_INVENTORY =>
      rw [executeCommand_query_world w _ _ (Or.inr (Or.inl rfl))]
      exact h
    | QUERY_BESTIARY =>
      rw [executeCommand_query_world w _ _ (Or.inr (Or.inr (Or.inl rfl)))]
      exact h
    | QUERY_ALCHEMY =>
      rw [executeCommand_query_world w _ _ (Or.inr (Or.inr (Or.inr (Or.inl rfl))))]
      exact h

theorem bne_false_eq {a b : CStr} (h : (a != b) = false) : a = b := by
  simpa using h

theorem isLootAction_keywords (input : CStr) (h : isLootAction input = true) :
    tokAt (tokenizeInput input) 0 = "Geralt".toList ∧
    tokAt (tokenizeInput input) 1 = "loots".toList := by
  unfold isLootAction at h
  simp only at h
  split_ifs at h with h1 h2 h3 h4 h5
  simp only [Bool.or_eq_true, not_or, Bool.not_eq_true] at h3
  exact ⟨bne_false_eq h3.1, bne_false_eq h3.2⟩

theorem isTradeAction_keywords (input : CStr) (h : isTradeAction input = true) :
    tokAt (tokenizeInput input) 0 = "Geralt".toList ∧
    tokAt (tokenizeInput input) 1 = "trades".toList := by
  unfold isTradeAction at h
  simp only at h
  split_ifs at h with h1
  simp only [Bool.or_eq_true, not_or, Bool.not_eq_true] at h1
  exact ⟨bne_false_eq h1.1, bne_false_eq h1.2⟩

theorem isBrewAction_keywords (input : CStr) (h : isBrewAction input = true) :
    tokAt (tokenizeInput input) 0 = "Geralt".toList ∧
    tokAt (tokenizeInput input) 1 = "brews".toList := by
  have h1 := (isBrewAction_shape input h).1
  simp only [Bool.or_eq_false_iff] at h1
  exact ⟨bne_false_eq h1.1.2, bne_false_eq h1.2⟩

theorem isEffectivenessKnowledge_keywords (input : CStr)
    (h : isEffectivenessKnowledge input = true) :
    tokAt (tokenizeInput input) 0 = "Geralt".toList ∧
    tokAt (tokenizeInput input) 1 = "learns".toList ∧
    tokAt (tokenizeInput input) 4 = "is".toList ∧
    tokAt (tokenizeInput input) 5 = "effective".toList ∧
    tokAt (tokenizeInput input) 6 = "against".toList := by
  unfold isEffectivenessKnowledge at h
  simp only at h
  split_ifs at h with h1 h2 h3 h4 h5 <;>
  · simp only [Bool.or_eq_true, not_or, Bool.not_eq_true] at h1 h3
    exact ⟨bne_false_eq h1.1.2, bne_false_eq h1.2, bne_false_eq h3.1.1, bne_false_eq h3.1.2,
      bne_false_eq h3.2⟩

theorem isPotionFormulaKnowledge_keywords (input : CStr)
    (h : isPotionFormulaKnowledge input = true) :
    tokAt (tokenizeInput input) 0 = "Geralt".toList ∧
    tokAt (tokenizeInput input) 1 = "learns".toList ∧
    ∃ pi, 2 ≤ pi ∧ tokAt (tokenizeInput input) pi = "potion".toList ∧
      tokAt (tokenizeInput input) (pi + 1) = "consists".toList ∧
      tokAt (tokenizeInput input) (pi + 2) = "of".toList := by
  unfold isPotionFormulaKnowledge at h
  simp only at h
  generalize tokenizeInput input = toks at h ⊢
  split_ifs at h with hlen h1 h2 h4
  simp only [Bool.or_eq_true, not_or, Bool.not_eq_true] at h4
  refine ⟨bne_false_eq h4.1, bne_false_eq h4.2, ?_⟩
  split at h
  · rename_i pi ci oi hp hc ho
    split_ifs at h with h5 h6 h7
    simp only [Bool.not_eq_true', Bool.not_eq_false, Bool.and_eq_true, decide_eq_true_eq,
      beq_iff_eq] at h5 h7
    obtain ⟨hp1, hp2, _⟩ := findTokenFrom_spec _ _ _ _ hp
    obtain ⟨hc1, hc2, _⟩ := findTokenFrom_spec _ _ _ _ hc
    obtain ⟨ho1, ho2, _⟩ := findTokenFrom_spec _ _ _ _ ho
    rw [tokAt_drop] at hp2 hc2 ho2
    refine ⟨pi, hp1, ?_, ?_, ?_⟩
    · rw [← hp2]; congr 1; omega
    · rw [← hc2]; congr 1; omega
    · rw [← ho2]; congr 1; omega
  · exact absurd h (by simp)

theorem isEncounterSentence_keywords (input : CStr) (h : isEncounterSentence input = true) :
    tokAt (tokenizeInput input) 0 = "Geralt".toList ∧
    tokAt (tokenizeInput input) 1 = "encounters".toList := by
  unfold isEncounterSentence at h
  simp only at h
  split_ifs at h with h1 h2
  simp only [Bool.or_eq_true, not_or, Bool.not_eq_true] at h2
  exact ⟨bne_false_eq h2.1.1, bne_false_eq h2.1.2⟩

theorem isInventoryQuery_keywords (input : CStr) (h : (isInventoryQuery input).1 = true) :
    tokAt (tokenizeInput input) 0 = "Total".toList := by
  unfold isInventoryQuery at h
  simp only at h
  generalize tokAt (tokenizeInput input) 0 = t0 at h ⊢
  by_contra hne
  have e : (t0 != "Total".toList) = true := by simpa using hne
  rw [e] at h
  split_ifs at h with a1 a2 a3 <;> exact absurd rfl a3

theorem itemTokens_cons_cons (q n : CStr) (it : CStr × CStr) (rest : List (CStr × CStr)) :
    itemTokens ((q, n) :: it :: rest) = q :: n :: [','] :: itemTokens (it :: rest) := rfl

theorem itemTokens_ne_nil : ∀ (items : List (CStr × CStr)), items ≠ [] →
    ∃ q n rest, itemTokens items = q :: n :: rest
  | [], h => absurd rfl h
  | [(q, n)], _ => ⟨q, n, [], rfl⟩
  | (q, n) :: it :: rest, _ => ⟨q, n, [','] :: itemTokens (it :: rest), rfl⟩

theorem itemTokens_mem : ∀ (items : List (CStr × CStr)) (t : CStr), t ∈ itemTokens items →
    t = [','] ∨ ∃ it ∈ items, t = it.1 ∨ t = it.2
  | [], t, h => by simp [itemTokens] at h
  | [(q, n)], t, h => by
    simp only [itemTokens, List.mem_cons, List.mem_singleton, List.not_mem_nil, or_false] at h
    right
    refine ⟨(q, n), List.mem_singleton.2 rfl, ?_⟩
    rcases h with h | h
    · exact Or.inl h
    · exact Or.inr h
  | (q, n) :: it :: rest, t, h => by
    rw [itemTokens_cons_cons] at h
    simp only [List.mem_cons] at h
    rcases h with h | h | h | h
    · exact Or.inr ⟨(q, n), List.mem_cons_self _ _, Or.inl h⟩
    · exact Or.inr ⟨(q, n), List.mem_cons_self _ _, Or.inr h⟩
    · exact Or.inl h
    · rcases itemTokens_mem (it :: rest) t h with h1 | ⟨x, hx, h1⟩
      · exact Or.inl h1
      · exact Or.inr ⟨x, List.mem_cons_of_mem _ hx, h1⟩

theorem itemTokens_getLast : ∀ (items : List (CStr × CStr)), items ≠ [] →
    ∃ it ∈ items, (itemTokens items).getLast? = some it.2
  | [], h => absurd rfl h
  | [(q, n)], _ => ⟨(q, n), List.mem_singleton.2 rfl, rfl⟩
  | (q, n) :: it :: rest, _ => by
    obtain ⟨x, hx, hl⟩ := itemTokens_getLast (it :: rest) (by simp)
    refine ⟨x, List.mem_cons_of_mem _ hx, ?_⟩
    rw [itemTokens_cons_cons]
    obtain ⟨a, b, r, hr⟩ := itemTokens_ne_nil (it :: rest) (by simp)
    rw [hr] at hl ⊢
    simpa [List.getLast?_cons_cons] using hl

theorem listedItems_itemTokens : ∀ (items : List (CStr × CStr)),
    listedItems (itemTokens items) = items
  | [] => rfl
  | [(q, n)] => rfl
  | (q, n) :: it :: rest => by
    rw [itemTokens_cons_cons]
    simp only [listedItems]
    rw [listedItems_itemTokens (it :: rest)]

theorem lootItemsOk_itemTokens : ∀ (items : List (CStr × CStr)),
    (∀ it ∈ items, isPositiveInteger it.1 = true ∧ isAlphabeticOnly it.2 = true) →
    lootItemsOk (itemTokens items) = true
  | [], _ => rfl
  | [(q, n)], h => by
    have := h (q, n) (List.mem_singleton.2 rfl)
    simp [itemTokens, lootItemsOk, this.1, this.2]
  | (q, n) :: it :: rest, h => by
    have h1 := h (q, n) (List.mem_cons_self _ _)
    have ih := lootItemsOk_itemTokens (it :: rest) (fun x hx => h x (List.mem_cons_of_mem _ hx))
    rw [itemTokens_cons_cons]
    simp [lootItemsOk, h1.1, h1.2, ih]

theorem tradeItemsOk_itemTokens : ∀ (items : List (CStr × CStr)), items ≠ [] →
    (∀ it ∈ items, isPositiveInteger it.1 = true ∧ isAlphabeticOnly it.2 = true) →
    tradeItemsOk (itemTokens items) = true
  | [], hne, _ => absurd rfl hne
  | [(q, n)], _, h => by
    have := h (q, n) (List.mem_singleton.2 rfl)
    simp [itemTokens, tradeItemsOk, this.1, this.2]
  | (q, n) :: it :: rest, _, h => by
    have h1 := h (q, n) (List.mem_cons_self _ _)
    have ih := tradeItemsOk_itemTokens (it :: rest) (by simp)
      (fun x hx => h x (List.mem_cons_of_mem _ hx))
    obtain ⟨a, b, r, hr⟩ := itemTokens_ne_nil (it :: rest) (by simp)
    rw [itemTokens_cons_cons]
    rw [hr] at ih ⊢
    simp [tradeItemsOk, h1.1, h1.2, ih]

theorem tradeTrophiesOk_itemTokens : ∀ (items : List (CStr × CStr)), items ≠ [] →
    (∀ it ∈ items, isPositiveInteger it.1 = true ∧ isAlphabeticOnly it.2 = true) →
    tradeTrophiesOk (itemTokens items ++ ["trophy".toList]) = true
  | [], hne, _ => absurd rfl hne
  | [(q, n)], _, h => by
    have := h (q, n) (List.mem_singleton.2 rfl)
    simp [itemTokens, tradeTrophiesOk, this.1, this.2]
  | (q, n) :: it :: rest, _, h => by
    have h1 := h (q, n) (List.mem_cons_self _ _)
    have ih := tradeTrophiesOk_itemTokens (it :: rest) (by simp)
      (fun x hx => h x (List.mem_cons_of_mem _ hx))
    rw [itemTokens_cons_cons]
    have hct : ([','] == "trophy".toList) = false := by decide
    simp only [List.cons_append, tradeTrophiesOk, h1.1, h1.2, Bool.true_and, hct,
      Bool.false_and, Bool.false_eq_true, ↓reduceIte, beq_self_eq_true]
    exact ih

/-- A token list accepted by the item loop of `isLootAction` that does not end in a comma
is the token list of its items. -/
theorem lootItemsOk_eq_itemTokens : ∀ (ts : List CStr), lootItemsOk ts = true → ts ≠ [] →
    ts.getLast? ≠ some [','] →
    ts = itemTokens (listedItems ts) ∧ listedItems ts ≠ []
  | [], _, hne, _ => absurd rfl hne
  | [q], h, _, _ => by simp [lootItemsOk] at h
  | [q, n], _, _, _ => ⟨rfl, by simp [listedItems]⟩
  | [q, n, c], h, _, hl => by
    simp only [lootItemsOk, Bool.and_true, Bool.and_eq_true, beq_iff_eq] at h
    exfalso
    apply hl
    rw [h.2.2]
    rfl
  | q :: n :: c :: r :: rest, h, _, hl => by
    simp only [lootItemsOk, Bool.and_eq_true, beq_iff_eq] at h
    obtain ⟨_, _, hc, hrest⟩ := h
    subst hc
    have hl2 : (r :: rest).getLast? ≠ some [','] := by
      simpa [List.getLast?_cons_cons] using hl
    obtain ⟨ih1, ih2⟩ := lootItemsOk_eq_itemTokens (r :: rest) hrest (by simp) hl2
    simp only [listedItems]
    cases hli : listedItems (r :: rest) with
    | nil => exact absurd hli ih2
    | cons it its =>
      rw [itemTokens_cons_cons, ← hli, ← ih1]
      exact ⟨rfl, by simp⟩

theorem tradeItemsOk_eq_itemTokens : ∀ (ts : List CStr), tradeItemsOk ts = true →
    ts = itemTokens (listedItems ts) ∧ listedItems ts ≠ []
  | [], h => by simp [tradeItemsOk] at h
  | [q], h => by simp [tradeItemsOk] at h
  | [q, n], _ => ⟨rfl, by simp [listedItems]⟩
  | [q, n, c], h => by simp [tradeItemsOk] at h
  | q :: n :: c :: r :: rest, h => by
    simp only [tradeItemsOk, Bool.and_eq_true, beq_iff_eq] at h
    obtain ⟨_, _, ⟨hc, _⟩, hrest⟩ := h
    subst hc
    obtain ⟨ih1, ih2⟩ := tradeItemsOk_eq_itemTokens (r :: rest) hrest
    simp only [listedItems]
    cases hli : listedItems (r :: rest) with
    | nil => exact absurd hli ih2
    | cons it its =>
      rw [itemTokens_cons_cons, ← hli, ← ih1]
      exact ⟨rfl, by simp⟩

theorem tradeTrophiesOk_eq_itemTokens : ∀ (ts : List CStr), tradeTrophiesOk ts = true →
    ts = itemTokens (listedItems ts) ++ ["trophy".toList] ∧ listedItems ts ≠ []
  | [], h => by simp [tradeTrophiesOk] at h
  | [q], h => by simp [tradeTrophiesOk] at h
  | [q, n], h => by simp [tradeTrophiesOk] at h
  | [q, n, k], h => by
    have h' := h
    unfold tradeTrophiesOk at h'
    rw [Bool.and_eq_true, Bool.and_eq_true] at h'
    obtain ⟨_, _, hk⟩ := h'
    by_cases hkt : k = "trophy".toList
    · subst hkt
      exact ⟨rfl, by simp [listedItems]⟩
    · exfalso
      have e : (k == "trophy".toList) = false := by simpa using hkt
      simp only [e, Bool.false_and, Bool.false_eq_true, ↓reduceIte] at hk
      split_ifs at hk
      simp [tradeTrophiesOk] at hk
  | q :: n :: k :: r :: rest, h => by
    have h' := h
    unfold tradeTrophiesOk at h'
    rw [Bool.and_eq_true, Bool.and_eq_true] at h'
    obtain ⟨_, _, hk⟩ := h'
    have e : (k == "trophy".toList && (r :: rest).isEmpty) = false := by simp
    simp only [e, Bool.false_eq_true, ↓reduceIte] at hk
    split_ifs at hk with hc
    have hc' : k = [','] := by simpa using hc
    subst hc'
    obtain ⟨ih1, ih2⟩ := tradeTrophiesOk_eq_itemTokens (r :: rest) hk
    simp only [listedItems]
    cases hli : listedItems (r :: rest) with
    | nil => exact absurd hli ih2
    | cons it its =>
      rw [itemTokens_cons_cons, ← hli]
      refine ⟨?_, by simp⟩
      simp only [List.cons_append]
      rw [← ih1]

theorem isValidCommand_all_false (input : CStr)
    (h0 : isLootAction input = false) (h1 : isTradeAction input = false)
    (h2 : isBrewAction input = false) (h3 : isEffectivenessKnowledge input = false)
    (h4 : isPotionFormulaKnowledge input = false) (h5 : isEncounterSentence input = false)
    (h6 : (isInventoryQuery input).1 = false) (h7 : isBestiaryQuery input = false)
    (h8 : isAlchemyQuery input = false) (h9 : isExitCommand input = false) :
    isValidCommand input = .INVALID_COMMAND := by
  unfold isValidCommand
  rw [h0, h1, h2, h3, h4, h5, h6, h7, h8, h9]
  rfl

theorem bool_false_of_not {b : Bool} (h : b = true → False) : b = false := by
  cases b
  · rfl
  · exact absurd rfl h

/-- A line whose first two tokens are `Geralt loots` is accepted by no validator other
than `isLootAction`. -/
theorem loots_only_loot (input : CStr)
    (h1 : tokAt (tokenizeInput input) 1 = "loots".toList)
    (hl : isLootAction input = false) : isValidCommand input = .INVALID_COMMAND := by
  apply isValidCommand_all_false input hl
  · exact bool_false_of_not (fun h => by
      have := (isTradeAction_keywords input h).2
      rw [h1] at this
      exact absurd this (by decide))
  · exact bool_false_of_not (fun h => by
      have := (isBrewAction_keywords input h).2
      rw [h1] at this
      exact absurd this (by decide))
  · exact bool_false_of_not (fun h => by
      have := (isEffectivenessKnowledge_keywords input h).2.1
      rw [h1] at this
      exact absurd this (by decide))
  · exact bool_false_of_not (fun h => by
      have := (isPotionFormulaKnowledge_keywords input h).2.1
      rw [h1] at this
      exact absurd this (by decide))
  · exact bool_false_of_not (fun h => by
      have := (isEncounterSentence_keywords input h).2
      rw [h1] at this
      exact absurd this (by decide))
  · exact bool_false_of_not (fun h => by
      have h6 := isInventoryQuery_shape input h
      rcases h6.1 with e | e | e <;> rw [h1] at e <;> exact absurd e (by decide))
  · exact bool_false_of_not (fun h => by
      unfold isBestiaryQuery at h
      simp only at h
      split_ifs at h with a1 a2
      simp only [Bool.or_eq_true, not_or, Bool.not_eq_true] at a2
      have := bne_false_eq a2.1.1.2
      rw [h1] at this
      exact absurd this (by decide))
  · exact bool_false_of_not (fun h => by
      unfold isAlchemyQuery at h
      simp only at h
      split_ifs at h with a1 a2
      simp only [Bool.or_eq_true, not_or, Bool.not_eq_true] at a2
      have := bne_false_eq a2.1.2
      rw [h1] at this
      exact absurd this (by decide))
  · exact bool_false_of_not (fun h => by
      unfold isExitCommand at h
      simp only [Bool.and_eq_true, beq_iff_eq] at h
      have hlen := h.1
      have h1' := h1
      unfold tokAt at h1'
      match htk : tokenizeInput input, hlen with
      | [t], _ =>
        rw [htk] at h1'
        simp at h1')

theorem mem_itemTokens : ∀ (items : List (CStr × CStr)) (it : CStr × CStr), it ∈ items →
    it.1 ∈ itemTokens items ∧ it.2 ∈ itemTokens items
  | [], _, h => by cases h
  | [(q, n)], it, h => by
    have : it = (q, n) := List.mem_singleton.1 h
    subst this
    simp [itemTokens]
  | (q, n) :: x :: rest, it, h => by
    rw [itemTokens_cons_cons]
    rcases List.mem_cons.1 h with rfl | h'
    · simp
    · have := mem_itemTokens (x :: rest) it h'
      simp [this.1, this.2]

theorem findTokenFrom_first (kw : CStr) : ∀ (pre post : List CStr) (i : Nat), kw ∉ pre →
    findTokenFrom kw (pre ++ kw :: post) i = some (i + pre.length)
  | [], post, i, _ => by simp [findTokenFrom]
  | t :: pre, post, i, h => by
    have ht : (t == kw) = false := by
      apply bool_false_of_not
      intro hh
      apply h
      have : t = kw := by simpa using hh
      simp [this]
    have ih := findTokenFrom_first kw pre post (i + 1)
      (fun hm => h (List.mem_cons_of_mem _ hm))
    have e : i + 1 + pre.length = i + (t :: pre).length := by
      rw [List.length_cons]
      omega
    rw [e] at ih
    simp only [List.cons_append, findTokenFrom, ht, Bool.false_eq_true, ↓reduceIte]
    exact ih

theorem isTradeAction_tokens (input : CStr) (trophies items : List (CStr × CStr))
    (ht : trophies ≠ []) (hi : items ≠ [])
    (hvt : ∀ t ∈ trophies, isPositiveInteger t.1 = true ∧ isAlphabeticOnly t.2 = true)
    (hvi : ∀ it ∈ items, isPositiveInteger it.1 = true ∧ isAlphabeticOnly it.2 = true)
    (hfor : ∀ t ∈ trophies, t.2 ≠ "for".toList)
    (htok : tokenizeInput input = "Geralt".toList :: "trades".toList ::
      (itemTokens trophies ++ "trophy".toList :: "for".toList :: itemTokens items)) :
    isTradeAction input = true := by
  obtain ⟨q1, n1, r1, hr1⟩ := itemTokens_ne_nil trophies ht
  obtain ⟨q2, n2, r2, hr2⟩ := itemTokens_ne_nil items hi
  have hnot : "for".toList ∉ itemTokens trophies ++ ["trophy".toList] := by
    intro hm
    rcases List.mem_append.1 hm with hm | hm
    · rcases itemTokens_mem trophies _ hm with h | ⟨it, hit, h | h⟩
      · exact absurd h (by decide)
      · have := (hvt it hit).1
        rw [← h] at this
        exact absurd this (by decide)
      · exact hfor it hit h.symm
    · exact absurd (List.mem_singleton.1 hm) (by decide)
  have hfind := findTokenFrom_first "for".toList (itemTokens trophies ++ ["trophy".toList])
    (itemTokens items) 2 hnot
  have hdrop2 : (tokenizeInput input).drop 2
      = (itemTokens trophies ++ ["trophy".toList]) ++ "for".toList :: itemTokens items := by
    rw [htok]
    simp
  have hlen : (tokenizeInput input).length
      = 2 + ((itemTokens trophies).length + (2 + (itemTokens items).length)) := by
    rw [htok]
    simp only [List.length_cons, List.length_append]
    omega
  have hl1 : 2 ≤ (itemTokens trophies).length := by
    rw [hr1]
    simp
  have hl2 : 2 ≤ (itemTokens items).length := by
    rw [hr2]
    simp
  have htake : ((tokenizeInput input).take (2 + (itemTokens trophies ++ ["trophy".toList]).length)).drop 2
      = itemTokens trophies ++ ["trophy".toList] := by
    rw [List.drop_take, hdrop2]
    have : 2 + (itemTokens trophies ++ ["trophy".toList]).length - 2
        = (itemTokens trophies ++ ["trophy".toList]).length := by omega
    rw [this, List.take_left]
  have hafter : (tokenizeInput input).drop (2 + (itemTokens trophies ++ ["trophy".toList]).length + 1)
      = itemTokens items := by
    have e : 2 + (itemTokens trophies ++ ["trophy".toList]).length + 1
        = 2 + ((itemTokens trophies ++ ["trophy".toList]).length + 1) := by omega
    rw [e, ← List.drop_drop, hdrop2]
    have e2 : (itemTokens trophies ++ ["trophy".toList]) ++ "for".toList :: itemTokens items
        = (itemTokens trophies ++ ["trophy".toList] ++ ["for".toList]) ++ itemTokens items := by
      simp
    rw [e2]
    have e3 : (itemTokens trophies ++ ["trophy".toList]).length + 1
        = (itemTokens trophies ++ ["trophy".toList] ++ ["for".toList]).length := by simp
    rw [e3, List.drop_left]
  have h0 : tokAt (tokenizeInput input) 0 = "Geralt".toList := by rw [htok]; rfl
  have h1 : tokAt (tokenizeInput input) 1 = "trades".toList := by rw [htok]; rfl
  unfold isTradeAction
  simp only
  rw [h0, h1, hdrop2, hfind]
  simp only [bne_self_eq_false, Bool.or_self, Bool.false_eq_true, ↓reduceIte]
  rw [htake, hafter, tradeTrophiesOk_itemTokens trophies ht hvt,
    tradeItemsOk_itemTokens items hi hvi, hlen]
  have hlt : (itemTokens trophies ++ ["trophy".toList]).length = (itemTokens trophies).length + 1 := by
    simp
  rw [hlt]
  have c1 : ¬ (2 + ((itemTokens trophies).length + 1) ≤ 4) := by omega
  have c2 : ¬ (2 + ((itemTokens trophies).length + 1) + 2
      ≥ 2 + ((itemTokens trophies).length + (2 + (itemTokens items).length))) := by omega
  simp [c1, c2]

theorem isTradeAction_grammar (input : CStr) (h : isTradeAction input = true) :
    ∃ trophies items : List (CStr × CStr), trophies ≠ [] ∧ items ≠ [] ∧
      (∀ t ∈ trophies, isPositiveInteger t.1 = true ∧ isAlphabeticOnly t.2 = true) ∧
      (∀ it ∈ items, isPositiveInteger it.1 = true ∧ isAlphabeticOnly it.2 = true) ∧
      (∀ t ∈ trophies, t.2 ≠ "for".toList) ∧
      tokenizeInput input = "Geralt".toList :: "trades".toList ::
        (itemTokens trophies ++ "trophy".toList :: "for".toList :: itemTokens items) := by
  obtain ⟨k0, k1⟩ := isTradeAction_keywords input h
  obtain ⟨forIndex, hf, htro, hit⟩ := isTradeAction_shape input h
  obtain ⟨hsplit, hnot⟩ := trade_tokens_split input forIndex hf
  obtain ⟨e1, n1⟩ := tradeTrophiesOk_eq_itemTokens _ htro
  obtain ⟨e2, n2⟩ := tradeItemsOk_eq_itemTokens _ hit
  have hv1 := tradeTrophiesOk_items _ htro
  have hv2 := tradeItemsOk_items _ hit
  generalize hseg : ((tokenizeInput input).take forIndex).drop 2 = seg at *
  generalize haft : (tokenizeInput input).drop (forIndex + 1) = aft at *
  refine ⟨listedItems seg, listedItems aft, n1, n2, hv1, hv2, ?_, ?_⟩
  · intro t ht hfor
    apply hnot
    rw [e1]
    apply List.mem_append_left
    rw [← hfor]
    exact (mem_itemTokens _ t ht).2
  · generalize tokenizeInput input = toks at *
    match toks with
    | [] => simp at hsplit
    | [_] => simp at hsplit
    | t0 :: t1 :: rest =>
      have a0 : t0 = "Geralt".toList := k0
      have a1 : t1 = "trades".toList := k1
      subst a0 a1
      simp only [List.drop_succ_cons, List.drop_zero] at hsplit
      have e3 : itemTokens (listedItems seg) ++ "trophy".toList :: "for".toList :: aft
          = seg ++ "for".toList :: aft := by
        conv_rhs => rw [e1]
        simp
      rw [hsplit, ← e2, e3]

theorem dropWhile_head_or_nil {α : Type} (p : α → Bool) : ∀ (l : List α),
    l.dropWhile p = [] ∨ ∃ c r, l.dropWhile p = c :: r ∧ p c = false
  | [] => Or.inl rfl
  | a :: l => by
    by_cases h : p a = true
    · rw [List.dropWhile_cons_of_pos h]
      exact dropWhile_head_or_nil p l
    · right
      refine ⟨a, l, ?_, by simpa using h⟩
      rw [List.dropWhile_cons_of_neg h]

theorem splitOnP_word (p : Char → Bool) : ∀ (d : CStr) (c : Char) (r : CStr),
    d.dropWhile p = c :: r →
    (c :: r).takeWhile (fun x => !p x) ∈ d.splitOnP p ∧
    ∀ x ∈ ((c :: r).dropWhile (fun x => !p x)).splitOnP p, x = [] ∨ x ∈ d.splitOnP p
  | [], c, r, h => by cases h
  | a :: d0, c, r, h => by
    by_cases ha : p a = true
    · rw [List.dropWhile_cons_of_pos ha] at h
      obtain ⟨h1, h2⟩ := splitOnP_word p d0 c r h
      rw [List.splitOnP_cons, if_pos ha]
      refine ⟨List.mem_cons_of_mem _ h1, fun x hx => ?_⟩
      rcases h2 x hx with h3 | h3
      · exact Or.inl h3
      · exact Or.inr (List.mem_cons_of_mem _ h3)
    · rw [List.dropWhile_cons_of_neg ha] at h
      rw [h]
      have hsplit : (c :: r).takeWhile (fun x => !p x) ++ (c :: r).dropWhile (fun x => !p x)
          = c :: r := List.takeWhile_append_dropWhile _ _
      have hw : ∀ x ∈ (c :: r).takeWhile (fun x => !p x), ¬ (p x = true) := by
        intro x hx
        have := List.mem_takeWhile_imp hx
        simpa using this
      rcases dropWhile_head_or_nil (fun x => !p x) (c :: r) with h0 | ⟨s, d2, h0, hs⟩
      · rw [h0] at hsplit ⊢
        rw [List.append_nil] at hsplit
        rw [hsplit] at hw ⊢
        rw [List.splitOnP_eq_single p _ hw]
        refine ⟨List.mem_singleton.2 rfl, fun x hx => ?_⟩
        left
        simpa [List.splitOnP_nil] using hx
      · rw [h0] at hsplit ⊢
        have hs2 : p s = true := by simpa using hs
        have e := List.splitOnP_first p _ hw s hs2 d2
        rw [hsplit] at e
        rw [e]
        refine ⟨List.mem_cons_self _ _, fun x hx => ?_⟩
        rw [List.splitOnP_cons, if_pos hs2] at hx
        rcases List.mem_cons.1 hx with h3 | h3
        · exact Or.inl h3
        · exact Or.inr (List.mem_cons_of_mem _ h3)
theorem takeWhile_append_stop {α : Type} (q : α → Bool) (l m : List α)
    (hl : ∀ x ∈ l, q x = true) (hm : m = [] ∨ ∃ c r, m = c :: r ∧ q c = false) :
    (l ++ m).takeWhile q = l ∧ (l ++ m).dropWhile q = m := by
  rw [List.takeWhile_append_of_pos hl, List.dropWhile_append_of_pos hl]
  rcases hm with rfl | ⟨c, r, rfl, hc⟩
  · simp
  · rw [List.takeWhile_cons_of_neg (by simp [hc]), List.dropWhile_cons_of_neg (by simp [hc])]
    simp

theorem word_decomp (d : CStr) (c : Char) (r : CStr) (h : d.dropWhile isspace = c :: r) :
    d = d.takeWhile isspace ++ ((c :: r).takeWhile (fun x => !isspace x)
          ++ (c :: r).dropWhile (fun x => !isspace x)) ∧
    (∀ x ∈ d.takeWhile isspace, isspace x = true) ∧
    (c :: r).takeWhile (fun x => !isspace x) ≠ [] ∧
    (∀ x ∈ (c :: r).takeWhile (fun x => !isspace x), (!isspace x) = true) ∧
    ((c :: r).dropWhile (fun x => !isspace x) = [] ∨
      ∃ a b, (c :: r).dropWhile (fun x => !isspace x) = a :: b ∧ isspace a = true) := by
  have hc : isspace c = false := by
    rcases dropWhile_head_or_nil isspace d with h0 | ⟨c2, r2, h0, hc2⟩
    · rw [h0] at h
      cases h
    · rw [h0] at h
      cases h
      exact hc2
  have g1 : d = d.takeWhile isspace ++ ((c :: r).takeWhile (fun x => !isspace x)
          ++ (c :: r).dropWhile (fun x => !isspace x)) := by
    rw [List.takeWhile_append_dropWhile, ← h, List.takeWhile_append_dropWhile]
  have g3 : (c :: r).takeWhile (fun x => !isspace x) ≠ [] := by
    rw [List.takeWhile_cons_of_pos (by simp [hc])]
    simp
  have g4 : ∀ x ∈ (c :: r).takeWhile (fun x => !isspace x), (!isspace x) = true := by
    intro x hx
    have := List.mem_takeWhile_imp hx
    simpa using this
  have g5 : (c :: r).dropWhile (fun x => !isspace x) = [] ∨
      ∃ a b, (c :: r).dropWhile (fun x => !isspace x) = a :: b ∧ isspace a = true := by
    rcases dropWhile_head_or_nil (fun x => !isspace x) (c :: r) with h0 | ⟨a, b, h0, ha⟩
    · exact Or.inl h0
    · exact Or.inr ⟨a, b, h0, by simpa using ha⟩
  exact ⟨g1, fun x hx => List.mem_takeWhile_imp hx, g3, g4, g5⟩

theorem keyword_run (K tail : CStr) (hK : K = "sign".toList ∨ K = "potion".toList)
    (htail : tail = [] ∨ ∃ c r, tail = c :: r ∧ isspace c = true) :
    (K ++ tail).takeWhile isspace = [] ∧ (K ++ tail).takeWhile (fun x => !isspace x) = K ∧
    K ≠ [] := by
  have hall : ∀ x ∈ K, (!isspace x) = true := by
    rcases hK with rfl | rfl <;> decide
  have htail2 : tail = [] ∨ ∃ c r, tail = c :: r ∧ (!isspace c) = false := by
    rcases htail with h | ⟨c, r, h, hc⟩
    · exact Or.inl h
    · exact Or.inr ⟨c, r, h, by simp [hc]⟩
  refine ⟨?_, (takeWhile_append_stop _ K tail hall htail2).1, ?_⟩
  · rcases hK with rfl | rfl <;> rfl
  · rcases hK with rfl | rfl <;> decide

theorem lexLearnsLoop_name (K tail : CStr) (hK : K = "sign".toList ∨ K = "potion".toList)
    (htail : tail = [] ∨ ∃ c r, tail = c :: r ∧ isspace c = true) :
    ∀ (fuel : Nat) (pre d : CStr) (tempCount : Nat),
      d.length < fuel → tempCount ≤ pre.length → pre.length + d.length < MAX_NAME_LENGTH →
      (tempCount = 0 → d.dropWhile isspace ≠ []) →
      "sign".toList ∉ d.splitOnP isspace → "potion".toList ∉ d.splitOnP isspace →
      lexLearnsLoop fuel (pre ++ (d ++ ' ' :: (K ++ tail))) pre.length tempCount
        = (if ((trimRight (skipSpaces (pre ++ (d ++ [' '])))).length == 0
              || (trimRight (skipSpaces (pre ++ (d ++ [' '])))).length ≥ MAX_TOKEN_LENGTH) = true
           then []
           else lexLearnsTail ["Geralt".toList, "learns".toList,
                  trimRight (skipSpaces (pre ++ (d ++ [' ']))), K] tail)
  | 0, _, _, _, h, _, _, _, _, _ => absurd h (by omega)
  | fuel + 1, pre, d, tempCount, hfuel, htc, hlen, hfirst, hsign, hpotion => by
    obtain ⟨hk1, hk2, hk3⟩ := keyword_run K tail hK htail
    have hs : (pre ++ (d ++ ' ' :: (K ++ tail))).drop pre.length = d ++ ' ' :: (K ++ tail) :=
      List.drop_left _ _
    have htc2 : ¬ (tempCount ≥ MAX_NAME_LENGTH) := by omega
    rcases hd : d.dropWhile isspace with _ | ⟨c, r⟩
    · -- only white space is left before the keyword
      have hall : ∀ x ∈ d ++ [' '], isspace x = true := by
        intro x hx
        rcases List.mem_append.1 hx with hx | hx
        · by_contra hn
          have := List.dropWhile_eq_nil_iff.1 hd x hx
          exact hn this
        · rw [List.mem_singleton.1 hx]
          decide
      have hstop : K ++ tail = [] ∨ ∃ c r, K ++ tail = c :: r ∧ isspace c = false := by
        right
        rcases hK with rfl | rfl
        · exact ⟨'s', "ign".toList ++ tail, rfl, by decide⟩
        · exact ⟨'p', "otion".toList ++ tail, rfl, by decide⟩
      have e1 : d ++ ' ' :: (K ++ tail) = (d ++ [' ']) ++ (K ++ tail) := by simp
      have htw : (d ++ ' ' :: (K ++ tail)).takeWhile isspace = d ++ [' '] := by
        rw [e1]
        exact (takeWhile_append_stop isspace (d ++ [' ']) (K ++ tail) hall hstop).1
      have hdrop : (d ++ ' ' :: (K ++ tail)).drop (d ++ [' ']).length = K ++ tail := by
        rw [e1]
        exact List.drop_left _ _
      have htc3 : tempCount ≠ 0 := fun h0 => hfirst h0 hd
      have hge : tempCount + 1 ≥ 2 := by omega
      have hdl : (pre ++ (d ++ ' ' :: (K ++ tail))).take (pre.length + (d ++ [' ']).length)
          = pre ++ (d ++ [' ']) := by
        have : pre ++ (d ++ ' ' :: (K ++ tail)) = (pre ++ (d ++ [' '])) ++ (K ++ tail) := by simp
        rw [this]
        exact List.take_left' (by simp)
      have hdr : (pre ++ (d ++ ' ' :: (K ++ tail))).drop
          (pre.length + (d ++ [' ']).length + K.length) = tail := by
        have : pre ++ (d ++ ' ' :: (K ++ tail)) = (pre ++ (d ++ [' ']) ++ K) ++ tail := by simp
        rw [this]
        exact List.drop_left' (by simp only [List.length_append, List.length_singleton])
      have hKne : K.length ≠ 0 := fun h0 => hk3 (List.length_eq_zero.1 h0)
      have hKkw : (K == "sign".toList || K == "potion".toList) = true := by
        rcases hK with rfl | rfl <;> decide
      have hne : (K ++ tail).isEmpty = false := by
        rcases hK with rfl | rfl <;> rfl
      have hne2 : (d ++ ' ' :: (K ++ tail)).isEmpty = false := by
        cases d <;> rfl
      simp only [lexLearnsLoop, hs]
      rw [htw, hdrop, hk2, hdl, hdr]
      simp only [hne, hne2, htc2, hKkw, hge, Bool.false_or, decide_False, Bool.false_eq_true,
        ↓reduceIte, beq_iff_eq, hKne, decide_True]
    · -- a word of the name is read
      obtain ⟨hdec, hsp, hwne, hw, hrest⟩ := word_decomp d c r hd
      obtain ⟨hmem, hsub⟩ := splitOnP_word isspace d c r hd
      generalize hspd : d.takeWhile isspace = sp at hdec hsp
      generalize hwd : (c :: r).takeWhile (fun x => !isspace x) = w at hdec hwne hw hmem
      generalize hd2 : (c :: r).dropWhile (fun x => !isspace x) = d2 at hdec hrest hsub
      have hwsign : (w == "sign".toList || w == "potion".toList) = false := by
        apply bool_false_of_not
        intro hh
        have hh2 : w = "sign".toList ∨ w = "potion".toList := by simpa using hh
        rcases hh2 with h1 | h1
        · exact hsign (by rw [← h1]; exact hmem)
        · exact hpotion (by rw [← h1]; exact hmem)
      have hwl : w.length ≠ 0 := fun h0 => hwne (List.length_eq_zero.1 h0)
      have hstop1 : (w ++ (d2 ++ ' ' :: (K ++ tail))) = []
          ∨ ∃ a b, (w ++ (d2 ++ ' ' :: (K ++ tail))) = a :: b ∧ isspace a = false := by
        right
        cases w with
        | nil => exact absurd rfl hwne
        | cons a b =>
          refine ⟨a, b ++ (d2 ++ ' ' :: (K ++ tail)), rfl, ?_⟩
          have := hw a (List.mem_cons_self _ _)
          simpa using this
      have hstop2 : (d2 ++ ' ' :: (K ++ tail)) = []
          ∨ ∃ a b, (d2 ++ ' ' :: (K ++ tail)) = a :: b ∧ (!isspace a) = false := by
        right
        rcases hrest with h0 | ⟨a, b, h0, ha⟩
        · exact ⟨' ', K ++ tail, by rw [h0]; rfl, by decide⟩
        · exact ⟨a, b ++ ' ' :: (K ++ tail), by rw [h0]; rfl, by simp [ha]⟩
      have e1 : d ++ ' ' :: (K ++ tail) = sp ++ (w ++ (d2 ++ ' ' :: (K ++ tail))) := by
        rw [hdec]
        simp
      have htw : (d ++ ' ' :: (K ++ tail)).takeWhile isspace = sp := by
        rw [e1]
        exact (takeWhile_append_stop isspace sp _ hsp hstop1).1
      have hdrop : (d ++ ' ' :: (K ++ tail)).drop sp.length
          = w ++ (d2 ++ ' ' :: (K ++ tail)) := by
        rw [e1]
        exact List.drop_left _ _
      have htw2 := (takeWhile_append_stop (fun x => !isspace x) w _ hw hstop2).1
      have hstart : pre ++ (d ++ ' ' :: (K ++ tail))
          = (pre ++ sp ++ w) ++ (d2 ++ ' ' :: (K ++ tail)) := by
        rw [e1]
        simp
      have hoff : pre.length + sp.length + w.length = (pre ++ sp ++ w).length := by
        simp only [List.length_append]
      have hdl : d.length = sp.length + (w.length + d2.length) := by
        rw [hdec]
        simp
      have hwpos : 0 < w.length := Nat.pos_of_ne_zero hwl
      have ih := lexLearnsLoop_name K tail hK htail fuel (pre ++ sp ++ w) d2 (tempCount + 1)
        (by omega) (by simp only [List.length_append]; omega)
        (by simp only [List.length_append]; omega) (by intro h0; omega)
        (fun hm => by
          rcases hsub _ hm with h0 | h0
          · exact absurd h0 (by decide)
          · exact hsign h0)
        (fun hm => by
          rcases hsub _ hm with h0 | h0
          · exact absurd h0 (by decide)
          · exact hpotion h0)
      have hname : pre ++ sp ++ w ++ (d2 ++ [' ']) = pre ++ (d ++ [' ']) := by
        rw [hdec]
        simp
      have hname2 : pre ++ sp ++ w ++ (d2 ++ [' ']) = pre ++ sp ++ w ++ d2 ++ [' '] := by simp
      rw [← hname]
      have ih2 := ih
      rw [← hstart] at ih2
      have hne : (w ++ (d2 ++ ' ' :: (K ++ tail))).isEmpty = false := by
        cases w with
        | nil => exact absurd rfl hwne
        | cons a b => rfl
      have hne2 : (d ++ ' ' :: (K ++ tail)).isEmpty = false := by
        cases d <;> rfl
      simp only [lexLearnsLoop, hs]
      rw [htw, hdrop, htw2, hoff]
      simp only [hne, hne2, htc2, hwsign, Bool.false_or, decide_False, Bool.false_eq_true,
        ↓reduceIte, beq_iff_eq, hwl]
      exact ih2
theorem skipSpaces_of_head (c : Char) (r : CStr) (hc : isspace c = false) :
    skipSpaces (c :: r) = c :: r := by
  unfold skipSpaces
  rw [List.dropWhile_cons_of_neg (by simp [hc])]

theorem tokenize_learns_start (c : Char) (r : CStr) (hc : isspace c = false) :
    tokenizeInput ("Geralt learns ".toList ++ (c :: r))
      = lexLearnsLoop ((c :: r).length + 1) (c :: r) 0 0 := by
  have e : "Geralt learns ".toList ++ (c :: r)
      = 'G' :: 'e' :: 'r' :: 'a' :: 'l' :: 't' :: ' ' :: 'l' :: 'e' :: 'a' :: 'r' :: 'n' :: 's'
          :: ' ' :: c :: r := rfl
  have h0 : skipSpaces ('G' :: 'e' :: 'r' :: 'a' :: 'l' :: 't' :: ' ' :: 'l' :: 'e' :: 'a'
      :: 'r' :: 'n' :: 's' :: ' ' :: c :: r) = 'G' :: 'e' :: 'r' :: 'a' :: 'l' :: 't' :: ' '
        :: 'l' :: 'e' :: 'a' :: 'r' :: 'n' :: 's' :: ' ' :: c :: r :=
    skipSpaces_of_head _ _ (by decide)
  have h1 : skipSpaces (' ' :: 'l' :: 'e' :: 'a' :: 'r' :: 'n' :: 's' :: ' ' :: c :: r)
      = 'l' :: 'e' :: 'a' :: 'r' :: 'n' :: 's' :: ' ' :: c :: r := by
    unfold skipSpaces
    rw [List.dropWhile_cons_of_pos (by decide), List.dropWhile_cons_of_neg (by decide)]
  have h2 : skipSpaces (' ' :: c :: r) = c :: r := by
    unfold skipSpaces
    rw [List.dropWhile_cons_of_pos (by decide), List.dropWhile_cons_of_neg (by simp [hc])]
  rw [e]
  unfold tokenizeInput
  simp only [h0]
  have a1 : atWord "What".toList ('G' :: 'e' :: 'r' :: 'a' :: 'l' :: 't' :: ' ' :: 'l' :: 'e'
      :: 'a' :: 'r' :: 'n' :: 's' :: ' ' :: c :: r) = false := rfl
  have a2 : atWord "Total".toList ('G' :: 'e' :: 'r' :: 'a' :: 'l' :: 't' :: ' ' :: 'l' :: 'e'
      :: 'a' :: 'r' :: 'n' :: 's' :: ' ' :: c :: r) = false := rfl
  have a3 : atWord "Geralt".toList ('G' :: 'e' :: 'r' :: 'a' :: 'l' :: 't' :: ' ' :: 'l' :: 'e'
      :: 'a' :: 'r' :: 'n' :: 's' :: ' ' :: c :: r) = true := rfl
  have d1 : ('G' :: 'e' :: 'r' :: 'a' :: 'l' :: 't' :: ' ' :: 'l' :: 'e'
      :: 'a' :: 'r' :: 'n' :: 's' :: ' ' :: c :: r).drop 6
      = ' ' :: 'l' :: 'e' :: 'a' :: 'r' :: 'n' :: 's' :: ' ' :: c :: r := rfl
  have a4 : atWord "brews".toList ('l' :: 'e' :: 'a' :: 'r' :: 'n' :: 's' :: ' ' :: c :: r)
      = false := rfl
  have a5 : atWord "learns".toList ('l' :: 'e' :: 'a' :: 'r' :: 'n' :: 's' :: ' ' :: c :: r)
      = true := rfl
  have d2 : ('l' :: 'e' :: 'a' :: 'r' :: 'n' :: 's' :: ' ' :: c :: r).drop 6 = ' ' :: c :: r :=
    rfl
  simp only [a1, a2, a3, d1, h1, a4, a5, d2, h2, Bool.false_eq_true, ↓reduceIte]

theorem trimRight_snoc_space (s : CStr) : trimRight (s ++ [' ']) = trimRight s := by
  unfold trimRight
  rw [List.reverse_append, List.reverse_singleton, List.singleton_append,
    List.dropWhile_cons_of_pos (by decide)]

theorem lexLearnsTail_effective (toks : List CStr) (beast : CStr)
    (hb : skipSpaces beast = beast) :
    lexLearnsTail toks (" is effective against ".toList ++ beast)
      = toks ++ ["is".toList, "effective".toList, "against".toList]
          ++ (if 0 < beast.length ∧ beast.length < MAX_TOKEN_LENGTH then [beast] else []) := by
  have e : " is effective against ".toList ++ beast
      = ' ' :: 'i' :: 's' :: ' ' :: 'e' :: 'f' :: 'f' :: 'e' :: 'c' :: 't' :: 'i' :: 'v' :: 'e'
          :: ' ' :: 'a' :: 'g' :: 'a' :: 'i' :: 'n' :: 's' :: 't' :: ' ' :: beast := rfl
  have h1 : skipSpaces (' ' :: 'i' :: 's' :: ' ' :: 'e' :: 'f' :: 'f' :: 'e' :: 'c' :: 't' :: 'i'
      :: 'v' :: 'e' :: ' ' :: 'a' :: 'g' :: 'a' :: 'i' :: 'n' :: 's' :: 't' :: ' ' :: beast)
      = 'i' :: 's' :: ' ' :: 'e' :: 'f' :: 'f' :: 'e' :: 'c' :: 't' :: 'i'
      :: 'v' :: 'e' :: ' ' :: 'a' :: 'g' :: 'a' :: 'i' :: 'n' :: 's' :: 't' :: ' ' :: beast := by
    unfold skipSpaces
    rw [List.dropWhile_cons_of_pos (by decide), List.dropWhile_cons_of_neg (by decide)]
  have a1 : atWord "is".toList ('i' :: 's' :: ' ' :: 'e' :: 'f' :: 'f' :: 'e' :: 'c' :: 't' :: 'i'
      :: 'v' :: 'e' :: ' ' :: 'a' :: 'g' :: 'a' :: 'i' :: 'n' :: 's' :: 't' :: ' ' :: beast)
      = true := rfl
  have d1 : ('i' :: 's' :: ' ' :: 'e' :: 'f' :: 'f' :: 'e' :: 'c' :: 't' :: 'i'
      :: 'v' :: 'e' :: ' ' :: 'a' :: 'g' :: 'a' :: 'i' :: 'n' :: 's' :: 't' :: ' ' :: beast).drop 2
      = ' ' :: 'e' :: 'f' :: 'f' :: 'e' :: 'c' :: 't' :: 'i'
      :: 'v' :: 'e' :: ' ' :: 'a' :: 'g' :: 'a' :: 'i' :: 'n' :: 's' :: 't' :: ' ' :: beast := rfl
  have h2 : skipSpaces (' ' :: 'e' :: 'f' :: 'f' :: 'e' :: 'c' :: 't' :: 'i'
      :: 'v' :: 'e' :: ' ' :: 'a' :: 'g' :: 'a' :: 'i' :: 'n' :: 's' :: 't' :: ' ' :: beast)
      = 'e' :: 'f' :: 'f' :: 'e' :: 'c' :: 't' :: 'i'
      :: 'v' :: 'e' :: ' ' :: 'a' :: 'g' :: 'a' :: 'i' :: 'n' :: 's' :: 't' :: ' ' :: beast := by
    unfold skipSpaces
    rw [List.dropWhile_cons_of_pos (by decide), List.dropWhile_cons_of_neg (by decide)]
  have a2 : atWord "effective".toList ('e' :: 'f' :: 'f' :: 'e' :: 'c' :: 't' :: 'i'
      :: 'v' :: 'e' :: ' ' :: 'a' :: 'g' :: 'a' :: 'i' :: 'n' :: 's' :: 't' :: ' ' :: beast)
      = true := rfl
  have d2 : ('e' :: 'f' :: 'f' :: 'e' :: 'c' :: 't' :: 'i'
      :: 'v' :: 'e' :: ' ' :: 'a' :: 'g' :: 'a' :: 'i' :: 'n' :: 's' :: 't' :: ' ' :: beast).drop 9
      = ' ' :: 'a' :: 'g' :: 'a' :: 'i' :: 'n' :: 's' :: 't' :: ' ' :: beast := rfl
  have h3 : skipSpaces (' ' :: 'a' :: 'g' :: 'a' :: 'i' :: 'n' :: 's' :: 't' :: ' ' :: beast)
      = 'a' :: 'g' :: 'a' :: 'i' :: 'n' :: 's' :: 't' :: ' ' :: beast := by
    unfold skipSpaces
    rw [List.dropWhile_cons_of_pos (by decide), List.dropWhile_cons_of_neg (by decide)]
  have a3 : atWord "against".toList ('a' :: 'g' :: 'a' :: 'i' :: 'n' :: 's' :: 't' :: ' ' :: beast)
      = true := rfl
  have d3 : ('a' :: 'g' :: 'a' :: 'i' :: 'n' :: 's' :: 't' :: ' ' :: beast).drop 7
      = ' ' :: beast := rfl
  have h4 : skipSpaces (' ' :: beast) = beast := by
    conv_rhs => rw [← hb]
    unfold skipSpaces
    rw [List.dropWhile_cons_of_pos (by decide)]
  rw [e]
  unfold lexLearnsTail
  simp only [h1, a1, d1, h2, a2, d2, h3, a3, d3, h4, ↓reduceIte]
  by_cases hlen : 0 < beast.length ∧ beast.length < MAX_TOKEN_LENGTH
  · simp [hlen]
  · simp only [hlen, ↓reduceIte, List.append_nil]
    have : ¬ ((decide (0 < beast.length) && decide (beast.length < MAX_TOKEN_LENGTH)) = true) := by
      simpa using hlen
    simp [this]
theorem intercalate_single (w : CStr) : [' '].intercalate [w] = w := by
  simp [List.intercalate]

theorem intercalate_cons_cons (w w2 : CStr) (ws : List CStr) :
    [' '].intercalate (w :: w2 :: ws) = w ++ ' ' :: [' '].intercalate (w2 :: ws) := by
  simp [List.intercalate]

theorem intercalate_cons_head (c : Char) (w : CStr) (ws : List CStr) :
    c :: [' '].intercalate (w :: ws) = [' '].intercalate ((c :: w) :: ws) := by
  cases ws with
  | nil => rw [intercalate_single, intercalate_single]
  | cons w2 ws => rw [intercalate_cons_cons, intercalate_cons_cons, List.cons_append]

theorem isalpha_ne_space (c : Char) (h : isalpha c = true) : (c == ' ') = false := by
  apply bool_false_of_not
  intro hh
  have : c = ' ' := by simpa using hh
  rw [this] at h
  exact absurd h (by decide)

theorem potionNameScan_cons (c : Char) (rest : CStr) (b : Bool) (hc : (c == ' ') = false) :
    potionNameScan (c :: rest) b = (isalpha c && potionNameScan rest false) := by
  rw [potionNameScan]
  simp only [hc, Bool.false_eq_true, ↓reduceIte]
  cases isalpha c <;> simp

theorem potionNameScan_space (rest : CStr) :
    potionNameScan (' ' :: rest) false = potionNameScan rest true := by
  rw [potionNameScan]
  simp

theorem potionNameScan_word : ∀ (w : CStr) (rest : CStr) (b : Bool),
    isAlphabeticOnly w = true → potionNameScan (w ++ rest) b = potionNameScan rest false
  | [], _, _, h => by simp [isAlphabeticOnly] at h
  | [c], rest, b, h => by
    have hc : isalpha c = true := by simpa [isAlphabeticOnly] using h
    rw [List.singleton_append, potionNameScan_cons c rest b (isalpha_ne_space c hc), hc,
      Bool.true_and]
  | c :: d :: w, rest, b, h => by
    have hc : isalpha c = true ∧ isAlphabeticOnly (d :: w) = true := by
      simp only [isAlphabeticOnly, List.isEmpty_cons, Bool.not_false, List.all_cons,
        Bool.true_and, Bool.and_eq_true] at h ⊢
      exact ⟨h.1, h.2⟩
    rw [List.cons_append, potionNameScan_cons c _ b (isalpha_ne_space c hc.1), hc.1,
      Bool.true_and]
    exact potionNameScan_word (d :: w) rest false hc.2

theorem potionNameScan_intercalate : ∀ (words : List CStr) (b : Bool), words ≠ [] →
    (∀ w ∈ words, isAlphabeticOnly w = true) →
    potionNameScan ([' '].intercalate words) b = true ∧ [' '].intercalate words ≠ []
  | [], _, h, _ => absurd rfl h
  | [w], b, _, hall => by
    have hw := hall w (List.mem_singleton.2 rfl)
    rw [intercalate_single]
    refine ⟨?_, ?_⟩
    · have := potionNameScan_word w [] b hw
      rw [List.append_nil] at this
      rw [this]
      rfl
    · intro h0
      rw [h0] at hw
      exact absurd hw (by decide)
  | w :: w2 :: ws, b, _, hall => by
    have hw := hall w (List.mem_cons_self _ _)
    have ih := potionNameScan_intercalate (w2 :: ws) true (by simp)
      (fun x hx => hall x (List.mem_cons_of_mem _ hx))
    rw [intercalate_cons_cons]
    refine ⟨?_, ?_⟩
    · rw [potionNameScan_word w _ b hw, potionNameScan_space]
      exact ih.1
    · intro h0
      have : w = [] := (List.append_eq_nil.1 h0).1
      rw [this] at hw
      exact absurd hw (by decide)

theorem potionNameScan_true_false (s : CStr) (h : potionNameScan s true = true) :
    potionNameScan s false = true ∧ ∀ c, s.head? = some c → c ≠ ' ' := by
  cases s with
  | nil => exact ⟨rfl, fun c hc => by cases hc⟩
  | cons a r =>
    by_cases ha : (a == ' ') = true
    · rw [potionNameScan] at h
      simp [ha] at h
    · have ha2 : (a == ' ') = false := by simpa using ha
      rw [potionNameScan_cons a r true ha2] at h
      rw [potionNameScan_cons a r false ha2]
      refine ⟨h, fun c hc => ?_⟩
      simp only [List.head?_cons, Option.some.injEq] at hc
      rw [← hc]
      simpa using ha

theorem potionNameScan_words : ∀ (s : CStr), potionNameScan s false = true → s ≠ [] →
    (∀ c, s.head? = some c → c ≠ ' ') → (∀ c, s.getLast? = some c → c ≠ ' ') →
    ∃ w ws, isAlphabeticOnly w = true ∧ (∀ x ∈ ws, isAlphabeticOnly x = true) ∧
      s = [' '].intercalate (w :: ws)
  | [], _, h, _, _ => absurd rfl h
  | [c], hscan, _, hhead, _ => by
    have hc : (c == ' ') = false := by
      have := hhead c rfl
      simpa using this
    rw [potionNameScan_cons c [] false hc] at hscan
    have ha : isalpha c = true := by
      rw [Bool.and_eq_true] at hscan
      exact hscan.1
    exact ⟨[c], [], (by simp [isAlphabeticOnly, ha]), (fun x hx => absurd hx (List.not_mem_nil x)),
      (intercalate_single [c]).symm⟩
  | c :: d :: rest, hscan, _, hhead, hlast => by
    have hc : (c == ' ') = false := by
      have := hhead c rfl
      simpa using this
    rw [potionNameScan_cons c _ false hc, Bool.and_eq_true] at hscan
    obtain ⟨ha, hscan2⟩ := hscan
    have hlast2 : ∀ x, (d :: rest).getLast? = some x → x ≠ ' ' := by
      intro x hx
      apply hlast x
      rw [List.getLast?_cons_cons]
      exact hx
    by_cases hd : d = ' '
    · subst hd
      rw [potionNameScan_space] at hscan2
      obtain ⟨hs3, hh3⟩ := potionNameScan_true_false rest hscan2
      have hrest : rest ≠ [] := by
        intro h0
        rw [h0] at hlast2
        exact hlast2 ' ' rfl rfl
      have hlast3 : ∀ x, rest.getLast? = some x → x ≠ ' ' := by
        intro x hx
        apply hlast2 x
        cases rest with
        | nil => exact absurd rfl hrest
        | cons e r2 =>
          rw [List.getLast?_cons_cons]
          exact hx
      obtain ⟨w, ws, hw, hws, heq⟩ := potionNameScan_words rest hs3 hrest hh3 hlast3
      refine ⟨[c], w :: ws, by simp [isAlphabeticOnly, ha], ?_, ?_⟩
      · intro x hx
        rcases List.mem_cons.1 hx with rfl | hx
        · exact hw
        · exact hws x hx
      · rw [intercalate_cons_cons, ← heq]
        rfl
    · obtain ⟨w, ws, hw, hws, heq⟩ := potionNameScan_words (d :: rest) hscan2 (by simp)
        (fun x hx => by
          simp only [List.head?_cons, Option.some.injEq] at hx
          rw [← hx]
          exact hd) hlast2
      refine ⟨c :: w, ws, ?_, hws, ?_⟩
      · simp only [isAlphabeticOnly, List.isEmpty_cons, Bool.not_false, List.all_cons,
          Bool.true_and, Bool.and_eq_true] at hw ⊢
        exact ⟨ha, hw.2⟩
      · rw [heq, intercalate_cons_head]
theorem head_of_skipSpaces_eq (s : CStr) (hne : s ≠ []) (h : skipSpaces s = s) :
    ∃ c r, s = c :: r ∧ isspace c = false := by
  unfold skipSpaces at h
  rcases dropWhile_head_or_nil isspace s with h0 | ⟨c, r, h0, hc⟩
  · rw [h0] at h
    exact absurd h.symm hne
  · rw [h0] at h
    exact ⟨c, r, h.symm, hc⟩

theorem last_of_trimRight_eq (s : CStr) (h : trimRight s = s) :
    ∀ c, s.getLast? = some c → isspace c = false := by
  intro c hc
  unfold trimRight at h
  have h2 : s.reverse.dropWhile isspace = s.reverse := by
    rw [← List.reverse_reverse (s.reverse.dropWhile isspace), h]
  rw [List.getLast?_eq_head?_reverse] at hc
  rcases dropWhile_head_or_nil isspace s.reverse with h0 | ⟨a, r, h0, ha⟩
  · rw [h0] at h2
    rw [← h2] at hc
    cases hc
  · rw [h0] at h2
    rw [← h2] at hc
    simp only [List.head?_cons, Option.some.injEq] at hc
    rw [← hc]
    exact ha

theorem tokenize_learns_effectiveness (name K beast : CStr)
    (hK : K = "sign".toList ∨ K = "potion".toList)
    (hne : name ≠ []) (hl : skipSpaces name = name) (hr : trimRight name = name)
    (hlen : name.length < MAX_TOKEN_LENGTH)
    (hsign : "sign".toList ∉ name.splitOnP isspace)
    (hpotion : "potion".toList ∉ name.splitOnP isspace)
    (hb : skipSpaces beast = beast) :
    tokenizeInput ("Geralt learns ".toList
        ++ (name ++ ' ' :: (K ++ (" is effective against ".toList ++ beast))))
      = ["Geralt".toList, "learns".toList, name, K, "is".toList, "effective".toList,
          "against".toList]
          ++ (if 0 < beast.length ∧ beast.length < MAX_TOKEN_LENGTH then [beast] else []) := by
  obtain ⟨c, r, hname, hc⟩ := head_of_skipSpaces_eq name hne hl
  have htail : " is effective against ".toList ++ beast = []
      ∨ ∃ a b, " is effective against ".toList ++ beast = a :: b ∧ isspace a = true :=
    Or.inr ⟨' ', "is effective against ".toList ++ beast, rfl, by decide⟩
  have hloop := lexLearnsLoop_name K (" is effective against ".toList ++ beast) hK htail
    ((name ++ ' ' :: (K ++ (" is effective against ".toList ++ beast))).length + 1) [] name 0
    (by simp only [List.length_append]; omega) (Nat.le_refl _)
    (by
      have : MAX_NAME_LENGTH = MAX_TOKEN_LENGTH := rfl
      rw [this]
      simpa using hlen)
    (fun _ h0 => by
      have : skipSpaces name = [] := h0
      rw [hl] at this
      exact hne this)
    hsign hpotion
  have hn : trimRight (skipSpaces ([] ++ (name ++ [' ']))) = name := by
    have e : skipSpaces ([] ++ (name ++ [' '])) = name ++ [' '] := by
      rw [List.nil_append, hname, List.cons_append]
      exact skipSpaces_of_head c _ hc
    rw [e, trimRight_snoc_space, hr]
  rw [hn] at hloop
  have hl0 : ¬ ((name.length == 0 || decide (name.length ≥ MAX_TOKEN_LENGTH)) = true) := by
    have h1 : name.length ≠ 0 := fun h0 => hne (List.length_eq_zero.1 h0)
    simp [h1, hlen]
  rw [if_neg hl0, lexLearnsTail_effective _ beast hb] at hloop
  have hpre := tokenize_learns_start c
    (r ++ ' ' :: (K ++ (" is effective against ".toList ++ beast))) hc
  rw [hname]
  rw [hname] at hloop
  rw [List.cons_append, hpre]
  exact hloop

theorem isValidCommand_congr (a b : CStr) (h : tokenizeInput a = tokenizeInput b) :
    isValidCommand a = isValidCommand b := by
  unfold isValidCommand isLootAction isTradeAction isBrewAction isEffectivenessKnowledge
    isPotionFormulaKnowledge isEncounterSentence isInventoryQuery isBestiaryQuery
    isAlchemyQuery isExitCommand
  simp only [h]

theorem executeCommand_congr (a b : CStr) (h : tokenizeInput a = tokenizeInput b)
    (w : World) (c : CommandType) : executeCommand w a c = executeCommand w b c := by
  cases c <;>
  · unfold executeCommand
    simp only [executeLootAction, executeTradeAction, executeBrewAction,
      executeEffectivenessKnowledge, executeFormulaKnowledge, executeEncounter,
      executeSpecificInventoryQuery, executeAllInventoryQuery, executeBestiaryQuery,
      executeAlchemyQuery, h]

theorem append_stop {α : Type} (q : α → Bool) (c : α) (m : List α) (hc : q c = false) :
    ∀ (l : List α), (l ++ c :: m).takeWhile q = l.takeWhile q ∧
      (l ++ c :: m).dropWhile q = l.dropWhile q ++ c :: m
  | [] => by
    simp [List.takeWhile_cons_of_neg, List.dropWhile_cons_of_neg, hc]
  | a :: l => by
    obtain ⟨h1, h2⟩ := append_stop q c m hc l
    by_cases ha : q a = true
    · rw [List.cons_append, List.takeWhile_cons_of_pos ha, List.dropWhile_cons_of_pos ha,
        List.takeWhile_cons_of_pos ha, List.dropWhile_cons_of_pos ha, h1, h2]
      exact ⟨rfl, rfl⟩
    · rw [List.cons_append, List.takeWhile_cons_of_neg ha, List.dropWhile_cons_of_neg ha,
        List.takeWhile_cons_of_neg ha, List.dropWhile_cons_of_neg ha]
      exact ⟨rfl, rfl⟩

theorem append_after_stop {α : Type} (q : α → Bool) (v : List α) :
    ∀ (l : List α) (c : α) (after : List α), l.dropWhile q = c :: after →
      (l ++ v).takeWhile q = l.takeWhile q ∧ (l ++ v).dropWhile q = c :: (after ++ v)
  | [], _, _, h => by cases h
  | a :: l, c, after, h => by
    by_cases ha : q a = true
    · rw [List.dropWhile_cons_of_pos ha] at h
      obtain ⟨h1, h2⟩ := append_after_stop q v l c after h
      rw [List.cons_append, List.takeWhile_cons_of_pos ha, List.dropWhile_cons_of_pos ha,
        List.takeWhile_cons_of_pos ha, h1, h2]
      exact ⟨rfl, rfl⟩
    · rw [List.dropWhile_cons_of_neg ha] at h
      rw [List.cons_append, List.takeWhile_cons_of_neg ha, List.dropWhile_cons_of_neg ha,
        List.takeWhile_cons_of_neg ha]
      cases h
      exact ⟨rfl, rfl⟩

theorem spacedPair_refl (p : CStr) : spacedPair p p := Or.inl rfl

theorem skipSpaces_append_space_q (r : CStr) :
    (skipSpaces r = [] ∧ skipSpaces (r ++ [' ', '?']) = ['?'] ∧ skipSpaces (r ++ ['?']) = ['?'])
    ∨ (skipSpaces r ≠ [] ∧ skipSpaces (r ++ [' ', '?']) = skipSpaces r ++ [' ', '?']
        ∧ skipSpaces (r ++ ['?']) = skipSpaces r ++ ['?']) := by
  unfold skipSpaces
  rcases dropWhile_head_or_nil isspace r with h0 | ⟨c, rest, h0, hc⟩
  · left
    have hall : ∀ a ∈ r, isspace a = true := List.dropWhile_eq_nil_iff.1 h0
    refine ⟨h0, ?_, ?_⟩
    · rw [List.dropWhile_append_of_pos hall]
      rfl
    · rw [List.dropWhile_append_of_pos hall]
      rfl
  · right
    refine ⟨by rw [h0]; simp, ?_, ?_⟩
    · rw [List.dropWhile_append, h0]
      rfl
    · rw [List.dropWhile_append, h0]
      rfl

theorem skipSpaces_pair (p1 p0 : CStr) (h : spacedPair p1 p0) :
    spacedPair (skipSpaces p1) (skipSpaces p0) := by
  rcases h with h | ⟨r, h1, h0⟩
  · rw [h]
    exact Or.inl rfl
  · rw [h1, h0]
    rcases skipSpaces_append_space_q r with ⟨_, a, b⟩ | ⟨_, a, b⟩
    · rw [a, b]
      exact Or.inl rfl
    · rw [a, b]
      exact Or.inr ⟨_, rfl, rfl⟩

theorem atWord_cons (k c : Char) (ks s : CStr) :
    atWord (k :: ks) (c :: s) = ((k == c) && atWord ks s) := by
  unfold atWord
  simp only [startsWith, List.length_cons, List.drop_succ_cons, Bool.and_assoc]

theorem atWord_pair_aux : ∀ (kw r : CStr), (∀ c ∈ kw, c ≠ ' ' ∧ c ≠ '?') → r ≠ kw →
    atWord kw (r ++ ['?']) = atWord kw (r ++ [' ', '?']) ∧
    (atWord kw (r ++ [' ', '?']) = true → kw.length < r.length)
  | [], [], _, h => absurd rfl h
  | [], c :: r, _, _ => by
    refine ⟨rfl, fun _ => ?_⟩
    simp
  | k :: ks, [], hk, _ => by
    have hk1 := hk k (List.mem_cons_self _ _)
    have e1 : (k == '?') = false := by simpa using hk1.2
    have e2 : (k == ' ') = false := by simpa using hk1.1
    have a1 : atWord (k :: ks) ([] ++ ['?']) = false := by
      rw [List.nil_append, atWord_cons, e1, Bool.false_and]
    have a2 : atWord (k :: ks) ([] ++ [' ', '?']) = false := by
      rw [List.nil_append, atWord_cons, e2, Bool.false_and]
    rw [a1, a2]
    exact ⟨rfl, fun h => Bool.noConfusion h⟩
  | k :: ks, c :: r, hk, hne => by
    rw [List.cons_append, List.cons_append, atWord_cons, atWord_cons]
    by_cases hkc : k = c
    · subst hkc
      have hne2 : r ≠ ks := fun h => hne (by rw [h])
      obtain ⟨h1, h2⟩ := atWord_pair_aux ks r
        (fun x hx => hk x (List.mem_cons_of_mem _ hx)) hne2
      rw [h1]
      refine ⟨rfl, fun h => ?_⟩
      simp only [beq_self_eq_true, Bool.true_and] at h
      have := h2 h
      simp only [List.length_cons]
      omega
    · have e : (k == c) = false := by simpa using hkc
      rw [e, Bool.false_and, Bool.false_and]
      exact ⟨rfl, fun h => Bool.noConfusion h⟩

theorem atWord_pair (kw : CStr) (hk : ∀ c ∈ kw, c ≠ ' ' ∧ c ≠ '?') (p1 p0 : CStr)
    (h : spacedPair p1 p0) :
    (p1 = kw ++ [' ', '?'] ∧ p0 = kw ++ ['?']) ∨
    (atWord kw p0 = atWord kw p1 ∧
      (atWord kw p1 = true → spacedPair (p1.drop kw.length) (p0.drop kw.length))) := by
  rcases h with h | ⟨r, h1, h0⟩
  · right
    rw [h]
    exact ⟨rfl, fun _ => Or.inl rfl⟩
  · by_cases hr : r = kw
    · left
      rw [h1, h0, hr]
      exact ⟨rfl, rfl⟩
    · right
      obtain ⟨a, b⟩ := atWord_pair_aux kw r hk hr
      rw [h1, h0]
      refine ⟨a, fun ht => Or.inr ⟨r.drop kw.length, ?_, ?_⟩⟩
      · exact List.drop_append_of_le_length (Nat.le_of_lt (b ht))
      · exact List.drop_append_of_le_length (Nat.le_of_lt (b ht))

theorem isSep_of_not_dropped (l : CStr) (d : Char) (rest : CStr)
    (h : l.dropWhile (fun x => !isSep x) = d :: rest) : isSep d = true := by
  rcases dropWhile_head_or_nil (fun x => !isSep x) l with h0 | ⟨c, r, h0, hc⟩
  · rw [h0] at h
    cases h
  · rw [h0] at h
    cases h
    simpa using hc

theorem length_dropWhile_le {α : Type} (q : α → Bool) (l : List α) :
    (l.dropWhile q).length ≤ l.length :=
  (List.dropWhile_sublist q).length_le

theorem lexLoop_nil_input (fuel count : Nat) : lexLoop fuel [] count = [] := by
  cases fuel with
  | zero => rfl
  | succ n => simp [lexLoop]

theorem lexLoop_ne_nil : ∀ (fuel : Nat) (u : CStr) (count : Nat),
    (u ++ [' ', '?']).length ≤ fuel → count < MAX_TOKENS →
    lexLoop fuel (u ++ [' ', '?']) count ≠ []
  | 0, u, _, h, _ => by
    simp only [List.length_append, List.length_cons, List.length_nil] at h
    omega
  | fuel + 1, u, count, hfuel, hcount => by
    have hne : (u ++ [' ', '?']).isEmpty = false := by
      cases u <;> rfl
    have hcnt : ¬ (count ≥ MAX_TOKENS) := by omega
    rw [lexLoop]
    simp only [hne, hcnt, decide_False, Bool.or_self, Bool.false_eq_true, ↓reduceIte]
    rcases skipSpaces_append_space_q u with ⟨_, a, _⟩ | ⟨hr, a, _⟩
    · rw [a]
      simp only
      intro h
      have h2 : (('?' : Char) == ',') = false := by decide
      rw [h2] at h
      simp only [Bool.false_eq_true, ↓reduceIte] at h
      have h3 : (['?'] : CStr).takeWhile (fun x => !isSep x) = ['?'] := by decide
      rw [h3] at h
      have h4 : (0 < (['?'] : CStr).length ∧ (['?'] : CStr).length < MAX_TOKEN_LENGTH) := by
        decide
      simp only [h4, and_self, ↓reduceIte] at h
      cases h
    · rw [a]
      cases hs : skipSpaces u with
      | nil => exact absurd hs hr
      | cons c r =>
        have hc : isspace c = false := by
          unfold skipSpaces at hs
          rcases dropWhile_head_or_nil isspace u with h0 | ⟨c2, r2, h0, hc2⟩
          · rw [h0] at hs
            cases hs
          · rw [h0] at hs
            cases hs
            exact hc2
        simp only [List.cons_append]
        by_cases hcomma : (c == ',') = true
        · simp only [hcomma, ↓reduceIte]
          intro h
          cases h
        · simp only [hcomma, Bool.false_eq_true, ↓reduceIte]
          have hsep : isSep ' ' = true := by decide
          obtain ⟨t1, t2⟩ := append_stop (fun x => !isSep x) ' ' ['?'] (by simp [hsep]) (c :: r)
          rw [List.cons_append] at t1 t2
          rw [t1, t2]
          split
          · intro h
            cases h
          · have hcs : isSep c = false := by
              unfold isSep
              simp only [hc, Bool.false_or]
              simpa using hcomma
            have hd : (c :: r).dropWhile (fun x => !isSep x)
                = r.dropWhile (fun x => !isSep x) := by
              rw [List.dropWhile_cons_of_pos (by simp [hcs])]
            rw [hd]
            apply lexLoop_ne_nil fuel _ count _ hcount
            have hl1 : (r.dropWhile (fun x => !isSep x)).length ≤ r.length :=
              length_dropWhile_le _ _
            have hl2 : (skipSpaces u).length ≤ u.length := by
              unfold skipSpaces
              exact length_dropWhile_le _ _
            rw [hs] at hl2
            simp only [List.length_append, List.length_cons, List.length_nil] at hfuel hl2 ⊢
            omega

theorem trimRight_mem (s : CStr) (c : Char) (h : c ∈ trimRight s) : c ∈ s := by
  unfold trimRight at h
  rw [List.mem_reverse] at h
  have := (List.dropWhile_sublist isspace).subset h
  exact List.mem_reverse.1 this

theorem name_not_ending_in_q (s : CStr) :
    ((trimRight (s.takeWhile (fun c => c != '?'))).getLast? == some '?') = false := by
  apply bool_false_of_not
  intro h
  have h1 : (trimRight (s.takeWhile (fun c => c != '?'))).getLast? = some '?' := by
    simpa using h
  have h2 : '?' ∈ trimRight (s.takeWhile (fun c => c != '?')) :=
    List.mem_of_getLast?_eq_some h1
  have h3 := List.mem_takeWhile_imp (trimRight_mem _ _ h2)
  simp at h3

theorem lexNameThenQuestion_pair (toks : List CStr) (htoks : toks.length + 2 < MAX_TOKENS)
    (p1 p0 : CStr) (h : spacedPair p1 p0) :
    lexNameThenQuestion toks p0 = lexNameThenQuestion toks p1 ∨
    ∃ name more, more ≠ [] ∧ lexNameThenQuestion toks p1 = toks ++ [name, ['?']] ++ more := by
  rcases h with h | ⟨r, h1, h0⟩
  · rw [h]
    exact Or.inl rfl
  · rw [h1, h0]
    rcases dropWhile_head_or_nil (fun c => c != '?') r with hd | ⟨c, after, hd, hc⟩
    · -- no `?` in `r`
      left
      have hall : ∀ a ∈ r, (a != '?') = true := List.dropWhile_eq_nil_iff.1 hd
      have hall2 : ∀ a ∈ r ++ [' '], (a != '?') = true := by
        intro a ha
        rcases List.mem_append.1 ha with ha | ha
        · exact hall a ha
        · rw [List.mem_singleton.1 ha]
          decide
      have e1 : r ++ [' ', '?'] = (r ++ [' ']) ++ ['?'] := by simp
      obtain ⟨a1, a2⟩ := takeWhile_append_stop (fun c => c != '?') (r ++ [' ']) ['?'] hall2
        (Or.inr ⟨'?', [], rfl, by decide⟩)
      obtain ⟨b1, b2⟩ := takeWhile_append_stop (fun c => c != '?') r ['?'] hall
        (Or.inr ⟨'?', [], rfl, by decide⟩)
      unfold lexNameThenQuestion
      simp only
      rw [e1, a1, a2, b1, b2, trimRight_snoc_space]
    · -- a `?` in `r`
      obtain ⟨a1, a2⟩ := append_after_stop (fun c => c != '?') [' ', '?'] r c after hd
      obtain ⟨b1, b2⟩ := append_after_stop (fun c => c != '?') ['?'] r c after hd
      by_cases hlen : (trimRight (r.takeWhile (fun c => c != '?'))).length ≥ MAX_TOKEN_LENGTH
      · left
        unfold lexNameThenQuestion
        simp only
        rw [a1, b1]
        simp only [hlen, ↓reduceIte]
      · right
        refine ⟨trimRight (r.takeWhile (fun c => c != '?')),
          lexLoop (after ++ [' ', '?']).length (after ++ [' ', '?']) (toks ++
            [trimRight (r.takeWhile (fun c => c != '?')), ['?']]).length, ?_, ?_⟩
        · apply lexLoop_ne_nil _ _ _ (Nat.le_refl _)
          simp only [List.length_append, List.length_cons, List.length_nil]
          omega
        · unfold lexNameThenQuestion
          simp only
          rw [a1, a2]
          simp only [hlen, ↓reduceIte]
          rfl

theorem lexNameThenQuestion_shape (toks : List CStr) (s : CStr) :
    lexNameThenQuestion toks s = [] ∨ ∃ rest, lexNameThenQuestion toks s = toks ++ rest := by
  unfold lexNameThenQuestion
  simp only
  split
  · exact Or.inl rfl
  · split
    · exact Or.inr ⟨_, rfl⟩
    · right
      unfold lexRest
      exact ⟨_, by rw [List.append_assoc]⟩

theorem lexWhatExpected_shape (toks : List CStr) (s : CStr) :
    lexWhatExpected toks s = [] ∨
    ∃ rest, lexWhatExpected toks s = toks ++ ["is".toList, "in".toList] ++ rest := by
  unfold lexWhatExpected
  simp only
  split
  · split
    · exact lexNameThenQuestion_shape _ _
    · exact Or.inl rfl
  · exact Or.inl rfl

theorem lexWhatExpected_of_not_is (toks : List CStr) (s : CStr)
    (h : atWord "is".toList s = false) : lexWhatExpected toks s = [] := by
  unfold lexWhatExpected
  rw [if_neg (by rw [h]; exact Bool.false_ne_true)]

theorem queryTokens_spec (T : List CStr) (h : queryTokens T = true) :
    (tokAt T 0 = "Total".toList ∧
      (tokAt T 1 = "ingredient".toList ∨ tokAt T 1 = "potion".toList
        ∨ tokAt T 1 = "trophy".toList) ∧
      (T.length = 3 ∨ (T.length = 4 ∧
        (isAlphabeticOnly (tokAt T 2) = true ∨ isValidPotionNameToken (tokAt T 2) = true))))
    ∨ (tokAt T 0 = "What".toList ∧ tokAt T 1 = "is".toList ∧ tokAt T 2 = "in".toList ∧
        5 ≤ T.length ∧ ((T.take (T.length - 1)).drop 3).all isValidPotionNameToken = true)
    ∨ (tokAt T 0 = "What".toList ∧ tokAt T 1 = "is".toList ∧
        tokAt T 2 = "effective".toList ∧ tokAt T 3 = "against".toList ∧ T.length = 6 ∧
        isAlphabeticOnly (tokAt T 4) = true) := by
  unfold queryTokens at h
  simp only [Bool.or_eq_true, Bool.and_eq_true, beq_iff_eq, decide_eq_true_eq] at h
  rcases h with (⟨⟨a, b⟩, c⟩ | ⟨⟨⟨⟨a, b⟩, c⟩, d⟩, e⟩) | ⟨⟨⟨⟨⟨a, b⟩, c⟩, d⟩, e⟩, f⟩
  · left
    refine ⟨a, ?_, ?_⟩
    · rcases b with (b | b) | b
      · exact Or.inl b
      · exact Or.inr (Or.inl b)
      · exact Or.inr (Or.inr b)
    · rcases c with c | ⟨c1, c2⟩
      · exact Or.inl c
      · exact Or.inr ⟨c1, c2⟩
  · exact Or.inr (Or.inl ⟨a, b, c, d, e⟩)
  · exact Or.inr (Or.inr ⟨a, b, c, d, e, f⟩)

theorem queryTokens_false_of (T : List CStr)
    (h : queryTokens T = true → False) : queryTokens T = false :=
  bool_false_of_not h

/-- Tokens that continue after a `?` which follows `What is in <name>` are not a query. -/
theorem not_query_in_more (name : CStr) (more : List CStr) (hm : more ≠ []) :
    queryTokens (["What".toList, "is".toList, "in".toList] ++ [name, ['?']] ++ more)
      = false := by
  apply queryTokens_false_of
  intro h
  cases more with
  | nil => exact hm rfl
  | cons m ms =>
    rcases queryTokens_spec _ h with ⟨a, _⟩ | ⟨_, _, _, _, e⟩ | ⟨_, _, c, _⟩
    · exact absurd (show "What".toList = "Total".toList from a) (by decide)
    · have hl : (["What".toList, "is".toList, "in".toList] ++ [name, ['?']] ++ m :: ms).length
          - 1 = ms.length + 5 := by
        simp
      rw [hl] at e
      have e2 : (["What".toList, "is".toList, "in".toList] ++ [name, ['?']] ++ m :: ms)
          = "What".toList :: "is".toList :: "in".toList :: name :: ['?'] :: (m :: ms) := rfl
      rw [e2] at e
      simp only [List.take_succ_cons, List.drop_succ_cons, List.drop_zero, List.all_cons,
        Bool.and_eq_true] at e
      exact absurd e.2.1 (by decide)
    · exact absurd (show "in".toList = "effective".toList from c) (by decide)

theorem not_query_against_more (name : CStr) (more : List CStr) (hm : more ≠ []) :
    queryTokens (["What".toList, "is".toList, "effective".toList, "against".toList]
      ++ [name, ['?']] ++ more) = false := by
  apply queryTokens_false_of
  intro h
  cases more with
  | nil => exact hm rfl
  | cons m ms =>
    rcases queryTokens_spec _ h with ⟨a, _⟩ | ⟨_, _, c, _⟩ | ⟨_, _, _, _, e, _⟩
    · exact absurd (show "What".toList = "Total".toList from a) (by decide)
    · exact absurd (show "effective".toList = "in".toList from c) (by decide)
    · simp at e

theorem not_query_is_is (rest : List CStr) :
    queryTokens (["What".toList, "is".toList] ++ ["is".toList, "in".toList] ++ rest)
      = false := by
  apply queryTokens_false_of
  intro h
  rcases queryTokens_spec _ h with ⟨a, _⟩ | ⟨_, _, c, _⟩ | ⟨_, _, c, _⟩
  · exact absurd (show "What".toList = "Total".toList from a) (by decide)
  · exact absurd (show "is".toList = "in".toList from c) (by decide)
  · exact absurd (show "is".toList = "effective".toList from c) (by decide)

theorem not_query_effective_is (rest : List CStr) :
    queryTokens (["What".toList, "is".toList, "effective".toList]
      ++ ["is".toList, "in".toList] ++ rest) = false := by
  apply queryTokens_false_of
  intro h
  rcases queryTokens_spec _ h with ⟨a, _⟩ | ⟨_, _, c, _⟩ | ⟨_, _, _, d, _⟩
  · exact absurd (show "What".toList = "Total".toList from a) (by decide)
  · exact absurd (show "effective".toList = "in".toList from c) (by decide)
  · exact absurd (show "is".toList = "against".toList from d) (by decide)

theorem not_query_total_more (cat : CStr) (more : List CStr) (hm : more ≠ []) :
    queryTokens (["Total".toList, cat] ++ [['?']] ++ more) = false := by
  apply queryTokens_false_of
  intro h
  cases more with
  | nil => exact hm rfl
  | cons m ms =>
    rcases queryTokens_spec _ h with ⟨_, _, c⟩ | ⟨a, _⟩ | ⟨a, _⟩
    · rcases c with c | ⟨_, c | c⟩
      · simp at c
      · exact absurd (show isAlphabeticOnly ['?'] = true from c) (by decide)
      · exact absurd (show isValidPotionNameToken ['?'] = true from c) (by decide)
    · exact absurd (show "Total".toList = "What".toList from a) (by decide)
    · exact absurd (show "Total".toList = "What".toList from a) (by decide)

theorem not_query_total_item_more (cat item : CStr) (more : List CStr) (hm : more ≠ []) :
    queryTokens (["Total".toList, cat] ++ [item, ['?']] ++ more) = false := by
  apply queryTokens_false_of
  intro h
  cases more with
  | nil => exact hm rfl
  | cons m ms =>
    rcases queryTokens_spec _ h with ⟨_, _, c⟩ | ⟨a, _⟩ | ⟨a, _⟩
    · rcases c with c | ⟨c, _⟩
      · simp at c
      · simp at c
    · exact absurd (show "Total".toList = "What".toList from a) (by decide)
    · exact absurd (show "Total".toList = "What".toList from a) (by decide)

theorem lexWhatExpected_not_query (toks : List CStr)
    (ht : toks = ["What".toList, "is".toList]
      ∨ toks = ["What".toList, "is".toList, "effective".toList]) (s : CStr) :
    queryTokens (lexWhatExpected toks s) = false := by
  rcases lexWhatExpected_shape toks s with h | ⟨rest, h⟩
  · rw [h]
    rfl
  · rw [h]
    rcases ht with rfl | rfl
    · exact not_query_is_is rest
    · exact not_query_effective_is rest

theorem what_against_pair (s1 s0 : CStr) (h : spacedPair s1 s0) :
    (if atWord "against".toList s0 then
        lexNameThenQuestion
          ["What".toList, "is".toList, "effective".toList, "against".toList]
          (skipSpaces (s0.drop 7))
      else lexWhatExpected ["What".toList, "is".toList, "effective".toList] s0)
      = (if atWord "against".toList s1 then
          lexNameThenQuestion
            ["What".toList, "is".toList, "effective".toList, "against".toList]
            (skipSpaces (s1.drop 7))
        else lexWhatExpected ["What".toList, "is".toList, "effective".toList] s1)
    ∨ queryTokens (if atWord "against".toList s1 then
          lexNameThenQuestion
            ["What".toList, "is".toList, "effective".toList, "against".toList]
            (skipSpaces (s1.drop 7))
        else lexWhatExpected ["What".toList, "is".toList, "effective".toList] s1) = false := by
  rcases atWord_pair "against".toList (by decide) s1 s0 h with ⟨e1, _⟩ | ⟨heq, hp⟩
  · right
    rw [e1]
    decide
  · rw [heq]
    cases ha : atWord "against".toList s1
    · right
      simp only [Bool.false_eq_true, ↓reduceIte]
      exact lexWhatExpected_not_query _ (Or.inr rfl) s1
    · simp only [↓reduceIte]
      have hp2 : spacedPair (skipSpaces (s1.drop 7)) (skipSpaces (s0.drop 7)) :=
        skipSpaces_pair _ _ (hp ha)
      rcases lexNameThenQuestion_pair
          ["What".toList, "is".toList, "effective".toList, "against".toList] (by decide)
          _ _ hp2 with h1 | ⟨name, more, hm, h1⟩
      · exact Or.inl h1
      · right
        rw [h1]
        exact not_query_against_more name more hm

theorem what_is_pair (s1 s0 : CStr) (h : spacedPair s1 s0) :
    (if atWord "in".toList s0 then
        lexNameThenQuestion ["What".toList, "is".toList, "in".toList]
          (skipSpaces (s0.drop 2))
      else if atWord "effective".toList s0 then
        (if atWord "against".toList (skipSpaces (s0.drop 9)) then
          lexNameThenQuestion
            ["What".toList, "is".toList, "effective".toList, "against".toList]
            (skipSpaces ((skipSpaces (s0.drop 9)).drop 7))
        else lexWhatExpected ["What".toList, "is".toList, "effective".toList]
          (skipSpaces (s0.drop 9)))
      else lexWhatExpected ["What".toList, "is".toList] s0)
      = (if atWord "in".toList s1 then
        lexNameThenQuestion ["What".toList, "is".toList, "in".toList]
          (skipSpaces (s1.drop 2))
      else if atWord "effective".toList s1 then
        (if atWord "against".toList (skipSpaces (s1.drop 9)) then
          lexNameThenQuestion
            ["What".toList, "is".toList, "effective".toList, "against".toList]
            (skipSpaces ((skipSpaces (s1.drop 9)).drop 7))
        else lexWhatExpected ["What".toList, "is".toList, "effective".toList]
          (skipSpaces (s1.drop 9)))
      else lexWhatExpected ["What".toList, "is".toList] s1)
    ∨ queryTokens (if atWord "in".toList s1 then
        lexNameThenQuestion ["What".toList, "is".toList, "in".toList]
          (skipSpaces (s1.drop 2))
      else if atWord "effective".toList s1 then
        (if atWord "against".toList (skipSpaces (s1.drop 9)) then
          lexNameThenQuestion
            ["What".toList, "is".toList, "effective".toList, "against".toList]
            (skipSpaces ((skipSpaces (s1.drop 9)).drop 7))
        else lexWhatExpected ["What".toList, "is".toList, "effective".toList]
          (skipSpaces (s1.drop 9)))
      else lexWhatExpected ["What".toList, "is".toList] s1) = false := by
  rcases atWord_pair "in".toList (by decide) s1 s0 h with ⟨e1, _⟩ | ⟨heq, hp⟩
  · right
    rw [e1]
    decide
  · rw [heq]
    cases ha : atWord "in".toList s1
    · simp only [Bool.false_eq_true, ↓reduceIte]
      rcases atWord_pair "effective".toList (by decide) s1 s0 h with ⟨e1, _⟩ | ⟨heq2, hp2⟩
      · right
        rw [e1]
        decide
      · rw [heq2]
        cases hb : atWord "effective".toList s1
        · right
          simp only [Bool.false_eq_true, ↓reduceIte]
          exact lexWhatExpected_not_query _ (Or.inl rfl) s1
        · simp only [↓reduceIte]
          exact what_against_pair _ _ (skipSpaces_pair _ _ (hp2 hb))
    · simp only [↓reduceIte]
      have hp2 : spacedPair (skipSpaces (s1.drop 2)) (skipSpaces (s0.drop 2)) :=
        skipSpaces_pair _ _ (hp ha)
      rcases lexNameThenQuestion_pair ["What".toList, "is".toList, "in".toList] (by decide)
          _ _ hp2 with h1 | ⟨name, more, hm, h1⟩
      · exact Or.inl h1
      · right
        rw [h1]
        exact not_query_in_more name more hm

theorem lexWhat_pair (p1 p0 : CStr) (h : spacedPair p1 p0) :
    lexWhat p0 = lexWhat p1 ∨ queryTokens (lexWhat p1) = false := by
  have hs := skipSpaces_pair p1 p0 h
  unfold lexWhat
  simp only
  generalize skipSpaces p1 = s1 at hs ⊢
  generalize skipSpaces p0 = s0 at hs ⊢
  rcases atWord_pair "is".toList (by decide) s1 s0 hs with ⟨e1, _⟩ | ⟨heq, hp⟩
  · right
    rw [e1]
    decide
  · rw [heq]
    cases ha : atWord "is".toList s1
    · right
      simp only [Bool.false_eq_true, ↓reduceIte]
      rw [lexWhatExpected_of_not_is _ _ ha]
      rfl
    · simp only [↓reduceIte]
      exact what_is_pair _ _ (skipSpaces_pair _ _ (hp ha))

theorem lexTotal_pair (p1 p0 : CStr) (h : spacedPair p1 p0) :
    lexTotal p0 = lexTotal p1 ∨ queryTokens (lexTotal p1) = false := by
  rcases skipSpaces_pair p1 p0 h with heq | ⟨r, e1, e0⟩
  · left
    unfold lexTotal
    simp only
    rw [heq]
  · have hP1 : (fun c : Char => !isspace c && c != '?') ' ' = false := by decide
    have hP0 : (fun c : Char => !isspace c && c != '?') '?' = false := by decide
    obtain ⟨a1, a2⟩ := append_stop (fun c : Char => !isspace c && c != '?') ' ' ['?'] hP1 r
    obtain ⟨b1, b2⟩ := append_stop (fun c : Char => !isspace c && c != '?') '?' [] hP0 r
    unfold lexTotal
    simp only
    rw [e1, e0, a1, a2, b1, b2]
    generalize r.takeWhile (fun c : Char => !isspace c && c != '?') = cat
    generalize r.dropWhile (fun c : Char => !isspace c && c != '?') = d
    by_cases hcat : cat.length ≥ MAX_TOKEN_LENGTH
    · left
      simp only [hcat, ↓reduceIte]
    · simp only [hcat, ↓reduceIte]
      rcases skipSpaces_append_space_q d with ⟨_, c1, c0⟩ | ⟨hne, c1, c0⟩
      · left
        rw [c1, c0]
      · rw [c1, c0]
        cases ht : skipSpaces d with
        | nil => exact absurd ht hne
        | cons c t =>
          simp only [List.cons_append]
          by_cases hq : (c == '?') = true
          · right
            simp only [hq, ↓reduceIte]
            unfold lexRest
            apply not_query_total_more
            apply lexLoop_ne_nil _ _ _ (Nat.le_refl _)
            show 3 < MAX_TOKENS
            decide
          · simp only [hq, Bool.false_eq_true, ↓reduceIte]
            have n1 := name_not_ending_in_q (c :: (t ++ [' ', '?']))
            have n0 := name_not_ending_in_q (c :: (t ++ ['?']))
            simp only [n1, n0, Bool.false_and, Bool.false_eq_true, ↓reduceIte]
            rcases dropWhile_head_or_nil (fun x : Char => x != '?') (c :: t)
              with hd | ⟨q, after, hd, _⟩
            · left
              have hall : ∀ a ∈ c :: t, (a != '?') = true := List.dropWhile_eq_nil_iff.1 hd
              have hall2 : ∀ a ∈ (c :: t) ++ [' '], (a != '?') = true := by
                intro a ha
                rcases List.mem_append.1 ha with ha | ha
                · exact hall a ha
                · rw [List.mem_singleton.1 ha]
                  decide
              have f1 : c :: (t ++ [' ', '?']) = ((c :: t) ++ [' ']) ++ ['?'] := by simp
              have f0 : c :: (t ++ ['?']) = (c :: t) ++ ['?'] := rfl
              obtain ⟨g1, g2⟩ := takeWhile_append_stop (fun x : Char => x != '?')
                ((c :: t) ++ [' ']) ['?'] hall2 (Or.inr ⟨'?', [], rfl, by decide⟩)
              obtain ⟨k1, k2⟩ := takeWhile_append_stop (fun x : Char => x != '?')
                (c :: t) ['?'] hall (Or.inr ⟨'?', [], rfl, by decide⟩)
              rw [f1, g1, g2, f0, k1, k2, trimRight_snoc_space]
            · right
              have f1 : c :: (t ++ [' ', '?']) = (c :: t) ++ [' ', '?'] := rfl
              obtain ⟨g1, g2⟩ := append_after_stop (fun x : Char => x != '?') [' ', '?']
                (c :: t) q after hd
              rw [f1, g1, g2]
              simp only
              unfold lexRest
              apply not_query_total_item_more
              apply lexLoop_ne_nil _ _ _ (Nat.le_refl _)
              show 4 < MAX_TOKENS
              decide

theorem queryTokens_head (T : List CStr) (h : queryTokens T = true) :
    (tokAt T 0 = "What".toList ∨ tokAt T 0 = "Total".toList) ∧ tokAt T 1 ≠ [','] := by
  rcases queryTokens_spec T h with ⟨a, b, _⟩ | ⟨a, b, _⟩ | ⟨a, b, _⟩
  · refine ⟨Or.inr a, fun hc => ?_⟩
    rw [hc] at b
    rcases b with b | b | b <;> exact absurd b (by decide)
  · refine ⟨Or.inl a, fun hc => ?_⟩
    rw [hc] at b
    exact absurd b (by decide)
  · refine ⟨Or.inl a, fun hc => ?_⟩
    rw [hc] at b
    exact absurd b (by decide)

theorem lexConsists_head (toks : List CStr) (after : CStr) :
    lexConsists toks after = [] ∨ toks <+: lexConsists toks after := by
  unfold lexConsists
  simp only
  split
  · split
    · exact Or.inr ((List.prefix_append _ _).trans (List.prefix_append _ _))
    · exact Or.inl rfl
  · exact Or.inl rfl

theorem lexLearnsTail_head (toks : List CStr) (after : CStr) :
    lexLearnsTail toks after = [] ∨ toks <+: lexLearnsTail toks after := by
  unfold lexLearnsTail
  simp only
  split
  · split
    · split
      · split
        · exact Or.inr ((List.prefix_append _ _).trans ((List.prefix_append _ _).trans
            ((List.prefix_append _ _).trans (List.prefix_append _ _))))
        · exact Or.inr ((List.prefix_append _ _).trans ((List.prefix_append _ _).trans
            (List.prefix_append _ _)))
      · rcases lexConsists_head (toks ++ ["is".toList] ++ ["effective".toList]) after
          with h | h
        · exact Or.inl h
        · exact Or.inr ((List.prefix_append _ _).trans ((List.prefix_append _ _).trans h))
    · rcases lexConsists_head (toks ++ ["is".toList]) after with h | h
      · exact Or.inl h
      · exact Or.inr ((List.prefix_append _ _).trans h)
  · exact lexConsists_head toks after

theorem lexLearnsLoop_head : ∀ (fuel : Nat) (start : CStr) (off tempCount : Nat),
    lexLearnsLoop fuel start off tempCount = [] ∨
    ∃ rest, lexLearnsLoop fuel start off tempCount = "Geralt".toList :: rest
  | 0, _, _, _ => Or.inl rfl
  | fuel + 1, start, off, tempCount => by
    rw [lexLearnsLoop]
    simp only
    split
    · exact Or.inl rfl
    · split
      · exact Or.inl rfl
      · split
        · exact Or.inl rfl
        · split
          · split
            · split
              · exact Or.inl rfl
              · rcases lexLearnsTail_head _ _ with h | ⟨r, h⟩
                · exact Or.inl h
                · exact Or.inr ⟨_, by rw [← h]; rfl⟩
            · exact Or.inl rfl
          · exact lexLearnsLoop_head fuel start _ _

theorem generic_first_tokens (kw : CStr) (hne : kw ≠ [])
    (hk : ∀ c ∈ kw, isSep c = false)
    (input : CStr) (hlen : input.length < MAX_TOKEN_LENGTH)
    (h0 : tokAt (lexRest [] input) 0 = kw)
    (hw : atWord kw (skipSpaces input) = false) :
    tokAt (lexRest [] input) 1 = [','] := by
  unfold lexRest at h0 ⊢
  simp only [List.nil_append, List.length_nil] at h0 ⊢
  cases hn : input.length with
  | zero =>
    rw [hn] at h0
    exact absurd h0.symm hne
  | succ n =>
    rw [hn] at h0
    have hin : input.isEmpty = false := by
      cases input with
      | nil => cases hn
      | cons a b => rfl
    rw [lexLoop] at h0 ⊢
    simp only [hin, Bool.false_or, ge_iff_le, decide_eq_true_eq,
      (by decide : ¬ (MAX_TOKENS ≤ 0)), ↓reduceIte] at h0 ⊢
    have hsl : (skipSpaces input).length ≤ input.length := by
      unfold skipSpaces
      exact length_dropWhile_le _ _
    rcases dropWhile_head_or_nil isspace input with hs | ⟨c, rest, hs, hc⟩
    · have hs2 : skipSpaces input = [] := hs
      rw [hs2] at h0
      exact absurd h0.symm hne
    · have hs2 : skipSpaces input = c :: rest := hs
      rw [hs2] at h0 hw hsl ⊢
      simp only at h0 ⊢
      by_cases hcomma : (c == ',') = true
      · simp only [hcomma, ↓reduceIte] at h0
        have hkw : kw = [','] := h0.symm
        have := hk ',' (by rw [hkw]; exact List.mem_singleton.2 rfl)
        exact absurd this (by decide)
      · simp only [hcomma, Bool.false_eq_true, ↓reduceIte] at h0 ⊢
        have hcs : isSep c = false := by
          unfold isSep
          simp only [hc, Bool.false_or]
          simpa using hcomma
        have hsplit : (c :: rest).takeWhile (fun x => !isSep x)
            ++ (c :: rest).dropWhile (fun x => !isSep x) = c :: rest :=
          List.takeWhile_append_dropWhile _ _
        have htl : 0 < ((c :: rest).takeWhile (fun x => !isSep x)).length := by
          rw [List.takeWhile_cons_of_pos (by simp [hcs])]
          simp
        have htl2 : ((c :: rest).takeWhile (fun x => !isSep x)).length < MAX_TOKEN_LENGTH := by
          have : ((c :: rest).takeWhile (fun x => !isSep x)).length ≤ (c :: rest).length :=
            (List.takeWhile_sublist _).length_le
          omega
        generalize htok : (c :: rest).takeWhile (fun x => !isSep x) = tok at h0 hsplit htl htl2 ⊢
        generalize hs2' : (c :: rest).dropWhile (fun x => !isSep x) = s2 at h0 hsplit ⊢
        have hcond : (decide (0 < tok.length) && decide (tok.length < MAX_TOKEN_LENGTH)) = true := by
          simp [htl, htl2]
        simp only [hcond, ↓reduceIte] at h0 ⊢
        have hkw : tok = kw := h0
        subst hkw
        rw [← hsplit] at hw hsl
        unfold atWord at hw
        rw [startsWith_append, List.drop_left, Bool.true_and] at hw
        cases s2 with
        | nil => exact absurd hw (by decide)
        | cons d s2' =>
          simp only at hw
          have hd : isSep d = true := isSep_of_not_dropped _ d s2' hs2'
          have hd2 : (d == ',') = true := by
            unfold isSep at hd
            rw [hw, Bool.false_or] at hd
            exact hd
          have hn1 : ∃ m, n = m + 1 := by
            simp only [List.length_append, List.length_cons] at hsl
            exact ⟨n - 1, by omega⟩
          obtain ⟨m, rfl⟩ := hn1
          show tokAt (lexLoop (m + 1) (d :: s2') (0 + 1)) 0 = [',']
          rw [lexLoop]
          simp only [List.isEmpty_cons, Bool.false_or, ge_iff_le, decide_eq_true_eq,
            (by decide : ¬ (MAX_TOKENS ≤ 0 + 1)), ↓reduceIte]
          rw [skipSpaces_of_head d s2' hw]
          simp only [hd2, ↓reduceIte]
          rfl

theorem not_query_of_head (T : List CStr) (h : tokAt T 0 = [] ∨ tokAt T 0 = "Geralt".toList) :
    queryTokens T = false := by
  apply queryTokens_false_of
  intro hq
  rcases (queryTokens_head T hq).1 with a | a <;> rcases h with b | b <;>
    · rw [b] at a
      exact absurd a (by decide)

theorem tokenize_not_query (input : CStr) (hlen : input.length < MAX_INPUT_LENGTH)
    (h1 : atWord "What".toList (skipSpaces input) = false)
    (h2 : atWord "Total".toList (skipSpaces input) = false) :
    queryTokens (tokenizeInput input) = false := by
  have hgen : queryTokens (lexRest [] input) = false := by
    apply queryTokens_false_of
    intro hq
    obtain ⟨a, b⟩ := queryTokens_head _ hq
    rcases a with a | a
    · exact b (generic_first_tokens _ (by decide) (by decide) input hlen a h1)
    · exact b (generic_first_tokens _ (by decide) (by decide) input hlen a h2)
  unfold tokenizeInput
  simp only [h1, h2, Bool.false_eq_true, ↓reduceIte]
  split
  · split
    · split
      · exact not_query_of_head _ (Or.inr rfl)
      · exact not_query_of_head _ (Or.inr rfl)
    · split
      · rcases lexLearnsLoop_head _ _ _ _ with h | ⟨r, h⟩
        · rw [h]
          rfl
        · rw [h]
          exact not_query_of_head _ (Or.inr rfl)
      · split
        · exact not_query_of_head _ (Or.inr rfl)
        · exact hgen
  · exact hgen

theorem tokenize_pair (body : CStr) (hlen : (body ++ [' ', '?']).length < MAX_INPUT_LENGTH) :
    tokenizeInput (body ++ ['?']) = tokenizeInput (body ++ [' ', '?'])
    ∨ queryTokens (tokenizeInput (body ++ [' ', '?'])) = false := by
  have hs : spacedPair (skipSpaces (body ++ [' ', '?'])) (skipSpaces (body ++ ['?'])) :=
    skipSpaces_pair _ _ (Or.inr ⟨body, rfl, rfl⟩)
  rcases atWord_pair "What".toList (by decide) _ _ hs with ⟨e1, _⟩ | ⟨heq, hp⟩
  · right
    have a : atWord "What".toList ("What".toList ++ [' ', '?']) = true := by decide
    unfold tokenizeInput
    simp only [e1, a, ↓reduceIte]
    decide
  · cases ha : atWord "What".toList (skipSpaces (body ++ [' ', '?']))
    · rw [ha] at heq
      rcases atWord_pair "Total".toList (by decide) _ _ hs with ⟨e1, _⟩ | ⟨heq2, hp2⟩
      · right
        have a : atWord "What".toList ("Total".toList ++ [' ', '?']) = false := by decide
        have b : atWord "Total".toList ("Total".toList ++ [' ', '?']) = true := by decide
        unfold tokenizeInput
        simp only [e1, a, b, Bool.false_eq_true, ↓reduceIte]
        decide
      · cases hb : atWord "Total".toList (skipSpaces (body ++ [' ', '?']))
        · right
          exact tokenize_not_query _ hlen ha hb
        · rw [hb] at heq2
          have hp3 := hp2 hb
          rcases lexTotal_pair _ _ hp3 with h | h
          · left
            unfold tokenizeInput
            simp only [ha, hb, heq, heq2, Bool.false_eq_true, ↓reduceIte]
            exact h
          · right
            unfold tokenizeInput
            simp only [ha, hb, Bool.false_eq_true, ↓reduceIte]
            exact h
    · rw [ha] at heq
      have hp3 := hp ha
      rcases lexWhat_pair _ _ hp3 with h | h
      · left
        unfold tokenizeInput
        simp only [ha, heq, ↓reduceIte]
        exact h
      · right
        unfold tokenizeInput
        simp only [ha, ↓reduceIte]
        exact h

theorem isInventoryQuery_length (input : CStr) (h : (isInventoryQuery input).1 = true) :
    (tokenizeInput input).length = 3 ∨ (tokenizeInput input).length = 4 := by
  unfold isInventoryQuery at h
  simp only at h
  by_cases hl : ((tokenizeInput input).length < 3 || (tokenizeInput input).length > 4) = true
  · rw [if_pos hl] at h
    cases h
  · simp only [Bool.or_eq_true, decide_eq_true_eq, not_or, not_lt] at hl
    omega

theorem queryTokens_of_accepted (input : CStr)
    (h : isValidCommand input = .QUERY_SPECIFIC_INVENTORY
      ∨ isValidCommand input = .QUERY_ALL_INVENTORY
      ∨ isValidCommand input = .QUERY_BESTIARY
      ∨ isValidCommand input = .QUERY_ALCHEMY) :
    queryTokens (tokenizeInput input) = true := by
  have hinv : (isInventoryQuery input).1 = true → queryTokens (tokenizeInput input) = true := by
    intro hi
    have k := isInventoryQuery_keywords input hi
    obtain ⟨c, f, g⟩ := isInventoryQuery_shape input hi
    have l := isInventoryQuery_length input hi
    unfold queryTokens
    have hcat : (tokAt (tokenizeInput input) 1 == "ingredient".toList
        || tokAt (tokenizeInput input) 1 == "potion".toList
        || tokAt (tokenizeInput input) 1 == "trophy".toList) = true := by
      rcases c with c | c | c <;> rw [c] <;> decide
    rw [k, hcat]
    rcases l with l | l
    · rw [l]
      rfl
    · have hname : (isAlphabeticOnly (tokAt (tokenizeInput input) 2)
          || isValidPotionNameToken (tokAt (tokenizeInput input) 2)) = true := by
        have f2 : (isInventoryQuery input).2 = true := by
          rw [f, l]
          rfl
        obtain ⟨g1, g2⟩ := g f2
        by_cases hp : tokAt (tokenizeInput input) 1 = "potion".toList
        · rw [g1 hp, Bool.or_true]
        · rw [g2 hp, Bool.true_or]
      rw [l, hname]
      rfl
  rcases h with h | h | h | h
  · exact hinv (isValidCommand_specific input h).1
  · exact hinv (isValidCommand_all input h).1
  · have hb := isValidCommand_bestiary input h
    unfold isBestiaryQuery at hb
    simp only at hb
    split_ifs at hb with a1 a2 a3 a4
    simp only [Bool.or_eq_true, not_or, Bool.not_eq_true] at a2
    have e0 := bne_false_eq a2.1.1.1
    have e1 := bne_false_eq a2.1.1.2
    have e2 := bne_false_eq a2.1.2
    have e3 := bne_false_eq a2.2
    have e4 : isAlphabeticOnly (tokAt (tokenizeInput input) 4) = true := by simpa using a3
    have e5 : (tokenizeInput input).length = 6 := by simpa using a1
    unfold queryTokens
    rw [e0, e1, e2, e3, e4, e5]
    rfl
  · have hb := isValidCommand_alchemy input h
    unfold isAlchemyQuery at hb
    simp only at hb
    split_ifs at hb with a1 a2 a3
    simp only [Bool.or_eq_true, not_or, Bool.not_eq_true] at a2
    have e0 := bne_false_eq a2.1.1
    have e1 := bne_false_eq a2.1.2
    have e2 := bne_false_eq a2.2
    have e5 : 5 ≤ (tokenizeInput input).length := by omega
    unfold queryTokens
    rw [e0, e1, e2, hb]
    simp [e5]

theorem trimRight_of_last (s : CStr) (c : Char) (hc : isspace c = false) :
    trimRight (s ++ [c]) = s ++ [c] := by
  unfold trimRight
  rw [List.reverse_append, List.reverse_singleton, List.singleton_append,
    List.dropWhile_cons_of_neg (by simp [hc]), List.reverse_cons, List.reverse_reverse]

theorem cleanInputLine_q (s : CStr) :
    cleanInputLine (s ++ ['?']) = skipSpaces (s ++ ['?']) := by
  unfold cleanInputLine
  have hl : (s ++ ['?']).getLast? = some '?' := by simp
  have hne : ((s ++ ['?']).getLast? == some (Char.ofNat 10)) = false := by
    rw [hl]
    decide
  simp only [hne, Bool.false_eq_true, ↓reduceIte]
  rcases skipSpaces_append_space_q s with ⟨_, _, b⟩ | ⟨_, _, b⟩
  · unfold skipSpaces at b ⊢
    rw [b]
    rfl
  · unfold skipSpaces at b ⊢
    rw [b]
    exact trimRight_of_last _ '?' (by decide)

theorem inputCopy_pair (body : CStr) (hfit : (body ++ [' ', '?']).length < MAX_INPUT_LENGTH) :
    inputCopy (body ++ ['?']) = inputCopy (body ++ [' ', '?']) ∨
    ∃ b, inputCopy (body ++ [' ', '?']) = b ++ [' ', '?'] ∧
      inputCopy (body ++ ['?']) = b ++ ['?'] ∧ (b ++ [' ', '?']).length < MAX_INPUT_LENGTH := by
  unfold inputCopy
  rcases dropWhile_head_or_nil (fun c : Char => c.toNat != 0) body with hd | ⟨c, after, hd, _⟩
  · have hall : ∀ a ∈ body, (a.toNat != 0) = true := List.dropWhile_eq_nil_iff.1 hd
    have hall1 : ∀ a ∈ body ++ [' ', '?'], (a.toNat != 0) = true := by
      intro a ha
      rcases List.mem_append.1 ha with ha | ha
      · exact hall a ha
      · simp only [List.mem_cons, List.mem_singleton, List.not_mem_nil, or_false] at ha
        rcases ha with rfl | rfl <;> decide
    have hall0 : ∀ a ∈ body ++ ['?'], (a.toNat != 0) = true := by
      intro a ha
      rcases List.mem_append.1 ha with ha | ha
      · exact hall a ha
      · rw [List.mem_singleton.1 ha]
        decide
    have t1 := (takeWhile_append_stop (fun c : Char => c.toNat != 0) (body ++ [' ', '?']) []
      hall1 (Or.inl rfl)).1
    have t0 := (takeWhile_append_stop (fun c : Char => c.toNat != 0) (body ++ ['?']) []
      hall0 (Or.inl rfl)).1
    rw [List.append_nil] at t1 t0
    have hM : MAX_INPUT_LENGTH = 1024 := rfl
    have k1 : (body ++ [' ', '?']).take (MAX_INPUT_LENGTH - 1) = body ++ [' ', '?'] :=
      List.take_of_length_le (by omega)
    have k0 : (body ++ ['?']).take (MAX_INPUT_LENGTH - 1) = body ++ ['?'] :=
      List.take_of_length_le (by
        simp only [List.length_append, List.length_cons, List.length_nil] at hfit ⊢
        omega)
    rw [t1, t0, k1, k0]
    have e1 : body ++ [' ', '?'] = (body ++ [' ']) ++ ['?'] := by simp
    have c1 : cleanInputLine (body ++ [' ', '?']) = skipSpaces (body ++ [' ', '?']) := by
      rw [e1]
      exact cleanInputLine_q _
    rw [c1, cleanInputLine_q]
    rcases skipSpaces_append_space_q body with ⟨_, a, b⟩ | ⟨_, a, b⟩
    · left
      rw [a, b]
    · right
      refine ⟨skipSpaces body, a, b, ?_⟩
      have hl : (skipSpaces body).length ≤ body.length := by
        unfold skipSpaces
        exact length_dropWhile_le _ _
      simp only [List.length_append, List.length_cons, List.length_nil] at hfit ⊢
      omega
  · left
    obtain ⟨g1, _⟩ := append_after_stop (fun c : Char => c.toNat != 0) [' ', '?'] body c after hd
    obtain ⟨g0, _⟩ := append_after_stop (fun c : Char => c.toNat != 0) ['?'] body c after hd
    rw [g1, g0]

theorem hasCounter_effectiveness (w : World) (input : CStr)
    (hacc : isEffectivenessKnowledge input = true)
    (h : ∀ b ∈ w.beasts, b.name ≠ [] →
      1 ≤ b.effective_sign_indices.length + b.effective_potion_indices.length) :
    ∀ b ∈ (executeEffectivenessKnowledge w input).world.beasts, b.name ≠ [] →
      1 ≤ b.effective_sign_indices.length + b.effective_potion_indices.length := by
  obtain ⟨_, hT, _, _, _⟩ := isEffectivenessKnowledge_shape input hacc
  cases hb : findBeast w.beasts
      (tokAt (tokenizeInput input) ((tokenizeInput input).length - 1)) with
  | none =>
    rcases hT with hT | hT
    · rw [eff_new_sign w input hT hb]
      intro b hbm hn
      rcases mem_updSlot _ _ _ (firstFree_le _ _) b hbm with hm | hm
      · exact h b hm hn
      · rw [hm]
        simp
    · cases hp : findPotion w.potions (tokAt (tokenizeInput input) 2) with
      | some p =>
        rw [eff_new_potion_known w input p hT hb hp]
        intro b hbm hn
        rcases mem_updSlot _ _ _ (firstFree_le _ _) b hbm with hm | hm
        · exact h b hm hn
        · rw [hm]
          simp
      | none =>
        rw [eff_new_potion_unknown w input hT hb hp]
        intro b hbm hn
        rcases mem_updSlot _ _ _ (firstFree_le _ _) b hbm with hm | hm
        · exact h b hm hn
        · rw [hm]
          simp
  | some k =>
    have hk := findBeast_lt _ _ _ hb
    rcases hT with hT | hT
    · rw [eff_old_sign w input k hT hb]
      split_ifs
      · exact h
      · intro b hbm hn
        rcases mem_updSlot _ _ _ (Nat.le_of_lt hk) b hbm with hm | hm
        · exact h b hm hn
        · rw [hm]
          simp only [List.length_append, List.length_singleton]
          omega
    · obtain ⟨r, _, he⟩ := eff_old_potion w input k hT hb
      rw [he]
      split_ifs
      · exact h
      · intro b hbm hn
        rcases mem_updSlot _ _ _ (Nat.le_of_lt hk) b hbm with hm | hm
        · exact h b hm hn
        · rw [hm]
          simp only [List.length_append, List.length_singleton]
          omega

theorem hasCounter_step (w : World) (line : CStr)
    (h : ∀ b ∈ w.beasts, b.name ≠ [] →
      1 ≤ b.effective_sign_indices.length + b.effective_potion_indices.length) :
    ∀ b ∈ (execute_line w line).world.beasts, b.name ≠ [] →
      1 ≤ b.effective_sign_indices.length + b.effective_potion_indices.length := by
  by_cases hv : isValidCommand (inputCopy line) = .INVALID_COMMAND
  · rw [execute_line_invalid w line hv]
    exact h
  · rw [execute_line_eq w line _ rfl hv]
    by_cases he : isValidCommand (inputCopy line) = .KNOWLEDGE_EFFECTIVENESS
    · rw [he]
      exact hasCounter_effectiveness w _ (isValidCommand_effectiveness _ he) h
    · obtain ⟨_, h2, _⟩ := executeCommand_frame w (inputCopy line) _ he
      rw [h2]
      exact h

theorem reachable_hasCounter (w : World) (h : Reachable w) :
    ∀ b ∈ w.beasts, b.name ≠ [] →
      1 ≤ b.effective_sign_indices.length + b.effective_potion_indices.length := by
  induction h with
  | init =>
    intro b hb
    simp [World.init] at hb
  | step w line _ ih => exact hasCounter_step w line ih

theorem findBeast_named (beasts : List Beast) (n : CStr) (k : Nat)
    (h : findBeast beasts n = some k) :
    slotAt beasts k ∈ beasts ∧ (slotAt beasts k).name ≠ [] := by
  have hk := findBeast_lt _ _ _ h
  unfold findBeast at h
  have h2 := ((findSlot_zero_some_iff _ _ _).1 h).2.1
  simp only [Bool.and_eq_true, Bool.not_eq_true', beq_iff_eq] at h2
  refine ⟨slotAt_mem _ _ hk, fun h0 => ?_⟩
  rw [h0] at h2
  exact absurd h2.1 (by decide)

theorem filter_updSlot {α : Type} [Inhabited α] (P : α → Bool) (f : α → α)
    (hd : P default = false) :
    ∀ (l : List α) (i : Nat), P (slotAt l i) = false → P (f (slotAt l i)) = false →
      (updSlot f l i).filter P = l.filter P
  | [], 0, _, h2 => by
    have h2' : P (f default) = false := h2
    simp [updSlot, List.filter, h2']
  | [], n + 1, _, h2 => by
    have ih := filter_updSlot P f hd [] n hd h2
    simp only [updSlot, List.filter_cons, hd, Bool.false_eq_true, ↓reduceIte, ih]
  | x :: xs, 0, h1, h2 => by
    have h1' : P x = false := h1
    have h2' : P (f x) = false := h2
    simp only [updSlot, List.filter_cons, h1', h2', Bool.false_eq_true, ↓reduceIte]
  | x :: xs, n + 1, h1, h2 => by
    have ih := filter_updSlot P f hd xs n h1 h2
    simp only [updSlot, List.filter_cons, ih]

theorem formulaIngredient_positive (w : World) (n : CStr) :
    (formulaIngredient w n).1.ingredients.filter
        (fun x => decide (x.name ≠ [] ∧ x.quantity > 0))
      = w.ingredients.filter (fun x => decide (x.name ≠ [] ∧ x.quantity > 0)) := by
  unfold formulaIngredient
  cases hf : findSlot (fun (x : Ingredient) => !x.name.isEmpty && x.name == n)
      w.ingredients 0 with
  | some j => rfl
  | none =>
    simp only
    apply filter_updSlot _ _ (by decide)
    · have := firstFree_free (fun (x : Ingredient) => x.name.isEmpty) (by decide) w.ingredients
      simp only [List.isEmpty_iff] at this
      simp [this]
    · simp

theorem formulaLoop_positive : ∀ (toks : List CStr) (w : World),
    (formulaLoop toks w).1.ingredients.filter
        (fun x => decide (x.name ≠ [] ∧ x.quantity > 0))
      = w.ingredients.filter (fun x => decide (x.name ≠ [] ∧ x.quantity > 0))
  | [], _ => rfl
  | [q], w => formulaIngredient_positive w _
  | [q, n], w => formulaIngredient_positive w _
  | q :: n :: c :: rest, w => by
    have h1 := formulaIngredient_positive w (stripTrailingComma n)
    unfold formulaLoop
    simp only
    split_ifs
    · rw [formulaLoop_positive rest _, h1]
    · rw [formulaLoop_positive (c :: rest) _, h1]

theorem formulaIngredient_same_or_zero (w : World) (n : CStr) (i : Nat) :
    slotAt (formulaIngredient w n).1.ingredients i = slotAt w.ingredients i ∨
    (slotAt (formulaIngredient w n).1.ingredients i).quantity = 0 := by
  unfold formulaIngredient
  cases hf : findSlot (fun (x : Ingredient) => !x.name.isEmpty && x.name == n)
      w.ingredients 0 with
  | some j => exact Or.inl rfl
  | none =>
    simp only
    rw [slotAt_updSlot]
    by_cases hi : i = firstFree (fun (x : Ingredient) => x.name.isEmpty) w.ingredients
    · rw [if_pos hi]
      exact Or.inr rfl
    · rw [if_neg hi]
      exact Or.inl rfl

theorem formulaLoop_same_or_zero : ∀ (toks : List CStr) (w : World) (i : Nat),
    slotAt (formulaLoop toks w).1.ingredients i = slotAt w.ingredients i ∨
    (slotAt (formulaLoop toks w).1.ingredients i).quantity = 0
  | [], _, _ => Or.inl rfl
  | [q], w, i => formulaIngredient_same_or_zero w _ i
  | [q, n], w, i => formulaIngredient_same_or_zero w _ i
  | q :: n :: c :: rest, w, i => by
    have h1 := formulaIngredient_same_or_zero w (stripTrailingComma n) i
    unfold formulaLoop
    simp only
    split_ifs
    · rcases formulaLoop_same_or_zero rest (formulaIngredient w (stripTrailingComma n)).1 i
        with h2 | h2
      · rcases h1 with h1 | h1
        · exact Or.inl (h2.trans h1)
        · right
          rw [h2]
          exact h1
      · exact Or.inr h2
    · rcases formulaLoop_same_or_zero (c :: rest)
        (formulaIngredient w (stripTrailingComma n)).1 i with h2 | h2
      · rcases h1 with h1 | h1
        · exact Or.inl (h2.trans h1)
        · right
          rw [h2]
          exact h1
      · exact Or.inr h2

/-- Every item of an accepted list has, after the ingredient loop, a record carrying its
name; the record has quantity 0 when no record carried the name before. -/
theorem formulaLoop_records (toks : List CStr) (w : World) (hok : formulaItemsOk toks = true)
    (it : CStr × CStr) (hit : it ∈ listedItems toks) :
    ∃ j, (slotAt (formulaLoop toks w).1.ingredients j).name = it.2 ∧
      (findSlot (fun (x : Ingredient) => !x.name.isEmpty && x.name == it.2) w.ingredients 0
          = none →
        slotAt (formulaLoop toks w).1.ingredients j = { name := it.2, quantity := 0 }) := by
  have hspec := formulaLoop_spec toks w hok
  have hne : it.2 ≠ [] := isAlphabeticOnly_ne_nil _ (formulaItemsOk_items toks hok it hit).2
  have hm : (it.2, atoi it.1) ∈ toEntries (listedItems toks) :=
    List.mem_map.2 ⟨it, hit, rfl⟩
  rw [← hspec] at hm
  obtain ⟨r, _, hr⟩ := List.mem_map.1 hm
  have hname : (slotAt (formulaLoop toks w).1.ingredients r.1).name = it.2 :=
    congrArg Prod.fst hr
  refine ⟨r.1, hname, fun hnone => ?_⟩
  rcases formulaLoop_same_or_zero toks w r.1 with h | h
  · exfalso
    rw [h] at hname
    rcases Nat.lt_or_ge r.1 w.ingredients.length with hlt | hge
    · have := (findSlot_zero_none_iff _ _).1 hnone r.1 hlt
      rw [hname] at this
      cases hn : it.2 with
      | nil => exact hne hn
      | cons a as =>
        rw [hn] at this
        simp at this
    · rw [slotAt_of_le _ _ hge] at hname
      exact hne hname.symm
  · cases hs : slotAt (formulaLoop toks w).1.ingredients r.1 with
    | mk nm qty =>
      rw [hs] at hname h
      simp only at hname h
      rw [hname, h]

theorem isspace_ne_comma (c : Char) (h : isspace c = true) : (c == ',') = false := by
  cases hc : c == ','
  · rfl
  · have : c = ',' := by simpa using hc
    subst this
    exact absurd h (by decide)

theorem isSep_false_iff (c : Char) : isSep c = false ↔ (c == ',') = false ∧ isspace c = false := by
  unfold isSep
  rw [Bool.or_eq_false_iff]
  exact And.comm

theorem lexicalTokensFrom_skip : ∀ (s : CStr),
    lexicalTokensFrom [] s = lexicalTokensFrom [] (skipSpaces s)
  | [] => rfl
  | c :: rest => by
    unfold skipSpaces
    by_cases h : isspace c = true
    · rw [List.dropWhile_cons_of_pos h, lexicalTokensFrom, isspace_ne_comma c h]
      simp only [Bool.false_eq_true, ↓reduceIte, h, List.isEmpty_nil, List.nil_append]
      exact lexicalTokensFrom_skip rest
    · rw [List.dropWhile_cons_of_neg h]

theorem lexicalTokensFrom_run : ∀ (run cur rest : CStr), (∀ c ∈ run, isSep c = false) →
    lexicalTokensFrom cur (run ++ rest) = lexicalTokensFrom (cur ++ run) rest
  | [], cur, rest, _ => by simp
  | c :: run, cur, rest, h => by
    have hc := (isSep_false_iff c).1 (h c (List.mem_cons_self _ _))
    rw [List.cons_append, lexicalTokensFrom, hc.1, hc.2]
    simp only [Bool.false_eq_true, ↓reduceIte]
    rw [lexicalTokensFrom_run run (cur ++ [c]) rest
      (fun x hx => h x (List.mem_cons_of_mem _ hx))]
    simp

theorem lexicalTokensFrom_flush (cur rest : CStr) (hcur : cur ≠ [])
    (hrest : rest = [] ∨ ∃ c r, rest = c :: r ∧ isSep c = true) :
    lexicalTokensFrom cur rest = cur :: lexicalTokensFrom [] rest := by
  have hne : cur.isEmpty = false := by
    cases cur with
    | nil => exact absurd rfl hcur
    | cons _ _ => rfl
  rcases hrest with rfl | ⟨c, r, rfl, hc⟩
  · simp [lexicalTokensFrom, hne]
  · rw [lexicalTokensFrom, lexicalTokensFrom]
    by_cases h1 : (c == ',') = true
    · simp [h1, hne]
    · have h2 : isspace c = true := by
        unfold isSep at hc
        simpa [h1] using hc
      simp [h1, h2, hne]

/-- The text `word ++ rest`, where `word` is a non-empty run without separators that ends
at the end of the text or at a separator, has `word` as its first lexical token. -/
theorem lexicalTokens_word (word rest : CStr) (hw : word ≠ [])
    (hrun : ∀ c ∈ word, isSep c = false)
    (hrest : rest = [] ∨ ∃ c r, rest = c :: r ∧ isSep c = true) :
    lexicalTokens (word ++ rest) = word :: lexicalTokens rest := by
  unfold lexicalTokens
  rw [lexicalTokensFrom_run word [] rest hrun, List.nil_append,
    lexicalTokensFrom_flush word rest hw hrest]

theorem lexLoop_eq_lexical : ∀ (fuel : Nat) (s : CStr) (count : Nat),
    s.length ≤ fuel → s.length < MAX_TOKEN_LENGTH →
    lexLoop fuel s count = (lexicalTokens s).take (MAX_TOKENS - count)
  | 0, s, count, h, _ => by
    have : s = [] := List.length_eq_zero.1 (Nat.le_zero.1 h)
    subst this
    simp [lexLoop, lexicalTokens, lexicalTokensFrom]
  | fuel + 1, s, count, h, hlen => by
    rw [lexLoop]
    by_cases hs : s.isEmpty = true
    · have : s = [] := List.isEmpty_iff.1 hs
      subst this
      simp [lexicalTokens, lexicalTokensFrom]
    · by_cases hcount : count ≥ MAX_TOKENS
      · simp only [hcount, decide_True, Bool.or_true, ↓reduceIte]
        rw [Nat.sub_eq_zero_of_le hcount, List.take_zero]
      · have hcond : (s.isEmpty || decide (count ≥ MAX_TOKENS)) = false := by
          simp [hs, hcount]
        rw [hcond]
        simp only [Bool.false_eq_true, ↓reduceIte]
        have hskip : lexicalTokens s = lexicalTokens (skipSpaces s) :=
          lexicalTokensFrom_skip s
        have hsl : (skipSpaces s).length ≤ s.length := length_dropWhile_le _ _
        have hpos : MAX_TOKENS - count = (MAX_TOKENS - (count + 1)) + 1 := by omega
        rw [hskip]
        cases hk : skipSpaces s with
        | nil => simp [lexicalTokens, lexicalTokensFrom]
        | cons c rest =>
          rw [hk] at hsl
          simp only [List.length_cons] at hsl
          simp only
          by_cases hc : (c == ',') = true
          · rw [if_pos hc]
            have hcc : c = ',' := by simpa using hc
            subst hcc
            rw [lexLoop_eq_lexical fuel rest (count + 1) (by omega) (by omega), hpos]
            simp [lexicalTokens, lexicalTokensFrom]
          · rw [if_neg hc]
            have hnsp : isspace c = false := by
              rcases dropWhile_head_or_nil isspace s with h0 | ⟨c2, r2, h0, h2⟩
              · unfold skipSpaces at hk
                rw [h0] at hk
                cases hk
              · unfold skipSpaces at hk
                rw [h0] at hk
                cases hk
                exact h2
            have hcs : isSep c = false :=
              (isSep_false_iff c).2 ⟨by simpa using hc, hnsp⟩
            have hdec : (c :: rest).takeWhile (fun x => !isSep x)
                ++ (c :: rest).dropWhile (fun x => !isSep x) = c :: rest :=
              List.takeWhile_append_dropWhile _ _
            have htne : (c :: rest).takeWhile (fun x => !isSep x) ≠ [] := by
              rw [List.takeWhile_cons_of_pos (by simp [hcs])]
              exact List.cons_ne_nil _ _
            have htl : ((c :: rest).takeWhile (fun x => !isSep x)).length
                ≤ (c :: rest).length := (List.takeWhile_sublist _).length_le
            have hdl : ((c :: rest).dropWhile (fun x => !isSep x)).length
                ≤ rest.length := by
              rw [List.dropWhile_cons_of_pos (by simp [hcs])]
              exact length_dropWhile_le _ _
            have hrun : ∀ x ∈ (c :: rest).takeWhile (fun x => !isSep x), isSep x = false := by
              intro x hx
              have := List.mem_takeWhile_imp hx
              simpa using this
            have hstop : (c :: rest).dropWhile (fun x => !isSep x) = [] ∨
                ∃ d r, (c :: rest).dropWhile (fun x => !isSep x) = d :: r ∧ isSep d = true := by
              rcases dropWhile_head_or_nil (fun x => !isSep x) (c :: rest) with h0 | ⟨d, r, h0, hd⟩
              · exact Or.inl h0
              · exact Or.inr ⟨d, r, h0, by simpa using hd⟩
            have hlex : lexicalTokens (c :: rest)
                = (c :: rest).takeWhile (fun x => !isSep x)
                  :: lexicalTokens ((c :: rest).dropWhile (fun x => !isSep x)) := by
              conv_lhs => rw [← hdec]
              exact lexicalTokens_word _ _ htne hrun hstop
            have hgood : (0 < ((c :: rest).takeWhile (fun x => !isSep x)).length &&
                decide (((c :: rest).takeWhile (fun x => !isSep x)).length
                  < MAX_TOKEN_LENGTH)) = true := by
              have h1 : 0 < ((c :: rest).takeWhile (fun x => !isSep x)).length :=
                List.length_pos.2 htne
              simp only [List.length_cons] at htl
              have h2 : ((c :: rest).takeWhile (fun x => !isSep x)).length
                  < MAX_TOKEN_LENGTH := by omega
              simp [h1, h2]
            rw [if_pos hgood, hlex,
              lexLoop_eq_lexical fuel _ (count + 1) (by omega) (by omega), hpos]
            rfl

theorem tokenize_generic (input : CStr) (hg : genericPath input = true) :
    tokenizeInput input = lexRest [] input := by
  unfold genericPath at hg
  unfold tokenizeInput
  simp only at hg ⊢
  split_ifs at hg ⊢ <;> rfl

theorem lexRest_eq_lexical (input : CStr) (hlen : input.length < MAX_INPUT_LENGTH) :
    lexRest [] input = (lexicalTokens input).take MAX_TOKENS := by
  unfold lexRest
  rw [List.nil_append, List.length_nil,
    lexLoop_eq_lexical input.length input 0 (Nat.le_refl _) hlen]
  rfl

theorem length_trimRight_le (s : CStr) : (trimRight s).length ≤ s.length := by
  unfold trimRight
  rw [List.length_reverse]
  exact (length_dropWhile_le _ _).trans (by rw [List.length_reverse])

theorem inputCopy_length (line : CStr) : (inputCopy line).length < MAX_INPUT_LENGTH := by
  unfold inputCopy cleanInputLine
  simp only
  have h1 : ((line.takeWhile (fun c => c.toNat != 0)).take (MAX_INPUT_LENGTH - 1)).length
      ≤ MAX_INPUT_LENGTH - 1 := by
    rw [List.length_take]
    exact Nat.min_le_left _ _
  have h2 : MAX_INPUT_LENGTH - 1 < MAX_INPUT_LENGTH := by decide
  refine Nat.lt_of_le_of_lt ((length_trimRight_le _).trans
    ((length_dropWhile_le _ _).trans ?_)) h2
  split
  · rw [List.length_dropLast]
    exact (Nat.sub_le _ _).trans h1
  · exact h1

theorem lexWhat_head (s : CStr) :
    lexWhat s = [] ∨ ∃ rest, lexWhat s = "What".toList :: rest := by
  unfold lexWhat
  simp only
  split
  · split
    · rcases lexNameThenQuestion_shape ["What".toList, "is".toList, "in".toList]
        (skipSpaces ((skipSpaces ((skipSpaces s).drop 2)).drop 2)) with h | ⟨r, h⟩
      · exact Or.inl h
      · exact Or.inr ⟨_, by rw [h]; rfl⟩
    · split
      · split
        · rcases lexNameThenQuestion_shape
            ["What".toList, "is".toList, "effective".toList, "against".toList]
            (skipSpaces ((skipSpaces ((skipSpaces ((skipSpaces s).drop 2)).drop 9)).drop 7))
            with h | ⟨r, h⟩
          · exact Or.inl h
          · exact Or.inr ⟨_, by rw [h]; rfl⟩
        · rcases lexWhatExpected_shape ["What".toList, "is".toList, "effective".toList]
            (skipSpaces ((skipSpaces ((skipSpaces s).drop 2)).drop 9)) with h | ⟨r, h⟩
          · exact Or.inl h
          · exact Or.inr ⟨_, by rw [h]; rfl⟩
      · rcases lexWhatExpected_shape ["What".toList, "is".toList]
          (skipSpaces ((skipSpaces s).drop 2)) with h | ⟨r, h⟩
        · exact Or.inl h
        · exact Or.inr ⟨_, by rw [h]; rfl⟩
  · rcases lexWhatExpected_shape ["What".toList] (skipSpaces s) with h | ⟨r, h⟩
    · exact Or.inl h
    · exact Or.inr ⟨_, by rw [h]; rfl⟩

theorem lexTotal_head (s : CStr) :
    lexTotal s = [] ∨ ∃ rest, lexTotal s = "Total".toList :: rest := by
  unfold lexTotal lexRest
  simp only
  split
  · exact Or.inl rfl
  · split
    · exact Or.inr ⟨_, rfl⟩
    · split
      · exact Or.inr ⟨_, rfl⟩
      · split
        · exact Or.inr ⟨_, rfl⟩
        · split
          · exact Or.inr ⟨_, rfl⟩
          · exact Or.inr ⟨_, rfl⟩

theorem lexLearnsLoop_second : ∀ (fuel : Nat) (start : CStr) (off tempCount : Nat),
    lexLearnsLoop fuel start off tempCount = [] ∨
    ∃ rest, lexLearnsLoop fuel start off tempCount
      = "Geralt".toList :: "learns".toList :: rest
  | 0, _, _, _ => Or.inl rfl
  | fuel + 1, start, off, tempCount => by
    rw [lexLearnsLoop]
    simp only
    split
    · exact Or.inl rfl
    · split
      · exact Or.inl rfl
      · split
        · exact Or.inl rfl
        · split
          · split
            · split
              · exact Or.inl rfl
              · rcases lexLearnsTail_head _ _ with h | ⟨r, h⟩
                · exact Or.inl h
                · exact Or.inr ⟨_, by rw [← h]; rfl⟩
            · exact Or.inl rfl
          · exact lexLearnsLoop_second fuel start _ _

/-- A line whose first token is `Geralt` and whose second token is none of `brews`,
`learns`, `trades` is handled by the final generic loop. -/
theorem genericPath_of_tokens (input : CStr)
    (h0 : tokAt (tokenizeInput input) 0 = "Geralt".toList)
    (h1 : tokAt (tokenizeInput input) 1 ≠ "brews".toList ∧
      tokAt (tokenizeInput input) 1 ≠ "learns".toList ∧
      tokAt (tokenizeInput input) 1 ≠ "trades".toList) :
    genericPath input = true := by
  unfold genericPath
  unfold tokenizeInput at h0 h1
  simp only at h0 h1 ⊢
  split_ifs at h0 h1 ⊢ with a b c d e f g
  · rcases lexWhat_head ((skipSpaces input).drop 4) with h | ⟨r, h⟩
    · rw [h] at h0
      exact absurd h0 (by decide)
    · rw [h] at h0
      exact absurd (show "What".toList = "Geralt".toList from h0) (by decide)
  · rcases lexTotal_head ((skipSpaces input).drop 5) with h | ⟨r, h⟩
    · rw [h] at h0
      exact absurd h0 (by decide)
    · rw [h] at h0
      exact absurd (show "Total".toList = "Geralt".toList from h0) (by decide)
  · exact absurd rfl h1.1
  · exact absurd rfl h1.1
  · rcases lexLearnsLoop_second ((skipSpaces ((skipSpaces ((skipSpaces input).drop 6)).drop 6)).length + 1)
      (skipSpaces ((skipSpaces ((skipSpaces input).drop 6)).drop 6)) 0 0 with h | ⟨r, h⟩
    · rw [h] at h0
      exact absurd h0 (by decide)
    · rw [h] at h1
      exact absurd rfl h1.2.1
  · exact absurd rfl h1.2.2
  · rfl
  · rfl

theorem formulaIngredient_length (w : World) (name : CStr) :
    (formulaIngredient w name).1.ingredients.length ≤ w.ingredients.length + 1 := by
  unfold formulaIngredient
  split
  · exact Nat.le_succ _
  · simp only
    rw [updSlot_length]
    have := firstFree_le (fun (x : Ingredient) => x.name.isEmpty) w.ingredients
    omega

/-- The ingredient loop of `executeFormulaKnowledge` makes at most one record for each
listed item, at the first free slot, so the used part of the table grows by at most the
number of items. -/
theorem formulaLoop_length : ∀ (toks : List CStr) (w : World), formulaItemsOk toks = true →
    (formulaLoop toks w).1.ingredients.length
      ≤ w.ingredients.length + (listedItems toks).length
  | [], w, _ => by simp [formulaLoop, listedItems]
  | [q], _, h => by simp [formulaItemsOk] at h
  | [q, n], w, _ => by
    simp only [formulaLoop, listedItems, List.length_singleton]
    exact formulaIngredient_length w _
  | q :: n :: c :: rest, w, h => by
    simp only [formulaItemsOk, Bool.and_eq_true, beq_iff_eq] at h
    obtain ⟨_, _, ⟨hc, _⟩, hrest⟩ := h
    subst hc
    have h1 := formulaIngredient_length w (stripTrailingComma n)
    have h2 := formulaLoop_length rest (formulaIngredient w (stripTrailingComma n)).1 hrest
    simp only [formulaLoop, beq_self_eq_true, ↓reduceIte, listedItems, List.length_cons]
    omega
/-- C2. A Trade that is answered "Not enough trophies" changes no reported quantity: for
every state `w` (reachable or not) and every line that `isValidCommand` classifies as a
Trade, if `execute_line` prints `Not enough trophies`, then for every name `n` the numbers
that `Total trophy n ?`, `Total ingredient n ?` and `Total potion n ?` report are the same
after the command as before it. -/
theorem trade_failure_keeps_quantities (w : World) (line : CStr)
    (hacc : isValidCommand (inputCopy line) = .ACTION_TRADE)
    (hans : (execute_line w line).out = "Not enough trophies\n".toList) (n : CStr) :
    trophyQuantity (execute_line w line).world n = trophyQuantity w n ∧
    ingredientQuantity (execute_line w line).world n = ingredientQuantity w n ∧
    potionQuantity (execute_line w line).world n = potionQuantity w n := by
  rw [execute_line_eq w line _ hacc (by decide)] at hans ⊢
  simp only [executeCommand, executeTradeAction] at hans ⊢
  split at hans
  · simp only at hans
    exact absurd hans (by decide)
  · rename_i hcheck
    simp only [hcheck]
    refine ⟨rfl, ?_, rfl⟩
    rw [ingredientQuantity_eq, ingredientQuantity_eq]
    exact qtyIn_tradeResolve _ _ _

/-- C2, witness: the Trade of the specification in the initial state. -/
theorem trade_failure_keeps_quantities_witness :
    isValidCommand (inputCopy "Geralt trades 1 Forktail trophy for 2 mandrake".toList)
      = .ACTION_TRADE ∧
    (execute_line World.init "Geralt trades 1 Forktail trophy for 2 mandrake".toList).out
      = "Not enough trophies\n".toList ∧
    ingredientQuantity
      (execute_line World.init "Geralt trades 1 Forktail trophy for 2 mandrake".toList).world
      "mandrake".toList = ingredientQuantity World.init "mandrake".toList :=
  ⟨by decide, by decide,
   (trade_failure_keeps_quantities World.init
      "Geralt trades 1 Forktail trophy for 2 mandrake".toList (by decide) (by decide)
      "mandrake".toList).2.1⟩

/-- C8. Loot sums and commutes.  Start in the initial state and give `execute_line` any
finite sequence of lines, each classified as a Loot, in which the quantities listed for
each name sum to a value within the range of `int` and which lists at most
`MAX_INGREDIENTS` different names, the number of slots of the ingredient table.  Then the
quantity reported for every ingredient name `n` is the sum, over all lines, of the
quantities the line lists for `n`; every permutation of the lines leads to the same
reported quantity for `n`; and the records made, one for each name, fit the table. -/
theorem loot_sums_and_commutes (lines : List CStr)
    (hacc : ∀ l ∈ lines, isValidCommand (inputCopy l) = .ACTION_LOOT)
    (hsum : ∀ l ∈ lines, ∀ it ∈ lootItemsOf l,
      (lines.map (fun l => listedTotal (lootItemsOf l) it.2)).sum ≤ 2147483647)
    (hcap : ((((lines.map lootItemsOf).flatten).map (fun it => it.2)).dedup).length
      ≤ MAX_INGREDIENTS)
    (n : CStr) :
    ingredientQuantity (runLines World.init lines) n
      = (lines.map (fun l => listedTotal (lootItemsOf l) n)).sum ∧
    (∀ lines' : List CStr, lines'.Perm lines →
      ingredientQuantity (runLines World.init lines') n
        = ingredientQuantity (runLines World.init lines) n) ∧
    (runLines World.init lines).num_ingredients ≤ MAX_INGREDIENTS := by
  have hinit : ∀ m, ingredientQuantity World.init m = 0 := fun _ => rfl
  have hall := lines_total_bounded lines hsum
  have hrange : ∀ l ∈ lines, ∀ it ∈ lootItemsOf l, digitsValue 0 it.1 ≤ 2147483647 := by
    intro l hl it hit
    have h1 := mem_le_listedTotal _ it hit
    have h2 := listedTotal_le_lines lines l hl it.2
    have h3 := hall it.2
    omega
  obtain ⟨hnumW, hqW, hmemW, hndW⟩ := runLines_loot lines World.init rfl hacc hrange
    (fun m => by rw [hinit]; decide) (fun m => by rw [hinit, zero_add]; exact hall m)
  have h1 := hqW n
  rw [hinit, zero_add] at h1
  refine ⟨h1, fun lines' hp => ?_, ?_⟩
  · have hall' : ∀ m,
        (lines'.map (fun l => listedTotal (lootItemsOf l) m)).sum ≤ 2147483647 := by
      intro m
      rw [(hp.map _).sum_eq]
      exact hall m
    have h2 := (runLines_loot lines' World.init rfl
      (fun l hl => hacc l (hp.mem_iff.1 hl))
      (fun l hl => hrange l (hp.mem_iff.1 hl))
      (fun m => by rw [hinit]; decide)
      (fun m => by rw [hinit, zero_add]; exact hall' m)).2.1 n
    rw [hinit, zero_add] at h2
    rw [h1, h2]
    exact (hp.map _).sum_eq
  · have hsub : (runLines World.init lines).ingredients.map (fun y => y.name)
        ⊆ (((lines.map lootItemsOf).flatten).map (fun it => it.2)).dedup := by
      intro a ha
      obtain ⟨x, hx, rfl⟩ := List.mem_map.1 ha
      rcases hmemW x hx with h | h
      · exact absurd h (List.not_mem_nil _)
      · exact List.mem_dedup.2 h
    have hlen := (List.Nodup.subperm (hndW List.nodup_nil) hsub).length_le
    rw [List.length_map] at hlen
    rw [hnumW]
    exact hlen.trans hcap

/-- C8, witness: `Geralt loots 3 mandrake` and `Geralt loots 2 ruby, 4 mandrake` give
mandrake 7 in either order, and after `Geralt loots 3 mandrake` alone the query
`Total ingredient mandrake ?` answers 3. -/
theorem loot_sums_and_commutes_witness :
    ingredientQuantity
      (runLines World.init
        ["Geralt loots 3 mandrake".toList, "Geralt loots 2 ruby, 4 mandrake".toList])
      "mandrake".toList = 7 ∧
    ingredientQuantity
      (runLines World.init
        ["Geralt loots 2 ruby, 4 mandrake".toList, "Geralt loots 3 mandrake".toList])
      "mandrake".toList
      = ingredientQuantity
          (runLines World.init
            ["Geralt loots 3 mandrake".toList, "Geralt loots 2 ruby, 4 mandrake".toList])
          "mandrake".toList ∧
    (execute_line (runLines World.init ["Geralt loots 3 mandrake".toList])
      "Total ingredient mandrake ?".toList).out = "3\n".toList :=
  ⟨((loot_sums_and_commutes
      ["Geralt loots 3 mandrake".toList, "Geralt loots 2 ruby, 4 mandrake".toList]
      (by decide) (by decide) (by decide) "mandrake".toList).1).trans (by decide),
   (loot_sums_and_commutes
      ["Geralt loots 3 mandrake".toList, "Geralt loots 2 ruby, 4 mandrake".toList]
      (by decide) (by decide) (by decide) "mandrake".toList).2.1 _ (List.Perm.swap _ _ _),
   by decide⟩

/-- C15: an accepted `Geralt encounters a B` is answered
`Geralt is unprepared and barely escapes with his life` if and only if no beast record is
named `B`, or the record of `B` has no effective sign and none of its effective-potion
entries stands for a potion with stock above 0; with that answer the whole state is
unchanged. -/
theorem encounter_unprepared_iff (w : World) (line : CStr)
    (hacc : isValidCommand (inputCopy line) = .ENCOUNTER) :
    ((execute_line w line).out
        = "Geralt is unprepared and barely escapes with his life\n".toList ↔
      (findBeast w.beasts (tokAt (tokenizeInput (inputCopy line)) 3) = none ∨
       ∃ k, findBeast w.beasts (tokAt (tokenizeInput (inputCopy line)) 3) = some k ∧
         (slotAt w.beasts k).effective_sign_indices = [] ∧
         ∀ e ∈ (slotAt w.beasts k).effective_potion_indices, counterInStock w e = false)) ∧
    ((execute_line w line).out
        = "Geralt is unprepared and barely escapes with his life\n".toList →
      (execute_line w line).world = w) := by
  obtain ⟨hlen, _⟩ := isEncounterSentence_shape _ (isValidCommand_encounter _ hacc)
  rw [execute_line_eq w line _ hacc (by decide)]
  simp only [executeCommand, executeEncounter]
  have hl : ¬ (tokenizeInput (inputCopy line)).length < 4 := by omega
  rw [if_neg hl]
  cases hb : findBeast w.beasts (tokAt (tokenizeInput (inputCopy line)) 3) with
  | none => simp
  | some k =>
    simp only
    have hany : (slotAt w.beasts k).effective_potion_indices.any
          (fun e => (usablePotion w e).isSome)
        = (slotAt w.beasts k).effective_potion_indices.any (counterInStock w) := by
      congr 1
      funext e
      exact usablePotion_isSome w e
    rw [hany]
    cases hp : (slotAt w.beasts k).effective_potion_indices.any (counterInStock w) with
    | true =>
      have hne := defeats_ne_unprepared (tokAt (tokenizeInput (inputCopy line)) 3)
      simp only [Bool.true_or, Bool.not_true, Bool.false_eq_true, ↓reduceIte, hne, false_iff,
        false_implies, and_true]
      rintro (h | ⟨k2, hk2, _, hall⟩)
      · exact absurd h (by simp)
      · have hkk : k = k2 := by simpa using hk2
        subst hkk
        rw [List.any_eq_true] at hp
        obtain ⟨e, he, hes⟩ := hp
        rw [hall e he] at hes
        exact absurd hes (by simp)
    | false =>
      have hall : ∀ e ∈ (slotAt w.beasts k).effective_potion_indices,
          counterInStock w e = false := by
        intro e he
        cases hes : counterInStock w e with
        | false => rfl
        | true =>
          have : (slotAt w.beasts k).effective_potion_indices.any (counterInStock w) = true :=
            List.any_eq_true.2 ⟨e, he, hes⟩
          rw [hp] at this
          exact absurd this (by simp)
      cases hs : (slotAt w.beasts k).effective_sign_indices with
      | nil =>
        simp only [List.length_nil, lt_self_iff_false, decide_False, Bool.and_false,
          Bool.or_self, Bool.not_false, ↓reduceIte, true_iff, implies_true, and_true]
        exact Or.inr ⟨k, rfl, hs, hall⟩
      | cons s ss =>
        have hne := defeats_ne_unprepared (tokAt (tokenizeInput (inputCopy line)) 3)
        have hpos : decide ((s :: ss).length > 0) = true := by simp
        simp only [hpos, Bool.not_false, Bool.and_self, Bool.or_true, Bool.not_true,
          Bool.false_eq_true, ↓reduceIte, hne, false_iff, false_implies, and_true]
        rintro (h | ⟨k2, hk2, hnil, _⟩)
        · exact absurd h (by simp)
        · have hkk : k = k2 := by simpa using hk2
          subst hkk
          rw [hs] at hnil
          cases hnil

/-- C15, witness: `Geralt encounters a Wyvern` in the initial state. -/
theorem encounter_unprepared_iff_witness :
    isValidCommand (inputCopy "Geralt encounters a Wyvern".toList) = .ENCOUNTER ∧
    execute_line World.init "Geralt encounters a Wyvern".toList =
      { ret := 0, out := "Geralt is unprepared and barely escapes with his life\n".toList,
        world := World.init } :=
  ⟨by decide,
   by
    have h := (encounter_unprepared_iff World.init "Geralt encounters a Wyvern".toList
      (by decide)).1.2 (Or.inl (by decide))
    decide⟩

/-- C17: an accepted `Total <category> ?` names one of the three categories and changes
nothing; it prints `None` when no record of the category has a name and a quantity above
0, and otherwise prints exactly one item `<qty> <name>` for each such record (a permutation
of them), in ascending `strcmp` order of the names, joined by `, `. -/
theorem total_category_lists_positive_records (w : World) (line : CStr)
    (hacc : isValidCommand (inputCopy line) = .QUERY_ALL_INVENTORY) :
    (tokAt (tokenizeInput (inputCopy line)) 1 = "ingredient".toList
      ∨ tokAt (tokenizeInput (inputCopy line)) 1 = "potion".toList
      ∨ tokAt (tokenizeInput (inputCopy line)) 1 = "trophy".toList) ∧
    (execute_line w line).world = w ∧
    (positiveRecords w (tokAt (tokenizeInput (inputCopy line)) 1) = [] →
      (execute_line w line).out = "None\n".toList) ∧
    (positiveRecords w (tokAt (tokenizeInput (inputCopy line)) 1) ≠ [] →
      ∃ sorted : List (CStr × Int),
        sorted.Perm (positiveRecords w (tokAt (tokenizeInput (inputCopy line)) 1)) ∧
        sorted.Pairwise (fun a b => strcmp a.1 b.1 ≤ 0) ∧
        (execute_line w line).out =
          joinItems (sorted.map (fun it => fmtItem it.2 it.1)) ++ "\n".toList) := by
  have hcat := (isInventoryQuery_shape _ (isValidCommand_all _ hacc).1).1
  refine ⟨hcat, ?_⟩
  rw [execute_line_eq w line _ hacc (by decide)]
  simp only [executeCommand]
  rw [executeAllInventoryQuery_eq w _ hcat]
  refine ⟨?_, ?_, ?_⟩
  · split_ifs <;> rfl
  · intro h
    rw [if_pos h]
  · intro h
    rw [if_neg h]
    exact ⟨_, bubbleSort_perm _ _, nameSorted_of_bubbleSort (fun (a : CStr × Int) => a.1) _,
      rfl⟩

/-- C17, witness: after `Geralt loots 2 b, 1 a` the query `Total ingredient ?` answers
`1 a, 2 b` and changes nothing. -/
theorem total_category_lists_positive_records_witness :
    isValidCommand (inputCopy "Total ingredient ?".toList) = .QUERY_ALL_INVENTORY ∧
    (execute_line (runLines World.init ["Geralt loots 2 b, 1 a".toList])
      "Total ingredient ?".toList).world = runLines World.init ["Geralt loots 2 b, 1 a".toList] ∧
    (execute_line (runLines World.init ["Geralt loots 2 b, 1 a".toList])
      "Total ingredient ?".toList).out = "1 a, 2 b\n".toList :=
  ⟨by decide,
   (total_category_lists_positive_records
      (runLines World.init ["Geralt loots 2 b, 1 a".toList]) "Total ingredient ?".toList
      (by decide)).2.1,
   by decide⟩

/-- C18: an accepted `Total <category> <name> ?` has four tokens, names one of the three
categories and changes nothing; it prints the quantity of the first record of that category
whose name is exactly `<name>`, and 0 when there is no such record.  The name is a run of
letters, or for a potion words of letters separated by single spaces. -/
theorem total_category_name_reports_quantity (w : World) (line : CStr)
    (hacc : isValidCommand (inputCopy line) = .QUERY_SPECIFIC_INVENTORY) :
    (tokenizeInput (inputCopy line)).length = 4 ∧
    (execute_line w line).world = w ∧
    ((tokAt (tokenizeInput (inputCopy line)) 1 = "ingredient".toList ∧
        isAlphabeticOnly (tokAt (tokenizeInput (inputCopy line)) 2) = true ∧
        (execute_line w line).out =
          fmtInt (qtyIn w.ingredients (tokAt (tokenizeInput (inputCopy line)) 2))
            ++ "\n".toList) ∨
     (tokAt (tokenizeInput (inputCopy line)) 1 = "potion".toList ∧
        isValidPotionNameToken (tokAt (tokenizeInput (inputCopy line)) 2) = true ∧
        (execute_line w line).out =
          fmtInt (potionQtyIn w.potions (tokAt (tokenizeInput (inputCopy line)) 2))
            ++ "\n".toList) ∨
     (tokAt (tokenizeInput (inputCopy line)) 1 = "trophy".toList ∧
        isAlphabeticOnly (tokAt (tokenizeInput (inputCopy line)) 2) = true ∧
        (execute_line w line).out =
          fmtInt (trophyQtyIn w.trophies (tokAt (tokenizeInput (inputCopy line)) 2))
            ++ "\n".toList)) := by
  obtain ⟨h1, h2⟩ := isValidCommand_specific _ hacc
  obtain ⟨hcat, hlen, hname⟩ := isInventoryQuery_shape _ h1
  obtain ⟨hpn, han⟩ := hname h2
  rw [h2] at hlen
  have hlen4 : (tokenizeInput (inputCopy line)).length = 4 := by simpa using hlen.symm
  refine ⟨hlen4, ?_⟩
  rw [execute_line_eq w line _ hacc (by decide)]
  simp only [executeCommand, executeSpecificInventoryQuery]
  rcases hcat with hc | hc | hc
  · have hnp : tokAt (tokenizeInput (inputCopy line)) 1 ≠ "potion".toList := by
      rw [hc]; decide
    rw [hc]
    exact ⟨rfl, Or.inl ⟨rfl, han hnp, by rw [← ingredientQuantity_eq]; rfl⟩⟩
  · rw [hc]
    exact ⟨rfl, Or.inr (Or.inl ⟨rfl, hpn hc, by rw [← potionQuantity_eq]; rfl⟩)⟩
  · have hnp : tokAt (tokenizeInput (inputCopy line)) 1 ≠ "potion".toList := by
      rw [hc]; decide
    rw [hc]
    exact ⟨rfl, Or.inr (Or.inr ⟨rfl, han hnp, by rw [← trophyQuantity_eq]; rfl⟩)⟩

/-- C18, witness: the potion name `Black Blood` of two words is one token; the query
answers the stock 2, and 0 in the initial state. -/
theorem total_category_name_reports_quantity_witness :
    isValidCommand (inputCopy "Total potion Black Blood ?".toList) = .QUERY_SPECIFIC_INVENTORY ∧
    tokenizeInput (inputCopy "Total potion Black Blood ?".toList)
      = ["Total".toList, "potion".toList, "Black Blood".toList, "?".toList] ∧
    (execute_line (runLines World.init
        ["Geralt learns Black Blood potion consists of 1 Rebis".toList,
         "Geralt loots 5 Rebis".toList, "Geralt brews Black Blood".toList,
         "Geralt brews Black Blood".toList])
      "Total potion Black Blood ?".toList).out = "2\n".toList ∧
    (execute_line World.init "Total potion Black Blood ?".toList).out = "0\n".toList :=
  ⟨by decide, by decide, by decide,
   by
    have h := (total_category_name_reports_quantity World.init
      "Total potion Black Blood ?".toList (by decide)).2.1
    decide⟩

/-- C20: the bubble sort of `executeAlchemyQuery` returns, for every requirement list, a
permutation of it in which every adjacent pair (and every earlier/later pair) has the
greater quantity first, or equal quantities and `strcmp` of the names at most 0; an accepted
`What is in N ?` answers `No formula for N` when no potion is named `N`, and otherwise
prints the requirements of the potion in that order, as `<qty> <name>` joined by `, `. -/
theorem alchemy_query_sorts_requirements (w : World) (line : CStr)
    (hacc : isValidCommand (inputCopy line) = .QUERY_ALCHEMY) :
    (∀ reqs : List (CStr × Int),
      (bubbleSort alchemySwap reqs).Perm reqs ∧
      (bubbleSort alchemySwap reqs).Chain'
        (fun a b => a.2 > b.2 ∨ (a.2 = b.2 ∧ strcmp a.1 b.1 ≤ 0)) ∧
      (bubbleSort alchemySwap reqs).Pairwise
        (fun a b => a.2 > b.2 ∨ (a.2 = b.2 ∧ strcmp a.1 b.1 ≤ 0))) ∧
    (findPotion w.potions (tokAt (tokenizeInput (inputCopy line)) 3) = none →
      execute_line w line =
        { ret := 0,
          out := "No formula for ".toList ++ tokAt (tokenizeInput (inputCopy line)) 3
            ++ "\n".toList,
          world := w }) ∧
    (∀ k, findPotion w.potions (tokAt (tokenizeInput (inputCopy line)) 3) = some k →
      execute_line w line =
        { ret := 0,
          out := joinItems ((bubbleSort alchemySwap
              (((slotAt w.potions k).requirements.filter
                (fun r => !(slotAt w.ingredients r.1).name.isEmpty)).map
                  (fun r => ((slotAt w.ingredients r.1).name, r.2)))).map
                (fun it => fmtItem it.2 it.1)) ++ "\n".toList,
          world := w }) := by
  have hp : ∀ reqs : List (CStr × Int), (bubbleSort alchemySwap reqs).Pairwise
      (fun a b => a.2 > b.2 ∨ (a.2 = b.2 ∧ strcmp a.1 b.1 ≤ 0)) := by
    intro reqs
    have h := bubbleSort_sorted alchemySwap alchemySwap_total alchemySwap_trans reqs
    exact h.imp (fun {a b} hab => (alchemySwap_false_iff a b).1 hab)
  refine ⟨fun reqs => ⟨bubbleSort_perm _ _, (hp reqs).chain', hp reqs⟩, ?_, ?_⟩
  · intro hnone
    rw [execute_line_eq w line _ hacc (by decide)]
    simp only [executeCommand, executeAlchemyQuery, hnone]
  · intro k hk
    rw [execute_line_eq w line _ hacc (by decide)]
    simp only [executeCommand, executeAlchemyQuery, hk]

/-- C20, witness: `What is in Swallow ?` in the initial state. -/
theorem alchemy_query_sorts_requirements_witness :
    isValidCommand (inputCopy "What is in Swallow ?".toList) = .QUERY_ALCHEMY ∧
    execute_line World.init "What is in Swallow ?".toList =
      { ret := 0, out := "No formula for Swallow\n".toList, world := World.init } :=
  ⟨by decide,
   by
    have h := (alchemy_query_sorts_requirements World.init "What is in Swallow ?".toList
      (by decide)).2.1 (by decide)
    rw [h]
    decide⟩

/-- C12 (amended): for every state with no potion named `X` in which the potion table has
a free slot and the ingredient table has room for the items of the line, and every
accepted line `Geralt learns X potion consists of q1 n1, ..., qk nk` of at most
`MAX_TOKENS` tokens whose quantities fit in an `int`, the command answers
`New alchemy formula obtained: X`, and an accepted `What is in X ?` given right after it
answers exactly the items `qi ni` of the line (a permutation of them), ordered by quantity
descending, then by name ascending (`strcmp`), joined by `, `; the potion is stored in a
slot of the potion table and the ingredient records in slots of the ingredient table. -/
theorem formula_round_trip (w : World) (line query : CStr)
    (hacc : isValidCommand (inputCopy line) = .KNOWLEDGE_POTION_FORMULA)
    (h3 : tokAt (tokenizeInput (inputCopy line)) 3 = "potion".toList)
    (hnew : findPotion w.potions (tokAt (tokenizeInput (inputCopy line)) 2) = none)
    (hrange : ∀ it ∈ formulaItemsOf line, digitsValue 0 it.1 ≤ 2147483647)
    (hfit : (tokenizeInput (inputCopy line)).length ≤ MAX_TOKENS)
    (hpot : firstFree (fun (p : Potion) => p.name.isEmpty) w.potions < MAX_POTIONS)
    (hing : w.ingredients.length + (formulaItemsOf line).length ≤ MAX_INGREDIENTS)
    (hq : isValidCommand (inputCopy query) = .QUERY_ALCHEMY)
    (hqn : tokAt (tokenizeInput (inputCopy query)) 3
      = tokAt (tokenizeInput (inputCopy line)) 2) :
    (execute_line w line).out = "New alchemy formula obtained: ".toList
      ++ tokAt (tokenizeInput (inputCopy line)) 2 ++ "\n".toList ∧
    (∃ k, k < MAX_POTIONS ∧ findPotion (execute_line w line).world.potions
        (tokAt (tokenizeInput (inputCopy line)) 2) = some k) ∧
    (execute_line w line).world.ingredients.length ≤ MAX_INGREDIENTS ∧
    ∃ sorted : List (CStr × CStr),
      sorted.Perm (formulaItemsOf line) ∧
      sorted.Pairwise (fun a b => digitsValue 0 a.1 > digitsValue 0 b.1
        ∨ (digitsValue 0 a.1 = digitsValue 0 b.1 ∧ strcmp a.2 b.2 ≤ 0)) ∧
      (execute_line (execute_line w line).world query).out
        = joinItems (sorted.map (fun it => it.1 ++ [' '] ++ it.2)) ++ "\n".toList := by
  obtain ⟨hname, hitems⟩ :=
    isPotionFormulaKnowledge_shape _ (isValidCommand_formula _ hacc) h3
  have hX := isValidPotionNameToken_ne_nil _ hname
  have hok := formulaItemsOk_items _ hitems
  have hp3 : (tokAt (tokenizeInput (inputCopy line)) 3 != "potion".toList) = false := by
    rw [h3]; decide
  -- the state after the formula line
  have hexec : execute_line w line =
      { ret := 0,
        out := "New alchemy formula obtained: ".toList
          ++ tokAt (tokenizeInput (inputCopy line)) 2 ++ "\n".toList,
        world := { (formulaLoop ((tokenizeInput (inputCopy line)).drop 6) w).1 with
          potions := updSlot (fun _ =>
            ({ name := tokAt (tokenizeInput (inputCopy line)) 2,
               requirements := (formulaLoop ((tokenizeInput (inputCopy line)).drop 6) w).2,
               quantity := 0 } : Potion))
            w.potions (firstFree (fun (p : Potion) => p.name.isEmpty) w.potions)
          potionsCount := w.potionsCount + 1 } } := by
    rw [execute_line_eq w line _ hacc (by decide)]
    simp only [executeCommand, executeFormulaKnowledge, hp3, Bool.false_eq_true, ↓reduceIte,
      hnew]
  rw [hexec]
  have hfind := findPotion_added w.potions
    { name := tokAt (tokenizeInput (inputCopy line)) 2,
      requirements := (formulaLoop ((tokenizeInput (inputCopy line)).drop 6) w).2,
      quantity := 0 } hX hnew
  have hroom : (formulaLoop ((tokenizeInput (inputCopy line)).drop 6) w).1.ingredients.length
      ≤ MAX_INGREDIENTS :=
    (formulaLoop_length _ w hitems).trans hing
  refine ⟨rfl, ⟨_, hpot, hfind⟩, hroom, ?_⟩
  rw [execute_line_eq _ query _ hq (by decide)]
  simp only [executeCommand, executeAlchemyQuery, hqn, hfind, slotAt_updSlot, ↓reduceIte]
  have hspec := formulaLoop_spec ((tokenizeInput (inputCopy line)).drop 6) w hitems
  have hentries : ∀ e ∈ toEntries (formulaItemsOf line), e.1 ≠ [] := by
    intro e he
    unfold toEntries at he
    obtain ⟨it, hit, rfl⟩ := List.mem_map.1 he
    exact isAlphabeticOnly_ne_nil _ (hok it hit).2
  have hfilter : (formulaLoop ((tokenizeInput (inputCopy line)).drop 6) w).2.filter
      (fun r => !(slotAt (formulaLoop ((tokenizeInput (inputCopy line)).drop 6) w).1.ingredients
        r.1).name.isEmpty)
      = (formulaLoop ((tokenizeInput (inputCopy line)).drop 6) w).2 := by
    rw [List.filter_eq_self]
    intro r hr
    have hm : ((slotAt (formulaLoop ((tokenizeInput (inputCopy line)).drop 6) w).1.ingredients
        r.1).name, r.2) ∈ toEntries (formulaItemsOf line) := by
      unfold formulaItemsOf
      rw [← hspec]
      exact List.mem_map.2 ⟨r, hr, rfl⟩
    have := hentries _ hm
    cases hn : (slotAt (formulaLoop ((tokenizeInput (inputCopy line)).drop 6) w).1.ingredients
        r.1).name with
    | nil => exact absurd hn this
    | cons a as => rfl
  rw [hfilter, hspec]
  -- the sort, carried back to the listed items
  have hmap : toEntries (listedItems ((tokenizeInput (inputCopy line)).drop 6))
      = (formulaItemsOf line).map (fun it => (it.2, atoi it.1)) := rfl
  rw [hmap, bubbleSort_map]
  have hperm := bubbleSort_perm
    (fun (a b : CStr × CStr) => alchemySwap (a.2, atoi a.1) (b.2, atoi b.1)) (formulaItemsOf line)
  have hsorted := bubbleSort_sorted
    (fun (a b : CStr × CStr) => alchemySwap (a.2, atoi a.1) (b.2, atoi b.1))
    (fun a b => alchemySwap_total _ _) (fun a b c => alchemySwap_trans _ _ _)
    (formulaItemsOf line)
  have hin : ∀ it ∈ bubbleSort
      (fun (a b : CStr × CStr) => alchemySwap (a.2, atoi a.1) (b.2, atoi b.1))
      (formulaItemsOf line),
      isPositiveInteger it.1 = true ∧ digitsValue 0 it.1 ≤ 2147483647 := by
    intro it hit
    have hmem := hperm.mem_iff.1 hit
    exact ⟨(hok it hmem).1, hrange it hmem⟩
  refine ⟨_, hperm, ?_, ?_⟩
  · refine (List.Pairwise.and_mem.1 hsorted).imp ?_
    rintro a b ⟨ha, hb, hab⟩
    have h1 := (alchemySwap_false_iff _ _).1 hab
    simp only at h1
    rw [atoi_eq_digitsValue a.1 (hin a ha).1 (hin a ha).2,
      atoi_eq_digitsValue b.1 (hin b hb).1 (hin b hb).2] at h1
    rcases h1 with h1 | ⟨h1, h2⟩
    · left
      exact_mod_cast h1
    · right
      exact ⟨by exact_mod_cast h1, h2⟩
  · have hfmt : ((bubbleSort
          (fun (a b : CStr × CStr) => alchemySwap (a.2, atoi a.1) (b.2, atoi b.1))
          (formulaItemsOf line)).map (fun it => (it.2, atoi it.1))).map
          (fun (it : CStr × Int) => fmtItem it.2 it.1)
        = (bubbleSort
          (fun (a b : CStr × CStr) => alchemySwap (a.2, atoi a.1) (b.2, atoi b.1))
          (formulaItemsOf line)).map (fun it => it.1 ++ [' '] ++ it.2) := by
      rw [List.map_map]
      apply List.map_congr_left
      intro it hit
      simp only [Function.comp, fmtItem]
      rw [fmtInt_atoi it.1 (hin it hit).1 (hin it hit).2]
    rw [hfmt]

/-- C12, witness: `2 mandrake, 1 ruby` yields `2 mandrake, 1 ruby`; a list with a tie is
ordered by name within the tie. -/
theorem formula_round_trip_witness :
    isValidCommand
      (inputCopy "Geralt learns Swallow potion consists of 2 mandrake, 1 ruby".toList)
      = .KNOWLEDGE_POTION_FORMULA ∧
    isValidCommand (inputCopy "What is in Swallow ?".toList) = .QUERY_ALCHEMY ∧
    (execute_line World.init
      "Geralt learns Swallow potion consists of 2 mandrake, 1 ruby".toList).out
      = "New alchemy formula obtained: Swallow\n".toList ∧
    (execute_line
      (execute_line World.init
        "Geralt learns Swallow potion consists of 2 mandrake, 1 ruby".toList).world
      "What is in Swallow ?".toList).out = "2 mandrake, 1 ruby\n".toList ∧
    (execute_line
      (execute_line World.init
        "Geralt learns Black Blood potion consists of 1 ruby, 3 sage, 3 mandrake".toList).world
      "What is in Black Blood ?".toList).out = "3 mandrake, 3 sage, 1 ruby\n".toList :=
  ⟨by decide, by decide,
   by
    have h := (formula_round_trip World.init
      "Geralt learns Swallow potion consists of 2 mandrake, 1 ruby".toList
      "What is in Swallow ?".toList (by decide) (by decide) (by decide) (by decide)
      (by decide) (by decide) (by decide) (by decide) (by decide)).1
    rw [h]
    decide,
   by decide, by decide⟩

/-- C29: for every token whose decimal value, if it is a run of digits, fits in a 32-bit
`int`, `isPositiveInteger` returns true if and only if the token is a non-empty string of
decimal digits whose first digit is not `0`; every accepted token denotes a value of at
least 1, which is what `atoi` returns. -/
theorem isPositiveInteger_iff_digits (t : CStr)
    (hfit : t.all isdigit = true → digitsValue 0 t ≤ 2147483647) :
    (isPositiveInteger t = true ↔
      (t ≠ [] ∧ t.all isdigit = true ∧ t.head? ≠ some '0')) ∧
    (isPositiveInteger t = true → 1 ≤ digitsValue 0 t ∧ atoi t = (digitsValue 0 t : Int)) := by
  cases t with
  | nil => simp [isPositiveInteger]
  | cons c rest =>
    have key : ∀ (_ : (c :: rest).all isdigit = true) (_ : c ≠ '0'),
        1 ≤ digitsValue 0 (c :: rest) ∧
        atoi (c :: rest) = (digitsValue 0 (c :: rest) : Int) := by
      intro hall h0
      have hc : isdigit c = true := by
        simp only [List.all_cons, Bool.and_eq_true] at hall
        exact hall.1
      refine ⟨?_, atoi_of_digits c rest hall (hfit hall)⟩
      rw [digitsValue_cons, Nat.zero_mul, Nat.zero_add]
      have h1 := digitVal_pos c hc h0
      have h2 := digitsValue_ge rest (digitVal c)
      omega
    have hacc : isPositiveInteger (c :: rest) = true →
        (c :: rest).all isdigit = true ∧ c ≠ '0' := by
      intro h
      have hpos := isPositiveInteger_atoi_pos _ h
      unfold isPositiveInteger at h
      simp only at h
      split_ifs at h with h1 h2
      have hall : (c :: rest).all isdigit = true := by simpa using h2
      refine ⟨hall, ?_⟩
      rintro rfl
      cases rest with
      | nil =>
        have : atoi ['0'] = 0 := by decide
        rw [this] at hpos
        omega
      | cons r rs => simp at h1
    refine ⟨⟨fun h => ?_, fun h => ?_⟩, fun h => key (hacc h).1 (hacc h).2⟩
    · obtain ⟨hall, h0⟩ := hacc h
      exact ⟨by simp, hall, by simpa using h0⟩
    · obtain ⟨_, hall, h0⟩ := h
      have h0' : c ≠ '0' := by simpa using h0
      obtain ⟨h1, h2⟩ := key hall h0'
      unfold isPositiveInteger
      have hc0 : (c == '0') = false := by simpa using h0'
      simp only [hc0, Bool.false_and, Bool.false_eq_true, ↓reduceIte, hall, Bool.not_true,
        decide_eq_true_eq]
      rw [h2]
      exact_mod_cast h1

/-- C29, witness: `42` is accepted with value 42; `0`, `007`, `-3`, `3x`, `+3` and the
empty token are rejected. -/
theorem isPositiveInteger_iff_digits_witness :
    isPositiveInteger "42".toList = true ∧ atoi "42".toList = 42 ∧
    isPositiveInteger "0".toList = false ∧ isPositiveInteger "007".toList = false ∧
    isPositiveInteger "-3".toList = false ∧ isPositiveInteger "3x".toList = false ∧
    isPositiveInteger "+3".toList = false ∧ isPositiveInteger [] = false :=
  ⟨((isPositiveInteger_iff_digits "42".toList (fun _ => by decide)).1).2
      ⟨by decide, by decide, by decide⟩,
   by decide, by decide, by decide, by decide, by decide, by decide, by decide⟩

/-- C27: for every state and every line classified as `QUERY_SPECIFIC_INVENTORY`,
`QUERY_ALL_INVENTORY`, `QUERY_BESTIARY`, `QUERY_ALCHEMY` or `EXIT_COMMAND`, the state after
`execute_line` is the state before (all tables and counters), so the same line given again
has the same outcome. -/
theorem queries_are_read_only (w : World) (line : CStr)
    (hq : isValidCommand (inputCopy line) = .QUERY_SPECIFIC_INVENTORY
      ∨ isValidCommand (inputCopy line) = .QUERY_ALL_INVENTORY
      ∨ isValidCommand (inputCopy line) = .QUERY_BESTIARY
      ∨ isValidCommand (inputCopy line) = .QUERY_ALCHEMY
      ∨ isValidCommand (inputCopy line) = .EXIT_COMMAND) :
    (execute_line w line).world = w ∧
    execute_line (execute_line w line).world line = execute_line w line := by
  have hv : isValidCommand (inputCopy line) ≠ .INVALID_COMMAND := by
    rcases hq with h | h | h | h | h <;> rw [h] <;> decide
  have hw : (execute_line w line).world = w := by
    rw [execute_line_eq w line _ rfl hv]
    exact executeCommand_query_world w _ _ hq
  exact ⟨hw, by rw [hw]⟩

/-- C27, witness: `Total ingredient ?` after a Loot leaves the state as it is. -/
theorem queries_are_read_only_witness :
    isValidCommand (inputCopy "Total ingredient ?".toList) = .QUERY_ALL_INVENTORY ∧
    (execute_line (runLines World.init ["Geralt loots 2 Rebis".toList])
      "Total ingredient ?".toList).world = runLines World.init ["Geralt loots 2 Rebis".toList] ∧
    (execute_line (runLines World.init ["Geralt loots 2 Rebis".toList])
      "Total ingredient ?".toList).out = "2 Rebis\n".toList :=
  ⟨by decide,
   (queries_are_read_only (runLines World.init ["Geralt loots 2 Rebis".toList])
      "Total ingredient ?".toList (Or.inr (Or.inl (by decide)))).1,
   by decide⟩

/-- C28: in every state reached from the initial state by lines none of which is answered
`Alchemy item created: ...`, every potion record and every potion slot has stock 0, and
`Total potion ?` is classified as a query of all potions and answers `None`. -/
theorem no_brew_no_potions (w : World) (h : ReachableNoBrew w) :
    (∀ p ∈ w.potions, p.quantity = 0) ∧
    (∀ k, (slotAt w.potions k).quantity = 0) ∧
    isValidCommand (inputCopy "Total potion ?".toList) = .QUERY_ALL_INVENTORY ∧
    execute_line w "Total potion ?".toList = { ret := 0, out := "None\n".toList, world := w } := by
  have hall : ∀ p ∈ w.potions, p.quantity = 0 := by
    induction h with
    | init =>
      intro p hp
      simp [World.init] at hp
    | step v line _ hout ih => exact no_stock_step v line ih hout
  have hq : isValidCommand (inputCopy "Total potion ?".toList) = .QUERY_ALL_INVENTORY := by
    decide
  have hcat : tokAt (tokenizeInput (inputCopy "Total potion ?".toList)) 1 = "potion".toList := by
    decide
  refine ⟨hall, fun k => ?_, hq, ?_⟩
  · rcases Nat.lt_or_ge k w.potions.length with hk | hk
    · exact hall _ (slotAt_mem w.potions k hk)
    · rw [slotAt_of_le w.potions k hk]
      rfl
  · rw [execute_line_eq w _ _ hq (by decide)]
    simp only [executeCommand]
    rw [executeAllInventoryQuery_eq w _ (Or.inr (Or.inl hcat)), hcat]
    have hnone : positiveRecords w "potion".toList = [] := by
      have hne : ("potion".toList = "ingredient".toList) = False := by decide
      simp only [positiveRecords, hne, ↓reduceIte, List.map_eq_nil_iff, List.filter_eq_nil_iff]
      intro p hp
      simp [hall p hp]
    rw [if_pos hnone]

/-- C28, witness: after a formula, a Loot that does not cover it, a failed Brew, an
effectiveness line and an encounter, `Total potion ?` answers `None`. -/
theorem no_brew_no_potions_witness :
    (execute_line (runLines World.init
        ["Geralt learns Swallow potion consists of 2 Rebis".toList,
         "Geralt loots 1 Rebis".toList,
         "Geralt brews Swallow".toList,
         "Geralt learns Swallow potion is effective against Wolf".toList,
         "Geralt learns Igni sign is effective against Wolf".toList,
         "Geralt encounters a Wolf".toList])
      "Total potion ?".toList).out = "None\n".toList ∧
    (execute_line (runLines World.init
        ["Geralt learns Swallow potion consists of 2 Rebis".toList,
         "Geralt loots 1 Rebis".toList])
      "Geralt brews Swallow".toList).out = "Not enough ingredients\n".toList :=
  ⟨congrArg Outcome.out (no_brew_no_potions _
      (ReachableNoBrew.step _ "Geralt encounters a Wolf".toList
        (ReachableNoBrew.step _ "Geralt learns Igni sign is effective against Wolf".toList
          (ReachableNoBrew.step _ "Geralt learns Swallow potion is effective against Wolf".toList
            (ReachableNoBrew.step _ "Geralt brews Swallow".toList
              (ReachableNoBrew.step _ "Geralt loots 1 Rebis".toList
                (ReachableNoBrew.step _ "Geralt learns Swallow potion consists of 2 Rebis".toList
                  ReachableNoBrew.init (by decide))
                (by decide))
              (by decide))
            (by decide))
          (by decide))
        (by decide))).2.2.2,
   by decide⟩

/-- C23: `isLootAction` returns true if and only if the tokens of its input are `Geralt`,
`loots` and then one or more items `Int Name` separated by single `,` tokens, with `Int`
accepted by `isPositiveInteger` and `Name` by `isAlphabeticOnly`; and a line whose tokens
begin `Geralt loots` without being of that form is rejected by `execute_line` with the
state unchanged. -/
theorem isLootAction_iff_grammar (input : CStr) :
    (isLootAction input = true ↔
      ∃ items : List (CStr × CStr), items ≠ [] ∧
        (∀ it ∈ items, isPositiveInteger it.1 = true ∧ isAlphabeticOnly it.2 = true) ∧
        tokenizeInput input = "Geralt".toList :: "loots".toList :: itemTokens items) ∧
    (∀ (w : World) (line : CStr),
      tokAt (tokenizeInput (inputCopy line)) 1 = "loots".toList →
      isLootAction (inputCopy line) = false →
      execute_line w line = { ret := -1, out := [], world := w }) := by
  refine ⟨⟨fun h => ?_, fun h => ?_⟩, fun w line h1 hl => ?_⟩
  · have hitems := isLootAction_items input h
    obtain ⟨k0, k1⟩ := isLootAction_keywords input h
    unfold isLootAction at h
    simp only at h
    split_ifs at h with a1 a2 a3 a4 a5
    generalize tokenizeInput input = toks at *
    match toks, a2 with
    | t0 :: t1 :: r1 :: r2 :: rest, _ =>
      have e0 : t0 = "Geralt".toList := k0
      have e1 : t1 = "loots".toList := k1
      subst e0 e1
      have hl : (r1 :: r2 :: rest).getLast? ≠ some [','] := by
        intro hh
        apply a5
        unfold lastIsComma
        simp only [List.getLast?_cons_cons]
        simpa using hh
      obtain ⟨h1, h2⟩ := lootItemsOk_eq_itemTokens (r1 :: r2 :: rest) hitems (by simp) hl
      refine ⟨listedItems (r1 :: r2 :: rest), h2, (lootLoop_eq _ World.init hitems).2, ?_⟩
      rw [← h1]
    | [], hh => exact absurd (by simp) hh
    | [_], hh => exact absurd (by simp) hh
    | [_, _], hh => exact absurd (by simp) hh
    | [_, _, _], hh => exact absurd (by simp) hh
  · obtain ⟨items, hne, hval, htok⟩ := h
    obtain ⟨q, n, r, hr⟩ := itemTokens_ne_nil items hne
    have hmark : hasCommaSpacingError (tokenizeInput input) = false := by
      rw [htok]
      unfold hasCommaSpacingError
      rw [List.any_eq_false]
      intro t ht
      simp only [List.mem_cons] at ht
      rcases ht with rfl | rfl | ht
      · decide
      · decide
      · rcases itemTokens_mem items t ht with rfl | ⟨it, hit, rfl | rfl⟩
        · decide
        · intro hm
          have h1 := (hval it hit).1
          have : it.1 = "ERROR_NO_SPACE_AFTER_COMMA".toList := by simpa using hm
          rw [this] at h1
          exact absurd h1 (by decide)
        · intro hm
          have h1 := (hval it hit).2
          have : it.2 = "ERROR_NO_SPACE_AFTER_COMMA".toList := by simpa using hm
          rw [this] at h1
          exact absurd h1 (by decide)
    have hlast : lastIsComma (tokenizeInput input) = false := by
      rw [htok]
      unfold lastIsComma
      obtain ⟨it, hit, hl⟩ := itemTokens_getLast items hne
      rw [hr] at hl ⊢
      simp only [List.getLast?_cons_cons] at hl ⊢
      rw [hl]
      have h1 := (hval it hit).2
      have hne2 : it.2 ≠ [','] := by
        intro he
        rw [he] at h1
        exact absurd h1 (by decide)
      simpa using hne2
    have hok := lootItemsOk_itemTokens items hval
    unfold isLootAction
    simp only [hmark, hlast, Bool.false_eq_true, ↓reduceIte]
    rw [htok, hr]
    rw [hr] at hok
    simp [tokAt, hok]
  · have hv := loots_only_loot (inputCopy line) h1 hl
    unfold execute_line
    rw [hv]
    split_ifs <;> rfl

/-- C23, witness: two items are accepted; a trailing comma, an empty list, a missing name
and a missing comma are rejected and leave the state as it is. -/
theorem isLootAction_iff_grammar_witness :
    isLootAction "Geralt loots 3 mandrake, 2 ruby".toList = true ∧
    isLootAction "Geralt loots 3 mandrake,".toList = false ∧
    isLootAction "Geralt loots".toList = false ∧
    isLootAction "Geralt loots 3".toList = false ∧
    isLootAction "Geralt loots 3 mandrake 2 ruby".toList = false ∧
    execute_line World.init "Geralt loots 3 mandrake 2 ruby".toList
      = { ret := -1, out := [], world := World.init } :=
  ⟨(isLootAction_iff_grammar "Geralt loots 3 mandrake, 2 ruby".toList).1.2
      ⟨[("3".toList, "mandrake".toList), ("2".toList, "ruby".toList)], by decide, by decide,
        by decide⟩,
   by decide, by decide, by decide, by decide, by decide⟩

/-- C22 (amended): `isTradeAction` returns true if and only if the tokens of its input are
`Geralt`, `trades`, one or more trophy items `Int Name` separated by single `,` tokens, the
keyword `trophy` once, `for`, and one or more items `Int Name` separated by single `,`
tokens, where every `Int` is accepted by `isPositiveInteger`, every `Name` is a single
token accepted by `isAlphabeticOnly`, and no trophy name is the word `for`. -/
theorem isTradeAction_iff_grammar (input : CStr) :
    isTradeAction input = true ↔
      ∃ trophies items : List (CStr × CStr), trophies ≠ [] ∧ items ≠ [] ∧
        (∀ t ∈ trophies, isPositiveInteger t.1 = true ∧ isAlphabeticOnly t.2 = true) ∧
        (∀ it ∈ items, isPositiveInteger it.1 = true ∧ isAlphabeticOnly it.2 = true) ∧
        (∀ t ∈ trophies, t.2 ≠ "for".toList) ∧
        tokenizeInput input = "Geralt".toList :: "trades".toList ::
          (itemTokens trophies ++ "trophy".toList :: "for".toList :: itemTokens items) :=
  ⟨isTradeAction_grammar input, fun ⟨trophies, items, ht, hi, hvt, hvi, hfor, htok⟩ =>
    isTradeAction_tokens input trophies items ht hi hvt hvi hfor htok⟩

/-- C22 (amended), witness: two trophy items with the keyword `trophy` once at the end are
accepted through the grammar, and the tokens of that line are the ones the grammar names. -/
theorem isTradeAction_iff_grammar_witness :
    isTradeAction "Geralt trades 1 Wolf, 1 Bear trophy for 2 mandrake, 3 ruby".toList = true ∧
    tokenizeInput "Geralt trades 1 Wolf, 1 Bear trophy for 2 mandrake, 3 ruby".toList
      = "Geralt".toList :: "trades".toList ::
          (itemTokens [("1".toList, "Wolf".toList), ("1".toList, "Bear".toList)]
            ++ "trophy".toList :: "for".toList ::
              itemTokens [("2".toList, "mandrake".toList), ("3".toList, "ruby".toList)]) :=
  ⟨(isTradeAction_iff_grammar
      "Geralt trades 1 Wolf, 1 Bear trophy for 2 mandrake, 3 ruby".toList).2
      ⟨[("1".toList, "Wolf".toList), ("1".toList, "Bear".toList)],
       [("2".toList, "mandrake".toList), ("3".toList, "ruby".toList)],
       by decide, by decide, by decide, by decide, by decide, by decide⟩,
   by decide⟩

/-- C30: for a line `Geralt learns <name> K is effective against <beast>` that fits the
input buffer, where `<name>` is not empty and has no white space at either end, `K` is
`sign` or `potion` and no word of `<name>` is `sign` or `potion`, and `<beast>` does not
begin with white space: `isEffectivenessKnowledge` accepts the line if and only if
`<beast>` is a single alphabetic word and `<name>` is a single alphabetic word when `K` is
`sign`, and one or more alphabetic words separated by exactly one space when `K` is
`potion`; and then the tokens are `Geralt`, `learns`, the whole `<name>`, `K`, `is`,
`effective`, `against`, `<beast>`. -/
theorem effectiveness_keyword_decides_name_form (name K beast : CStr)
    (hK : K = "sign".toList ∨ K = "potion".toList)
    (hne : name ≠ []) (hl : skipSpaces name = name) (hr : trimRight name = name)
    (hsign : "sign".toList ∉ name.splitOnP isspace)
    (hpotion : "potion".toList ∉ name.splitOnP isspace)
    (hb : skipSpaces beast = beast)
    (hfit : (effectivenessSentence name K beast).length < MAX_INPUT_LENGTH) :
    (isEffectivenessKnowledge (effectivenessSentence name K beast) = true ↔
      isAlphabeticOnly beast = true ∧
      (K = "sign".toList → isAlphabeticOnly name = true) ∧
      (K = "potion".toList → ∃ words : List CStr, words ≠ [] ∧
        (∀ w ∈ words, isAlphabeticOnly w = true) ∧ name = [' '].intercalate words)) ∧
    (isEffectivenessKnowledge (effectivenessSentence name K beast) = true →
      tokenizeInput (effectivenessSentence name K beast)
        = ["Geralt".toList, "learns".toList, name, K, "is".toList, "effective".toList,
            "against".toList, beast]) := by
  have hlens : name.length < MAX_TOKEN_LENGTH ∧ beast.length < MAX_TOKEN_LENGTH := by
    have e1 : "Geralt learns ".toList.length = 14 := rfl
    have e2 : " is effective against ".toList.length = 22 := rfl
    have e3 : MAX_INPUT_LENGTH = 1024 := rfl
    have e4 : MAX_TOKEN_LENGTH = 1024 := rfl
    unfold effectivenessSentence at hfit
    simp only [List.length_append, List.length_cons, e1, e2, e3] at hfit
    rw [e4]
    omega
  have htok := tokenize_learns_effectiveness name K beast hK hne hl hr hlens.1 hsign hpotion hb
  have hword : isValidPotionNameToken name = true ↔ ∃ words : List CStr, words ≠ [] ∧
      (∀ w ∈ words, isAlphabeticOnly w = true) ∧ name = [' '].intercalate words := by
    constructor
    · intro hv
      unfold isValidPotionNameToken at hv
      have hne2 : name.isEmpty = false := by
        cases name with
        | nil => exact absurd rfl hne
        | cons a b => rfl
      rw [hne2] at hv
      simp only [Bool.false_eq_true, ↓reduceIte] at hv
      obtain ⟨c, r, hname, hc⟩ := head_of_skipSpaces_eq name hne hl
      obtain ⟨w, ws, hw, hws, heq⟩ := potionNameScan_words name hv hne
        (fun x hx => by
          rw [hname] at hx
          simp only [List.head?_cons, Option.some.injEq] at hx
          intro h0
          rw [hx, h0] at hc
          exact absurd hc (by decide))
        (fun x hx => by
          intro h0
          have := last_of_trimRight_eq name hr x hx
          rw [h0] at this
          exact absurd this (by decide))
      refine ⟨w :: ws, by simp, ?_, heq⟩
      intro x hx
      rcases List.mem_cons.1 hx with rfl | hx
      · exact hw
      · exact hws x hx
    · rintro ⟨words, hwne, hall, heq⟩
      obtain ⟨h1, h2⟩ := potionNameScan_intercalate words false hwne hall
      unfold isValidPotionNameToken
      rw [heq]
      have : ([' '].intercalate words).isEmpty = false := by
        cases hx : [' '].intercalate words with
        | nil => exact absurd hx h2
        | cons a b => rfl
      rw [this]
      simpa using h1
  by_cases hbe : beast = []
  · subst hbe
    have htok2 : tokenizeInput (effectivenessSentence name K [])
        = ["Geralt".toList, "learns".toList, name, K, "is".toList, "effective".toList,
            "against".toList] := by
      unfold effectivenessSentence
      rw [htok]
      simp
    have hfalse : isEffectivenessKnowledge (effectivenessSentence name K []) = false := by
      unfold isEffectivenessKnowledge
      rw [htok2]
      rcases hK with rfl | rfl <;> simp [tokAt]
    rw [hfalse]
    refine ⟨⟨fun h => Bool.noConfusion h, fun h => ?_⟩, fun h => Bool.noConfusion h⟩
    exact absurd h.1 (by decide)
  · have hpos : 0 < beast.length ∧ beast.length < MAX_TOKEN_LENGTH :=
      ⟨List.length_pos.2 hbe, hlens.2⟩
    have htok2 : tokenizeInput (effectivenessSentence name K beast)
        = ["Geralt".toList, "learns".toList, name, K, "is".toList, "effective".toList,
            "against".toList, beast] := by
      unfold effectivenessSentence
      rw [htok, if_pos hpos]
      rfl
    refine ⟨?_, fun _ => htok2⟩
    rcases hK with hK | hK
    · subst hK
      have hval : isEffectivenessKnowledge (effectivenessSentence name "sign".toList beast)
          = (isAlphabeticOnly beast && isAlphabeticOnly name) := by
        unfold isEffectivenessKnowledge
        rw [htok2]
        cases h1 : isAlphabeticOnly beast <;> simp [tokAt, h1]
      rw [hval, Bool.and_eq_true]
      constructor
      · intro h
        exact ⟨h.1, fun _ => h.2, fun h0 => absurd h0 (by decide)⟩
      · intro h
        exact ⟨h.1, h.2.1 rfl⟩
    · subst hK
      have hval : isEffectivenessKnowledge (effectivenessSentence name "potion".toList beast)
          = (isAlphabeticOnly beast && isValidPotionNameToken name) := by
        unfold isEffectivenessKnowledge
        rw [htok2]
        cases h1 : isAlphabeticOnly beast <;> simp [tokAt, h1]
      rw [hval, Bool.and_eq_true, hword]
      constructor
      · intro h
        exact ⟨h.1, fun h0 => absurd h0 (by decide), fun _ => h.2⟩
      · intro h
        exact ⟨h.1, h.2.2 rfl⟩

/-- C30, witness: `Black Blood potion` is accepted, the name token and the potion counter
recorded for the beast are `Black Blood`; `Black Blood sign` is rejected and changes
nothing. -/
theorem effectiveness_keyword_decides_name_form_witness :
    isEffectivenessKnowledge
      (effectivenessSentence "Black Blood".toList "potion".toList "Wolf".toList) = true ∧
    effectivenessSentence "Black Blood".toList "potion".toList "Wolf".toList
      = "Geralt learns Black Blood potion is effective against Wolf".toList ∧
    tokAt (tokenizeInput "Geralt learns Black Blood potion is effective against Wolf".toList) 2
      = "Black Blood".toList ∧
    (execute_line World.init
      "Geralt learns Black Blood potion is effective against Wolf".toList).ret = 0 ∧
    isEffectivenessKnowledge
      "Geralt learns Black Blood sign is effective against Wolf".toList = false ∧
    execute_line World.init "Geralt learns Black Blood sign is effective against Wolf".toList
      = { ret := -1, out := [], world := World.init } :=
  ⟨(effectiveness_keyword_decides_name_form "Black Blood".toList "potion".toList "Wolf".toList
      (Or.inr rfl) (by decide) (by decide) (by decide) (by decide) (by decide) (by decide)
      (by decide)).1.2
      ⟨by decide, fun h => absurd h (by decide),
        fun _ => ⟨["Black".toList, "Blood".toList], by decide, by decide, by decide⟩⟩,
   by decide, by decide, by decide, by decide, by decide⟩

/-- C25 (amended): for every text `body` such that the line `body ++ " ?"` fits the input
buffer:
if `isValidCommand` accepts `body ++ " ?"` as a `Total` or `What` query, then
`tokenizeInput` gives the line without the space, `body ++ "?"`, the same tokens, so
`isValidCommand` gives it the same command type and `executeCommand` the same outcome in
every state; and if `execute_line` meets a line `body ++ " ?"` whose cleaned copy is
accepted as such a query, then it answers `body ++ "?"` with the same return value, the
same output and the same state. -/
theorem question_mark_spacing_is_irrelevant (body : CStr)
    (hfit : (body ++ [' ', '?']).length < MAX_INPUT_LENGTH) :
    ((isValidCommand (body ++ [' ', '?']) = .QUERY_SPECIFIC_INVENTORY
        ∨ isValidCommand (body ++ [' ', '?']) = .QUERY_ALL_INVENTORY
        ∨ isValidCommand (body ++ [' ', '?']) = .QUERY_BESTIARY
        ∨ isValidCommand (body ++ [' ', '?']) = .QUERY_ALCHEMY) →
      tokenizeInput (body ++ ['?']) = tokenizeInput (body ++ [' ', '?']) ∧
      isValidCommand (body ++ ['?']) = isValidCommand (body ++ [' ', '?']) ∧
      ∀ w : World, executeCommand w (body ++ ['?']) (isValidCommand (body ++ ['?']))
        = executeCommand w (body ++ [' ', '?']) (isValidCommand (body ++ [' ', '?']))) ∧
    ((isValidCommand (inputCopy (body ++ [' ', '?'])) = .QUERY_SPECIFIC_INVENTORY
        ∨ isValidCommand (inputCopy (body ++ [' ', '?'])) = .QUERY_ALL_INVENTORY
        ∨ isValidCommand (inputCopy (body ++ [' ', '?'])) = .QUERY_BESTIARY
        ∨ isValidCommand (inputCopy (body ++ [' ', '?'])) = .QUERY_ALCHEMY) →
      tokenizeInput (inputCopy (body ++ ['?']))
        = tokenizeInput (inputCopy (body ++ [' ', '?'])) ∧
      ∀ w : World, execute_line w (body ++ ['?']) = execute_line w (body ++ [' ', '?'])) := by
  have key : ∀ b : CStr, (b ++ [' ', '?']).length < MAX_INPUT_LENGTH →
      (isValidCommand (b ++ [' ', '?']) = .QUERY_SPECIFIC_INVENTORY
        ∨ isValidCommand (b ++ [' ', '?']) = .QUERY_ALL_INVENTORY
        ∨ isValidCommand (b ++ [' ', '?']) = .QUERY_BESTIARY
        ∨ isValidCommand (b ++ [' ', '?']) = .QUERY_ALCHEMY) →
      tokenizeInput (b ++ ['?']) = tokenizeInput (b ++ [' ', '?']) := by
    intro b hb hq
    rcases tokenize_pair b hb with h | h
    · exact h
    · rw [queryTokens_of_accepted _ hq] at h
      cases h
  refine ⟨fun hq => ?_, fun hq => ?_⟩
  · have ht := key body hfit hq
    have hv := isValidCommand_congr _ _ ht
    refine ⟨ht, hv, fun w => ?_⟩
    rw [hv]
    exact executeCommand_congr _ _ ht w _
  · rcases inputCopy_pair body hfit with h | ⟨b, h1, h0, hb⟩
    · refine ⟨by rw [h], fun w => ?_⟩
      unfold execute_line
      rw [h]
    · rw [h1] at hq
      have ht := key b hb hq
      have hv := isValidCommand_congr _ _ ht
      refine ⟨by rw [h1, h0]; exact ht, fun w => ?_⟩
      unfold execute_line
      rw [h1, h0, hv]
      have l1 : ((b ++ [' ', '?']).length == 0) = false := by simp
      have l0 : ((b ++ ['?']).length == 0) = false := by simp
      simp only [l1, l0, Bool.false_eq_true, ↓reduceIte]
      cases hc : isValidCommand (b ++ [' ', '?']) <;>
        simp only [executeCommand_congr _ _ ht w]

/-- C25, witness: the four lines of the claim, with and without the space before `?`. -/
theorem question_mark_spacing_is_irrelevant_witness :
    tokenizeInput "Total ingredient?".toList = tokenizeInput "Total ingredient ?".toList ∧
    tokenizeInput "Total ingredient ?".toList
      = ["Total".toList, "ingredient".toList, "?".toList] ∧
    tokenizeInput "Total potion Black Blood?".toList
      = ["Total".toList, "potion".toList, "Black Blood".toList, "?".toList] ∧
    tokenizeInput "What is in Black Blood?".toList
      = tokenizeInput "What is in Black Blood ?".toList ∧
    tokenizeInput "What is effective against Wolf?".toList
      = ["What".toList, "is".toList, "effective".toList, "against".toList, "Wolf".toList,
          "?".toList] ∧
    execute_line World.init "Total ingredient?".toList
      = execute_line World.init "Total ingredient ?".toList ∧
    execute_line World.init "What is effective against Wolf?".toList
      = execute_line World.init "What is effective against Wolf ?".toList :=
  ⟨((question_mark_spacing_is_irrelevant "Total ingredient".toList (by decide)).1
      (Or.inr (Or.inl (by decide)))).1,
   by decide, by decide, by decide, by decide,
   ((question_mark_spacing_is_irrelevant "Total ingredient".toList (by decide)).2
      (Or.inr (Or.inl (by decide)))).2 World.init,
   ((question_mark_spacing_is_irrelevant "What is effective against Wolf".toList
      (by decide)).2 (Or.inr (Or.inr (Or.inl (by decide))))).2 World.init⟩

/-- C36: in every reachable state each beast record (a slot of the bestiary with a name)
has at least one effective sign or effective potion entry; so an accepted
`What is effective against B ?` for a known beast `B` prints a list of at least one name
(one name per stored entry), and an accepted `Geralt encounters a B` for a known beast `B`
is answered `Geralt is unprepared ...` only when `B` has no effective sign, has at least
one effective potion entry, and none of its potion entries stands for a potion in
stock. -/
theorem known_beast_has_a_counter (w : World) (h : Reachable w) :
    (∀ b ∈ w.beasts, b.name ≠ [] →
      1 ≤ b.effective_sign_indices.length + b.effective_potion_indices.length) ∧
    (∀ (query : CStr) (k : Nat), isValidCommand (inputCopy query) = .QUERY_BESTIARY →
      findBeast w.beasts (tokAt (tokenizeInput (inputCopy query)) 4) = some k →
      ∃ names : List CStr, names ≠ [] ∧
        names.Perm (potionCounters w (slotAt w.beasts k) ++ signCounters w (slotAt w.beasts k)) ∧
        (execute_line w query).out = joinItems names ++ "\n".toList) ∧
    (∀ (line : CStr) (k : Nat), isValidCommand (inputCopy line) = .ENCOUNTER →
      findBeast w.beasts (tokAt (tokenizeInput (inputCopy line)) 3) = some k →
      (execute_line w line).out
        = "Geralt is unprepared and barely escapes with his life\n".toList →
      (slotAt w.beasts k).effective_sign_indices = [] ∧
      (slotAt w.beasts k).effective_potion_indices ≠ [] ∧
      ∀ e ∈ (slotAt w.beasts k).effective_potion_indices, counterInStock w e = false) := by
  have hinv := reachable_hasCounter w h
  refine ⟨hinv, ?_, ?_⟩
  · intro query k hacc hb
    obtain ⟨hm, hn⟩ := findBeast_named _ _ _ hb
    have hc := hinv _ hm hn
    rw [execute_line_eq w query _ hacc (by decide)]
    simp only [executeCommand, executeBestiaryQuery, hb]
    refine ⟨_, ?_, bubbleSort_perm _ _, rfl⟩
    intro h0
    have hl := (bubbleSort_perm (fun (a b : CStr) => decide (strcmp a b > 0))
      (potionCounters w (slotAt w.beasts k) ++ signCounters w (slotAt w.beasts k))).length_eq
    rw [h0] at hl
    simp only [List.length_nil, List.length_append, potionCounters, signCounters,
      List.length_map] at hl
    omega
  · intro line k hacc hb hout
    obtain ⟨hm, hn⟩ := findBeast_named _ _ _ hb
    have hc := hinv _ hm hn
    obtain ⟨hlen, _⟩ := isEncounterSentence_shape _ (isValidCommand_encounter _ hacc)
    rw [execute_line_eq w line _ hacc (by decide)] at hout
    simp only [executeCommand, executeEncounter] at hout
    have hl : ¬ (tokenizeInput (inputCopy line)).length < 4 := by omega
    rw [if_neg hl, hb] at hout
    simp only at hout
    have hany : (slotAt w.beasts k).effective_potion_indices.any
          (fun e => (usablePotion w e).isSome)
        = (slotAt w.beasts k).effective_potion_indices.any (counterInStock w) := by
      congr 1
      funext e
      exact usablePotion_isSome w e
    rw [hany] at hout
    have hne := defeats_ne_unprepared (tokAt (tokenizeInput (inputCopy line)) 3)
    cases hp : (slotAt w.beasts k).effective_potion_indices.any (counterInStock w) with
    | true =>
      rw [hp] at hout
      simp only [Bool.true_or, Bool.not_true, Bool.false_eq_true, ↓reduceIte] at hout
      exact absurd hout hne
    | false =>
      rw [hp] at hout
      have hall : ∀ e ∈ (slotAt w.beasts k).effective_potion_indices,
          counterInStock w e = false := by
        intro e he
        have := List.any_eq_false.1 hp e he
        simpa using this
      cases hs : (slotAt w.beasts k).effective_sign_indices with
      | nil =>
        rw [hs] at hc
        refine ⟨rfl, ?_, hall⟩
        intro h0
        rw [h0] at hc
        simp at hc
      | cons a l =>
        rw [hs] at hout
        simp only [Bool.false_or, Bool.not_false, Bool.true_and, List.length_cons,
          gt_iff_lt, Nat.zero_lt_succ, decide_True, Bool.not_true, Bool.false_eq_true,
          ↓reduceIte] at hout
        exact absurd hout hne

/-- C36, witness: after one effectiveness line the beast has one counter, the query prints
it, and the encounter fails while the potion is out of stock. -/
theorem known_beast_has_a_counter_witness :
    (execute_line (runLines World.init
        ["Geralt learns Swallow potion is effective against Harpy".toList])
      "What is effective against Harpy ?".toList).out = "Swallow\n".toList ∧
    (execute_line (runLines World.init
        ["Geralt learns Swallow potion is effective against Harpy".toList])
      "Geralt encounters a Harpy".toList).out
      = "Geralt is unprepared and barely escapes with his life\n".toList ∧
    (1 : Nat) ≤ (slotAt (runLines World.init
        ["Geralt learns Swallow potion is effective against Harpy".toList]).beasts 0
      ).effective_sign_indices.length + (slotAt (runLines World.init
        ["Geralt learns Swallow potion is effective against Harpy".toList]).beasts 0
      ).effective_potion_indices.length :=
  ⟨by decide, by decide,
   (known_beast_has_a_counter (runLines World.init
      ["Geralt learns Swallow potion is effective against Harpy".toList])
      (reachable_runLines _ _ Reachable.init)).1 _ (by decide) (by decide)⟩

/-- C34 (amended): for every state with no potion named `X` in which the potion table has
a free slot and the ingredient table has room for the items of the line, and every
accepted line `Geralt learns X potion consists of q1 n1, ..., qk nk` of at most
`MAX_TOKENS` tokens whose quantities fit in an `int`: afterwards the potion `X` exists
with stock 0 and its requirements, read through the names of their ingredient slots, are
the items of the line with their decimal values, in the order written; every other slot of
the potion table is as before; every listed name has a record, with quantity 0 when it had
none before; every ingredient record that existed is unchanged; trophies, signs and the
bestiary are unchanged; an accepted `Total ingredient ?` prints what it printed before;
and the potion is stored in a slot of the potion table, the ingredient records in slots of
the ingredient table. -/
theorem learning_formula_touches_only_the_formula (w : World) (line : CStr)
    (hacc : isValidCommand (inputCopy line) = .KNOWLEDGE_POTION_FORMULA)
    (h3 : tokAt (tokenizeInput (inputCopy line)) 3 = "potion".toList)
    (hnew : findPotion w.potions (tokAt (tokenizeInput (inputCopy line)) 2) = none)
    (hrange : ∀ it ∈ formulaItemsOf line, digitsValue 0 it.1 ≤ 2147483647)
    (hfit : (tokenizeInput (inputCopy line)).length ≤ MAX_TOKENS)
    (hpot : firstFree (fun (p : Potion) => p.name.isEmpty) w.potions < MAX_POTIONS)
    (hing : w.ingredients.length + (formulaItemsOf line).length ≤ MAX_INGREDIENTS) :
    (∃ k, k < MAX_POTIONS ∧ findPotion (execute_line w line).world.potions
          (tokAt (tokenizeInput (inputCopy line)) 2) = some k ∧
        (slotAt (execute_line w line).world.potions k).name
          = tokAt (tokenizeInput (inputCopy line)) 2 ∧
        (slotAt (execute_line w line).world.potions k).quantity = 0 ∧
        (slotAt (execute_line w line).world.potions k).requirements.map
            (fun r => ((slotAt (execute_line w line).world.ingredients r.1).name, r.2))
          = (formulaItemsOf line).map (fun it => (it.2, (digitsValue 0 it.1 : Int))) ∧
        ∀ i, i ≠ k →
          slotAt (execute_line w line).world.potions i = slotAt w.potions i) ∧
    (∀ it ∈ formulaItemsOf line,
      ∃ j, (slotAt (execute_line w line).world.ingredients j).name = it.2 ∧
        (findSlot (fun (x : Ingredient) => !x.name.isEmpty && x.name == it.2)
            w.ingredients 0 = none →
          slotAt (execute_line w line).world.ingredients j
            = { name := it.2, quantity := 0 })) ∧
    (∀ i, (slotAt w.ingredients i).name ≠ [] →
      slotAt (execute_line w line).world.ingredients i = slotAt w.ingredients i) ∧
    (execute_line w line).world.trophies = w.trophies ∧
    (execute_line w line).world.signs = w.signs ∧
    (execute_line w line).world.beasts = w.beasts ∧
    (∀ query : CStr, isValidCommand (inputCopy query) = .QUERY_ALL_INVENTORY →
      tokAt (tokenizeInput (inputCopy query)) 1 = "ingredient".toList →
      (execute_line (execute_line w line).world query).out = (execute_line w query).out) ∧
    (execute_line w line).world.ingredients.length ≤ MAX_INGREDIENTS := by
  obtain ⟨hname, hitems⟩ :=
    isPotionFormulaKnowledge_shape _ (isValidCommand_formula _ hacc) h3
  have hX := isValidPotionNameToken_ne_nil _ hname
  have hok := formulaItemsOk_items _ hitems
  have hp3 : (tokAt (tokenizeInput (inputCopy line)) 3 != "potion".toList) = false := by
    rw [h3]; decide
  have hexec : execute_line w line =
      { ret := 0,
        out := "New alchemy formula obtained: ".toList
          ++ tokAt (tokenizeInput (inputCopy line)) 2 ++ "\n".toList,
        world := { (formulaLoop ((tokenizeInput (inputCopy line)).drop 6) w).1 with
          potions := updSlot (fun _ =>
            ({ name := tokAt (tokenizeInput (inputCopy line)) 2,
               requirements := (formulaLoop ((tokenizeInput (inputCopy line)).drop 6) w).2,
               quantity := 0 } : Potion))
            w.potions (firstFree (fun (p : Potion) => p.name.isEmpty) w.potions)
          potionsCount := w.potionsCount + 1 } } := by
    rw [execute_line_eq w line _ hacc (by decide)]
    simp only [executeCommand, executeFormulaKnowledge, hp3, Bool.false_eq_true, ↓reduceIte,
      hnew]
  rw [hexec]
  simp only
  have hfind := findPotion_added w.potions
    { name := tokAt (tokenizeInput (inputCopy line)) 2,
      requirements := (formulaLoop ((tokenizeInput (inputCopy line)).drop 6) w).2,
      quantity := 0 } hX hnew
  have hframe := formulaLoop_frame ((tokenizeInput (inputCopy line)).drop 6) w
  have hroom : (formulaLoop ((tokenizeInput (inputCopy line)).drop 6) w).1.ingredients.length
      ≤ MAX_INGREDIENTS :=
    (formulaLoop_length _ w hitems).trans hing
  refine ⟨⟨_, hpot, hfind, ?_, ?_, ?_, ?_⟩, ?_, ?_, hframe.2.2.2, hframe.1, hframe.2.1, ?_,
    hroom⟩
  · rw [slotAt_updSlot, if_pos rfl]
  · rw [slotAt_updSlot, if_pos rfl]
  · rw [slotAt_updSlot, if_pos rfl]
    simp only
    rw [formulaLoop_spec _ w hitems]
    unfold toEntries formulaItemsOf
    apply List.map_congr_left
    intro it hit
    rw [atoi_eq_digitsValue it.1 (hok it hit).1 (hrange it hit)]
  · intro i hi
    rw [slotAt_updSlot, if_neg hi]
  · intro it hit
    exact formulaLoop_records _ w hitems it hit
  · intro i hi
    exact formulaLoop_keeps _ w i hi
  · intro query hq hcat
    rw [execute_line_eq _ query _ hq (by decide), execute_line_eq _ query _ hq (by decide)]
    simp only [executeCommand]
    rw [executeAllInventoryQuery_eq _ _ (Or.inl hcat),
      executeAllInventoryQuery_eq _ _ (Or.inl hcat), hcat]
    have hpos : ∀ v : World, positiveRecords v "ingredient".toList
        = (v.ingredients.filter (fun x => decide (x.name ≠ [] ∧ x.quantity > 0))).map
            (fun x => (x.name, x.quantity)) := by
      intro v
      unfold positiveRecords
      rw [if_pos rfl]
    rw [hpos, hpos]
    simp only
    rw [formulaLoop_positive]
    split_ifs <;> rfl

/-- C34 (amended), witness: in a state with 2 `Rebis`, learning `Swallow` from 1 `Rebis`
and 3 `Vitriol` stores the formula, creates `Vitriol` with quantity 0, keeps `Rebis`, and
`Total ingredient ?` still prints `2 Rebis`. -/
theorem learning_formula_touches_only_the_formula_witness :
    (runLines World.init ["Geralt loots 2 Rebis".toList,
        "Geralt learns Swallow potion consists of 1 Rebis, 3 Vitriol".toList]).potions
      = [{ name := "Swallow".toList, requirements := [(0, 1), (1, 3)], quantity := 0 }] ∧
    (runLines World.init ["Geralt loots 2 Rebis".toList,
        "Geralt learns Swallow potion consists of 1 Rebis, 3 Vitriol".toList]).ingredients
      = [{ name := "Rebis".toList, quantity := 2 }, { name := "Vitriol".toList, quantity := 0 }] ∧
    (execute_line (execute_line (runLines World.init ["Geralt loots 2 Rebis".toList])
        "Geralt learns Swallow potion consists of 1 Rebis, 3 Vitriol".toList).world
      "Total ingredient ?".toList).out
      = (execute_line (runLines World.init ["Geralt loots 2 Rebis".toList])
          "Total ingredient ?".toList).out ∧
    (execute_line (runLines World.init ["Geralt loots 2 Rebis".toList])
      "Total ingredient ?".toList).out = "2 Rebis\n".toList :=
  ⟨by decide, by decide,
   (learning_formula_touches_only_the_formula
      (runLines World.init ["Geralt loots 2 Rebis".toList])
      "Geralt learns Swallow potion consists of 1 Rebis, 3 Vitriol".toList
      (by decide) (by decide) (by decide) (by decide) (by decide) (by decide)
      (by decide)).2.2.2.2.2.2.1
      "Total ingredient ?".toList (by decide) (by decide),
   by decide⟩

/-- C33 (amended): the generic lexer keeps the first `MAX_TOKENS` = 64 tokens.  For every
input shorter than `MAX_INPUT_LENGTH` that `tokenizeInput` handles in its final generic
loop, the returned sequence is the first 64 elements of the sequence made, in order, of
every comma of the input and every maximal run of characters that are neither white space
nor comma; it is that whole sequence when it has at most 64 elements.  Every accepted Loot
or Encounter line is handled in that loop, and `executeLootAction` applies, in order, the
items among the first 64 such tokens of an accepted Loot line: every item the line writes
when the line has at most 64 of them. -/
theorem generic_lexer_keeps_first_64_tokens (line : CStr) :
    (∀ input : CStr, genericPath input = true → input.length < MAX_INPUT_LENGTH →
      tokenizeInput input = (lexicalTokens input).take MAX_TOKENS ∧
      ((lexicalTokens input).length ≤ MAX_TOKENS → tokenizeInput input = lexicalTokens input)) ∧
    (isValidCommand (inputCopy line) = .ACTION_LOOT ∨
        isValidCommand (inputCopy line) = .ENCOUNTER →
      genericPath (inputCopy line) = true) ∧
    (∀ w : World, isValidCommand (inputCopy line) = .ACTION_LOOT →
      (execute_line w line).world
        = (listedItems (((lexicalTokens (inputCopy line)).take MAX_TOKENS).drop 2)).foldl
            (fun v it => lootItem v (atoi it.1) it.2) w ∧
      ((lexicalTokens (inputCopy line)).length ≤ MAX_TOKENS →
        lootItemsOf line = listedItems ((lexicalTokens (inputCopy line)).drop 2) ∧
        (execute_line w line).world
          = (listedItems ((lexicalTokens (inputCopy line)).drop 2)).foldl
              (fun v it => lootItem v (atoi it.1) it.2) w)) := by
  have hgen : ∀ input : CStr, genericPath input = true → input.length < MAX_INPUT_LENGTH →
      tokenizeInput input = (lexicalTokens input).take MAX_TOKENS := by
    intro input hg hlen
    rw [tokenize_generic input hg, lexRest_eq_lexical input hlen]
  have hpath : isValidCommand (inputCopy line) = .ACTION_LOOT ∨
      isValidCommand (inputCopy line) = .ENCOUNTER → genericPath (inputCopy line) = true := by
    intro h
    rcases h with h | h
    · obtain ⟨a, b⟩ := isLootAction_keywords _ (isValidCommand_loot _ h)
      apply genericPath_of_tokens _ a
      rw [b]
      decide
    · obtain ⟨a, b⟩ := isEncounterSentence_keywords _ (isValidCommand_encounter _ h)
      apply genericPath_of_tokens _ a
      rw [b]
      decide
  refine ⟨fun input hg hlen => ⟨hgen input hg hlen, fun hle => ?_⟩, hpath, fun w hacc => ?_⟩
  · rw [hgen input hg hlen, List.take_of_length_le hle]
  · have htok := hgen _ (hpath (Or.inl hacc)) (inputCopy_length line)
    have hworld : (execute_line w line).world
        = (listedItems (((lexicalTokens (inputCopy line)).take MAX_TOKENS).drop 2)).foldl
            (fun v it => lootItem v (atoi it.1) it.2) w := by
      rw [execute_line_eq w line _ hacc (by decide)]
      simp only [executeCommand, executeLootAction]
      have hok := isLootAction_items _ (isValidCommand_loot _ hacc)
      rw [(lootLoop_eq _ w hok).1, htok]
    refine ⟨hworld, fun hle => ⟨?_, ?_⟩⟩
    · unfold lootItemsOf
      rw [htok, List.take_of_length_le hle]
    · rw [hworld, List.take_of_length_le hle]

/-- C33 (amended), witness: the Loot line `Geralt loots 2 Rebis, 1 Vitriol` has the seven
tokens `Geralt`, `loots`, `2`, `Rebis`, `,`, `1`, `Vitriol`, and both items are applied. -/
theorem generic_lexer_keeps_first_64_tokens_witness :
    isValidCommand (inputCopy "Geralt loots 2 Rebis, 1 Vitriol".toList) = .ACTION_LOOT ∧
    lexicalTokens (inputCopy "Geralt loots 2 Rebis, 1 Vitriol".toList)
      = ["Geralt".toList, "loots".toList, "2".toList, "Rebis".toList, ",".toList,
         "1".toList, "Vitriol".toList] ∧
    (lootItemsOf "Geralt loots 2 Rebis, 1 Vitriol".toList
        = listedItems ((lexicalTokens (inputCopy "Geralt loots 2 Rebis, 1 Vitriol".toList)).drop 2) ∧
      (execute_line World.init "Geralt loots 2 Rebis, 1 Vitriol".toList).world
        = (listedItems
            ((lexicalTokens (inputCopy "Geralt loots 2 Rebis, 1 Vitriol".toList)).drop 2)).foldl
            (fun v it => lootItem v (atoi it.1) it.2) World.init) ∧
    (execute_line World.init "Geralt loots 2 Rebis, 1 Vitriol".toList).world.ingredients
      = [{ name := "Rebis".toList, quantity := 2 }, { name := "Vitriol".toList, quantity := 1 }] :=
  ⟨by decide, by decide,
   ((generic_lexer_keeps_first_64_tokens "Geralt loots 2 Rebis, 1 Vitriol".toList).2.2
      World.init (by decide)).2 (by decide),
   by decide⟩
/-- C1, the code at the failing input.  In the initial state the line
`Geralt trades 1 Forktail trophy for 2 mandrake` is classified as a Trade and answered
"Not enough trophies", but the state afterwards is not the state before: the ingredient
table has gained the record `(mandrake, 0)`, and `num_ingredients` is still 0. -/
theorem trade_failure_adds_ingredient_record :
    isValidCommand (inputCopy "Geralt trades 1 Forktail trophy for 2 mandrake".toList)
      = .ACTION_TRADE ∧
    (execute_line World.init "Geralt trades 1 Forktail trophy for 2 mandrake".toList).out
      = "Not enough trophies\n".toList ∧
    World.init.ingredients = [] ∧
    (execute_line World.init "Geralt trades 1 Forktail trophy for 2 mandrake".toList).world
      = { World.init with ingredients := [{ name := "mandrake".toList, quantity := 0 }] } ∧
    (execute_line World.init "Geralt trades 1 Forktail trophy for 2 mandrake".toList).world
      ≠ World.init := by
  decide

/-- C3, the code at the failing input.  After `Geralt learns Igni sign is effective against
Wolf` and `Geralt encounters a Wolf` the stock of the trophy Wolf is 1.  The line
`Geralt trades 1 Wolf, 1 Wolf trophy for 1 x` is classified as a Trade and lists Wolf
twice, 2 in total; it is answered "Trade successful" and leaves the stock of Wolf at -1. -/
theorem trade_checks_each_entry_not_the_total :
    Reachable
      (runLines World.init
        ["Geralt learns Igni sign is effective against Wolf".toList,
         "Geralt encounters a Wolf".toList]) ∧
    trophyQuantity
      (runLines World.init
        ["Geralt learns Igni sign is effective against Wolf".toList,
         "Geralt encounters a Wolf".toList]) "Wolf".toList = 1 ∧
    isValidCommand (inputCopy "Geralt trades 1 Wolf, 1 Wolf trophy for 1 x".toList)
      = .ACTION_TRADE ∧
    listedTotal (tradeTrophiesOf "Geralt trades 1 Wolf, 1 Wolf trophy for 1 x".toList)
      "Wolf".toList = 2 ∧
    (tradeParsed
      (tokenizeInput (inputCopy "Geralt trades 1 Wolf, 1 Wolf trophy for 1 x".toList))).1
      = [("Wolf".toList, 1), ("Wolf".toList, 1)] ∧
    (execute_line
      (runLines World.init
        ["Geralt learns Igni sign is effective against Wolf".toList,
         "Geralt encounters a Wolf".toList])
      "Geralt trades 1 Wolf, 1 Wolf trophy for 1 x".toList).out
      = "Trade successful\n".toList ∧
    trophyQuantity
      (execute_line
        (runLines World.init
          ["Geralt learns Igni sign is effective against Wolf".toList,
           "Geralt encounters a Wolf".toList])
        "Geralt trades 1 Wolf, 1 Wolf trophy for 1 x".toList).world "Wolf".toList = -1 :=
  ⟨reachable_runLines _ _ Reachable.init, by decide⟩

/-- C4 (evaluation at the failing input).  After `Geralt learns Igni sign is effective
against trophy` and `Geralt encounters a trophy` the stock of the trophy named `trophy` is
1.  The line `Geralt trades 1 trophy trophy for 2 mandrake` is classified as a Trade; it
lists one trophy, `1 trophy`, whose stock is at least the listed quantity.  But
`executeTradeAction` reads the entries `("", 1)` and `("", 0)`, the answer is "Not
enough trophies", not "Trade successful", and the stock stays 1. -/
theorem trade_misreads_trophy_named_trophy :
    Reachable
      (runLines World.init
        ["Geralt learns Igni sign is effective against trophy".toList,
         "Geralt encounters a trophy".toList]) ∧
    isValidCommand (inputCopy "Geralt trades 1 trophy trophy for 2 mandrake".toList)
      = .ACTION_TRADE ∧
    tradeTrophiesOf "Geralt trades 1 trophy trophy for 2 mandrake".toList
      = [("1".toList, "trophy".toList)] ∧
    (∀ it ∈ tradeTrophiesOf "Geralt trades 1 trophy trophy for 2 mandrake".toList,
      (digitsValue 0 it.1 : Int) ≤
        trophyQuantity
          (runLines World.init
            ["Geralt learns Igni sign is effective against trophy".toList,
             "Geralt encounters a trophy".toList]) it.2) ∧
    (tradeParsed
      (tokenizeInput (inputCopy "Geralt trades 1 trophy trophy for 2 mandrake".toList))).1
      = [([], 1), ([], 0)] ∧
    (execute_line
      (runLines World.init
        ["Geralt learns Igni sign is effective against trophy".toList,
         "Geralt encounters a trophy".toList])
      "Geralt trades 1 trophy trophy for 2 mandrake".toList).out
      ≠ "Trade successful\n".toList ∧
    (execute_line
      (runLines World.init
        ["Geralt learns Igni sign is effective against trophy".toList,
         "Geralt encounters a trophy".toList])
      "Geralt trades 1 trophy trophy for 2 mandrake".toList).out
      = "Not enough trophies\n".toList ∧
    trophyQuantity
      (execute_line
        (runLines World.init
          ["Geralt learns Igni sign is effective against trophy".toList,
           "Geralt encounters a trophy".toList])
        "Geralt trades 1 trophy trophy for 2 mandrake".toList).world "trophy".toList = 1 :=
  ⟨reachable_runLines _ _ Reachable.init, by decide⟩

/-- C5, the code at the failing input.  After `Geralt learns P potion consists of 1 x, 1 x`
and `Geralt loots 1 x` every ingredient quantity is >= 0 (x has 1).  `Geralt brews P`
is classified as a Brew and answered "Alchemy item created: P"; afterwards the quantity
of x is -1. -/
theorem brew_leaves_negative_quantity :
    Reachable
      (runLines World.init
        ["Geralt learns P potion consists of 1 x, 1 x".toList,
         "Geralt loots 1 x".toList]) ∧
    (runLines World.init
      ["Geralt learns P potion consists of 1 x, 1 x".toList,
       "Geralt loots 1 x".toList]).ingredients = [{ name := "x".toList, quantity := 1 }] ∧
    isValidCommand (inputCopy "Geralt brews P".toList) = .ACTION_BREW ∧
    (execute_line
      (runLines World.init
        ["Geralt learns P potion consists of 1 x, 1 x".toList,
         "Geralt loots 1 x".toList])
      "Geralt brews P".toList).out = "Alchemy item created: P\n".toList ∧
    (execute_line
      (runLines World.init
        ["Geralt learns P potion consists of 1 x, 1 x".toList,
         "Geralt loots 1 x".toList])
      "Geralt brews P".toList).world.ingredients = [{ name := "x".toList, quantity := -1 }] ∧
    ingredientQuantity
      (execute_line
        (runLines World.init
          ["Geralt learns P potion consists of 1 x, 1 x".toList,
           "Geralt loots 1 x".toList])
        "Geralt brews P".toList).world "x".toList = -1 :=
  ⟨reachable_runLines _ _ Reachable.init, by decide⟩

/-- C7, the code at the failing input.  After `Geralt learns Igni sign is effective against
Wolf`, `Geralt encounters a Wolf` and the successful `Geralt trades 1 Wolf trophy for
2 mandrake`, the ingredient mandrake has quantity 2 and ruby has 0, and
`num_ingredients` is 0.  The line `Geralt loots 3 ruby` is classified as a Loot and
answered "Alchemy ingredients obtained"; afterwards ruby has 5, not 0 + 3, and mandrake,
which the line does not mention, has 0. -/
theorem loot_overwrites_record_made_by_trade :
    Reachable
      (runLines World.init
        ["Geralt learns Igni sign is effective against Wolf".toList,
         "Geralt encounters a Wolf".toList,
         "Geralt trades 1 Wolf trophy for 2 mandrake".toList]) ∧
    ingredientQuantity
      (runLines World.init
        ["Geralt learns Igni sign is effective against Wolf".toList,
         "Geralt encounters a Wolf".toList,
         "Geralt trades 1 Wolf trophy for 2 mandrake".toList]) "ruby".toList = 0 ∧
    ingredientQuantity
      (runLines World.init
        ["Geralt learns Igni sign is effective against Wolf".toList,
         "Geralt encounters a Wolf".toList,
         "Geralt trades 1 Wolf trophy for 2 mandrake".toList]) "mandrake".toList = 2 ∧
    (runLines World.init
        ["Geralt learns Igni sign is effective against Wolf".toList,
         "Geralt encounters a Wolf".toList,
         "Geralt trades 1 Wolf trophy for 2 mandrake".toList]).num_ingredients = 0 ∧
    isValidCommand (inputCopy "Geralt loots 3 ruby".toList) = .ACTION_LOOT ∧
    listedTotal (lootItemsOf "Geralt loots 3 ruby".toList) "ruby".toList = 3 ∧
    listedTotal (lootItemsOf "Geralt loots 3 ruby".toList) "mandrake".toList = 0 ∧
    (execute_line
      (runLines World.init
        ["Geralt learns Igni sign is effective against Wolf".toList,
         "Geralt encounters a Wolf".toList,
         "Geralt trades 1 Wolf trophy for 2 mandrake".toList])
      "Geralt loots 3 ruby".toList).out = "Alchemy ingredients obtained\n".toList ∧
    ingredientQuantity
      (execute_line
        (runLines World.init
          ["Geralt learns Igni sign is effective against Wolf".toList,
           "Geralt encounters a Wolf".toList,
           "Geralt trades 1 Wolf trophy for 2 mandrake".toList])
        "Geralt loots 3 ruby".toList).world "ruby".toList = 5 ∧
    ingredientQuantity
      (execute_line
        (runLines World.init
          ["Geralt learns Igni sign is effective against Wolf".toList,
           "Geralt encounters a Wolf".toList,
           "Geralt trades 1 Wolf trophy for 2 mandrake".toList])
        "Geralt loots 3 ruby".toList).world "mandrake".toList = 0 :=
  ⟨reachable_runLines _ _ Reachable.init, by decide⟩

/-- C9, the code at the failing input.  After `Geralt trades 1 A trophy for 1 x, 1 y`
(answered "Not enough trophies") and `Geralt loots 1 y` the ingredient table holds two
records named `y`. -/
theorem ingredient_table_gets_duplicate_name :
    Reachable
      (runLines World.init
        ["Geralt trades 1 A trophy for 1 x, 1 y".toList,
         "Geralt loots 1 y".toList]) ∧
    (execute_line World.init "Geralt trades 1 A trophy for 1 x, 1 y".toList).out
      = "Not enough trophies\n".toList ∧
    (runLines World.init
      ["Geralt trades 1 A trophy for 1 x, 1 y".toList,
       "Geralt loots 1 y".toList]).ingredients
      = [{ name := "y".toList, quantity := 1 }, { name := "y".toList, quantity := 0 }] ∧
    ¬ ((runLines World.init
      ["Geralt trades 1 A trophy for 1 x, 1 y".toList,
       "Geralt loots 1 y".toList]).ingredients.map (fun x => x.name)).Nodup :=
  ⟨reachable_runLines _ _ Reachable.init, by decide⟩

/-- C10, the code at the failing input.  After `Geralt trades 1 A trophy for 1 x`
(answered "Not enough trophies") and `Geralt learns P potion consists of 1 x` the query
`What is in P ?` answers "1 x".  After the further accepted command `Geralt loots 1 y`
the same query answers "1 y". -/
theorem loot_renames_formula_requirement :
    Reachable
      (runLines World.init
        ["Geralt trades 1 A trophy for 1 x".toList,
         "Geralt learns P potion consists of 1 x".toList]) ∧
    (execute_line
      (runLines World.init
        ["Geralt trades 1 A trophy for 1 x".toList,
         "Geralt learns P potion consists of 1 x".toList])
      "What is in P ?".toList).out = "1 x\n".toList ∧
    isValidCommand (inputCopy "Geralt loots 1 y".toList) = .ACTION_LOOT ∧
    (execute_line
      (runLines World.init
        ["Geralt trades 1 A trophy for 1 x".toList,
         "Geralt learns P potion consists of 1 x".toList,
         "Geralt loots 1 y".toList])
      "What is in P ?".toList).out = "1 y\n".toList :=
  ⟨reachable_runLines _ _ Reachable.init, by decide⟩


/-- C13 (evaluation at the failing input): in the reachable state after
`Geralt learns Swallow potion is effective against Harpy` and
`Geralt learns Swallow potion is effective against Wolf`, the potion `Swallow` is the one
counter recorded for `Wolf` (the query prints `Swallow`), yet learning it for `Wolf` again
is answered `Bestiary entry updated: Wolf` and stores a second entry: the state changes
and the query then prints `Swallow, Swallow`. -/
theorem effectiveness_relearned_after_duplicate_name_entry :
    Reachable (runLines World.init
      ["Geralt learns Swallow potion is effective against Harpy".toList,
       "Geralt learns Swallow potion is effective against Wolf".toList]) ∧
    (execute_line (runLines World.init
        ["Geralt learns Swallow potion is effective against Harpy".toList,
         "Geralt learns Swallow potion is effective against Wolf".toList])
      "What is effective against Wolf ?".toList).out = "Swallow\n".toList ∧
    isValidCommand (inputCopy "Geralt learns Swallow potion is effective against Wolf".toList)
      = .KNOWLEDGE_EFFECTIVENESS ∧
    (execute_line (runLines World.init
        ["Geralt learns Swallow potion is effective against Harpy".toList,
         "Geralt learns Swallow potion is effective against Wolf".toList])
      "Geralt learns Swallow potion is effective against Wolf".toList).out
      = "Bestiary entry updated: Wolf\n".toList ∧
    (runLines World.init
      ["Geralt learns Swallow potion is effective against Harpy".toList,
       "Geralt learns Swallow potion is effective against Wolf".toList,
       "Geralt learns Swallow potion is effective against Wolf".toList]).signs
      = [{ name := "Swallow".toList }, { name := "Swallow".toList }] ∧
    (runLines World.init
      ["Geralt learns Swallow potion is effective against Harpy".toList,
       "Geralt learns Swallow potion is effective against Wolf".toList,
       "Geralt learns Swallow potion is effective against Wolf".toList]).beasts
      = [{ name := "Harpy".toList, effective_sign_indices := [],
           effective_potion_indices := [1024] },
         { name := "Wolf".toList, effective_sign_indices := [],
           effective_potion_indices := [1025, 1024] }] ∧
    (execute_line (runLines World.init
        ["Geralt learns Swallow potion is effective against Harpy".toList,
         "Geralt learns Swallow potion is effective against Wolf".toList,
         "Geralt learns Swallow potion is effective against Wolf".toList])
      "What is effective against Wolf ?".toList).out = "Swallow, Swallow\n".toList :=
  ⟨reachable_runLines _ _ Reachable.init, by decide, by decide, by decide, by decide,
    by decide, by decide⟩

/-- C16 (evaluation at the failing input): with the effectiveness of `Swallow` against
`Wolf` stored twice (as in C13) and a stock of 2, one accepted and successful
`Geralt encounters a Wolf` answers `Geralt defeats Wolf` and leaves the stock 0: the stock
of the potion drops by 2, not by 1. -/
theorem encounter_consumes_two_units_of_one_potion :
    Reachable (runLines World.init
      ["Geralt learns Swallow potion is effective against Harpy".toList,
       "Geralt learns Swallow potion is effective against Wolf".toList,
       "Geralt learns Swallow potion is effective against Wolf".toList,
       "Geralt learns Swallow potion consists of 1 Rebis".toList,
       "Geralt loots 2 Rebis".toList,
       "Geralt brews Swallow".toList,
       "Geralt brews Swallow".toList]) ∧
    potionQtyIn (runLines World.init
      ["Geralt learns Swallow potion is effective against Harpy".toList,
       "Geralt learns Swallow potion is effective against Wolf".toList,
       "Geralt learns Swallow potion is effective against Wolf".toList,
       "Geralt learns Swallow potion consists of 1 Rebis".toList,
       "Geralt loots 2 Rebis".toList,
       "Geralt brews Swallow".toList,
       "Geralt brews Swallow".toList]).potions "Swallow".toList = 2 ∧
    isValidCommand (inputCopy "Geralt encounters a Wolf".toList) = .ENCOUNTER ∧
    (execute_line (runLines World.init
        ["Geralt learns Swallow potion is effective against Harpy".toList,
         "Geralt learns Swallow potion is effective against Wolf".toList,
         "Geralt learns Swallow potion is effective against Wolf".toList,
         "Geralt learns Swallow potion consists of 1 Rebis".toList,
         "Geralt loots 2 Rebis".toList,
         "Geralt brews Swallow".toList,
         "Geralt brews Swallow".toList])
      "Geralt encounters a Wolf".toList).out = "Geralt defeats Wolf\n".toList ∧
    potionQtyIn (execute_line (runLines World.init
        ["Geralt learns Swallow potion is effective against Harpy".toList,
         "Geralt learns Swallow potion is effective against Wolf".toList,
         "Geralt learns Swallow potion is effective against Wolf".toList,
         "Geralt learns Swallow potion consists of 1 Rebis".toList,
         "Geralt loots 2 Rebis".toList,
         "Geralt brews Swallow".toList,
         "Geralt brews Swallow".toList])
      "Geralt encounters a Wolf".toList).world.potions "Swallow".toList = 0 :=
  ⟨reachable_runLines _ _ Reachable.init, by decide, by decide, by decide, by decide⟩

/-- C12 as stated fails on a quantity beyond the range of `int`: in the initial state the
line `Geralt learns Swallow potion consists of 4294967297 Rebis` is accepted and answered
`New alchemy formula obtained: Swallow`, but `atoi` stores the quantity 1, so the
following `What is in Swallow ?` answers `1 Rebis`, not the item `4294967297 Rebis` of the
line. -/
theorem formula_round_trip_fails_beyond_int :
    Reachable World.init ∧
    findPotion World.init.potions "Swallow".toList = none ∧
    isValidCommand
      (inputCopy "Geralt learns Swallow potion consists of 4294967297 Rebis".toList)
      = .KNOWLEDGE_POTION_FORMULA ∧
    formulaItemsOf "Geralt learns Swallow potion consists of 4294967297 Rebis".toList
      = [("4294967297".toList, "Rebis".toList)] ∧
    (execute_line World.init
      "Geralt learns Swallow potion consists of 4294967297 Rebis".toList).out
      = "New alchemy formula obtained: Swallow\n".toList ∧
    isValidCommand (inputCopy "What is in Swallow ?".toList) = .QUERY_ALCHEMY ∧
    (execute_line
      (execute_line World.init
        "Geralt learns Swallow potion consists of 4294967297 Rebis".toList).world
      "What is in Swallow ?".toList).out = "1 Rebis\n".toList ∧
    (execute_line
      (execute_line World.init
        "Geralt learns Swallow potion consists of 4294967297 Rebis".toList).world
      "What is in Swallow ?".toList).out ≠ "4294967297 Rebis\n".toList :=
  ⟨Reachable.init, by decide, by decide, by decide, by decide, by decide, by decide,
    by decide⟩

/-- C21 (evaluation at the failing input): in `Geralt loots 3 mandrake,2 ruby` the comma is
immediately followed by `2`, yet the tokenizer emits the ordinary tokens, no token is the
marker `ERROR_NO_SPACE_AFTER_COMMA`, the line is classified as a Loot, `execute_line`
returns 0 and the state gains both ingredients.  The properly spaced
`Geralt loots 3 mandrake, 2 ruby` has the same tokens. -/
theorem comma_without_following_space_is_accepted :
    tokenizeInput (inputCopy "Geralt loots 3 mandrake,2 ruby".toList)
      = ["Geralt".toList, "loots".toList, "3".toList, "mandrake".toList, ",".toList,
         "2".toList, "ruby".toList] ∧
    tokenizeInput (inputCopy "Geralt loots 3 mandrake, 2 ruby".toList)
      = tokenizeInput (inputCopy "Geralt loots 3 mandrake,2 ruby".toList) ∧
    hasCommaSpacingError (tokenizeInput (inputCopy "Geralt loots 3 mandrake,2 ruby".toList))
      = false ∧
    isValidCommand (inputCopy "Geralt loots 3 mandrake,2 ruby".toList) = .ACTION_LOOT ∧
    (execute_line World.init "Geralt loots 3 mandrake,2 ruby".toList).ret = 0 ∧
    (execute_line World.init "Geralt loots 3 mandrake,2 ruby".toList).out
      = "Alchemy ingredients obtained\n".toList ∧
    (execute_line World.init "Geralt loots 3 mandrake,2 ruby".toList).world.ingredients
      = [{ name := "mandrake".toList, quantity := 3 }, { name := "ruby".toList, quantity := 2 }] ∧
    (execute_line World.init "Geralt loots 3 mandrake,2 ruby".toList).world ≠ World.init := by
  refine ⟨by decide, by decide, by decide, by decide, by decide, by decide, by decide, ?_⟩
  intro h
  have h2 := congrArg World.ingredients h
  revert h2
  decide

/-- C22, counterexample: `isTradeAction` rejects the two lines the claim says it accepts (the
keyword `trophy` after every trophy item; a trophy name of two words) and accepts the line
the claim says it rejects (the keyword `trophy` once, after the last trophy item); the
rejected lines are not commands at all, and the accepted one is a trade. -/
theorem trade_grammar_differs_from_claim :
    isTradeAction "Geralt trades 1 Wolf trophy, 1 Bear trophy for 2 mandrake".toList = false ∧
    isValidCommand "Geralt trades 1 Wolf trophy, 1 Bear trophy for 2 mandrake".toList
      = .INVALID_COMMAND ∧
    isTradeAction "Geralt trades 1 Ice Giant trophy for 2 mandrake".toList = false ∧
    isValidCommand "Geralt trades 1 Ice Giant trophy for 2 mandrake".toList
      = .INVALID_COMMAND ∧
    isTradeAction "Geralt trades 1 Wolf, 1 Bear trophy for 2 mandrake".toList = true ∧
    isValidCommand "Geralt trades 1 Wolf, 1 Bear trophy for 2 mandrake".toList
      = .ACTION_TRADE := by
  decide

/-- C31 (evaluation at the failing input): for `T = 2mandrake` the generic lexer keeps
`2mandrake` as one token, so `Geralt loots 2mandrake` is rejected, while the lexer of the
`consists of` list cuts the digit run off, so `Geralt learns X potion consists of
2mandrake` has the tokens of `... consists of 2 mandrake` and is accepted. -/
theorem loot_and_formula_lists_differ_on_digit_run :
    tokenizeInput (inputCopy "Geralt loots 2mandrake".toList)
      = ["Geralt".toList, "loots".toList, "2mandrake".toList] ∧
    isLootAction (inputCopy "Geralt loots 2mandrake".toList) = false ∧
    isValidCommand (inputCopy "Geralt loots 2mandrake".toList) = .INVALID_COMMAND ∧
    tokenizeInput (inputCopy "Geralt learns X potion consists of 2mandrake".toList)
      = ["Geralt".toList, "learns".toList, "X".toList, "potion".toList, "consists".toList,
          "of".toList, "2".toList, "mandrake".toList] ∧
    isPotionFormulaKnowledge (inputCopy "Geralt learns X potion consists of 2mandrake".toList)
      = true ∧
    isValidCommand (inputCopy "Geralt learns X potion consists of 2mandrake".toList)
      = .KNOWLEDGE_POTION_FORMULA ∧
    (execute_line World.init "Geralt learns X potion consists of 2mandrake".toList).out
      = "New alchemy formula obtained: X\n".toList ∧
    (execute_line World.init "Geralt loots 2mandrake".toList).ret = -1 := by
  decide

set_option maxRecDepth 100000 in
/-- C32 (evaluation at the failing input): a formula line of 133 characters with 20 items
gets 65 tokens from `tokenizeInput`, one more than `MAX_TOKENS`: the token with index 64
is the name of the twentieth item; the line is accepted and all 20 requirements are
stored. -/
theorem formula_line_gets_65_tokens :
    "Geralt learns X potion consists of 1 a, 1 a, 1 a, 1 a, 1 a, 1 a, 1 a, 1 a, 1 a, 1 a, 1 a, 1 a, 1 a, 1 a, 1 a, 1 a, 1 a, 1 a, 1 a, 1 a".toList.length = 133 ∧
    (tokenizeInput (inputCopy "Geralt learns X potion consists of 1 a, 1 a, 1 a, 1 a, 1 a, 1 a, 1 a, 1 a, 1 a, 1 a, 1 a, 1 a, 1 a, 1 a, 1 a, 1 a, 1 a, 1 a, 1 a, 1 a".toList)).length = 65 ∧
    MAX_TOKENS = 64 ∧
    tokAt (tokenizeInput (inputCopy "Geralt learns X potion consists of 1 a, 1 a, 1 a, 1 a, 1 a, 1 a, 1 a, 1 a, 1 a, 1 a, 1 a, 1 a, 1 a, 1 a, 1 a, 1 a, 1 a, 1 a, 1 a, 1 a".toList)) 64 = "a".toList ∧
    isValidCommand (inputCopy "Geralt learns X potion consists of 1 a, 1 a, 1 a, 1 a, 1 a, 1 a, 1 a, 1 a, 1 a, 1 a, 1 a, 1 a, 1 a, 1 a, 1 a, 1 a, 1 a, 1 a, 1 a, 1 a".toList) = .KNOWLEDGE_POTION_FORMULA ∧
    ((execute_line World.init "Geralt learns X potion consists of 1 a, 1 a, 1 a, 1 a, 1 a, 1 a, 1 a, 1 a, 1 a, 1 a, 1 a, 1 a, 1 a, 1 a, 1 a, 1 a, 1 a, 1 a, 1 a, 1 a".toList).world.potions.map
        (fun p => p.requirements.length)) = [20] :=
  ⟨by decide, by decide, by decide, by decide, by decide, by decide⟩

/-- C35 (evaluation at the failing input): after the potion `Thunderbolt`, whose formula is
not known, has been learned for the new beasts `Griffin` and `Basilisk` and then again for
`Basilisk`, the effective-potion list of `Basilisk` holds two different entries that both
stand for the name `Thunderbolt`; they still do once the formula has been learned. -/
theorem beast_lists_one_potion_name_twice :
    Reachable (runLines World.init
      ["Geralt learns Thunderbolt potion is effective against Griffin".toList,
      "Geralt learns Thunderbolt potion is effective against Basilisk".toList,
      "Geralt learns Thunderbolt potion is effective against Basilisk".toList]) ∧
    (slotAt (runLines World.init
      ["Geralt learns Thunderbolt potion is effective against Griffin".toList,
      "Geralt learns Thunderbolt potion is effective against Basilisk".toList,
      "Geralt learns Thunderbolt potion is effective against Basilisk".toList]).beasts 1).name = "Basilisk".toList ∧
    (slotAt (runLines World.init
      ["Geralt learns Thunderbolt potion is effective against Griffin".toList,
      "Geralt learns Thunderbolt potion is effective against Basilisk".toList,
      "Geralt learns Thunderbolt potion is effective against Basilisk".toList]).beasts 1).effective_potion_indices = [1025, 1024] ∧
    potionCounters (runLines World.init
      ["Geralt learns Thunderbolt potion is effective against Griffin".toList,
      "Geralt learns Thunderbolt potion is effective against Basilisk".toList,
      "Geralt learns Thunderbolt potion is effective against Basilisk".toList])
      (slotAt (runLines World.init
      ["Geralt learns Thunderbolt potion is effective against Griffin".toList,
      "Geralt learns Thunderbolt potion is effective against Basilisk".toList,
      "Geralt learns Thunderbolt potion is effective against Basilisk".toList]).beasts 1) = ["Thunderbolt".toList, "Thunderbolt".toList] ∧
    potionCounters (runLines World.init
      ["Geralt learns Thunderbolt potion is effective against Griffin".toList,
      "Geralt learns Thunderbolt potion is effective against Basilisk".toList,
      "Geralt learns Thunderbolt potion is effective against Basilisk".toList,
      "Geralt learns Thunderbolt potion consists of 1 Rebis".toList])
      (slotAt (runLines World.init
      ["Geralt learns Thunderbolt potion is effective against Griffin".toList,
      "Geralt learns Thunderbolt potion is effective against Basilisk".toList,
      "Geralt learns Thunderbolt potion is effective against Basilisk".toList,
      "Geralt learns Thunderbolt potion consists of 1 Rebis".toList]).beasts 1)
      = ["Thunderbolt".toList, "Thunderbolt".toList] :=
  ⟨reachable_runLines _ _ Reachable.init, by decide, by decide, by decide, by decide⟩

/-- C37 (evaluation at the failing input): with the potion `Swallow` stored twice in the
list of `Wolf` and a stock of 3, one `Geralt encounters a Wolf` is answered
`Geralt defeats Wolf` and lowers the stock of `Swallow` to 1, by 2 in one command. -/
theorem encounter_lowers_a_stock_by_two :
    Reachable (runLines World.init
      ["Geralt learns Swallow potion is effective against Harpy".toList,
      "Geralt learns Swallow potion is effective against Wolf".toList,
      "Geralt learns Swallow potion is effective against Wolf".toList,
      "Geralt learns Swallow potion consists of 1 Rebis".toList,
      "Geralt loots 3 Rebis".toList,
      "Geralt brews Swallow".toList,
      "Geralt brews Swallow".toList,
      "Geralt brews Swallow".toList]) ∧
    (runLines World.init
      ["Geralt learns Swallow potion is effective against Harpy".toList,
      "Geralt learns Swallow potion is effective against Wolf".toList,
      "Geralt learns Swallow potion is effective against Wolf".toList,
      "Geralt learns Swallow potion consists of 1 Rebis".toList,
      "Geralt loots 3 Rebis".toList,
      "Geralt brews Swallow".toList,
      "Geralt brews Swallow".toList,
      "Geralt brews Swallow".toList]).potions.map (fun p => (p.name, p.quantity))
      = [("Swallow".toList, 3)] ∧
    (execute_line (runLines World.init
      ["Geralt learns Swallow potion is effective against Harpy".toList,
      "Geralt learns Swallow potion is effective against Wolf".toList,
      "Geralt learns Swallow potion is effective against Wolf".toList,
      "Geralt learns Swallow potion consists of 1 Rebis".toList,
      "Geralt loots 3 Rebis".toList,
      "Geralt brews Swallow".toList,
      "Geralt brews Swallow".toList,
      "Geralt brews Swallow".toList])
      "Geralt encounters a Wolf".toList).out = "Geralt defeats Wolf\n".toList ∧
    (execute_line (runLines World.init
      ["Geralt learns Swallow potion is effective against Harpy".toList,
      "Geralt learns Swallow potion is effective against Wolf".toList,
      "Geralt learns Swallow potion is effective against Wolf".toList,
      "Geralt learns Swallow potion consists of 1 Rebis".toList,
      "Geralt loots 3 Rebis".toList,
      "Geralt brews Swallow".toList,
      "Geralt brews Swallow".toList,
      "Geralt brews Swallow".toList])
      "Geralt encounters a Wolf".toList).world.potions.map (fun p => (p.name, p.quantity))
      = [("Swallow".toList, 1)] :=
  ⟨reachable_runLines _ _ Reachable.init, by decide, by decide, by decide⟩

/-- C38 (evaluation at the failing input): `Cat` is learned as effective against `Drowner`
while no formula of `Cat` is known (the query then prints `Cat, Cat`), `Drowner` has no
effective sign, then the formula is learned and `Cat` is brewed twice; with the stock at 2
the encounter is answered `Geralt defeats Drowner` and leaves the stock at 0, not at 1. -/
theorem name_only_potion_is_consumed_twice :
    Reachable (runLines World.init
      ["Geralt learns Cat potion is effective against Ghoul".toList,
      "Geralt learns Cat potion is effective against Drowner".toList,
      "Geralt learns Cat potion is effective against Drowner".toList,
      "Geralt learns Cat potion consists of 1 Vitriol".toList,
      "Geralt loots 2 Vitriol".toList,
      "Geralt brews Cat".toList,
      "Geralt brews Cat".toList]) ∧
    (runLines World.init
      ["Geralt learns Cat potion is effective against Ghoul".toList,
      "Geralt learns Cat potion is effective against Drowner".toList,
      "Geralt learns Cat potion is effective against Drowner".toList]).potions = [] ∧
    (execute_line (runLines World.init
      ["Geralt learns Cat potion is effective against Ghoul".toList,
      "Geralt learns Cat potion is effective against Drowner".toList,
      "Geralt learns Cat potion is effective against Drowner".toList])
      "What is effective against Drowner ?".toList).out = "Cat, Cat\n".toList ∧
    (slotAt (runLines World.init
      ["Geralt learns Cat potion is effective against Ghoul".toList,
      "Geralt learns Cat potion is effective against Drowner".toList,
      "Geralt learns Cat potion is effective against Drowner".toList,
      "Geralt learns Cat potion consists of 1 Vitriol".toList,
      "Geralt loots 2 Vitriol".toList,
      "Geralt brews Cat".toList,
      "Geralt brews Cat".toList]).beasts 1).name = "Drowner".toList ∧
    (slotAt (runLines World.init
      ["Geralt learns Cat potion is effective against Ghoul".toList,
      "Geralt learns Cat potion is effective against Drowner".toList,
      "Geralt learns Cat potion is effective against Drowner".toList,
      "Geralt learns Cat potion consists of 1 Vitriol".toList,
      "Geralt loots 2 Vitriol".toList,
      "Geralt brews Cat".toList,
      "Geralt brews Cat".toList]).beasts 1).effective_sign_indices = [] ∧
    potionQtyIn (runLines World.init
      ["Geralt learns Cat potion is effective against Ghoul".toList,
      "Geralt learns Cat potion is effective against Drowner".toList,
      "Geralt learns Cat potion is effective against Drowner".toList,
      "Geralt learns Cat potion consists of 1 Vitriol".toList,
      "Geralt loots 2 Vitriol".toList,
      "Geralt brews Cat".toList,
      "Geralt brews Cat".toList]).potions "Cat".toList = 2 ∧
    (execute_line (runLines World.init
      ["Geralt learns Cat potion is effective against Ghoul".toList,
      "Geralt learns Cat potion is effective against Drowner".toList,
      "Geralt learns Cat potion is effective against Drowner".toList,
      "Geralt learns Cat potion consists of 1 Vitriol".toList,
      "Geralt loots 2 Vitriol".toList,
      "Geralt brews Cat".toList,
      "Geralt brews Cat".toList])
      "Geralt encounters a Drowner".toList).out = "Geralt defeats Drowner\n".toList ∧
    potionQtyIn (execute_line (runLines World.init
      ["Geralt learns Cat potion is effective against Ghoul".toList,
      "Geralt learns Cat potion is effective against Drowner".toList,
      "Geralt learns Cat potion is effective against Drowner".toList,
      "Geralt learns Cat potion consists of 1 Vitriol".toList,
      "Geralt loots 2 Vitriol".toList,
      "Geralt brews Cat".toList,
      "Geralt brews Cat".toList])
      "Geralt encounters a Drowner".toList).world.potions "Cat".toList = 0 :=
  ⟨reachable_runLines _ _ Reachable.init, by decide, by decide, by decide, by decide,
    by decide, by decide, by decide⟩

/-- C34 as stated fails on a quantity beyond the range of `int`: in the initial state the
accepted line `Geralt learns Swallow potion consists of 4294967297 Rebis` stores the
requirement 1 `Rebis`, which is not the requirement the line writes. -/
theorem formula_requirement_differs_beyond_int :
    isValidCommand (inputCopy "Geralt learns Swallow potion consists of 4294967297 Rebis".toList)
      = .KNOWLEDGE_POTION_FORMULA ∧
    findPotion World.init.potions "Swallow".toList = none ∧
    formulaItemsOf "Geralt learns Swallow potion consists of 4294967297 Rebis".toList
      = [("4294967297".toList, "Rebis".toList)] ∧
    digitsValue 0 "4294967297".toList = 4294967297 ∧
    (execute_line World.init
      "Geralt learns Swallow potion consists of 4294967297 Rebis".toList).world.potions
      = [{ name := "Swallow".toList, requirements := [(0, 1)], quantity := 0 }] ∧
    (execute_line World.init
      "Geralt learns Swallow potion consists of 4294967297 Rebis".toList).world.ingredients
      = [{ name := "Rebis".toList, quantity := 0 }] := by
  decide

set_option maxRecDepth 100000 in
/-- C33 as stated fails on a Loot line with 22 items: the line
`Geralt loots 1 a, 1 a, ..., 1 a` of 121 characters is handled by the generic loop and has
67 commas and runs, of which `tokenizeInput` returns the first 64; the line is accepted
as a Loot action, 21 of its 22 items are applied and the quantity of `a` becomes 21. -/
theorem loot_line_with_22_items_applies_21 :
    ("Geralt loots 1 a, 1 a, 1 a, 1 a, 1 a, 1 a, 1 a, 1 a, 1 a, 1 a, 1 a, 1 a, 1 a, 1 a, 1 a, 1 a, 1 a, 1 a, 1 a, 1 a, 1 a, 1 a".toList).length = 121 ∧
    genericPath (inputCopy "Geralt loots 1 a, 1 a, 1 a, 1 a, 1 a, 1 a, 1 a, 1 a, 1 a, 1 a, 1 a, 1 a, 1 a, 1 a, 1 a, 1 a, 1 a, 1 a, 1 a, 1 a, 1 a, 1 a".toList) = true ∧
    (lexicalTokens (inputCopy "Geralt loots 1 a, 1 a, 1 a, 1 a, 1 a, 1 a, 1 a, 1 a, 1 a, 1 a, 1 a, 1 a, 1 a, 1 a, 1 a, 1 a, 1 a, 1 a, 1 a, 1 a, 1 a, 1 a".toList)).length = 67 ∧
    (tokenizeInput (inputCopy "Geralt loots 1 a, 1 a, 1 a, 1 a, 1 a, 1 a, 1 a, 1 a, 1 a, 1 a, 1 a, 1 a, 1 a, 1 a, 1 a, 1 a, 1 a, 1 a, 1 a, 1 a, 1 a, 1 a".toList)).length = 64 ∧
    (listedItems ((lexicalTokens (inputCopy "Geralt loots 1 a, 1 a, 1 a, 1 a, 1 a, 1 a, 1 a, 1 a, 1 a, 1 a, 1 a, 1 a, 1 a, 1 a, 1 a, 1 a, 1 a, 1 a, 1 a, 1 a, 1 a, 1 a".toList)).drop 2)).length = 22 ∧
    (lootItemsOf "Geralt loots 1 a, 1 a, 1 a, 1 a, 1 a, 1 a, 1 a, 1 a, 1 a, 1 a, 1 a, 1 a, 1 a, 1 a, 1 a, 1 a, 1 a, 1 a, 1 a, 1 a, 1 a, 1 a".toList).length = 21 ∧
    isValidCommand (inputCopy "Geralt loots 1 a, 1 a, 1 a, 1 a, 1 a, 1 a, 1 a, 1 a, 1 a, 1 a, 1 a, 1 a, 1 a, 1 a, 1 a, 1 a, 1 a, 1 a, 1 a, 1 a, 1 a, 1 a".toList) = .ACTION_LOOT ∧
    (execute_line World.init "Geralt loots 1 a, 1 a, 1 a, 1 a, 1 a, 1 a, 1 a, 1 a, 1 a, 1 a, 1 a, 1 a, 1 a, 1 a, 1 a, 1 a, 1 a, 1 a, 1 a, 1 a, 1 a, 1 a".toList).world.ingredients
      = [{ name := "a".toList, quantity := 21 }] :=
  ⟨by decide, by decide, by decide, by decide, by decide, by decide, by decide, by decide⟩

/-- With a single entry the same scenario behaves as C38 says: `Cat` is learned once as
effective against the new beast `Drowner`, then its formula is learned; with the stock at
2 the encounter is won and leaves the stock at 1, and with the stock at 0 the encounter is
answered `unprepared`. -/
theorem name_only_potion_single_entry :
    (execute_line (runLines World.init
      ["Geralt learns Cat potion is effective against Drowner".toList,
       "Geralt learns Cat potion consists of 1 Vitriol".toList,
       "Geralt loots 2 Vitriol".toList,
       "Geralt brews Cat".toList, "Geralt brews Cat".toList])
      "Geralt encounters a Drowner".toList).out = "Geralt defeats Drowner\n".toList ∧
    (execute_line (runLines World.init
      ["Geralt learns Cat potion is effective against Drowner".toList,
       "Geralt learns Cat potion consists of 1 Vitriol".toList,
       "Geralt loots 2 Vitriol".toList,
       "Geralt brews Cat".toList, "Geralt brews Cat".toList])
      "Geralt encounters a Drowner".toList).world.potions.map (fun p => (p.name, p.quantity))
      = [("Cat".toList, 1)] ∧
    (execute_line (runLines World.init
      ["Geralt learns Cat potion is effective against Drowner".toList,
       "Geralt learns Cat potion consists of 1 Vitriol".toList])
      "Geralt encounters a Drowner".toList).out
      = "Geralt is unprepared and barely escapes with his life\n".toList := by
  decide

/-- C25 as stated fails on lines of the two families that are not accepted as queries:
`Total ?` is read as the tokens `Total`, the empty token and `?`, while `Total?` is the
single token `Total?`; `What is in ?` is read as five tokens, the fourth of them empty,
while `What is in?` yields no token.  All four lines are rejected. -/
theorem question_mark_spacing_matters_without_a_name :
    tokenizeInput (inputCopy "Total ?".toList) = ["Total".toList, [], "?".toList] ∧
    tokenizeInput (inputCopy "Total?".toList) = ["Total?".toList] ∧
    tokenizeInput (inputCopy "What is in ?".toList)
      = ["What".toList, "is".toList, "in".toList, [], "?".toList] ∧
    tokenizeInput (inputCopy "What is in?".toList) = [] ∧
    isValidCommand (inputCopy "Total ?".toList) = .INVALID_COMMAND ∧
    isValidCommand (inputCopy "Total?".toList) = .INVALID_COMMAND ∧
    isValidCommand (inputCopy "What is in ?".toList) = .INVALID_COMMAND ∧
    isValidCommand (inputCopy "What is in?".toList) = .INVALID_COMMAND := by
  decide

end Witcher
